import Mathlib

/-!
# Red-black tree of rbtree.hpp over an explicit node store

The tree of rbtree.hpp is a graph of heap nodes linked by parent, left and right
pointers, with one distinguished node (fictional) as end marker.  The embedding keeps
that shape: a store maps addresses to nodes, a pointer is an optional address
(none is nullptr), and every member function becomes a function on the store that
follows the statements of the source one by one.  A dereference of nullptr or of a
freed node has no defined behaviour; the embedding reports it as Fault.invalidAccess.
Loops and recursive calls carry a step budget derived from the number of addresses
handed out so far.
-/

set_option linter.unusedVariables false

namespace Rbtree

/-- Colors of rbtree.hpp, enum Color. -/
inductive Color where
  | Red
  | Black
  deriving DecidableEq, Repr

/-- Ways in which a call fails to return a value. -/
inductive Fault where
  | invalidAccess
  | IteratorOutOfBounds
  | fuel
  | UndereferencableIterator
  | NothingToErase
  deriving DecidableEq, Repr

/-- Node record of rbtree.hpp, struct RBNode; pointers are optional addresses. -/
structure RBNode (V : Type) where
  parent : Option Nat
  left : Option Nat
  right : Option Nat
  val : V
  color : Color
  deriving DecidableEq, Repr

/-- Template parameters of class RBTree: key extraction (ConType), comparator (CType)
and the IsMulti flag. -/
structure Params (K V : Type) where
  conv : V → K
  comp : K → K → Bool
  IsMulti : Bool

/-- Data members of class RBTree together with the node store.  The field mem gives the
live nodes (none: never allocated, or freed), brk is the next address malloc hands out,
size is the member _size. -/
structure RBTree (V : Type) where
  mem : Nat → Option (RBNode V)
  brk : Nat
  root : Nat
  fictional : Nat
  size : Nat

variable {K V : Type}

/-- Dereference of a node pointer. -/
def RBTree.node (t : RBTree V) (p : Option Nat) : Except Fault (RBNode V) :=
  match p with
  | none => .error .invalidAccess
  | some a =>
    match t.mem a with
    | none => .error .invalidAccess
    | some n => .ok n

/-- Store with the node at address a replaced. -/
def RBTree.put (t : RBTree V) (a : Nat) (n : RBNode V) : RBTree V :=
  { t with mem := fun j => if j = a then some n else t.mem j }

/-- Assignment p->parent = x. -/
def RBTree.setParent (t : RBTree V) (p : Option Nat) (x : Option Nat) :
    Except Fault (RBTree V) :=
  match p with
  | none => .error .invalidAccess
  | some a =>
    match t.mem a with
    | none => .error .invalidAccess
    | some n => .ok (t.put a { n with parent := x })

/-- Assignment p->left = x. -/
def RBTree.setLeft (t : RBTree V) (p : Option Nat) (x : Option Nat) :
    Except Fault (RBTree V) :=
  match p with
  | none => .error .invalidAccess
  | some a =>
    match t.mem a with
    | none => .error .invalidAccess
    | some n => .ok (t.put a { n with left := x })

/-- Assignment p->right = x. -/
def RBTree.setRight (t : RBTree V) (p : Option Nat) (x : Option Nat) :
    Except Fault (RBTree V) :=
  match p with
  | none => .error .invalidAccess
  | some a =>
    match t.mem a with
    | none => .error .invalidAccess
    | some n => .ok (t.put a { n with right := x })

/-- Assignment p->color = c. -/
def RBTree.setColor (t : RBTree V) (p : Option Nat) (c : Color) :
    Except Fault (RBTree V) :=
  match p with
  | none => .error .invalidAccess
  | some a =>
    match t.mem a with
    | none => .error .invalidAccess
    | some n => .ok (t.put a { n with color := c })

/-- Assignment p->val = v. -/
def RBTree.setVal (t : RBTree V) (p : Option Nat) (v : V) :
    Except Fault (RBTree V) :=
  match p with
  | none => .error .invalidAccess
  | some a =>
    match t.mem a with
    | none => .error .invalidAccess
    | some n => .ok (t.put a { n with val := v })

/-- The call std::swap(a->val, b->val). -/
def RBTree.swapVal (t : RBTree V) (a b : Option Nat) : Except Fault (RBTree V) := do
  let na ← t.node a
  let nb ← t.node b
  let t1 ← t.setVal a nb.val
  t1.setVal b na.val

/-- NodeAllocTraits::allocate followed by NodeAllocTraits::construct: a fresh address
receives the node n. -/
def RBTree.allocate (t : RBTree V) (n : RBNode V) : RBTree V × Nat :=
  ({ t with mem := fun j => if j = t.brk then some n else t.mem j, brk := t.brk + 1 }, t.brk)

/-- NodeAllocTraits::destroy followed by NodeAllocTraits::deallocate. -/
def RBTree.deallocate (t : RBTree V) (a : Nat) : RBTree V :=
  { t with mem := fun j => if j = a then none else t.mem j }

/-- The statement ++_size on a 64 bit size_t. -/
def RBTree.incSize (t : RBTree V) : RBTree V :=
  { t with size := (t.size + 1) % 2 ^ 64 }

/-- The statement --_size on a 64 bit size_t. -/
def RBTree.decSize (t : RBTree V) : RBTree V :=
  { t with size := (t.size + (2 ^ 64 - 1)) % 2 ^ 64 }

/-- Step budget for one descent or climb in the store. -/
def RBTree.budget (t : RBTree V) : Nat := 2 * t.brk + 2

/-- First statement of LeftRotate and of RightRotate, with q the child that takes the
place of node:
if (node->parent) { if (node->parent->left == node) node->parent->left = q;
else node->parent->right = q; } else root = q. -/
def RBTree.replaceChild (t : RBTree V) (node : Nat) (q : Option Nat) :
    Except Fault (RBTree V) := do
  let n ← t.node (some node)
  match n.parent with
  | some p => do
    let pn ← t.node (some p)
    if pn.left = some node then t.setLeft (some p) q
    else t.setRight (some p) q
  | none =>
    match q with
    | some r => pure { t with root := r }
    | none => .error .invalidAccess

/-- The statement if (p) p->parent = x. -/
def RBTree.setParentIf (t : RBTree V) (p : Option Nat) (x : Option Nat) :
    Except Fault (RBTree V) :=
  match p with
  | some b => t.setParent (some b) x
  | none => pure t

/-- RBTree::LeftRotate. -/
def LeftRotate (t : RBTree V) (node : Nat) : Except Fault (RBTree V) := do
  -- if (node->parent) ... else root = node->right
  let n ← t.node (some node)
  let t1 ← t.replaceChild node n.right
  -- node->right->parent = node->parent
  let n1 ← t1.node (some node)
  let t2 ← t1.setParent n1.right n1.parent
  -- node->parent = node->right
  let n2 ← t2.node (some node)
  let t3 ← t2.setParent (some node) n2.right
  -- node->right = node->right->left
  let n3 ← t3.node (some node)
  let r3 ← t3.node n3.right
  let t4 ← t3.setRight (some node) r3.left
  -- if (node->right) node->right->parent = node
  let n4 ← t4.node (some node)
  let t5 ← t4.setParentIf n4.right (some node)
  -- node->parent->left = node
  let n5 ← t5.node (some node)
  t5.setLeft n5.parent (some node)

/-- RBTree::RightRotate. -/
def RightRotate (t : RBTree V) (node : Nat) : Except Fault (RBTree V) := do
  -- if (node->parent) ... else root = node->left
  let n ← t.node (some node)
  let t1 ← t.replaceChild node n.left
  -- node->left->parent = node->parent
  let n1 ← t1.node (some node)
  let t2 ← t1.setParent n1.left n1.parent
  -- node->parent = node->left
  let n2 ← t2.node (some node)
  let t3 ← t2.setParent (some node) n2.left
  -- node->left = node->left->right
  let n3 ← t3.node (some node)
  let l3 ← t3.node n3.left
  let t4 ← t3.setLeft (some node) l3.right
  -- if (node->left) node->left->parent = node
  let n4 ← t4.node (some node)
  let t5 ← t4.setParentIf n4.left (some node)
  -- node->parent->right = node
  let n5 ← t5.node (some node)
  t5.setRight n5.parent (some node)

/-- RBTree::IsBlack. -/
def IsBlack (t : RBTree V) (p : Option Nat) : Except Fault Bool :=
  match p with
  | none => pure true
  | some a => do
    let n ← t.node (some a)
    pure (n.color == Color.Black)

/-- The while(1) loop of RBTree::Find, started at node. -/
def FindLoop (P : Params K V) (t : RBTree V) (key : K) : Nat → Nat → Except Fault Nat
  | 0, _ => .error .fuel
  | fuel + 1, node => do
    let n ← t.node (some node)
    if P.comp (P.conv n.val) key then
      match n.right with
      | some r => if r ≠ t.fictional then FindLoop P t key fuel r else pure node
      | none => pure node
    else if P.comp key (P.conv n.val) then
      match n.left with
      | some l => FindLoop P t key fuel l
      | none => pure node
    else pure node

/-- RBTree::Find. -/
def Find (P : Params K V) (t : RBTree V) (key : K) : Except Fault Nat := do
  let node ← FindLoop P t key t.budget t.root
  let n ← t.node (some node)
  if P.comp (P.conv n.val) key && n.right == some t.fictional then pure t.fictional
  else pure node

/-- The loop while (node->left) node = node->left. -/
def descendLeft (t : RBTree V) : Nat → Nat → Except Fault Nat
  | 0, _ => .error .fuel
  | fuel + 1, node => do
    let n ← t.node (some node)
    match n.left with
    | some l => descendLeft t fuel l
    | none => pure node

/-- The loop while (node->right) node = node->right. -/
def descendRight (t : RBTree V) : Nat → Nat → Except Fault Nat
  | 0, _ => .error .fuel
  | fuel + 1, node => do
    let n ← t.node (some node)
    match n.right with
    | some r => descendRight t fuel r
    | none => pure node

/-- The climbing loop of operator++, ending in throw IteratorOutOfBounds. -/
def climbInc (t : RBTree V) : Nat → Nat → Except Fault Nat
  | 0, _ => .error .fuel
  | fuel + 1, node => do
    let n ← t.node (some node)
    match n.parent with
    | none => .error .IteratorOutOfBounds
    | some p => do
      let pn ← t.node (some p)
      if pn.right = some node then climbInc t fuel p
      else
        match pn.right with
        | some _ => pure p
        | none => climbInc t fuel p

/-- The climbing loop of operator--, ending in throw IteratorOutOfBounds. -/
def climbDec (t : RBTree V) : Nat → Nat → Except Fault Nat
  | 0, _ => .error .fuel
  | fuel + 1, node => do
    let n ← t.node (some node)
    match n.parent with
    | none => .error .IteratorOutOfBounds
    | some p => do
      let pn ← t.node (some p)
      if pn.left = some node then climbDec t fuel p
      else
        match pn.left with
        | some _ => pure p
        | none => climbDec t fuel p

/-- Prefix operator++ of RBtreeIterator and constRBtreeIterator (the two bodies are the
same); an iterator is the address of its node. -/
def increment (t : RBTree V) (node : Nat) : Except Fault Nat := do
  let n ← t.node (some node)
  match n.right with
  | some r => descendLeft t t.budget r
  | none => climbInc t t.budget node

/-- Prefix operator-- of RBtreeIterator and constRBtreeIterator. -/
def decrement (t : RBTree V) (node : Nat) : Except Fault Nat := do
  let n ← t.node (some node)
  match n.left with
  | some l => descendRight t t.budget l
  | none => climbDec t t.budget node

/-- RBTree::begin and RBTree::cbegin. -/
def RBTree.begin (t : RBTree V) : Except Fault Nat :=
  descendLeft t t.budget t.root

/-- RBTree::end and RBTree::cend. -/
def RBTree.end (t : RBTree V) : Nat := t.fictional

/-- RBTree::FixAfterInsert. -/
def FixAfterInsert (t : RBTree V) : Nat → Nat → Except Fault (RBTree V)
  | 0, _ => .error .fuel
  | fuel + 1, node => do
    let n ← t.node (some node)
    match n.parent with
    | none => t.setColor (some node) Color.Black
    | some parent => do
      let pb ← IsBlack t (some parent)
      if pb then pure t
      else do
        let pn ← t.node (some parent)
        let grandpa := pn.parent
        let gn ← t.node grandpa
        let uncle := if gn.left = some parent then gn.right else gn.left
        let ub ← IsBlack t uncle
        if ub then do
          let r ← (if (gn.left == some parent) != (pn.left == some node) then do
              let t1 ← (if pn.left = some node then RightRotate t parent
                        else LeftRotate t parent)
              pure (t1, node, parent)
            else pure (t, parent, node) : Except Fault (RBTree V × Nat × Nat))
          let t1 := r.1
          let parent1 := r.2.1
          let gn1 ← t1.node grandpa
          let t2 ← (match grandpa with
            | some g => if gn1.left = some parent1 then RightRotate t1 g else LeftRotate t1 g
            | none => .error .invalidAccess)
          let t3 ← t2.setColor grandpa Color.Red
          t3.setColor (some parent1) Color.Black
        else do
          let t1 ← (if grandpa ≠ some t.root then t.setColor grandpa Color.Red else pure t)
          let t2 ← t1.setColor uncle Color.Black
          let t3 ← t2.setColor (some parent) Color.Black
          match grandpa with
          | some g => if g ≠ t3.root then FixAfterInsert t3 fuel g else pure t3
          | none => .error .invalidAccess

/-- RBTree::FixAfterErase. -/
def FixAfterErase (t : RBTree V) : Nat → Nat → Bool → Except Fault (RBTree V)
  | 0, _, _ => .error .fuel
  | fuel + 1, parent, isleft => do
    let pn ← t.node (some parent)
    let brother := if isleft then pn.right else pn.left
    let bb ← IsBlack t brother
    if bb then do
      let bn ← t.node brother
      let grandson := if isleft then bn.left else bn.right
      let gb ← IsBlack t grandson
      if gb then do
        let t1 ← (if isleft then LeftRotate t parent else RightRotate t parent)
        let pb ← IsBlack t1 (some parent)
        if pb then do
          let t2 ← t1.setColor (some parent) Color.Red
          let bn2 ← t2.node brother
          match bn2.parent with
          | some bp => do
            let bpn ← t2.node (some bp)
            FixAfterErase t2 fuel bp (bpn.left == brother)
          | none => pure t2
        else pure t1
      else do
        let pb ← IsBlack t (some parent)
        if pb then do
          let t1 ← t.setColor grandson Color.Black
          match brother with
          | some b =>
            if isleft then do
              let t2 ← RightRotate t1 b
              LeftRotate t2 parent
            else do
              let t2 ← LeftRotate t1 b
              RightRotate t2 parent
          | none => .error .invalidAccess
        else do
          let grandson2 := if isleft then bn.right else bn.left
          let g2b ← IsBlack t grandson2
          if g2b then do
            let t1 ← t.setColor grandson Color.Black
            let t2 ← t1.setColor brother Color.Red
            match brother with
            | some b =>
              if isleft then do
                let t3 ← RightRotate t2 b
                LeftRotate t3 parent
              else do
                let t3 ← LeftRotate t2 b
                RightRotate t3 parent
            | none => .error .invalidAccess
          else do
            let t1 ← t.setColor brother Color.Red
            let t2 ← t1.setColor grandson2 Color.Black
            let t3 ← t2.setColor (some parent) Color.Black
            if isleft then LeftRotate t3 parent else RightRotate t3 parent
    else do
      let t1 ← (if isleft then LeftRotate t parent else RightRotate t parent)
      let t2 ← t1.setColor brother Color.Black
      let t3 ← t2.setColor (some parent) Color.Red
      FixAfterErase t3 fuel parent isleft

/-- The backward loop in the last branch of RBTree::LowerBound:
while (!comp(conv(it.node->val), key) && it != beg) --it. -/
def lowerLoop (P : Params K V) (t : RBTree V) (key : K) (beg : Nat) :
    Nat → Nat → Except Fault Nat
  | 0, _ => .error .fuel
  | fuel + 1, it => do
    let n ← t.node (some it)
    if !P.comp (P.conv n.val) key && it != beg then do
      let it1 ← decrement t it
      lowerLoop P t key beg fuel it1
    else pure it

/-- RBTree::LowerBound; the result none is nullptr. -/
def LowerBound (P : Params K V) (t : RBTree V) (key : K) : Except Fault (Option Nat) := do
  let node ← Find P t key
  let beg ← t.begin
  let n ← t.node (some node)
  if P.comp (P.conv n.val) key then pure (some node)
  else if P.comp key (P.conv n.val) then
    if node = beg then pure none
    else do
      let it ← decrement t node
      pure (some it)
  else do
    let it ← lowerLoop P t key beg t.budget node
    let n1 ← t.node (some it)
    if it == beg && !P.comp (P.conv n1.val) key then pure none
    else pure (some it)

/-- The forward loop in the last branch of RBTree::UpperBound:
while (it.node != fictional && !comp(key, conv(it.node->val))) ++it. -/
def upperLoop (P : Params K V) (t : RBTree V) (key : K) : Nat → Nat → Except Fault Nat
  | 0, _ => .error .fuel
  | fuel + 1, it =>
    if it = t.fictional then pure it
    else do
      let n ← t.node (some it)
      if !P.comp key (P.conv n.val) then do
        let it1 ← increment t it
        upperLoop P t key fuel it1
      else pure it

/-- RBTree::UpperBound. -/
def UpperBound (P : Params K V) (t : RBTree V) (key : K) : Except Fault Nat := do
  let node ← Find P t key
  let n ← t.node (some node)
  if P.comp key (P.conv n.val) then pure node
  else if P.comp (P.conv n.val) key then increment t node
  else upperLoop P t key t.budget node

/-- The part of both RBTree::Insert overloads before the equal key branch: the three
attachment cases.  The result is none when the key compares equal to the found node. -/
def attachNew (P : Params K V) (t : RBTree V) (val : V) (parent : Nat) :
    Except Fault (Option (RBTree V × Nat)) := do
  if parent = t.fictional then do
    let f ← t.node (some t.fictional)
    let r := t.allocate ⟨f.parent, none, some t.fictional, val, Color.Red⟩
    let t1 := r.1
    let f1 ← t1.node (some t1.fictional)
    let t2 ← (match f1.parent with
      | none => pure { t1 with root := r.2 }
      | some fp => t1.setRight (some fp) (some r.2))
    let t3 ← t2.setParent (some t2.fictional) (some r.2)
    pure (some (t3, r.2))
  else do
    let pn ← t.node (some parent)
    if P.comp (P.conv val) (P.conv pn.val) then do
      let r := t.allocate ⟨some parent, none, none, val, Color.Red⟩
      let t1 ← r.1.setLeft (some parent) (some r.2)
      pure (some (t1, r.2))
    else if P.comp (P.conv pn.val) (P.conv val) then do
      let r := t.allocate ⟨some parent, none, none, val, Color.Red⟩
      let t1 ← r.1.setRight (some parent) (some r.2)
      pure (some (t1, r.2))
    else pure none

/-- RBTree::Insert(ValueType&&); the second component is the returned node pointer. -/
def InsertMove (P : Params K V) (t : RBTree V) (val : V) :
    Except Fault (RBTree V × Option Nat) := do
  let parent ← Find P t (P.conv val)
  let a ← attachNew P t val parent
  let r ← (match a with
    | some r => pure (some r)
    | none =>
      if P.IsMulti then do
        let r := t.allocate ⟨some parent, none, none, val, Color.Red⟩
        let t1 ← r.1.setLeft (some parent) (some r.2)
        pure (some (t1, r.2))
      else pure none : Except Fault (Option (RBTree V × Nat)))
  match r with
  | none => pure (t, none)
  | some (t1, node) => do
    let t2 := t1.incSize
    let t3 ← FixAfterInsert t2 t2.budget node
    pure (t3, some node)

/-- RBTree::Insert(ConstReference); the second component is the returned node pointer. -/
def Insert (P : Params K V) (t : RBTree V) (val : V) :
    Except Fault (RBTree V × Option Nat) := do
  let parent ← Find P t (P.conv val)
  let a ← attachNew P t val parent
  let r ← (match a with
    | some r => pure (some r)
    | none =>
      if P.IsMulti then do
        let pn ← t.node (some parent)
        match pn.left with
        | some l => do
          let p1 ← descendRight t t.budget l
          let r := t.allocate ⟨some p1, none, none, val, Color.Red⟩
          let t1 ← r.1.setRight (some p1) (some r.2)
          pure (some (t1, r.2))
        | none => do
          let r := t.allocate ⟨some parent, none, none, val, Color.Red⟩
          let t1 ← r.1.setLeft (some parent) (some r.2)
          pure (some (t1, r.2))
      else pure none : Except Fault (Option (RBTree V × Nat)))
  match r with
  | none => pure (t, none)
  | some (t1, node) => do
    let t2 := t1.incSize
    let t3 ← FixAfterInsert t2 t2.budget node
    pure (t3, some node)

/-- RBTree::Erase. -/
def Erase (t : RBTree V) : Nat → Nat → Except Fault (RBTree V)
  | 0, _ => .error .fuel
  | fuel + 1, node => do
    let n ← t.node (some node)
    if n.left.isSome && n.right.isSome && n.right != some t.fictional then do
      let closest ← decrement t node
      let t1 ← t.swapVal (some closest) (some node)
      Erase t1 fuel closest
    else if n.left.isNone && (n.right.isNone || n.right == some t.fictional) then do
      let isblack ← IsBlack t (some node)
      let isleft ← (match n.parent with
        | some p => do
          let pn ← t.node (some p)
          pure (pn.left == some node)
        | none => pure false : Except Fault Bool)
      let parent := n.parent
      let t1 ← (if n.right = some t.fictional then
          match parent with
          | some p => t.setRight (some p) (some t.fictional)
          | none => pure { t with root := t.fictional }
        else do
          let pn ← t.node parent
          if pn.left = some node then t.setLeft parent none
          else t.setRight parent none)
      let t2 := (t1.deallocate node).decSize
      match parent with
      | some p => if isblack then FixAfterErase t2 t2.budget p isleft else pure t2
      | none => pure t2
    else do
      let child := if n.left.isSome then n.left else n.right
      let t1 ← t.swapVal child (some node)
      match child with
      | some c => Erase t1 fuel c
      | none => .error .invalidAccess

/-- RBTree::RBTree(), the empty tree.  The end marker is allocated but its val member is
never constructed; g stands for whatever that storage holds. -/
def RBTree.new (g : V) : RBTree V :=
  { mem := fun j => if j = 0 then some ⟨none, none, none, g, Color.Black⟩ else none
    brk := 1
    root := 0
    fictional := 0
    size := 0 }

/-- RBTree::insert(ConstReference). -/
def RBTree.insert (P : Params K V) (t : RBTree V) (val : V) : Except Fault (RBTree V) := do
  let r ← Insert P t val
  pure r.1

/-- RBTree::insert(ValueType&&). -/
def RBTree.insertMove (P : Params K V) (t : RBTree V) (val : V) : Except Fault (RBTree V) := do
  let r ← InsertMove P t val
  pure r.1

/-- RBTree::emplace, with the value already built from the constructor arguments. -/
def RBTree.emplace (P : Params K V) (t : RBTree V) (val : V) : Except Fault (RBTree V) := do
  let r ← InsertMove P t val
  pure r.1

/-- The loop of RBTree::RBTree(const std::initializer_list&) and of every other place
that inserts the elements of a sequence one after another by copy. -/
def insertAll (P : Params K V) (t : RBTree V) : List V → Except Fault (RBTree V)
  | [] => pure t
  | x :: xs => do
    let t1 ← t.insert P x
    insertAll P t1 xs

/-- RBTree::RBTree(const std::initializer_list&). -/
def RBTree.ofList (P : Params K V) (g : V) (ls : List V) : Except Fault (RBTree V) :=
  insertAll P (RBTree.new g) ls

/-- RBTree::find; the result is the node of the returned iterator. -/
def RBTree.find (P : Params K V) (t : RBTree V) (key : K) : Except Fault Nat := do
  let node ← Find P t key
  let n ← t.node (some node)
  if !P.comp key (P.conv n.val) && !P.comp (P.conv n.val) key then pure node
  else pure t.end

/-- RBTree::contains. -/
def RBTree.contains (P : Params K V) (t : RBTree V) (key : K) : Except Fault Bool := do
  let node ← Find P t key
  if node != t.fictional then do
    let n ← t.node (some node)
    pure (!P.comp key (P.conv n.val) && !P.comp (P.conv n.val) key)
  else pure false

/-- RBTree::lower_bound. -/
def RBTree.lower_bound (P : Params K V) (t : RBTree V) (key : K) : Except Fault Nat := do
  let node ← LowerBound P t key
  match node with
  | some a => pure a
  | none => pure t.end

/-- RBTree::upper_bound. -/
def RBTree.upper_bound (P : Params K V) (t : RBTree V) (key : K) : Except Fault Nat :=
  UpperBound P t key

/-- The loop of RBTree::erase(const KeyType&), entered with node = Find(key). -/
def eraseLoop (P : Params K V) (key : K) : Nat → RBTree V → Nat → Except Fault (RBTree V)
  | 0, _, _ => .error .fuel
  | fuel + 1, t, node =>
    if node != t.fictional then do
      let n ← t.node (some node)
      if !P.comp key (P.conv n.val) && !P.comp (P.conv n.val) key then do
        let t1 ← Erase t t.budget node
        let node1 ← Find P t1 key
        eraseLoop P key fuel t1 node1
      else pure t
    else pure t

/-- RBTree::erase(Iterator) and RBTree::erase(ConstIterator). -/
def RBTree.eraseAt (t : RBTree V) (node : Nat) : Except Fault (RBTree V) :=
  Erase t t.budget node

/-- RBTree::erase(const KeyType&). -/
def RBTree.erase (P : Params K V) (t : RBTree V) (key : K) : Except Fault (RBTree V) := do
  let node ← Find P t key
  eraseLoop P key (t.brk + 1) t node

/-! ## Shape of the node graph

The functions above work on addresses.  To state what they compute, the part of the
store reachable from the root is described by a binary tree that records, for every
node, its address, color and value; the end marker is a leaf of its own kind.  -/

/-- Binary tree laid out in the store: nil is an absent child (nullptr), fict is the end
marker, node l a c v r is the node at address a with color c, value v and subtrees l, r. -/
inductive Tree (V : Type) where
  | nil : Tree V
  | fict : Tree V
  | node (l : Tree V) (a : Nat) (c : Color) (v : V) (r : Tree V) : Tree V
  deriving DecidableEq, Repr

/-- Pointer to the root of a laid out tree; F is the address of the end marker. -/
def Tree.ptr (F : Nat) : Tree V → Option Nat
  | .nil => none
  | .fict => some F
  | .node _ a _ _ _ => some a

/-- Addresses of a laid out tree in in-order, the end marker included. -/
def Tree.addrs (F : Nat) : Tree V → List Nat
  | .nil => []
  | .fict => [F]
  | .node l a _ _ r => l.addrs F ++ a :: r.addrs F

/-- Stored values in in-order (left subtree, node, right subtree), end marker excluded. -/
def Tree.inorder : Tree V → List V
  | .nil => []
  | .fict => []
  | .node l _ _ v r => l.inorder ++ v :: r.inorder

/-- Addresses of the value-holding nodes in in-order. -/
def Tree.nodes : Tree V → List Nat
  | .nil => []
  | .fict => []
  | .node l a _ _ r => l.nodes ++ a :: r.nodes

/-- The store m lays out the tree below a node whose address is par: every node holds
the recorded color and value, its child pointers lead to the roots of the subtrees and
its parent pointer is par.  The parent pointer of the end marker is only required to be
right when chk is set. -/
def Rep (m : Nat → Option (RBNode V)) (F : Nat) (chk : Bool) : Tree V → Option Nat → Prop
  | .nil, _ => True
  | .fict, par => ∃ pp g, m F = some ⟨pp, none, none, g, Color.Black⟩ ∧ (chk = true → pp = par)
  | .node l a c v r, par =>
    m a = some ⟨par, l.ptr F, r.ptr F, v, c⟩ ∧ Rep m F chk l (some a) ∧ Rep m F chk r (some a)

/-- Path from a subtree up to the root: top is the root position, left up a c v r says
that the subtree is the left child of the node at a (whose right subtree is r), and so
on upwards along up. -/
inductive Ctx (V : Type) where
  | top : Ctx V
  | left (up : Ctx V) (a : Nat) (c : Color) (v : V) (r : Tree V) : Ctx V
  | right (l : Tree V) (a : Nat) (c : Color) (v : V) (up : Ctx V) : Ctx V
  deriving DecidableEq, Repr

/-- The whole tree obtained by putting s at the position described by the path. -/
def Ctx.plug : Ctx V → Tree V → Tree V
  | .top, s => s
  | .left up a c v r, s => up.plug (.node s a c v r)
  | .right l a c v up, s => up.plug (.node l a c v s)

/-- Address of the node directly above the position, none at the root. -/
def Ctx.par : Ctx V → Option Nat
  | .top => none
  | .left _ a _ _ _ => some a
  | .right _ a _ _ _ => some a

/-- Addresses of the nodes on the path and in the subtrees hanging off it. -/
def Ctx.addrs (F : Nat) : Ctx V → List Nat
  | .top => []
  | .left up a _ _ r => a :: r.addrs F ++ up.addrs F
  | .right l a _ _ up => a :: l.addrs F ++ up.addrs F

/-- Number of nodes on the path. -/
def Ctx.depth : Ctx V → Nat
  | .top => 0
  | .left up _ _ _ _ => up.depth + 1
  | .right _ _ _ _ up => up.depth + 1

/-- The store lays out the path: rt is the root pointer of the tree and p the pointer
found at the position of the path. -/
def RepCtx (m : Nat → Option (RBNode V)) (F : Nat) (chk : Bool) (rt : Nat) :
    Ctx V → Option Nat → Prop
  | .top, p => p = some rt
  | .left up a c v r, p =>
    m a = some ⟨up.par, p, r.ptr F, v, c⟩ ∧ Rep m F chk r (some a) ∧
      RepCtx m F chk rt up (some a)
  | .right l a c v up, p =>
    m a = some ⟨up.par, l.ptr F, p, v, c⟩ ∧ Rep m F chk l (some a) ∧
      RepCtx m F chk rt up (some a)

/-- The tree object t lays out T: the store represents T from the root pointer down, no
address occurs twice, and no address at or beyond brk is live. -/
structure Models (t : RBTree V) (chk : Bool) (T : Tree V) : Prop where
  rep : Rep t.mem t.fictional chk T none
  root : T.ptr t.fictional = some t.root
  nodup : (T.addrs t.fictional).Nodup
  fresh : ∀ a, t.brk ≤ a → t.mem a = none

/-- Number of nodes of a laid out tree, the end marker included. -/
def Tree.count : Tree V → Nat
  | .nil => 0
  | .fict => 1
  | .node l _ _ _ r => l.count + 1 + r.count

/-- Height of a laid out tree. -/
def Tree.height : Tree V → Nat
  | .nil => 0
  | .fict => 1
  | .node l _ _ _ r => max l.height r.height + 1

/-- No end marker inside the tree. -/
def Tree.noFict : Tree V → Bool
  | .nil => true
  | .fict => false
  | .node l _ _ _ r => l.noFict && r.noFict

/-- The end marker occurs exactly once, as the last position of the in-order walk: it is
the root of an empty tree and otherwise the right child of the last value-holding node. -/
def Tree.endsFict : Tree V → Bool
  | .nil => false
  | .fict => true
  | .node l _ _ _ r => l.noFict && r.endsFict

/-- Keys a and b are equivalent: neither compares less than the other. -/
def Params.equiv (P : Params K V) (a b : K) : Bool := !P.comp a b && !P.comp b a

/-- The comparator is a strict weak ordering. -/
structure StrictWeakOrder (comp : K → K → Bool) : Prop where
  irrefl : ∀ a, comp a a = false
  trans : ∀ a b c, comp a b = true → comp b c = true → comp a c = true
  incomp : ∀ a b c, comp a b = false → comp b a = false → comp b c = false →
    comp c b = false → comp a c = false ∧ comp c a = false

/-- Invariant 4: the in-order sequence of keys is non-decreasing, no value is followed by
one with a smaller key. -/
def Tree.Ordered (P : Params K V) (T : Tree V) : Prop :=
  T.inorder.Pairwise (fun a b => P.comp (P.conv b) (P.conv a) = false)

/-- The descent of RBTree::Find on a laid out tree: the subtree at which the loop stops
and the path that leads to it. -/
def Tree.findPath (P : Params K V) (key : K) : Ctx V → Tree V → Ctx V × Tree V
  | C, .node l a c v r =>
    if P.comp (P.conv v) key then
      match r with
      | .node rl ra rc rv rr => Tree.findPath P key (.right l a c v C) (.node rl ra rc rv rr)
      | .nil => (C, .node l a c v .nil)
      | .fict => (C, .node l a c v .fict)
    else if P.comp key (P.conv v) then
      match l with
      | .nil => (C, .node .nil a c v r)
      | .fict => (.left C a c v r, .fict)
      | .node ll la lc lv lr => Tree.findPath P key (.left C a c v r) (.node ll la lc lv lr)
    else (C, .node l a c v r)
  | C, .nil => (C, .nil)
  | C, .fict => (C, .fict)

/-- Last statement of RBTree::Find on the subtree where the loop stopped: a node with
a smaller key whose right child is the end marker is replaced by the end marker. -/
def Tree.stopOf (P : Params K V) (key : K) : Tree V → Tree V
  | .node l a c v .fict => if P.comp (P.conv v) key then .fict else .node l a c v .fict
  | s => s

/-- The tree at which RBTree::Find ends. -/
def Tree.findStop (P : Params K V) (key : K) (T : Tree V) : Tree V :=
  Tree.stopOf P key (Tree.findPath P key .top T).2

/-- The path was followed by a search for key: every node left to the right has a key
less than key, every node left to the left has a key greater than key. -/
def Ctx.searched (P : Params K V) (key : K) : Ctx V → Prop
  | .top => True
  | .left up _ _ v _ => P.comp key (P.conv v) = true ∧ up.searched P key
  | .right _ _ _ v up => P.comp (P.conv v) key = true ∧ up.searched P key

/-- The root of the subtree is a Red node; absent children and the end marker are not. -/
def Tree.isRed : Tree V → Bool
  | .node _ _ .Red _ _ => true
  | _ => false

/-- The subtree with its root node colored c. -/
def Tree.paint (c : Color) : Tree V → Tree V
  | .node l a _ v r => .node l a c v r
  | s => s

/-- Color of the root node of the whole tree when the path is not empty. -/
def Ctx.rootColor : Ctx V → Option Color
  | .top => none
  | .left up _ c _ _ => match up.rootColor with
    | some k => some k
    | none => some c
  | .right _ _ c _ up => match up.rootColor with
    | some k => some k
    | none => some c

/-- RBTree::FixAfterInsert on a laid out tree: s is the subtree rooted at the node the
function is called with, the path leads from that node up to the root.  The result is
the whole tree after the call. -/
def Ctx.fixInsert : Ctx V → Tree V → Tree V
  | .top, s => s.paint .Black
  | .left .top p pc pv pr, s => .node s p pc pv pr
  | .right pl p pc pv .top, s => .node pl p pc pv s
  | .left (.left up g gc gv u) p pc pv pr, s =>
    if pc = .Black then up.plug (.node (.node s p pc pv pr) g gc gv u)
    else if u.isRed then
      match up with
      | .top => .node (.node s p .Black pv pr) g gc gv (u.paint .Black)
      | _ => up.fixInsert (.node (.node s p .Black pv pr) g .Red gv (u.paint .Black))
    else up.plug (.node s p .Black pv (.node pr g .Red gv u))
  | .right pl p pc pv (.left up g gc gv u), s =>
    if pc = .Black then up.plug (.node (.node pl p pc pv s) g gc gv u)
    else if u.isRed then
      match up with
      | .top => .node (.node pl p .Black pv s) g gc gv (u.paint .Black)
      | _ => up.fixInsert (.node (.node pl p .Black pv s) g .Red gv (u.paint .Black))
    else
      match s with
      | .node sl n _ sv sr =>
        up.plug (.node (.node pl p pc pv sl) n .Black sv (.node sr g .Red gv u))
      | _ => up.plug (.node (.node pl p pc pv s) g gc gv u)
  | .left (.right u g gc gv up) p pc pv pr, s =>
    if pc = .Black then up.plug (.node u g gc gv (.node s p pc pv pr))
    else if u.isRed then
      match up with
      | .top => .node (u.paint .Black) g gc gv (.node s p .Black pv pr)
      | _ => up.fixInsert (.node (u.paint .Black) g .Red gv (.node s p .Black pv pr))
    else
      match s with
      | .node sl n _ sv sr =>
        up.plug (.node (.node u g .Red gv sl) n .Black sv (.node sr p pc pv pr))
      | _ => up.plug (.node u g gc gv (.node s p pc pv pr))
  | .right pl p pc pv (.right u g gc gv up), s =>
    if pc = .Black then up.plug (.node u g gc gv (.node pl p pc pv s))
    else if u.isRed then
      match up with
      | .top => .node (u.paint .Black) g gc gv (.node pl p .Black pv s)
      | _ => up.fixInsert (.node (u.paint .Black) g .Red gv (.node pl p .Black pv s))
    else up.plug (.node (.node u g .Red gv pl) p .Black pv s)

/-- Frame conditions shared by the store updates: bookkeeping fields are kept and no
freed or unused address becomes live. -/
structure Same (t t' : RBTree V) : Prop where
  brk : t'.brk = t.brk
  fictional : t'.fictional = t.fictional
  size : t'.size = t.size
  dead : ∀ a, t.mem a = none → t'.mem a = none

/-- Frame conditions of an insertion step: one address was handed out. -/
structure Grown (t t' : RBTree V) : Prop where
  brk : t'.brk = t.brk + 1
  fictional : t'.fictional = t.fictional
  size : t'.size = t.size

/-- In-order walk of a laid out tree: some (a, v) for the node at address a holding v,
none for the end marker. -/
def Tree.items : Tree V → List (Option (Nat × V))
  | .nil => []
  | .fict => [none]
  | .node l a _ v r => l.items ++ some (a, v) :: r.items

/-- Part of the in-order walk of the whole tree that comes before the position. -/
def Ctx.before : Ctx V → List (Option (Nat × V))
  | .top => []
  | .left up _ _ _ _ => up.before
  | .right l a _ v up => up.before ++ l.items ++ [some (a, v)]

/-- Part of the in-order walk of the whole tree that comes after the position. -/
def Ctx.after : Ctx V → List (Option (Nat × V))
  | .top => []
  | .left up a _ v r => some (a, v) :: r.items ++ up.after
  | .right _ _ _ _ up => up.after

/-- Invariant 1: the root is Black (an empty tree has the end marker as root). -/
def Tree.rootBlack : Tree V → Bool
  | .node _ _ .Red _ _ => false
  | _ => true

/-- Values along a walk, the end marker skipped. -/
def itemVals (l : List (Option (Nat × V))) : List V :=
  l.filterMap (fun o => o.map Prod.snd)

/-- The tree found in the store by following the child pointers from p, down to the
given depth. -/
def readTree (t : RBTree V) : Nat → Option Nat → Tree V
  | 0, _ => .nil
  | _ + 1, none => .nil
  | fuel + 1, some a =>
    if a = t.fictional then .fict else
    match t.mem a with
    | none => .nil
    | some n => .node (readTree t fuel n.left) a n.color n.val (readTree t fuel n.right)

/-- The tree hanging off the root pointer. -/
def RBTree.toTree (t : RBTree V) : Tree V := readTree t t.budget (some t.root)

/-- In-order sequence of the stored values of a tree object (left subtree, node, right
subtree), end marker excluded. -/
def RBTree.inorder (t : RBTree V) : List V := t.toTree.inorder

/-- Color of the node the root pointer leads to. -/
def RBTree.rootColor (t : RBTree V) : Option Color := (t.mem t.root).map RBNode.color

/-- Instantiation used for the numeric scenarios: identity key extraction (SetConverter),
the comparator Less, single-value. -/
def natSet : Params Nat Nat := ⟨id, fun a b => decide (a < b), false⟩

/-- The same instantiation with IsMulti set. -/
def natMulti : Params Nat Nat := ⟨id, fun a b => decide (a < b), true⟩

/-- The tree object is well formed for the instantiation P: its store lays out a tree
that ends in the end marker and whose in-order key sequence is non-decreasing. -/
def RBTree.Valid (P : Params K V) (t : RBTree V) : Prop :=
  ∃ (chk : Bool) (T : Tree V), Models t chk T ∧ T.endsFict = true ∧ T.Ordered P

/-- The single-value tree of naturals built from a list by the initializer-list
constructor (the empty tree if the construction does not return). -/
def treeOf (L : List Nat) : RBTree Nat :=
  match RBTree.ofList natSet 0 L with
  | .ok t => t
  | .error _ => RBTree.new 0

/-- One call of the modifying interface. -/
inductive Op (K V : Type) where
  | insert (v : V) : Op K V
  | insertMove (v : V) : Op K V
  | emplace (v : V) : Op K V
  | erase (k : K) : Op K V

/-- Effect of one call on a tree object. -/
def RBTree.apply (P : Params K V) (t : RBTree V) : Op K V → Except Fault (RBTree V)
  | .insert v => t.insert P v
  | .insertMove v => t.insertMove P v
  | .emplace v => t.emplace P v
  | .erase k => t.erase P k

/-- A finite sequence of calls, one after another. -/
def runOps (P : Params K V) (t : RBTree V) : List (Op K V) → Except Fault (RBTree V)
  | [] => pure t
  | o :: os => do
    let t1 ← t.apply P o
    runOps P t1 os

/-- Number of Black nodes on every path from the root to an absent child, the end marker
counting as absent; none when two paths disagree. -/
def Tree.blackHeight : Tree V → Option Nat
  | .nil => some 0
  | .fict => some 0
  | .node l _ c _ r =>
    match l.blackHeight, r.blackHeight with
    | some a, some b =>
      if a = b then some (if c = Color.Black then a + 1 else a) else none
    | _, _ => none

/-- No Red node has a Red child. -/
def Tree.noRedRed : Tree V → Bool
  | .nil => true
  | .fict => true
  | .node l _ c _ r =>
    (c = Color.Black || (!l.isRed && !r.isRed)) && l.noRedRed && r.noRedRed

/-- Value stored in the node at an address. -/
def RBTree.valAt (t : RBTree V) (a : Nat) : Option V := (t.mem a).map RBNode.val

/-- Nodes of an in-order walk, the end marker dropped. -/
def walkNodes (l : List (Option (Nat × V))) : List (Nat × V) := l.filterMap id

/-- The last node of an in-order walk whose key is less than key. -/
def lastLess (P : Params K V) (key : K) (l : List (Option (Nat × V))) : Option (Nat × V) :=
  (walkNodes l).reverse.find? (fun p => P.comp (P.conv p.2) key)

/-- The first node of an in-order walk whose key is not less than key. -/
def firstNotLess (P : Params K V) (key : K) (l : List (Option (Nat × V))) :
    Option (Nat × V) :=
  (walkNodes l).find? (fun p => !P.comp (P.conv p.2) key)

/-- The first node of an in-order walk whose key is greater than key. -/
def firstGreater (P : Params K V) (key : K) (l : List (Option (Nat × V))) :
    Option (Nat × V) :=
  (walkNodes l).find? (fun p => P.comp key (P.conv p.2))

/-- In-order walk of the tree hanging off the root pointer. -/
def RBTree.items (t : RBTree V) : List (Option (Nat × V)) := t.toTree.items

/-! ## Erase on laid out trees -/

/-- The path D continued upwards by the path C. -/
def Ctx.comp : Ctx V → Ctx V → Ctx V
  | .top, C => C
  | .left up a c v r, C => .left (up.comp C) a c v r
  | .right l a c v up, C => .right l a c v (up.comp C)

/-- The descent while (node->right) node = node->right of operator-- on a laid out
tree: the subtree at which it stops and the path that leads to it. -/
def Tree.maxPath : Ctx V → Tree V → Ctx V × Tree V
  | C, .node l a c v r =>
    match r with
    | .nil => (C, .node l a c v .nil)
    | .fict => (.right l a c v C, .fict)
    | .node rl ra rc rv rr => Tree.maxPath (.right l a c v C) (.node rl ra rc rv rr)
  | C, .nil => (C, .nil)
  | C, .fict => (C, .fict)

/-- The branches of RBTree::FixAfterErase with a Black brother, applied to the subtree
of parent; the first argument is isleft, and the flag in the result says that the call
goes on at the node above. -/
def Tree.fixBlack : Bool → Tree V → Option (Tree V × Bool)
  | true, .node l p pc pv (.node bl b .Black bv br) =>
    match bl with
    | .node gl g .Red gv gr =>
      if pc = Color.Black then
        some (.node (.node l p .Black pv gl) g .Black gv (.node gr b .Black bv br), false)
      else
        match br with
        | .node fl f .Red fv fr =>
          some (.node (.node l p .Black pv (.node gl g .Red gv gr)) b .Red bv
            (.node fl f .Black fv fr), false)
        | _ => some (.node (.node l p .Red pv gl) g .Black gv (.node gr b .Red bv br), false)
    | _ =>
      if pc = Color.Black then some (.node (.node l p .Red pv bl) b .Black bv br, true)
      else some (.node (.node l p .Red pv bl) b .Black bv br, false)
  | false, .node (.node bl b .Black bv br) p pc pv r =>
    match br with
    | .node gl g .Red gv gr =>
      if pc = Color.Black then
        some (.node (.node bl b .Black bv gl) g .Black gv (.node gr p .Black pv r), false)
      else
        match bl with
        | .node fl f .Red fv fr =>
          some (.node (.node fl f .Black fv fr) b .Red bv
            (.node (.node gl g .Red gv gr) p .Black pv r), false)
        | _ => some (.node (.node bl b .Red bv gl) g .Black gv (.node gr p .Red pv r), false)
    | _ =>
      if pc = Color.Black then some (.node bl b .Black bv (.node br p .Red pv r), true)
      else some (.node bl b .Black bv (.node br p .Red pv r), false)
  | _, _ => none

/-- One call of RBTree::FixAfterErase on the subtree of parent, the branch with a Red
brother included (it rotates, recolors and calls itself once more on the same node). -/
def Tree.fixSub : Bool → Tree V → Option (Tree V × Bool)
  | true, .node l p pc pv (.node bl b .Red bv br) =>
    match Tree.fixBlack true (.node l p .Red pv bl) with
    | some (s, _) => some (.node s b .Black bv br, false)
    | none => none
  | false, .node (.node bl b .Red bv br) p pc pv r =>
    match Tree.fixBlack false (.node br p .Red pv r) with
    | some (s, _) => some (.node bl b .Black bv s, false)
    | none => none
  | isleft, s => Tree.fixBlack isleft s

/-- RBTree::FixAfterErase on a laid out tree: s is the subtree of parent, the path leads
to it, and the result is the whole tree. -/
def Ctx.fixErase : Ctx V → Tree V → Bool → Option (Tree V)
  | C, s, isleft =>
    match Tree.fixSub isleft s with
    | none => none
    | some (s1, false) => some (C.plug s1)
    | some (s1, true) =>
      match C with
      | .top => some s1
      | .left up a c v r => up.fixErase (.node s1 a c v r) true
      | .right l a c v up => up.fixErase (.node l a c v s1) false

/-- The leaf branch of RBTree::Erase: the node of color c at the end of the path is
replaced by r, its right child (absent or the end marker), and the fix-up runs when the
node was Black and had a parent. -/
def Ctx.eraseLeaf (C : Ctx V) (c : Color) (r : Tree V) : Option (Tree V) :=
  match C, r with
  | .top, .fict => some .fict
  | .left up a1 c1 v1 r1, .nil =>
    if c = Color.Black then up.fixErase (.node .nil a1 c1 v1 r1) true
    else some (up.plug (.node .nil a1 c1 v1 r1))
  | .right l1 a1 c1 v1 up, .nil =>
    if c = Color.Black then up.fixErase (.node l1 a1 c1 v1 .nil) false
    else some (up.plug (.node l1 a1 c1 v1 .nil))
  | .right l1 a1 c1 v1 up, .fict =>
    if c = Color.Black then up.fixErase (.node l1 a1 c1 v1 .fict) false
    else some (up.plug (.node l1 a1 c1 v1 .fict))
  | _, _ => none

/-- RBTree::Erase on a laid out tree: the node to erase is the root of the subtree at
the end of the path; the result is the whole tree. -/
def eraseT : Nat → Ctx V → Tree V → Option (Tree V)
  | 0, _, _ => none
  | fuel + 1, C, .node l a c v r =>
    match l, r with
    | .node ll la lc lv lr, .node rl ra rc rv rr =>
      match Tree.maxPath .top (.node ll la lc lv lr) with
      | (D, .node ml m mc mv .nil) =>
        eraseT fuel (D.comp (.left C a c mv (.node rl ra rc rv rr))) (.node ml m mc v .nil)
      | _ => none
    | .nil, .nil => C.eraseLeaf c .nil
    | .nil, .fict => C.eraseLeaf c .fict
    | .node ll la lc lv lr, .nil => eraseT fuel (.left C a c lv .nil) (.node ll la lc v lr)
    | .node ll la lc lv lr, .fict => eraseT fuel (.left C a c lv .fict) (.node ll la lc v lr)
    | .nil, .node rl ra rc rv rr => eraseT fuel (.right .nil a c rv C) (.node rl ra rc v rr)
    | .fict, _ => none
  | _ + 1, _, .nil => none
  | _ + 1, _, .fict => none

/-- Color of the node directly above the position, none at the root. -/
def Ctx.frameColor : Ctx V → Option Color
  | .top => none
  | .left _ _ c _ _ => some c
  | .right _ _ c _ _ => some c

/-- Red-black conditions on a path whose position expects a subtree of black height h:
every subtree hanging off the path has the black height its place requires and no Red
node with a Red child, and no Red node on the path has a Red child or a Red parent on
the path. -/
def Ctx.RB : Ctx V → Nat → Prop
  | .top, _ => True
  | .left up _ c _ r, h =>
    r.blackHeight = some h ∧ r.noRedRed = true ∧
      (c = Color.Red → r.isRed = false ∧ up.frameColor ≠ some Color.Red) ∧
      up.RB (if c = Color.Black then h + 1 else h)
  | .right l _ c _ up, h =>
    l.blackHeight = some h ∧ l.noRedRed = true ∧
      (c = Color.Red → l.isRed = false ∧ up.frameColor ≠ some Color.Red) ∧
      up.RB (if c = Color.Black then h + 1 else h)

/-- Values along a walk with the end marker kept as none. -/
def itemMarks (l : List (Option (Nat × V))) : List (Option V) := l.map (Option.map Prod.snd)

/-- The subtree of parent at a call of RBTree::FixAfterErase: the side named by the flag
has black height h and a root that is not Red, the other side has black height h + 1,
neither side has a Red node with a Red child, and a Red parent has no Red brother. -/
def Tree.Deficient : Bool → Nat → Tree V → Prop
  | true, h, .node l _ pc _ r =>
    l.blackHeight = some h ∧ r.blackHeight = some (h + 1) ∧ l.isRed = false ∧
      l.noRedRed = true ∧ r.noRedRed = true ∧ (pc = Color.Red → r.isRed = false)
  | false, h, .node l _ pc _ r =>
    r.blackHeight = some h ∧ l.blackHeight = some (h + 1) ∧ r.isRed = false ∧
      l.noRedRed = true ∧ r.noRedRed = true ∧ (pc = Color.Red → l.isRed = false)
  | _, _, .nil => False
  | _, _, .fict => False

/-- The call of RBTree::FixAfterErase at the node directly above the position, with the
side the position is on; nothing at the root. -/
def fixAbove (t : RBTree V) (fuel : Nat) : Ctx V → Except Fault (RBTree V)
  | .top => pure t
  | .left _ a _ _ _ => FixAfterErase t fuel a true
  | .right _ a _ _ _ => FixAfterErase t fuel a false

/-- The tree invariants that Erase relies on, for the instantiation P: the store lays out
the tree read from the root pointer, the end marker is the right child of the last node
(or the root of the empty tree), the in-order key sequence is non-decreasing, all paths
from the root to an absent child hold the same number of Black nodes, and no Red node
has a Red child. -/
def RBTree.Invariants (P : Params K V) (t : RBTree V) : Prop :=
  (∃ chk, Models t chk t.toTree) ∧ t.toTree.endsFict = true ∧ t.toTree.Ordered P ∧
    t.toTree.blackHeight.isSome = true ∧ t.toTree.noRedRed = true

/-! ## Iterators and counting -/

/-- The operators operator* and operator-> of RBtreeIterator and constRBtreeIterator:
the value field of the node the iterator stands at, read without any test. -/
def deref (t : RBTree V) (node : Nat) : Except Fault V := do
  let n ← t.node (some node)
  pure n.val

/-- First loop of RBTree::count: while it is not begin and the key at it is equivalent
to key, count and step back. -/
def countBack (P : Params K V) (t : RBTree V) (key : K) (beg : Nat) :
    Nat → Nat → Nat → Except Fault Nat
  | 0, _, _ => .error .fuel
  | fuel + 1, it, cnt =>
    if it != beg then do
      let v ← deref t it
      if !P.comp (P.conv v) key && !P.comp key (P.conv v) then do
        let it1 ← decrement t it
        countBack P t key beg fuel it1 ((cnt + 1) % 2 ^ 64)
      else pure cnt
    else pure cnt

/-- Second loop of RBTree::count: while it is not the end marker and the key at it is
equivalent to key, count and step forward. -/
def countFwd (P : Params K V) (t : RBTree V) (key : K) :
    Nat → Nat → Nat → Except Fault Nat
  | 0, _, _ => .error .fuel
  | fuel + 1, it, cnt =>
    if it != t.fictional then do
      let v ← deref t it
      if !P.comp (P.conv v) key && !P.comp key (P.conv v) then do
        let it1 ← increment t it
        countFwd P t key fuel it1 ((cnt + 1) % 2 ^ 64)
      else pure cnt
    else pure cnt

/-- RBTree::count.  An exception of operator++ or operator-- leaves the function, which
the source declares noexcept. -/
def RBTree.count (P : Params K V) (t : RBTree V) (key : K) : Except Fault Nat := do
  let node ← Find P t key
  let beg ← t.begin
  let cnt ← countBack P t key beg (t.brk + 1) node 0
  let it ← increment t node
  countFwd P t key (t.brk + 1) it cnt

/-- RBTree::equal_range. -/
def RBTree.equal_range (P : Params K V) (t : RBTree V) (key : K) :
    Except Fault (Nat × Nat) := do
  let a ← t.lower_bound P key
  let b ← t.upper_bound P key
  pure (a, b)

/-- The loop for (it = first; it != last; ++it): the addresses visited, in order. -/
def visit (t : RBTree V) (last : Nat) : Nat → Nat → Except Fault (List Nat)
  | 0, _ => .error .fuel
  | fuel + 1, it =>
    if it != last then do
      let it1 ← increment t it
      let rest ← visit t last fuel it1
      pure (it :: rest)
    else pure []

/-- The traversal for (it = begin(); it != end(); ++it): the addresses visited. -/
def RBTree.traverse (t : RBTree V) : Except Fault (List Nat) := do
  let b ← t.begin
  visit t t.end (t.brk + 1) b

/-- Number of applications of operator++ that lead from begin() to end(). -/
def RBTree.steps (t : RBTree V) : Except Fault Nat := do
  let l ← t.traverse
  pure l.length

/-- The values met by the traversal from begin() to end(). -/
def RBTree.traverseVals (t : RBTree V) : Except Fault (List V) := do
  let l ← t.traverse
  l.mapM (deref t)

/-- The call is one of the insertions insert(const&), insert(&&) and emplace. -/
def Op.isInsert : Op K V → Bool
  | .erase _ => false
  | _ => true

/-! ## Clearing, the range constructor and the set union -/

/-- RBTree::Clear: the subtrees first, then destroy, --_size and deallocate for the node
itself. -/
def Clear (t : RBTree V) : Nat → Nat → Except Fault (RBTree V)
  | 0, _ => .error .fuel
  | fuel + 1, node => do
    let n ← t.node (some node)
    let t1 ← (match n.left with
      | some l => Clear t fuel l
      | none => pure t)
    let n1 ← t1.node (some node)
    let t2 ← (match n1.right with
      | some r => Clear t1 fuel r
      | none => pure t1)
    let _ ← t2.node (some node)
    pure (t2.decSize.deallocate node)

/-- RBTree::clear; the value field of the newly allocated end marker is not constructed
and holds g. -/
def RBTree.clear (g : V) (t : RBTree V) : Except Fault (RBTree V) := do
  let t1 ← Clear t t.budget t.root
  let r := t1.allocate ⟨none, none, none, g, Color.Black⟩
  pure { r.1 with root := r.2, fictional := r.2 }

/-- The loop while (first != last) Insert(*first) of the constructor
RBTree::RBTree(Iter first, Iter last).  The iterators are positions in the sequence seq;
the body does not advance first. -/
def rangeCtorLoop (P : Params K V) (seq : List V) (last : Nat) :
    Nat → RBTree V → Nat → Except Fault (RBTree V)
  | 0, _, _ => .error .fuel
  | fuel + 1, t, first =>
    if first != last then
      match seq.get? first with
      | none => .error .invalidAccess
      | some v => do
        let r ← Insert P t v
        rangeCtorLoop P seq last fuel r.1 first
    else pure t

/-- RBTree::RBTree(Iter first, Iter last) over the whole sequence seq, run for at most
fuel passes through the loop. -/
def RBTree.ofRange (P : Params K V) (g : V) (seq : List V) (fuel : Nat) :
    Except Fault (RBTree V) :=
  rangeCtorLoop P seq seq.length fuel (RBTree.new g) 0

/-- The loop while (first != last) { Insert(*first); ++first; } of RBTree::insert(Iter
first, Iter last), for iterators of the tree src. -/
def insertFrom (P : Params K V) (src : RBTree V) (last : Nat) :
    Nat → RBTree V → Nat → Except Fault (RBTree V)
  | 0, _, _ => .error .fuel
  | fuel + 1, t, first =>
    if first != last then do
      let v ← deref src first
      let r ← Insert P t v
      let first1 ← increment src first
      insertFrom P src last fuel r.1 first1
    else pure t

/-- Set::operator+=, that is Base::insert(other.cbegin(), other.cend()). -/
def setAddAssign (P : Params K V) (a other : RBTree V) : Except Fault (RBTree V) := do
  let first ← other.begin
  insertFrom P other other.end (other.brk + 1) a first

/-! ## The list of list.hpp -/

/-- Node record of list.hpp, struct listNode. -/
structure listNode (α : Type) where
  prev : Option Nat
  next : Option Nat
  val : α

/-- Object of class List: the store of its nodes, the next unused address, and the
members head, tail and _size. -/
structure LinkedList (α : Type) where
  mem : Nat → Option (listNode α)
  brk : Nat
  head : Nat
  tail : Nat
  size : Nat

variable {α : Type}

/-- List::List(): one node, whose value field is not constructed and holds g. -/
def LinkedList.new (g : α) : LinkedList α :=
  { mem := fun j => if j = 0 then some ⟨none, none, g⟩ else none
    brk := 1
    head := 0
    tail := 0
    size := 0 }

/-- Dereference of a list node pointer. -/
def LinkedList.node (q : LinkedList α) (p : Option Nat) : Except Fault (listNode α) :=
  match p with
  | none => .error .invalidAccess
  | some a =>
    match q.mem a with
    | none => .error .invalidAccess
    | some n => .ok n

/-- Store with the list node at address a replaced. -/
def LinkedList.put (q : LinkedList α) (a : Nat) (n : listNode α) : LinkedList α :=
  { q with mem := fun j => if j = a then some n else q.mem j }

/-- List::emplace(Iterator where, Args&&... args), the value already built from the
arguments; pos is where.node. -/
def LinkedList.emplace (q : LinkedList α) (pos : Option Nat) (val : α) :
    Except Fault (LinkedList α) := do
  let w ← q.node pos
  let node := q.brk
  let q1 : LinkedList α :=
    { q with mem := fun j => if j = node then some ⟨w.prev, pos, val⟩ else q.mem j
             brk := q.brk + 1 }
  let w1 ← q1.node pos
  let q2 ← (match w1.prev with
    | none => pure { q1 with head := node }
    | some p => do
      let pn ← q1.node (some p)
      pure (q1.put p { pn with next := some node }))
  let w2 ← q2.node pos
  let q3 ← (match pos with
    | some a => pure (q2.put a { w2 with prev := some node })
    | none => .error .invalidAccess)
  pure { q3 with size := (q3.size + 1) % 2 ^ 64 }

/-- List::insert(Iterator where, ConstReference val). -/
def LinkedList.insert (q : LinkedList α) (pos : Option Nat) (val : α) :
    Except Fault (LinkedList α) :=
  q.emplace pos val

/-- List::append. -/
def LinkedList.append (q : LinkedList α) (val : α) : Except Fault (LinkedList α) :=
  q.insert (some q.tail) val

/-- Prefix operator++ of listIterator. -/
def LinkedList.increment (q : LinkedList α) (node : Option Nat) : Except Fault (Option Nat) := do
  let n ← q.node node
  match n.next with
  | some x => pure (some x)
  | none => .error .IteratorOutOfBounds

/-- The loop of List::erase(Iterator begin, Iterator end): while (ptr != end.node)
{ destroy(&(ptr->val)); ptr = ptr->next; deallocate(ptr->prev); --_size; }. -/
def LinkedList.eraseWalk (e : Option Nat) :
    Nat → LinkedList α → Option Nat → Except Fault (LinkedList α)
  | 0, _, _ => .error .fuel
  | fuel + 1, q, ptr =>
    if ptr != e then do
      let n ← q.node ptr
      let nx ← q.node n.next
      let q1 : LinkedList α :=
        match nx.prev with
        | some d => { q with mem := fun j => if j = d then none else q.mem j }
        | none => q
      LinkedList.eraseWalk e fuel { q1 with size := (q1.size + (2 ^ 64 - 1)) % 2 ^ 64 } n.next
    else pure q

/-- List::erase(Iterator begin, Iterator end). -/
def LinkedList.erase (q : LinkedList α) (b e : Option Nat) : Except Fault (LinkedList α) := do
  let bn ← q.node b
  let prev := bn.prev
  let q1 ← (match prev with
    | some p => do
      let pn ← q.node (some p)
      pure (q.put p { pn with next := e })
    | none =>
      match e with
      | some x => pure { q with head := x }
      | none => .error .invalidAccess)
  let q2 ← LinkedList.eraseWalk e (q.brk + 1) q1 b
  let en ← q2.node e
  match e with
  | some x => pure (q2.put x { en with prev := prev })
  | none => .error .invalidAccess

/-- List::erase(Iterator where). -/
def LinkedList.eraseAt (q : LinkedList α) (pos : Option Nat) : Except Fault (LinkedList α) := do
  let e ← q.increment pos
  q.erase pos e

/-- List::pop_back. -/
def LinkedList.pop_back (q : LinkedList α) : Except Fault (LinkedList α) :=
  if q.size = 0 then .error .NothingToErase
  else do
    let t ← q.node (some q.tail)
    q.eraseAt t.prev

/-- List::pop_front. -/
def LinkedList.pop_front (q : LinkedList α) : Except Fault (LinkedList α) :=
  if q.size = 0 then .error .NothingToErase
  else q.eraseAt (some q.head)

/-- List::front. -/
def LinkedList.front (q : LinkedList α) : Except Fault α :=
  if q.size ≠ 0 then do
    let h ← q.node (some q.head)
    pure h.val
  else .error .UndereferencableIterator

/-- The values of a list object read along the next links from head up to tail, at most
fuel nodes. -/
def LinkedList.read (q : LinkedList α) : Nat → Nat → List α
  | 0, _ => []
  | fuel + 1, a =>
    if a = q.tail then []
    else
      match q.mem a with
      | none => []
      | some n =>
        match n.next with
        | none => []
        | some x => n.val :: LinkedList.read q fuel x

/-- The values held by a list object, first to last. -/
def LinkedList.toList (q : LinkedList α) : List α := q.read q.brk q.head

/-- The nodes from address a on, the first of them with the prev link p, are the cells
given (address and value, in order): each links to the next and the last links to the
address e; pe is the address of the last cell, or p when there is no cell. -/
def Seg (m : Nat → Option (listNode α)) :
    List (Nat × α) → Nat → Option Nat → Nat → Option Nat → Prop
  | [], a, p, e, pe => a = e ∧ p = pe
  | c :: rest, a, p, e, pe =>
    a = c.1 ∧ ∃ nx, m c.1 = some ⟨p, some nx, c.2⟩ ∧ Seg m rest nx (some c.1) e pe

/-- The list object is well formed and holds the given cells: from head the cells are
linked up to the node tail, the only one without a next link, no address occurs twice,
_size is the number of cells, and nothing is live at or beyond brk. -/
structure LinkedList.Holds (q : LinkedList α) (cells : List (Nat × α)) : Prop where
  seg : ∃ pe g, Seg q.mem cells q.head none q.tail pe ∧ q.mem q.tail = some ⟨pe, none, g⟩
  nodup : (cells.map Prod.fst ++ [q.tail]).Nodup
  size : q.size = cells.length
  fresh : ∀ a, q.brk ≤ a → q.mem a = none

/-- The list object is well formed and holds the values xs, first to last. -/
def LinkedList.Valid (q : LinkedList α) (xs : List α) : Prop :=
  ∃ cells, q.Holds cells ∧ cells.map Prod.snd = xs

/-- A sequence of append calls, one after another. -/
def LinkedList.appendAll (q : LinkedList α) : List α → Except Fault (LinkedList α)
  | [] => pure q
  | x :: xs => do
    let q1 ← q.append x
    LinkedList.appendAll q1 xs

/-- The loop while (q.size() != 0) { x = q.front(); q.pop_front(); } run for at most fuel
passes, with the values read in the order they were read. -/
def LinkedList.drain : Nat → LinkedList α → Except Fault (List α)
  | 0, _ => .error .fuel
  | fuel + 1, q =>
    if q.size != 0 then do
      let x ← q.front
      let q1 ← q.pop_front
      let xs ← LinkedList.drain fuel q1
      pure (x :: xs)
    else pure []

/-- The list of naturals built by appending the elements given to an empty list (the
empty list if the construction does not return). -/
def listOf (L : List Nat) : LinkedList Nat :=
  match (LinkedList.new 0).appendAll L with
  | .ok q => q
  | .error _ => LinkedList.new 0

/-! ## The copy constructor -/

/-- One of the two blocks if (nodes.first->left) { ... } else { ... } of the copy
constructor, for the left link when isleft is set and for the right link otherwise:
c is the link of the source node, dst is nodes.second, and junk is the content of
freshly allocated memory. -/
def copyChild (junk : RBNode V) (d : RBTree V) (q : LinkedList (Nat × Nat)) (dst : Nat)
    (c : Option Nat) (isleft : Bool) : Except Fault (RBTree V × LinkedList (Nat × Nat)) :=
  match c with
  | some s => do
    let r := d.allocate junk
    let d1 ← (if isleft then r.1.setLeft (some dst) (some r.2)
      else r.1.setRight (some dst) (some r.2))
    let d2 ← d1.setParent (some r.2) (some dst)
    let q1 ← q.append (s, r.2)
    pure (d2, q1)
  | none => do
    let d1 ← (if isleft then d.setLeft (some dst) none else d.setRight (some dst) none)
    pure (d1, q)

/-- The loop while (q.size() != 0) of RBTree::RBTree(const RBTree&): src is the tree
copied from, d the tree under construction. -/
def copyLoop (junk : RBNode V) (src : RBTree V) :
    Nat → RBTree V → LinkedList (Nat × Nat) → Except Fault (RBTree V)
  | 0, _, _ => .error .fuel
  | fuel + 1, d, q =>
    if q.size != 0 then do
      let nodes ← q.front
      let sn ← src.node (some nodes.1)
      let d1 ← (if nodes.1 != src.fictional then do
          let d' ← d.setVal (some nodes.2) sn.val
          pure d'.incSize
        else pure { d with fictional := nodes.2 })
      let d2 ← d1.setColor (some nodes.2) sn.color
      let r3 ← copyChild junk d2 q nodes.2 sn.left true
      let r4 ← copyChild junk r3.1 r3.2 nodes.2 sn.right false
      let q3 ← r4.2.pop_front
      copyLoop junk src fuel r4.1 q3
    else pure d

/-- RBTree::RBTree(const RBTree&).  Memory handed out by allocate holds junk, the member
fictional holds the address f0 until the loop assigns it, and the value field of the
first node of the queue holds pj. -/
def RBTree.copy (junk : RBNode V) (f0 : Nat) (pj : Nat × Nat) (src : RBTree V) :
    Except Fault (RBTree V) := do
  let d0 : RBTree V :=
    { mem := fun j => if j = 0 then some { junk with parent := none } else none
      brk := 1
      root := 0
      fictional := f0
      size := 0 }
  let q ← (LinkedList.new pj).append (src.root, 0)
  copyLoop junk src (src.brk + 1) d0 q

/-- Set::operator+: Set res = *this; res += other; return res. -/
def setAdd (P : Params K V) (junk : RBNode V) (f0 : Nat) (pj : Nat × Nat)
    (a other : RBTree V) : Except Fault (RBTree V) := do
  let res ← a.copy junk f0 pj
  setAddAssign P res other

/-- Two laid out trees have the same shape, with the same color and value at every
position and the end marker at the same position; the addresses may differ. -/
def Tree.SameShape : Tree V → Tree V → Prop
  | .nil, .nil => True
  | .fict, .fict => True
  | .node l _ c v r, .node l' _ c' v' r' =>
    c = c' ∧ v = v' ∧ Tree.SameShape l l' ∧ Tree.SameShape r r'
  | _, _ => False

/-! ## Specification level: a copy under construction -/

/-- A destination tree while the copy constructor runs: pend s x is a node allocated at
address x that still waits in the queue, to become the copy of the source subtree s;
fict x is the copy of the end marker, node a finished copy at address x. -/
inductive PTree (V : Type) where
  | nil : PTree V
  | pend (s : Tree V) (x : Nat) : PTree V
  | fict (x : Nat) : PTree V
  | node (l : PTree V) (x : Nat) (c : Color) (v : V) (r : PTree V) : PTree V

/-- Pointer to the root of a tree under construction. -/
def PTree.ptr : PTree V → Option Nat
  | .nil => none
  | .pend _ x => some x
  | .fict x => some x
  | .node _ x _ _ _ => some x

/-- Addresses of a tree under construction. -/
def PTree.addrs : PTree V → List Nat
  | .nil => []
  | .pend _ x => [x]
  | .fict x => [x]
  | .node l x _ _ r => l.addrs ++ x :: r.addrs

/-- The waiting nodes, each with the source subtree it stands for. -/
def PTree.pends : PTree V → List (Tree V × Nat)
  | .nil => []
  | .pend s x => [(s, x)]
  | .fict _ => []
  | .node l _ _ _ r => l.pends ++ r.pends

/-- Addresses of the copies of the end marker. -/
def PTree.ficts : PTree V → List Nat
  | .nil => []
  | .pend _ _ => []
  | .fict x => [x]
  | .node l _ _ _ r => l.ficts ++ r.ficts

/-- The finished part as a laid out tree (a waiting node counts as absent). -/
def PTree.toTree : PTree V → Tree V
  | .nil => .nil
  | .pend _ _ => .nil
  | .fict _ => .fict
  | .node l x c v r => .node l.toTree x c v r.toTree

/-- The tree under construction follows the source tree: finished nodes carry the color
and value of the source node at the same position, the copy of the end marker stands
where the end marker stands, and a waiting node stands for the source subtree at its
position. -/
def PTree.Matches : PTree V → Tree V → Prop
  | .nil, T => T = .nil
  | .pend s _, T => T = s
  | .fict _, T => T = .fict
  | .node l _ c v r, T => ∃ tl a tr, T = .node tl a c v tr ∧ l.Matches tl ∧ r.Matches tr

/-- The store lays out the tree under construction below a node at par: a waiting node
has its parent pointer set, the copy of the end marker and the finished nodes have all
their fields set. -/
def PRep (m : Nat → Option (RBNode V)) : PTree V → Option Nat → Prop
  | .nil, _ => True
  | .pend _ x, par => ∃ cell, m x = some cell ∧ cell.parent = par
  | .fict x, par => ∃ g, m x = some ⟨par, none, none, g, Color.Black⟩
  | .node l x c v r, par =>
    m x = some ⟨par, l.ptr, r.ptr, v, c⟩ ∧ PRep m l (some x) ∧ PRep m r (some x)

/-- A position in a tree under construction, as the path from the position up to the
root. -/
inductive PCtx (V : Type) where
  | top : PCtx V
  | left (up : PCtx V) (x : Nat) (c : Color) (v : V) (r : PTree V) : PCtx V
  | right (l : PTree V) (x : Nat) (c : Color) (v : V) (up : PCtx V) : PCtx V

/-- The whole tree under construction with s at the position of the path. -/
def PCtx.plug : PCtx V → PTree V → PTree V
  | .top, s => s
  | .left up x c v r, s => up.plug (.node s x c v r)
  | .right l x c v up, s => up.plug (.node l x c v s)

/-- Addresses along and beside a path. -/
def PCtx.addrs : PCtx V → List Nat
  | .top => []
  | .left up x _ _ r => x :: r.addrs ++ up.addrs
  | .right l x _ _ up => l.addrs ++ x :: up.addrs

/-- The child of a node just copied: absent when the source link c is null, and
otherwise a waiting node at x for the source subtree s. -/
def PTree.child (s : Tree V) (c : Option Nat) (x : Nat) : PTree V :=
  match c with
  | none => .nil
  | some _ => .pend s x

/-- The queue entry of a waiting node: the address of the source node and the address
of its copy. -/
def pendEntry (F : Nat) (e : Tree V × Nat) : Nat × Nat := ((e.1.ptr F).getD 0, e.2)

/-- The invariant of the loop of the copy constructor, with T the source tree, d the
tree object under construction, qs the content of the queue and P the tree under
construction. -/
structure CopyInv (src : RBTree V) (chk : Bool) (T : Tree V) (d : RBTree V)
    (qs : List (Nat × Nat)) (P : PTree V) : Prop where
  matches_src : P.Matches T
  rep : PRep d.mem P none
  root : P.ptr = some d.root
  nodup : P.addrs.Nodup
  fresh : ∀ a, d.brk ≤ a → d.mem a = none
  ficts : ∀ y, y ∈ P.ficts → y = d.fictional
  queue : qs.Perm (P.pends.map (pendEntry src.fictional))
  pend_ok : ∀ e, e ∈ P.pends → e.1 ≠ .nil ∧ src.fictional ∉ e.1.nodes ∧
    ∃ par, Rep src.mem src.fictional chk e.1 par
  size : d.size = P.toTree.nodes.length
  count : P.toTree.nodes.length + (P.pends.map (fun e => e.1.count)).sum ≤ T.count

/-! ## Erasing a range -/

/-- The loop of RBTree::erase(Iterator first, Iterator last): while (first.node !=
last.node) { node = first.node; ++first; Erase(node); }. -/
def eraseRangeLoop (last : Nat) : Nat → RBTree V → Nat → Except Fault (RBTree V)
  | 0, _, _ => .error .fuel
  | fuel + 1, t, first =>
    if first != last then do
      let first1 ← increment t first
      let t1 ← Erase t t.budget first
      eraseRangeLoop last fuel t1 first1
    else pure t

/-- RBTree::erase(Iterator first, Iterator last). -/
def RBTree.eraseRange (t : RBTree V) (first last : Nat) : Except Fault (RBTree V) :=
  eraseRangeLoop last (t.brk + 1) t first

/-! ## The array of array.hpp -/

/-- RBTree::Erase with its two kinds of calls counted apart: the third argument bounds
the number of Erase calls (the first one and the nested ones), fix bounds the number of
FixAfterErase calls made by the rebalancing that follows the removal of a Black leaf. -/
def EraseWithin (fix : Nat) (t : RBTree V) : Nat → Nat → Except Fault (RBTree V)
  | 0, _ => .error .fuel
  | fuel + 1, node => do
    let n ← t.node (some node)
    if n.left.isSome && n.right.isSome && n.right != some t.fictional then do
      let closest ← decrement t node
      let t1 ← t.swapVal (some closest) (some node)
      EraseWithin fix t1 fuel closest
    else if n.left.isNone && (n.right.isNone || n.right == some t.fictional) then do
      let isblack ← IsBlack t (some node)
      let isleft ← (match n.parent with
        | some p => do
          let pn ← t.node (some p)
          pure (pn.left == some node)
        | none => pure false : Except Fault Bool)
      let parent := n.parent
      let t1 ← (if n.right = some t.fictional then
          match parent with
          | some p => t.setRight (some p) (some t.fictional)
          | none => pure { t with root := t.fictional }
        else do
          let pn ← t.node parent
          if pn.left = some node then t.setLeft parent none
          else t.setRight parent none)
      let t2 := (t1.deallocate node).decSize
      match parent with
      | some p => if isblack then FixAfterErase t2 fix p isleft else pure t2
      | none => pure t2
    else do
      let child := if n.left.isSome then n.left else n.right
      let t1 ← t.swapVal child (some node)
      match child with
      | some c => EraseWithin fix t1 fuel c
      | none => .error .invalidAccess

/-- RBTree::Find with the number of passes of its while(1) loop bounded by steps; each
pass inspects one node. -/
def FindWithin (P : Params K V) (t : RBTree V) (key : K) (steps : Nat) : Except Fault Nat := do
  let node ← FindLoop P t key steps t.root
  let n ← t.node (some node)
  if P.comp (P.conv n.val) key && n.right == some t.fictional then pure t.fictional
  else pure node

/-- Largest number of value-holding nodes on a path from the root of a laid out tree down
to an absent child; the end marker holds no value and counts as absent. -/
def Tree.vheight : Tree V → Nat
  | .nil => 0
  | .fict => 0
  | .node l _ _ _ r => max l.vheight r.vheight + 1

variable {α : Type}

/-- Object of class Array: the pointer arr (none for a null pointer, and otherwise the
slots of the allocation, a slot holding none until a value is constructed in it) and the
members _size and cap. -/
structure DynArray (α : Type) where
  arr : Option (List (Option α))
  size : Nat
  cap : Nat

/-- Allocator::allocate: a null pointer for n = 0, and n raw slots otherwise. -/
def allocateBuf (n : Nat) : Option (List (Option α)) :=
  if n = 0 then none else some (List.replicate n none)

/-- AllocatorTraits::construct(alloc, ptr + i, v), the assignment *(ptr + i) = v. -/
def constructAt (buf : Option (List (Option α))) (i : Nat) (v : α) :
    Except Fault (Option (List (Option α))) :=
  match buf with
  | none => .error .invalidAccess
  | some l => if i < l.length then .ok (some (l.set i (some v))) else .error .invalidAccess

/-- AllocatorTraits::destroy(alloc, ptr + i). -/
def destroyAt (buf : Option (List (Option α))) (i : Nat) :
    Except Fault (Option (List (Option α))) :=
  match buf with
  | none => .error .invalidAccess
  | some l => if i < l.length then .ok (some (l.set i none)) else .error .invalidAccess

/-- The read *(ptr + i). -/
def readAt (buf : Option (List (Option α))) (i : Nat) : Except Fault α :=
  match buf with
  | none => .error .invalidAccess
  | some l =>
    match l.get? i with
    | some (some v) => .ok v
    | _ => .error .invalidAccess

/-- A loop of statements construct(dst + i, std::move(*(src + j))), one for each pair
(i, j) given, in order, with dst and src two different buffers. -/
def moveEach (src : Option (List (Option α))) :
    List (Nat × Nat) → Option (List (Option α)) → Except Fault (Option (List (Option α)))
  | [], dst => pure dst
  | (i, j) :: rest, dst => do
    let v ← readAt src j
    let dst1 ← constructAt dst i v
    moveEach src rest dst1

/-- A loop of statements construct(arr + i, std::move(*(arr + j))), one for each pair
(i, j) given, in order, within one buffer. -/
def shiftEach : List (Nat × Nat) → Option (List (Option α)) →
    Except Fault (Option (List (Option α)))
  | [], b => pure b
  | (i, j) :: rest, b => do
    let v ← readAt b j
    let b1 ← constructAt b i v
    shiftEach rest b1

/-- A loop of statements construct(arr + i, v) for i = start, start + 1, and so on, one
for each value given. -/
def constructEach : List α → Nat → Option (List (Option α)) →
    Except Fault (Option (List (Option α)))
  | [], _, b => pure b
  | v :: rest, i, b => do
    let b1 ← constructAt b i v
    constructEach rest (i + 1) b1

/-- Array::Array(). -/
def DynArray.new : DynArray α :=
  { arr := allocateBuf 8, size := 0, cap := 8 }

/-- Array::Array(SizeType n); dflt is the value-initialised ValueType. -/
def DynArray.ofSize (n : Nat) (dflt : α) : Except Fault (DynArray α) := do
  let cap := (2 * n) % 2 ^ 64
  let b ← constructEach (List.replicate n dflt) 0 (allocateBuf cap)
  pure { arr := b, size := n, cap := cap }

/-- Array::Array(const std::initializer_list&). -/
def DynArray.ofList (l : List α) : Except Fault (DynArray α) := do
  let size := l.length % 2 ^ 64
  let cap := (2 * size) % 2 ^ 64
  let b ← constructEach l 0 (allocateBuf cap)
  pure { arr := b, size := size, cap := cap }

/-- Array::emplace(const Iterator& where, args), the value already built from the
arguments; pos is where.pos. -/
def DynArray.emplace (a : DynArray α) (pos : Nat) (v : α) : Except Fault (DynArray α) :=
  if pos > a.size then .error .IteratorOutOfBounds
  else if a.size = a.cap then do
    let newcap := (a.cap * 2) % 2 ^ 64
    let n0 := allocateBuf newcap
    let n1 ← moveEach a.arr ((List.range pos).map (fun i => (i, i))) n0
    let n2 ← constructAt n1 pos v
    let n3 ← moveEach a.arr
      ((List.range (a.size - pos)).map (fun k => (pos + 1 + k, pos + k))) n2
    pure { arr := n3, size := (a.size + 1) % 2 ^ 64, cap := newcap }
  else do
    let b1 ← shiftEach ((List.range (a.size - pos)).map (fun k => (a.size - k, a.size - k - 1)))
      a.arr
    let b2 ← constructAt b1 pos v
    pure { a with arr := b2, size := (a.size + 1) % 2 ^ 64 }

/-- Array::append, that is emplace(end(), val). -/
def DynArray.append (a : DynArray α) (v : α) : Except Fault (DynArray α) :=
  a.emplace a.size v

/-- Array::reserve. -/
def DynArray.reserve (a : DynArray α) (n : Nat) : Except Fault (DynArray α) :=
  if n ≤ a.cap then pure a
  else do
    let b ← moveEach a.arr ((List.range a.size).map (fun i => (i, i))) (allocateBuf n)
    pure { a with arr := b, cap := n }

/-- Array::shrink_to_fit. -/
def DynArray.shrink_to_fit (a : DynArray α) : Except Fault (DynArray α) :=
  if a.cap = a.size then pure a
  else do
    let b ← moveEach a.arr ((List.range a.size).map (fun i => (i, i))) (allocateBuf a.size)
    pure { a with arr := b, cap := a.size }

/-- The operator arrayIterator::operator-(ItDiff offset) on an iterator of the array at
position pos: the difference pos - offset is formed in size_t, so the test
pos - offset >= 0 always holds. -/
def DynArray.iterSub (a : DynArray α) (pos : Nat) (offset : Int) : Except Fault Nat :=
  let p := (((pos : Int) - offset) % (2 ^ 64 : Int)).toNat
  if p ≤ a.size then pure p else .error .IteratorOutOfBounds

/-- The loop of Array::erase: the buffer and the counter deleted after the passes for
the indices given. -/
def eraseEach (bpos epos step : Nat) :
    List Nat → Option (List (Option α)) × Nat → Except Fault (Option (List (Option α)) × Nat)
  | [], st => pure st
  | i :: rest, st =>
    if step = 0 then .error .invalidAccess
    else if i % step = bpos % step ∧ i < epos then do
      let b1 ← destroyAt st.1 i
      eraseEach bpos epos step rest (b1, (st.2 + 1) % 2 ^ 64)
    else do
      let v ← readAt st.1 i
      let b1 ← constructAt st.1 (i - st.2) v
      eraseEach bpos epos step rest (b1, st.2)

/-- Array::erase(const Iterator& begin, const Iterator& end, SizeType step), for
iterators of the array at the positions bpos and epos. -/
def DynArray.erase (a : DynArray α) (bpos epos step : Nat) : Except Fault (DynArray α) :=
  if bpos ≥ a.size ∨ epos ≥ a.size then .error .IteratorOutOfBounds
  else if bpos > epos then pure a
  else do
    let r ← eraseEach bpos epos step (List.range' bpos (a.size - bpos)) (a.arr, 0)
    pure { a with arr := r.1, size := (a.size + (2 ^ 64 - r.2)) % 2 ^ 64 }

/-- Array::pop, that is erase(end() - 1, end(), 1). -/
def DynArray.pop (a : DynArray α) : Except Fault (DynArray α) := do
  let b ← a.iterSub a.size 1
  a.erase b a.size 1

/-- The values an array object holds, first to last (a slot without a value ends the
reading). -/
def DynArray.toList (a : DynArray α) : List α :=
  match a.arr with
  | none => []
  | some l => (l.take a.size).filterMap id

/-! ## Lemmas on the store primitives -/

theorem ok_bind {α β : Type} (a : α) (f : α → Except Fault β) :
    (Except.ok a >>= f) = f a := rfl

theorem error_bind {α β : Type} (e : Fault) (f : α → Except Fault β) :
    (Except.error e >>= f) = Except.error e := rfl

theorem pure_ok {α : Type} (a : α) : (pure a : Except Fault α) = Except.ok a := rfl

theorem node_of_mem {t : RBTree V} {a : Nat} {n : RBNode V} (h : t.mem a = some n) :
    t.node (some a) = .ok n := by
  simp [RBTree.node, h]

theorem Tree.height_le_count (T : Tree V) : T.height ≤ T.count := by
  induction T with
  | nil => simp [Tree.height, Tree.count]
  | fict => simp [Tree.height, Tree.count]
  | node l a c v r ihl ihr => simp only [Tree.height, Tree.count]; omega

theorem Tree.length_addrs (F : Nat) (T : Tree V) : (T.addrs F).length = T.count := by
  induction T with
  | nil => simp [Tree.addrs, Tree.count]
  | fict => simp [Tree.addrs, Tree.count]
  | node l a c v r ihl ihr => simp only [Tree.addrs, Tree.count, List.length_append, List.length_cons, ihl, ihr]; omega

theorem Rep.live {m : Nat → Option (RBNode V)} {F : Nat} {chk : Bool} :
    ∀ (T : Tree V) (par : Option Nat), Rep m F chk T par → ∀ a ∈ T.addrs F, (m a).isSome
  | .nil, _, _, a, ha => by simp [Tree.addrs] at ha
  | .fict, _, h, a, ha => by
    simp only [Tree.addrs, List.mem_singleton] at ha
    obtain ⟨pp, g, hm, _⟩ := h
    simp [ha, hm]
  | .node l b c v r, _, h, a, ha => by
    obtain ⟨hm, hl, hr⟩ := h
    simp only [Tree.addrs, List.mem_append, List.mem_cons] at ha
    rcases ha with ha | rfl | ha
    · exact Rep.live l _ hl a ha
    · simp [hm]
    · exact Rep.live r _ hr a ha

theorem Rep.congr {m m' : Nat → Option (RBNode V)} {F : Nat} {chk : Bool} :
    ∀ (T : Tree V) (par : Option Nat), (∀ a ∈ T.addrs F, m' a = m a) →
      Rep m F chk T par → Rep m' F chk T par
  | .nil, _, _, _ => trivial
  | .fict, _, hag, h => by
    obtain ⟨pp, g, hm, hc⟩ := h
    exact ⟨pp, g, by rw [hag F (by simp [Tree.addrs]), hm], hc⟩
  | .node l b c v r, _, hag, h => by
    obtain ⟨hm, hl, hr⟩ := h
    refine ⟨by rw [hag b (by simp [Tree.addrs]), hm], ?_, ?_⟩
    · exact Rep.congr l _ (fun a ha => hag a (by simp [Tree.addrs, ha])) hl
    · exact Rep.congr r _ (fun a ha => hag a (by simp [Tree.addrs, ha])) hr

theorem Models.count_le {t : RBTree V} {chk : Bool} {T : Tree V} (h : Models t chk T) :
    T.count ≤ t.brk := by
  rw [← Tree.length_addrs t.fictional]
  have hsub : T.addrs t.fictional ⊆ List.range t.brk := by
    intro a ha
    rw [List.mem_range]
    by_contra hge
    have := Rep.live T none h.rep a ha
    rw [h.fresh a (by omega)] at this
    simp at this
  have := (List.subperm_of_subset h.nodup hsub).length_le
  simpa using this

theorem Tree.nodes_subset_addrs (F : Nat) (T : Tree V) : ∀ a ∈ T.nodes, a ∈ T.addrs F := by
  induction T with
  | nil => simp [Tree.nodes]
  | fict => simp [Tree.nodes]
  | node l b c v r ihl ihr =>
    intro a ha
    simp only [Tree.nodes, List.mem_append, List.mem_cons] at ha
    simp only [Tree.addrs, List.mem_append, List.mem_cons]
    rcases ha with ha | rfl | ha
    · exact Or.inl (ihl a ha)
    · exact Or.inr (Or.inl rfl)
    · exact Or.inr (Or.inr (ihr a ha))

/-! ## The descent of Find -/

theorem findPath_gt_node (P : Params K V) (key : K) (C : Ctx V) (l : Tree V) (a : Nat)
    (c : Color) (v : V) (rl : Tree V) (ra : Nat) (rc : Color) (rv : V) (rr : Tree V)
    (h1 : P.comp (P.conv v) key = true) :
    Tree.findPath P key C (.node l a c v (.node rl ra rc rv rr)) =
      Tree.findPath P key (.right l a c v C) (.node rl ra rc rv rr) := by
  cases l <;> simp [Tree.findPath, h1]

theorem findPath_gt_nil (P : Params K V) (key : K) (C : Ctx V) (l : Tree V) (a : Nat)
    (c : Color) (v : V) (h1 : P.comp (P.conv v) key = true) :
    Tree.findPath P key C (.node l a c v .nil) = (C, .node l a c v .nil) := by
  cases l <;> simp [Tree.findPath, h1]

theorem findPath_gt_fict (P : Params K V) (key : K) (C : Ctx V) (l : Tree V) (a : Nat)
    (c : Color) (v : V) (h1 : P.comp (P.conv v) key = true) :
    Tree.findPath P key C (.node l a c v .fict) = (C, .node l a c v .fict) := by
  cases l <;> simp [Tree.findPath, h1]

theorem findPath_lt_node (P : Params K V) (key : K) (C : Ctx V) (r : Tree V) (a : Nat)
    (c : Color) (v : V) (ll : Tree V) (la : Nat) (lc : Color) (lv : V) (lr : Tree V)
    (h1 : P.comp (P.conv v) key = false) (h2 : P.comp key (P.conv v) = true) :
    Tree.findPath P key C (.node (.node ll la lc lv lr) a c v r) =
      Tree.findPath P key (.left C a c v r) (.node ll la lc lv lr) := by
  cases r <;> simp [Tree.findPath, h1, h2]

theorem findPath_lt_nil (P : Params K V) (key : K) (C : Ctx V) (r : Tree V) (a : Nat)
    (c : Color) (v : V)
    (h1 : P.comp (P.conv v) key = false) (h2 : P.comp key (P.conv v) = true) :
    Tree.findPath P key C (.node .nil a c v r) = (C, .node .nil a c v r) := by
  cases r <;> simp [Tree.findPath, h1, h2]

theorem findPath_lt_fict (P : Params K V) (key : K) (C : Ctx V) (r : Tree V) (a : Nat)
    (c : Color) (v : V)
    (h1 : P.comp (P.conv v) key = false) (h2 : P.comp key (P.conv v) = true) :
    Tree.findPath P key C (.node .fict a c v r) = (.left C a c v r, .fict) := by
  cases r <;> simp [Tree.findPath, h1, h2]

theorem findPath_eq (P : Params K V) (key : K) (C : Ctx V) (l r : Tree V) (a : Nat)
    (c : Color) (v : V)
    (h1 : P.comp (P.conv v) key = false) (h2 : P.comp key (P.conv v) = false) :
    Tree.findPath P key C (.node l a c v r) = (C, .node l a c v r) := by
  cases l <;> cases r <;> simp [Tree.findPath, h1, h2]

theorem FindLoop_spec (P : Params K V) (t : RBTree V) (key : K) (chk : Bool) :
    ∀ (S : Tree V) (C : Ctx V) (par : Option Nat) (fuel a : Nat),
      Rep t.mem t.fictional chk S par → S.ptr t.fictional = some a →
      t.fictional ∉ S.nodes → S.height ≤ fuel →
      ∃ a', ((Tree.findPath P key C S).2).ptr t.fictional = some a' ∧
        FindLoop P t key fuel a = .ok a' := by
  intro S
  induction S with
  | nil => intro C par fuel a _ hp; simp [Tree.ptr] at hp
  | fict =>
    intro C par fuel a hrep hp _ hfuel
    simp only [Tree.ptr, Option.some.injEq] at hp
    subst hp
    obtain ⟨pp, g, hm, _⟩ := hrep
    obtain ⟨f, rfl⟩ : ∃ f, fuel = f + 1 := ⟨fuel - 1, by simp [Tree.height] at hfuel; omega⟩
    refine ⟨t.fictional, by simp [Tree.findPath, Tree.ptr], ?_⟩
    simp only [FindLoop, node_of_mem hm, ok_bind]
    split <;> [rfl; (split <;> rfl)]
  | node l b c v r ihl ihr =>
    intro C par fuel a hrep hp hF hfuel
    simp only [Tree.ptr, Option.some.injEq] at hp
    subst hp
    obtain ⟨hm, hl, hr⟩ := hrep
    obtain ⟨f, rfl⟩ : ∃ f, fuel = f + 1 := ⟨fuel - 1, by simp [Tree.height] at hfuel; omega⟩
    simp only [Tree.height] at hfuel
    simp only [Tree.nodes, List.mem_append, List.mem_cons, not_or] at hF
    simp only [FindLoop, node_of_mem hm, ok_bind]
    by_cases h1 : P.comp (P.conv v) key = true
    · simp only [h1, if_true]
      cases r with
      | nil => exact ⟨b, by simp [findPath_gt_nil, h1, Tree.ptr], by simp [Tree.ptr, pure_ok]⟩
      | fict => exact ⟨b, by simp [findPath_gt_fict, h1, Tree.ptr], by simp [Tree.ptr, pure_ok]⟩
      | node rl ra rc rv rr =>
        have hra : ra ≠ t.fictional := by
          intro h; apply hF.2.2; simp [Tree.nodes, h]
        obtain ⟨a', h1', h2'⟩ := ihr (.right l b c v C) (some b) f ra hr (by simp [Tree.ptr])
          hF.2.2 (by omega)
        refine ⟨a', by simpa [findPath_gt_node, h1] using h1', ?_⟩
        simp [Tree.ptr, hra, h2']
    · have h1 : P.comp (P.conv v) key = false := by simpa using h1
      simp only [h1, if_false, Bool.false_eq_true]
      by_cases h2 : P.comp key (P.conv v) = true
      · simp only [h2, if_true]
        cases l with
        | nil => exact ⟨b, by simp [findPath_lt_nil, h1, h2, Tree.ptr], by simp [Tree.ptr, pure_ok]⟩
        | fict =>
          obtain ⟨a', h1', h2'⟩ := ihl (.left C b c v r) (some b) f t.fictional hl
            (by simp [Tree.ptr]) (by simp [Tree.nodes]) (by omega)
          refine ⟨a', by simpa [findPath_lt_fict, Tree.findPath, h1, h2] using h1', ?_⟩
          simp [Tree.ptr, h2']
        | node ll la lc lv lr =>
          obtain ⟨a', h1', h2'⟩ := ihl (.left C b c v r) (some b) f la hl (by simp [Tree.ptr])
            hF.1 (by omega)
          refine ⟨a', by simpa [findPath_lt_node, h1, h2] using h1', ?_⟩
          simp [Tree.ptr, h2']
      · have h2 : P.comp key (P.conv v) = false := by simpa using h2
        refine ⟨b, by simp [findPath_eq, h1, h2, Tree.ptr], ?_⟩
        simp [h2, pure_ok]

theorem Tree.noFict_nodes (F : Nat) (T : Tree V) (h : T.noFict = true) :
    T.addrs F = T.nodes := by
  induction T with
  | nil => rfl
  | fict => simp [Tree.noFict] at h
  | node l a c v r ihl ihr =>
    simp only [Tree.noFict, Bool.and_eq_true] at h
    simp [Tree.addrs, Tree.nodes, ihl h.1, ihr h.2]

theorem Tree.endsFict_addrs (F : Nat) (T : Tree V) (h : T.endsFict = true) :
    T.addrs F = T.nodes ++ [F] := by
  induction T with
  | nil => simp [Tree.endsFict] at h
  | fict => rfl
  | node l a c v r ihl ihr =>
    simp only [Tree.endsFict, Bool.and_eq_true] at h
    simp [Tree.addrs, Tree.nodes, Tree.noFict_nodes F l h.1, ihr h.2]

theorem Models.fict_not_node {t : RBTree V} {chk : Bool} {T : Tree V} (h : Models t chk T)
    (hE : T.endsFict = true) : t.fictional ∉ T.nodes := by
  have := h.nodup
  rw [Tree.endsFict_addrs _ T hE] at this
  intro hmem
  have := List.disjoint_of_nodup_append this hmem
  simp at this

theorem rep_plug (m : Nat → Option (RBNode V)) (F : Nat) (chk : Bool) (rt : Nat) :
    ∀ (C : Ctx V) (S : Tree V),
      (Rep m F chk (C.plug S) none ∧ (C.plug S).ptr F = some rt) ↔
        (RepCtx m F chk rt C (S.ptr F) ∧ Rep m F chk S C.par)
  | .top, S => by simp only [Ctx.plug, RepCtx, Ctx.par]; tauto
  | .left up a c v r, S => by
    simp only [Ctx.plug, RepCtx, Ctx.par]
    rw [rep_plug m F chk rt up (.node S a c v r)]
    simp only [Rep, Tree.ptr]
    tauto
  | .right l a c v up, S => by
    simp only [Ctx.plug, RepCtx, Ctx.par]
    rw [rep_plug m F chk rt up (.node l a c v S)]
    simp only [Rep, Tree.ptr]
    tauto

theorem plug_addrs_perm (F : Nat) :
    ∀ (C : Ctx V) (S : Tree V), ((C.plug S).addrs F).Perm (S.addrs F ++ C.addrs F)
  | .top, S => by simp [Ctx.plug, Ctx.addrs]
  | .left up a c v r, S => by
    simp only [Ctx.plug, Ctx.addrs]
    refine (plug_addrs_perm F up (.node S a c v r)).trans ?_
    simp only [Tree.addrs, List.append_assoc, List.cons_append]
    exact List.Perm.refl _
  | .right l a c v up, S => by
    simp only [Ctx.plug, Ctx.addrs]
    refine (plug_addrs_perm F up (.node l a c v S)).trans ?_
    simp only [Tree.addrs, List.append_assoc, List.cons_append]
    rw [List.perm_iff_count]
    intro x
    simp only [List.count_append, List.count_cons]
    omega

theorem findPath_ind (P : Params K V) (key : K)
    {motive : Ctx V → Tree V → Ctx V × Tree V → Prop}
    (hnil : ∀ C, motive C .nil (C, .nil))
    (hfict : ∀ C, motive C .fict (C, .fict))
    (heq : ∀ C l a c v r, P.comp (P.conv v) key = false → P.comp key (P.conv v) = false →
      motive C (.node l a c v r) (C, .node l a c v r))
    (hgt_nil : ∀ C l a c v, P.comp (P.conv v) key = true →
      motive C (.node l a c v .nil) (C, .node l a c v .nil))
    (hgt_fict : ∀ C l a c v, P.comp (P.conv v) key = true →
      motive C (.node l a c v .fict) (C, .node l a c v .fict))
    (hgt_node : ∀ C l a c v rl ra rc rv rr, P.comp (P.conv v) key = true →
      motive (.right l a c v C) (.node rl ra rc rv rr)
        (Tree.findPath P key (.right l a c v C) (.node rl ra rc rv rr)) →
      motive C (.node l a c v (.node rl ra rc rv rr))
        (Tree.findPath P key (.right l a c v C) (.node rl ra rc rv rr)))
    (hlt_nil : ∀ C a c v r, P.comp (P.conv v) key = false → P.comp key (P.conv v) = true →
      motive C (.node .nil a c v r) (C, .node .nil a c v r))
    (hlt_fict : ∀ C a c v r, P.comp (P.conv v) key = false → P.comp key (P.conv v) = true →
      motive C (.node .fict a c v r) (.left C a c v r, .fict))
    (hlt_node : ∀ C ll la lc lv lr a c v r, P.comp (P.conv v) key = false →
      P.comp key (P.conv v) = true →
      motive (.left C a c v r) (.node ll la lc lv lr)
        (Tree.findPath P key (.left C a c v r) (.node ll la lc lv lr)) →
      motive C (.node (.node ll la lc lv lr) a c v r)
        (Tree.findPath P key (.left C a c v r) (.node ll la lc lv lr))) :
    ∀ (S : Tree V) (C : Ctx V), motive C S (Tree.findPath P key C S) := by
  intro S
  induction S with
  | nil => intro C; simpa [Tree.findPath] using hnil C
  | fict => intro C; simpa [Tree.findPath] using hfict C
  | node l a c v r ihl ihr =>
    intro C
    by_cases h1 : P.comp (P.conv v) key = true
    · cases r with
      | nil => rw [findPath_gt_nil P key C l a c v h1]; exact hgt_nil C l a c v h1
      | fict => rw [findPath_gt_fict P key C l a c v h1]; exact hgt_fict C l a c v h1
      | node rl ra rc rv rr =>
        rw [findPath_gt_node P key C l a c v rl ra rc rv rr h1]
        exact hgt_node C l a c v rl ra rc rv rr h1 (ihr _)
    · have h1 : P.comp (P.conv v) key = false := by simpa using h1
      by_cases h2 : P.comp key (P.conv v) = true
      · cases l with
        | nil => rw [findPath_lt_nil P key C r a c v h1 h2]; exact hlt_nil C a c v r h1 h2
        | fict => rw [findPath_lt_fict P key C r a c v h1 h2]; exact hlt_fict C a c v r h1 h2
        | node ll la lc lv lr =>
          rw [findPath_lt_node P key C r a c v ll la lc lv lr h1 h2]
          exact hlt_node C ll la lc lv lr a c v r h1 h2 (ihl _)
      · have h2 : P.comp key (P.conv v) = false := by simpa using h2
        rw [findPath_eq P key C l r a c v h1 h2]
        exact heq C l a c v r h1 h2

theorem findPath_plug (P : Params K V) (key : K) (S : Tree V) (C : Ctx V) :
    (Tree.findPath P key C S).1.plug (Tree.findPath P key C S).2 = C.plug S := by
  refine findPath_ind P key
    (motive := fun C S res => res.1.plug res.2 = C.plug S) ?_ ?_ ?_ ?_ ?_ ?_ ?_ ?_ ?_ S C
  all_goals intros
  all_goals first | rfl | (simp only [Ctx.plug] at *; assumption)

theorem plug_nodes_mem :
    ∀ (C : Ctx V) (S : Tree V) (a : Nat), a ∈ S.nodes → a ∈ (C.plug S).nodes
  | .top, S, a, h => h
  | .left up b c v r, S, a, h => by
    simp only [Ctx.plug]
    exact plug_nodes_mem up _ a (by simp [Tree.nodes, h])
  | .right l b c v up, S, a, h => by
    simp only [Ctx.plug]
    exact plug_nodes_mem up _ a (by simp [Tree.nodes, h])

theorem Models.findPath_rep {t : RBTree V} {chk : Bool} {T : Tree V} (hM : Models t chk T)
    (P : Params K V) (key : K) :
    RepCtx t.mem t.fictional chk t.root (Tree.findPath P key .top T).1
        ((Tree.findPath P key .top T).2.ptr t.fictional) ∧
      Rep t.mem t.fictional chk (Tree.findPath P key .top T).2
        (Tree.findPath P key .top T).1.par := by
  rw [← rep_plug, findPath_plug]
  exact ⟨hM.rep, hM.root⟩

theorem stopOf_fict_of (P : Params K V) (key : K) (l : Tree V) (a : Nat) (c : Color)
    (v : V) (h : P.comp (P.conv v) key = true) :
    Tree.stopOf P key (.node l a c v .fict) = .fict := by
  simp [Tree.stopOf, h]

theorem stopOf_node_of (P : Params K V) (key : K) (l : Tree V) (a : Nat) (c : Color)
    (v : V) (r : Tree V) (h : ¬ (P.comp (P.conv v) key = true ∧ r = .fict)) :
    Tree.stopOf P key (.node l a c v r) = .node l a c v r := by
  cases r with
  | nil => rfl
  | node _ _ _ _ _ => rfl
  | fict =>
    have : P.comp (P.conv v) key = false := by simpa using h
    simp [Tree.stopOf, this]

theorem Find_spec (P : Params K V) (t : RBTree V) (key : K) (chk : Bool) (T : Tree V)
    (hM : Models t chk T) (hF : t.fictional ∉ T.nodes) :
    ∃ a, (Tree.findStop P key T).ptr t.fictional = some a ∧ Find P t key = .ok a := by
  have hb : T.height ≤ t.budget := by
    have := T.height_le_count
    have := hM.count_le
    simp only [RBTree.budget]; omega
  obtain ⟨a', h1, h2⟩ := FindLoop_spec P t key chk T .top none t.budget t.root hM.rep hM.root hF hb
  have hrep := (hM.findPath_rep P key).2
  have hpl : _ = T := findPath_plug P key T .top
  simp only [Find, h2, ok_bind, Tree.findStop]
  generalize (Tree.findPath P key .top T).2 = s at h1 hrep hpl
  generalize (Tree.findPath P key .top T).1 = C at hrep hpl
  cases s with
  | nil => simp [Tree.ptr] at h1
  | fict =>
    simp only [Tree.ptr, Option.some.injEq] at h1
    subst h1
    obtain ⟨pp, g, hm, _⟩ := hrep
    refine ⟨t.fictional, rfl, ?_⟩
    simp [node_of_mem hm, ok_bind, pure_ok]
  | node l a c v r =>
    simp only [Tree.ptr, Option.some.injEq] at h1
    subst h1
    obtain ⟨hm, _, _⟩ := hrep
    simp only [node_of_mem hm, ok_bind]
    cases r with
    | nil => exact ⟨a, rfl, by simp [Tree.ptr, pure_ok]⟩
    | fict =>
      by_cases hc : P.comp (P.conv v) key = true
      · exact ⟨t.fictional, by simp [Tree.stopOf, hc, Tree.ptr], by simp [Tree.ptr, hc, pure_ok]⟩
      · exact ⟨a, by simp [Tree.stopOf, hc, Tree.ptr], by simp [Tree.ptr, hc, pure_ok]⟩
    | node rl ra rc rv rr =>
      have hra : ra ≠ t.fictional := by
        intro h
        apply hF
        rw [← hpl]
        exact plug_nodes_mem C _ _ (by simp [Tree.nodes, h])
      exact ⟨a, rfl, by simp [Tree.ptr, hra, pure_ok]⟩

/-! ## Order facts -/

theorem StrictWeakOrder.lt_equiv {comp : K → K → Bool} (sw : StrictWeakOrder comp)
    {a b c : K} (h : comp a b = true) (h1 : comp b c = false) (h2 : comp c b = false) :
    comp a c = true := by
  by_contra hac
  have hac : comp a c = false := by simpa using hac
  have hca : comp c a = false := by
    by_contra hca
    have := sw.trans c a b (by simpa using hca) h
    simp [this] at h2
  have := (sw.incomp a c b hac hca h2 h1).1
  simp [this] at h

theorem StrictWeakOrder.equiv_lt {comp : K → K → Bool} (sw : StrictWeakOrder comp)
    {a b c : K} (h1 : comp a b = false) (h2 : comp b a = false) (h : comp b c = true) :
    comp a c = true := by
  by_contra hac
  have hac : comp a c = false := by simpa using hac
  have hca : comp c a = false := by
    by_contra hca
    have := sw.trans b c a h (by simpa using hca)
    simp [this] at h2
  have := (sw.incomp b a c h2 h1 hac hca).1
  simp [this] at h

theorem StrictWeakOrder.asymm {comp : K → K → Bool} (sw : StrictWeakOrder comp)
    {a b : K} (h : comp a b = true) : comp b a = false := by
  by_contra hba
  have := sw.trans a b a h (by simpa using hba)
  simp [sw.irrefl] at this

theorem Tree.Ordered_node (P : Params K V) (l : Tree V) (a : Nat) (c : Color) (v : V)
    (r : Tree V) :
    (Tree.node l a c v r).Ordered P ↔
      l.Ordered P ∧ r.Ordered P ∧
      (∀ x ∈ l.inorder, P.comp (P.conv v) (P.conv x) = false) ∧
      (∀ y ∈ r.inorder, P.comp (P.conv y) (P.conv v) = false) ∧
      (∀ x ∈ l.inorder, ∀ y ∈ r.inorder, P.comp (P.conv y) (P.conv x) = false) := by
  simp only [Tree.Ordered, Tree.inorder, List.pairwise_append, List.pairwise_cons,
    List.mem_cons]
  constructor
  · rintro ⟨hl, ⟨hv, hr⟩, hlr⟩
    exact ⟨hl, hr, fun x hx => hlr x hx v (Or.inl rfl), hv,
      fun x hx y hy => hlr x hx y (Or.inr hy)⟩
  · rintro ⟨hl, hr, h1, h2, h3⟩
    refine ⟨hl, ⟨h2, hr⟩, ?_⟩
    rintro x hx y (rfl | hy)
    · exact h1 x hx
    · exact h3 x hx y hy

theorem plug_inorder_mem :
    ∀ (C : Ctx V) (S : Tree V) (x : V), x ∈ S.inorder → x ∈ (C.plug S).inorder
  | .top, S, x, h => h
  | .left up b c v r, S, x, h => by
    simp only [Ctx.plug]
    exact plug_inorder_mem up _ x (by simp [Tree.inorder, h])
  | .right l b c v up, S, x, h => by
    simp only [Ctx.plug]
    exact plug_inorder_mem up _ x (by simp [Tree.inorder, h])

/-! ## What the descent of Find reaches -/

theorem findPath_finds (P : Params K V) (sw : StrictWeakOrder P.comp) (key : K)
    (S : Tree V) (C : Ctx V) (hS : S.Ordered P)
    (hex : ∃ u ∈ S.inorder, P.equiv (P.conv u) key = true) :
    ∃ l a c v r, (Tree.findPath P key C S).2 = .node l a c v r ∧
      P.equiv (P.conv v) key = true := by
  revert hS hex
  refine findPath_ind P key
    (motive := fun C S res => S.Ordered P →
      (∃ u ∈ S.inorder, P.equiv (P.conv u) key = true) →
      ∃ l a c v r, res.2 = .node l a c v r ∧ P.equiv (P.conv v) key = true)
    ?_ ?_ ?_ ?_ ?_ ?_ ?_ ?_ ?_ S C
  · intro C _ ⟨u, hu, _⟩; simp [Tree.inorder] at hu
  · intro C _ ⟨u, hu, _⟩; simp [Tree.inorder] at hu
  · intro C l a c v r h1 h2 _ _
    exact ⟨l, a, c, v, r, rfl, by simp [Params.equiv, h1, h2]⟩
  · intro C l a c v h1 hO ⟨u, hu, he⟩
    exfalso
    rw [Tree.Ordered_node] at hO
    simp only [Params.equiv, Bool.and_eq_true, Bool.not_eq_true'] at he
    simp only [Tree.inorder, List.mem_append, List.mem_cons, List.not_mem_nil, or_false] at hu
    rcases hu with hu | rfl
    · have := sw.lt_equiv h1 he.2 he.1
      simp [hO.2.2.1 u hu] at this
    · simp [h1] at he
  · intro C l a c v h1 hO ⟨u, hu, he⟩
    exfalso
    rw [Tree.Ordered_node] at hO
    simp only [Params.equiv, Bool.and_eq_true, Bool.not_eq_true'] at he
    simp only [Tree.inorder, List.mem_append, List.mem_cons, List.not_mem_nil, or_false] at hu
    rcases hu with hu | rfl
    · have := sw.lt_equiv h1 he.2 he.1
      simp [hO.2.2.1 u hu] at this
    · simp [h1] at he
  · intro C l a c v rl ra rc rv rr h1 ih hO ⟨u, hu, he⟩
    rw [Tree.Ordered_node] at hO
    apply ih hO.2.1
    refine ⟨u, ?_, he⟩
    simp only [Params.equiv, Bool.and_eq_true, Bool.not_eq_true'] at he
    simp only [Tree.inorder, List.mem_append, List.mem_cons] at hu
    rcases hu with hu | rfl | hu
    · exfalso
      have := sw.lt_equiv h1 he.2 he.1
      simp [hO.2.2.1 u hu] at this
    · simp [h1] at he
    · simpa [Tree.inorder] using hu
  · intro C a c v r h1 h2 hO ⟨u, hu, he⟩
    exfalso
    rw [Tree.Ordered_node] at hO
    simp only [Params.equiv, Bool.and_eq_true, Bool.not_eq_true'] at he
    simp only [Tree.inorder, List.mem_append, List.mem_cons, List.not_mem_nil, false_or] at hu
    rcases hu with rfl | hu
    · simp [h2] at he
    · have := sw.equiv_lt he.1 he.2 h2
      simp [hO.2.2.2.1 u hu] at this
  · intro C a c v r h1 h2 hO ⟨u, hu, he⟩
    exfalso
    rw [Tree.Ordered_node] at hO
    simp only [Params.equiv, Bool.and_eq_true, Bool.not_eq_true'] at he
    simp only [Tree.inorder, List.mem_append, List.mem_cons, List.not_mem_nil, false_or] at hu
    rcases hu with rfl | hu
    · simp [h2] at he
    · have := sw.equiv_lt he.1 he.2 h2
      simp [hO.2.2.2.1 u hu] at this
  · intro C ll la lc lv lr a c v r h1 h2 ih hO ⟨u, hu, he⟩
    rw [Tree.Ordered_node] at hO
    apply ih hO.1
    refine ⟨u, ?_, he⟩
    simp only [Params.equiv, Bool.and_eq_true, Bool.not_eq_true'] at he
    simp only [Tree.inorder, List.mem_append, List.mem_cons] at hu
    rcases hu with hu | rfl | hu
    · simpa [Tree.inorder] using hu
    · simp [h2] at he
    · exfalso
      have := sw.equiv_lt he.1 he.2 h2
      simp [hO.2.2.2.1 u hu] at this

theorem findPath_searched (P : Params K V) (key : K) (S : Tree V) (C : Ctx V)
    (hC : C.searched P key) : (Tree.findPath P key C S).1.searched P key := by
  revert hC
  refine findPath_ind P key
    (motive := fun C S res => C.searched P key → res.1.searched P key)
    ?_ ?_ ?_ ?_ ?_ ?_ ?_ ?_ ?_ S C
  · intro C hC; exact hC
  · intro C hC; exact hC
  · intro C l a c v r _ _ hC; exact hC
  · intro C l a c v _ hC; exact hC
  · intro C l a c v _ hC; exact hC
  · intro C l a c v rl ra rc rv rr h1 ih hC; exact ih ⟨h1, hC⟩
  · intro C a c v r _ _ hC; exact hC
  · intro C a c v r _ h2 hC; exact ⟨h2, hC⟩
  · intro C ll la lc lv lr a c v r _ h2 ih hC; exact ih ⟨h2, hC⟩

/-- What Find returns on a laid out tree: the end marker, or a value-holding node of the
tree together with its record in the store. -/
theorem Find_cases (P : Params K V) (t : RBTree V) (key : K) (chk : Bool) (T : Tree V)
    (hM : Models t chk T) (hF : t.fictional ∉ T.nodes) :
    (Tree.findStop P key T = .fict ∧ Find P t key = .ok t.fictional ∧
      ∃ pp g, t.mem t.fictional = some ⟨pp, none, none, g, Color.Black⟩) ∨
    (∃ C l a c v r, Tree.findPath P key .top T = (C, .node l a c v r) ∧
      Tree.findStop P key T = .node l a c v r ∧ Find P t key = .ok a ∧
      t.mem a = some ⟨C.par, l.ptr t.fictional, r.ptr t.fictional, v, c⟩ ∧
      a ≠ t.fictional ∧ v ∈ T.inorder ∧ a ∈ T.nodes ∧
      ¬ (P.comp (P.conv v) key = true ∧ r = .fict)) := by
  obtain ⟨a, h1, h2⟩ := Find_spec P t key chk T hM hF
  have hrep := hM.findPath_rep P key
  have hpl : _ = T := findPath_plug P key T .top
  simp only [Tree.findStop] at h1 ⊢
  rcases hfp : Tree.findPath P key .top T with ⟨C, s⟩
  rw [hfp] at hrep hpl h1
  simp only at hrep hpl h1 ⊢
  cases s with
  | nil => simp [Tree.ptr, Tree.stopOf] at h1
  | fict =>
    left
    simp only [Tree.ptr, Tree.stopOf, Option.some.injEq] at h1
    subst h1
    exact ⟨rfl, h2, by obtain ⟨pp, g, hm, _⟩ := hrep.2; exact ⟨pp, g, hm⟩⟩
  | node l b c v r =>
    have hbT : b ∈ T.nodes := by
      rw [← hpl]; exact plug_nodes_mem C _ _ (by simp [Tree.nodes])
    have hvT : v ∈ T.inorder := by
      rw [← hpl]; exact plug_inorder_mem C _ _ (by simp [Tree.inorder])
    have hbF : b ≠ t.fictional := fun h => hF (h ▸ hbT)
    by_cases hc : P.comp (P.conv v) key = true ∧ r = .fict
    · left
      obtain ⟨hc1, rfl⟩ := hc
      rw [stopOf_fict_of P key l b c v hc1] at h1
      simp only [Tree.ptr, Option.some.injEq] at h1
      subst h1
      refine ⟨stopOf_fict_of P key l b c v hc1, h2, ?_⟩
      obtain ⟨pp, g, hm, _⟩ := hrep.2.2.2
      exact ⟨pp, g, hm⟩
    · right
      have hst := stopOf_node_of P key l b c v r hc
      refine ⟨C, l, b, c, v, r, rfl, hst, ?_, hrep.2.1, hbF, hvT, hbT, hc⟩
      rw [hst] at h1
      simp only [Tree.ptr, Option.some.injEq] at h1
      rw [h1]; exact h2

theorem contains_find_spec (P : Params K V) (sw : StrictWeakOrder P.comp) (t : RBTree V)
    (chk : Bool) (T : Tree V) (hM : Models t chk T) (hE : T.endsFict = true)
    (hO : T.Ordered P) (k : K) :
    ∃ b it, t.contains P k = .ok b ∧ t.find P k = .ok it ∧
      (b = true ↔ ∃ v ∈ T.inorder, P.equiv (P.conv v) k = true) ∧
      (it = t.end ↔ b = false) := by
  have hF := hM.fict_not_node hE
  rcases Find_cases P t k chk T hM hF with ⟨hs, hf, pp, g, hm⟩ | ⟨C, l, a, c, v, r, hfp, hs, hf, hm, haF, hv, ha, hc⟩
  · refine ⟨false, t.fictional, ?_, ?_, ?_, by simp [RBTree.end]⟩
    · simp [RBTree.contains, hf, ok_bind, pure_ok]
    · simp only [RBTree.find, hf, ok_bind, node_of_mem hm, RBTree.end]
      split <;> rfl
    · simp only [Bool.false_eq_true, false_iff]
      intro hex
      obtain ⟨l, a, c, v, r, h1, h2⟩ := findPath_finds P sw k T .top hO hex
      simp only [Tree.findStop, h1] at hs
      simp only [Params.equiv, Bool.and_eq_true, Bool.not_eq_true'] at h2
      rw [stopOf_node_of P k l a c v r (by simp [h2.1])] at hs
      simp at hs
  · refine ⟨P.equiv (P.conv v) k, if P.equiv (P.conv v) k then a else t.fictional, ?_, ?_, ?_, ?_⟩
    · simp [RBTree.contains, hf, ok_bind, pure_ok, haF, node_of_mem hm, Params.equiv, Bool.and_comm]
    · simp only [RBTree.find, hf, ok_bind, node_of_mem hm, RBTree.end, Params.equiv, pure_ok]
      by_cases h1 : P.comp k (P.conv v) = true <;> by_cases h2 : P.comp (P.conv v) k = true <;>
        simp [h1, h2]
    · constructor
      · intro h; exact ⟨v, hv, h⟩
      · intro hex
        obtain ⟨l', a', c', v', r', h1, h2⟩ := findPath_finds P sw k T .top hO hex
        rw [hfp] at h1
        simp only [Tree.node.injEq] at h1
        rw [h1.2.2.2.1]; exact h2
    · by_cases h : P.equiv (P.conv v) k = true
      · simp [h, RBTree.end, haF]
      · simp [h, RBTree.end]

theorem Find_equal (P : Params K V) (sw : StrictWeakOrder P.comp) (t : RBTree V)
    (chk : Bool) (T : Tree V) (hM : Models t chk T) (hE : T.endsFict = true)
    (hO : T.Ordered P) (k : K) (hex : ∃ v ∈ T.inorder, P.equiv (P.conv v) k = true) :
    ∃ a n, Find P t k = .ok a ∧ a ≠ t.fictional ∧ t.mem a = some n ∧ a ∈ T.nodes ∧
      n.val ∈ T.inorder ∧ P.equiv (P.conv n.val) k = true := by
  have hF := hM.fict_not_node hE
  obtain ⟨l', a', c', v', r', h1, h2⟩ := findPath_finds P sw k T .top hO hex
  rcases Find_cases P t k chk T hM hF with ⟨hs, hf, pp, g, hm⟩ | ⟨C, l, a, c, v, r, hfp, hs, hf, hm, haF, hv, ha, hc⟩
  · exfalso
    simp only [Tree.findStop, h1] at hs
    simp only [Params.equiv, Bool.and_eq_true, Bool.not_eq_true'] at h2
    rw [stopOf_node_of P k l' a' c' v' r' (by simp [h2.1])] at hs
    simp at hs
  · rw [hfp] at h1
    simp only [Tree.node.injEq] at h1
    refine ⟨a, _, hf, haF, hm, ha, hv, ?_⟩
    simp only
    rw [h1.2.2.2.1]; exact h2

theorem insert_equal_rejected (P : Params K V) (sw : StrictWeakOrder P.comp)
    (hmulti : P.IsMulti = false) (t : RBTree V) (chk : Bool) (T : Tree V)
    (hM : Models t chk T) (hE : T.endsFict = true) (hO : T.Ordered P) (x : V)
    (hex : ∃ v ∈ T.inorder, P.equiv (P.conv v) (P.conv x) = true) :
    Insert P t x = .ok (t, none) ∧ InsertMove P t x = .ok (t, none) ∧
      t.insert P x = .ok t ∧ t.insertMove P x = .ok t ∧ t.emplace P x = .ok t := by
  obtain ⟨a, n, hf, haF, hm, _, _, he⟩ := Find_equal P sw t chk T hM hE hO (P.conv x) hex
  simp only [Params.equiv, Bool.and_eq_true, Bool.not_eq_true'] at he
  have hat : attachNew P t x a = .ok none := by
    simp [attachNew, haF, node_of_mem hm, ok_bind, he.1, he.2, pure_ok]
  have h1 : Insert P t x = .ok (t, none) := by
    simp [Insert, hf, ok_bind, hat, hmulti, pure_ok]
  have h2 : InsertMove P t x = .ok (t, none) := by
    simp [InsertMove, hf, ok_bind, hat, hmulti, pure_ok]
  refine ⟨h1, h2, ?_, ?_, ?_⟩
  · simp [RBTree.insert, h1, ok_bind, pure_ok]
  · simp [RBTree.insertMove, h2, ok_bind, pure_ok]
  · simp [RBTree.emplace, h2, ok_bind, pure_ok]

/-! ## Updates of the store under a laid out tree -/

@[simp] theorem put_mem_self (t : RBTree V) (a : Nat) (n : RBNode V) :
    (t.put a n).mem a = some n := by simp [RBTree.put]

theorem put_mem_ne (t : RBTree V) {a b : Nat} (n : RBNode V) (h : b ≠ a) :
    (t.put a n).mem b = t.mem b := by simp [RBTree.put, h]

theorem put_mem_ne' (t : RBTree V) {a b : Nat} (n : RBNode V) (h : a ≠ b) :
    (t.put a n).mem b = t.mem b := by simp [RBTree.put, h.symm]

@[simp] theorem put_brk (t : RBTree V) (a : Nat) (n : RBNode V) : (t.put a n).brk = t.brk := rfl
@[simp] theorem put_root (t : RBTree V) (a : Nat) (n : RBNode V) : (t.put a n).root = t.root := rfl
@[simp] theorem put_fictional (t : RBTree V) (a : Nat) (n : RBNode V) :
    (t.put a n).fictional = t.fictional := rfl
@[simp] theorem put_size (t : RBTree V) (a : Nat) (n : RBNode V) : (t.put a n).size = t.size := rfl

theorem Tree.ptr_mem_addrs {F : Nat} {S : Tree V} {q : Nat} (h : S.ptr F = some q) :
    q ∈ S.addrs F := by
  cases S with
  | nil => simp [Tree.ptr] at h
  | fict => simp only [Tree.ptr, Option.some.injEq] at h; simp [Tree.addrs, h]
  | node l a c v r => simp only [Tree.ptr, Option.some.injEq] at h; simp [Tree.addrs, h]

theorem Rep.put {t : RBTree V} {F : Nat} {chk : Bool} {T : Tree V} {par : Option Nat}
    {a : Nat} (n : RBNode V) (ha : a ∉ T.addrs F) (h : Rep t.mem F chk T par) :
    Rep (t.put a n).mem F chk T par := by
  refine Rep.congr T par (fun b hb => ?_) h
  exact put_mem_ne t n (fun e => ha (e ▸ hb))

theorem RepCtx.congr_ctx {m m' : Nat → Option (RBNode V)} {F : Nat} {chk : Bool} {rt : Nat} :
    ∀ (C : Ctx V) (p : Option Nat), (∀ a ∈ C.addrs F, m' a = m a) →
      RepCtx m F chk rt C p → RepCtx m' F chk rt C p
  | .top, _, _, h => h
  | .left up b c v r, p, hag, h => by
    obtain ⟨hm, hr, hup⟩ := h
    refine ⟨by rw [hag b (by simp [Ctx.addrs]), hm], ?_, ?_⟩
    · exact Rep.congr r _ (fun a ha => hag a (by simp [Ctx.addrs, ha])) hr
    · exact RepCtx.congr_ctx up _ (fun a ha => hag a (by simp [Ctx.addrs, ha])) hup
  | .right l b c v up, p, hag, h => by
    obtain ⟨hm, hl, hup⟩ := h
    refine ⟨by rw [hag b (by simp [Ctx.addrs]), hm], ?_, ?_⟩
    · exact Rep.congr l _ (fun a ha => hag a (by simp [Ctx.addrs, ha])) hl
    · exact RepCtx.congr_ctx up _ (fun a ha => hag a (by simp [Ctx.addrs, ha])) hup

theorem RepCtx.put_ctx {t : RBTree V} {F : Nat} {chk : Bool} {rt : Nat} {C : Ctx V}
    {p : Option Nat} {a : Nat} (n : RBNode V) (ha : a ∉ C.addrs F)
    (h : RepCtx t.mem F chk rt C p) : RepCtx (t.put a n).mem F chk rt C p := by
  refine RepCtx.congr_ctx C p (fun b hb => ?_) h
  exact put_mem_ne t n (fun e => ha (e ▸ hb))

theorem plug_addrs_congr (F : Nat) :
    ∀ (C : Ctx V) (S S' : Tree V), S.addrs F = S'.addrs F →
      (C.plug S).addrs F = (C.plug S').addrs F
  | .top, S, S', h => h
  | .left up a c v r, S, S', h => by
    simp only [Ctx.plug]
    exact plug_addrs_congr F up _ _ (by simp [Tree.addrs, h])
  | .right l a c v up, S, S', h => by
    simp only [Ctx.plug]
    exact plug_addrs_congr F up _ _ (by simp [Tree.addrs, h])

theorem Models.decomp {t : RBTree V} {chk : Bool} {C : Ctx V} {S : Tree V}
    (h : Models t chk (C.plug S)) :
    RepCtx t.mem t.fictional chk t.root C (S.ptr t.fictional) ∧
      Rep t.mem t.fictional chk S C.par ∧
      (S.addrs t.fictional ++ C.addrs t.fictional).Nodup := by
  have := (rep_plug t.mem t.fictional chk t.root C S).1 ⟨h.rep, h.root⟩
  exact ⟨this.1, this.2, (plug_addrs_perm t.fictional C S).nodup_iff.1 h.nodup⟩

theorem Models.compose {t : RBTree V} {chk : Bool} {C : Ctx V} {S : Tree V}
    (h1 : RepCtx t.mem t.fictional chk t.root C (S.ptr t.fictional))
    (h2 : Rep t.mem t.fictional chk S C.par)
    (h3 : (S.addrs t.fictional ++ C.addrs t.fictional).Nodup)
    (h4 : ∀ a, t.brk ≤ a → t.mem a = none) : Models t chk (C.plug S) := by
  have := (rep_plug t.mem t.fictional chk t.root C S).2 ⟨h1, h2⟩
  exact ⟨this.1, this.2, (plug_addrs_perm t.fictional C S).nodup_iff.2 h3, h4⟩

theorem Models.cell {t : RBTree V} {chk : Bool} {C : Ctx V} {l r : Tree V} {a : Nat}
    {c : Color} {v : V} (h : Models t chk (C.plug (.node l a c v r))) :
    t.mem a = some ⟨C.par, l.ptr t.fictional, r.ptr t.fictional, v, c⟩ :=
  h.decomp.2.1.1

theorem RepCtx.relink_left {t : RBTree V} {F : Nat} {chk : Bool} {up : Ctx V} {z : Nat}
    {zc : Color} {zv : V} {zr : Tree V} {p : Option Nat} (q : Option Nat)
    (h : RepCtx t.mem F chk t.root (.left up z zc zv zr) p)
    (h1 : z ∉ zr.addrs F) (h2 : z ∉ up.addrs F) :
    RepCtx (t.put z ⟨up.par, q, zr.ptr F, zv, zc⟩).mem F chk t.root (.left up z zc zv zr) q := by
  obtain ⟨hm, hr, hup⟩ := h
  exact ⟨put_mem_self _ _ _, Rep.put _ h1 hr, RepCtx.put_ctx _ h2 hup⟩

theorem RepCtx.relink_right {t : RBTree V} {F : Nat} {chk : Bool} {up : Ctx V} {z : Nat}
    {zc : Color} {zv : V} {zl : Tree V} {p : Option Nat} (q : Option Nat)
    (h : RepCtx t.mem F chk t.root (.right zl z zc zv up) p)
    (h1 : z ∉ zl.addrs F) (h2 : z ∉ up.addrs F) :
    RepCtx (t.put z ⟨up.par, zl.ptr F, q, zv, zc⟩).mem F chk t.root (.right zl z zc zv up) q := by
  obtain ⟨hm, hl, hup⟩ := h
  exact ⟨put_mem_self _ _ _, Rep.put _ h1 hl, RepCtx.put_ctx _ h2 hup⟩

/-- Setting the parent pointer of the root of a laid out subtree. -/
theorem Rep.reparent {t : RBTree V} {chk : Bool} {B : Tree V} {par : Option Nat}
    (par' : Option Nat) (h : Rep t.mem t.fictional chk B par)
    (hnd : (B.addrs t.fictional).Nodup) :
    ∃ t', t.setParentIf (B.ptr t.fictional) par' = .ok t' ∧
      Rep t'.mem t.fictional chk B par' ∧ t'.brk = t.brk ∧ t'.root = t.root ∧
      t'.fictional = t.fictional ∧ t'.size = t.size ∧
      (∀ a, a ∉ B.addrs t.fictional → t'.mem a = t.mem a) ∧
      (∀ a, t.mem a = none → t'.mem a = none) := by
  cases B with
  | nil => exact ⟨t, rfl, trivial, rfl, rfl, rfl, rfl, fun _ _ => rfl, fun _ h => h⟩
  | fict =>
    obtain ⟨pp, g, hm, hc⟩ := h
    refine ⟨t.put t.fictional ⟨par', none, none, g, Color.Black⟩, ?_, ?_, rfl, rfl, rfl, rfl, ?_, ?_⟩
    · simp [Tree.ptr, RBTree.setParent, RBTree.setParentIf, hm]
    · exact ⟨par', g, by simp, fun _ => rfl⟩
    · intro a ha
      exact put_mem_ne _ _ (by simpa [Tree.addrs] using ha)
    · intro a ha
      rw [put_mem_ne]; exact ha
      rintro rfl; simp [hm] at ha
  | node l b c v r =>
    obtain ⟨hm, hl, hr⟩ := h
    simp only [Tree.addrs] at hnd
    have hbl : b ∉ l.addrs t.fictional := by
      intro hb
      have := (List.nodup_append.1 hnd).2.2 hb (by simp)
      exact this
    have hbr : b ∉ r.addrs t.fictional := by
      have := (List.nodup_append.1 hnd).2.1
      exact (List.nodup_cons.1 this).1
    refine ⟨t.put b ⟨par', l.ptr t.fictional, r.ptr t.fictional, v, c⟩, ?_, ?_, rfl, rfl, rfl, rfl, ?_, ?_⟩
    · simp [Tree.ptr, RBTree.setParent, RBTree.setParentIf, hm]
    · exact ⟨by simp, Rep.put _ hbl hl, Rep.put _ hbr hr⟩
    · intro a ha
      exact put_mem_ne _ _ (by intro e; apply ha; simp [Tree.addrs, e])
    · intro a ha
      rw [put_mem_ne]; exact ha
      rintro rfl; simp [hm] at ha

@[simp] theorem Tree.ptr_nil (F : Nat) : (Tree.nil : Tree V).ptr F = none := rfl
@[simp] theorem Tree.ptr_fict (F : Nat) : (Tree.fict : Tree V).ptr F = some F := rfl
@[simp] theorem Tree.ptr_node (F : Nat) (l : Tree V) (a : Nat) (c : Color) (v : V)
    (r : Tree V) : (Tree.node l a c v r).ptr F = some a := rfl

@[simp] theorem Ctx.par_top : (Ctx.top : Ctx V).par = none := rfl
@[simp] theorem Ctx.par_left (up : Ctx V) (a : Nat) (c : Color) (v : V) (r : Tree V) :
    (Ctx.left up a c v r).par = some a := rfl
@[simp] theorem Ctx.par_right (l : Tree V) (a : Nat) (c : Color) (v : V) (up : Ctx V) :
    (Ctx.right l a c v up).par = some a := rfl

theorem Rep.put_iff {t : RBTree V} {F : Nat} {chk : Bool} {T : Tree V} {par : Option Nat}
    {a : Nat} {n : RBNode V} (ha : a ∉ T.addrs F) :
    Rep (t.put a n).mem F chk T par ↔ Rep t.mem F chk T par := by
  constructor
  · intro h
    refine Rep.congr T par (fun b hb => ?_) h
    exact (put_mem_ne t n (fun (e : b = a) => ha (e ▸ hb))).symm
  · exact Rep.put n ha

theorem RepCtx.put_iff_ctx {t : RBTree V} {F : Nat} {chk : Bool} {rt : Nat} {C : Ctx V}
    {p : Option Nat} {a : Nat} {n : RBNode V} (ha : a ∉ C.addrs F) :
    RepCtx (t.put a n).mem F chk rt C p ↔ RepCtx t.mem F chk rt C p := by
  constructor
  · intro h
    refine RepCtx.congr_ctx C p (fun b hb => ?_) h
    exact (put_mem_ne t n (fun (e : b = a) => ha (e ▸ hb))).symm
  · exact RepCtx.put_ctx n ha

theorem Tree.ptr_ne_of_not_mem {F : Nat} {S : Tree V} {q : Nat} (h : q ∉ S.addrs F) :
    S.ptr F ≠ some q := fun e => h (Tree.ptr_mem_addrs e)

theorem Same.refl (t : RBTree V) : Same t t := ⟨rfl, rfl, rfl, fun _ h => h⟩

theorem Same.trans {t t' t'' : RBTree V} (h1 : Same t t') (h2 : Same t' t'') : Same t t'' :=
  ⟨h2.brk.trans h1.brk, h2.fictional.trans h1.fictional, h2.size.trans h1.size,
    fun a h => h2.dead a (h1.dead a h)⟩

theorem Same.of_put {t : RBTree V} {a : Nat} {n : RBNode V} (n' : RBNode V)
    (h : t.mem a = some n) : Same t (t.put a n') :=
  ⟨rfl, rfl, rfl, fun b hb => by
    rw [put_mem_ne]; exact hb
    rintro rfl; simp [h] at hb⟩

theorem Same.fresh {t t' : RBTree V} (h : Same t t') (hf : ∀ a, t.brk ≤ a → t.mem a = none) :
    ∀ a, t'.brk ≤ a → t'.mem a = none :=
  fun a ha => h.dead a (hf a (h.brk ▸ ha))

theorem replaceChild_spec {t : RBTree V} {chk : Bool} {C : Ctx V} {x : Nat} {n : RBNode V}
    (q : Option Nat)
    (hC : RepCtx t.mem t.fictional chk t.root C (some x)) (hx : t.mem x = some n)
    (hpar : n.parent = C.par) (hxC : x ∉ C.addrs t.fictional)
    (hnd : (C.addrs t.fictional).Nodup) (hq : C = .top → q.isSome = true) :
    ∃ t1, t.replaceChild x q = .ok t1 ∧
      RepCtx t1.mem t.fictional chk t1.root C q ∧
      (∀ a, a ∉ C.addrs t.fictional → t1.mem a = t.mem a) ∧ Same t t1 := by
  cases C with
  | top =>
    obtain ⟨r, rfl⟩ := Option.isSome_iff_exists.1 (hq rfl)
    refine ⟨{ t with root := r }, ?_, rfl, fun _ _ => rfl, ⟨rfl, rfl, rfl, fun _ h => h⟩⟩
    simp only [Ctx.par_top] at hpar
    simp [RBTree.replaceChild, node_of_mem hx, ok_bind, hpar, pure_ok]
  | left up z zc zv zr =>
    obtain ⟨hz, hzr, hup⟩ := hC
    simp only [Ctx.addrs, List.nodup_cons, List.mem_append, not_or, List.mem_cons,
      List.nodup_append] at hnd hxC
    simp only [Ctx.par_left] at hpar
    refine ⟨t.put z ⟨up.par, q, zr.ptr t.fictional, zv, zc⟩, ?_, ?_, ?_, Same.of_put _ hz⟩
    · simp [RBTree.replaceChild, node_of_mem hx, ok_bind, hpar, node_of_mem hz, RBTree.setLeft, hz]
    · exact ⟨put_mem_self _ _ _, Rep.put _ (by tauto) hzr, RepCtx.put_ctx _ (by tauto) hup⟩
    · intro a ha
      exact put_mem_ne _ _ (by intro e; apply ha; simp [Ctx.addrs, e])
  | right zl z zc zv up =>
    obtain ⟨hz, hzl, hup⟩ := hC
    simp only [Ctx.addrs, List.nodup_cons, List.mem_append, not_or, List.mem_cons,
      List.nodup_append] at hnd hxC
    simp only [Ctx.par_right] at hpar
    have hne : zl.ptr t.fictional ≠ some x := Tree.ptr_ne_of_not_mem (by tauto)
    refine ⟨t.put z ⟨up.par, zl.ptr t.fictional, q, zv, zc⟩, ?_, ?_, ?_, Same.of_put _ hz⟩
    · simp [RBTree.replaceChild, node_of_mem hx, ok_bind, hpar, node_of_mem hz, RBTree.setRight, hz, hne]
    · exact ⟨put_mem_self _ _ _, Rep.put _ (by tauto) hzl, RepCtx.put_ctx _ (by tauto) hup⟩
    · intro a ha
      exact put_mem_ne _ _ (by intro e; apply ha; simp [Ctx.addrs, e])

theorem setParent_put {t : RBTree V} {a : Nat} {n : RBNode V} (p : Option Nat)
    (h : t.mem a = some n) : t.setParent (some a) p = .ok (t.put a { n with parent := p }) := by
  simp [RBTree.setParent, h]

theorem setLeft_put {t : RBTree V} {a : Nat} {n : RBNode V} (p : Option Nat)
    (h : t.mem a = some n) : t.setLeft (some a) p = .ok (t.put a { n with left := p }) := by
  simp [RBTree.setLeft, h]

theorem setRight_put {t : RBTree V} {a : Nat} {n : RBNode V} (p : Option Nat)
    (h : t.mem a = some n) : t.setRight (some a) p = .ok (t.put a { n with right := p }) := by
  simp [RBTree.setRight, h]

theorem setColor_put {t : RBTree V} {a : Nat} {n : RBNode V} (c : Color)
    (h : t.mem a = some n) : t.setColor (some a) c = .ok (t.put a { n with color := c }) := by
  simp [RBTree.setColor, h]

theorem setVal_put {t : RBTree V} {a : Nat} {n : RBNode V} (v : V)
    (h : t.mem a = some n) : t.setVal (some a) v = .ok (t.put a { n with val := v }) := by
  simp [RBTree.setVal, h]

theorem LeftRotate_spec {t : RBTree V} {chk : Bool} {C : Ctx V} {A B D : Tree V}
    {x y : Nat} {cx cy : Color} {vx vy : V}
    (hM : Models t chk (C.plug (.node A x cx vx (.node B y cy vy D)))) :
    ∃ t', LeftRotate t x = .ok t' ∧
      Models t' chk (C.plug (.node (.node A x cx vx B) y cy vy D)) ∧ Same t t' := by
  obtain ⟨hC, ⟨hx, hA, hy, hB, hD⟩, hnd⟩ := hM.decomp
  simp only [Tree.addrs, List.nodup_append, List.nodup_cons, List.mem_append,
    List.mem_cons, List.disjoint_append_left, List.disjoint_append_right,
    List.disjoint_cons_left, List.disjoint_cons_right, not_or, List.cons_append,
    List.append_assoc] at hnd
  simp only [Tree.ptr_node] at hx hy hC
  have hxy : x ≠ y := by tauto
  have hyx : y ≠ x := fun e => hxy e.symm
  obtain ⟨t1, e1, hC1, hag1, hs1⟩ := replaceChild_spec (some y) hC hx rfl (by tauto) (by tauto)
    (by simp)
  have hx1 : t1.mem x = _ := (hag1 x (by tauto)).trans hx
  have hy1 : t1.mem y = _ := (hag1 y (by tauto)).trans hy
  -- the store after the assignments to the records of x and y
  have hB4 : Rep (((t1.put y ⟨C.par, B.ptr t.fictional, D.ptr t.fictional, vy, cy⟩).put x
      ⟨some y, A.ptr t.fictional, some y, vx, cx⟩).put x
      ⟨some y, A.ptr t.fictional, B.ptr t.fictional, vx, cx⟩).mem
      (((t1.put y ⟨C.par, B.ptr t.fictional, D.ptr t.fictional, vy, cy⟩).put x
      ⟨some y, A.ptr t.fictional, some y, vx, cx⟩).put x
      ⟨some y, A.ptr t.fictional, B.ptr t.fictional, vx, cx⟩).fictional chk B (some y) := by
    simp only [put_fictional, hs1.fictional]
    refine Rep.put _ (by tauto) (Rep.put _ (by tauto) (Rep.put _ (by tauto) ?_))
    exact Rep.congr B _ (fun a ha => hag1 a (by intro h; exact (by tauto : a ∉ C.addrs t.fictional) h)) hB
  obtain ⟨t5, e5, hB5, hbrk5, hroot5, hfic5, hsize5, hag5, hdead5⟩ :=
    Rep.reparent (some x) hB4 (by simp only [put_fictional, hs1.fictional]; tauto)
  simp only [put_fictional, hs1.fictional, put_brk, put_root, put_size] at e5 hB5 hbrk5 hroot5 hfic5 hsize5 hag5
  have hx5 : t5.mem x = some ⟨some y, A.ptr t.fictional, B.ptr t.fictional, vx, cx⟩ := by
    rw [hag5 x (by tauto)]; simp
  have hy5 : t5.mem y = some ⟨C.par, B.ptr t.fictional, D.ptr t.fictional, vy, cy⟩ := by
    rw [hag5 y (by tauto)]; simp [put_mem_ne, hyx]
  refine ⟨t5.put y ⟨C.par, some x, D.ptr t.fictional, vy, cy⟩, ?_, ?_, ?_⟩
  · simp [LeftRotate, RBTree.node, RBTree.setParent, RBTree.setRight, RBTree.setLeft, hx, e1,
      hx1, hy1, put_mem_ne, put_mem_ne', hxy, hyx, ok_bind, e5, hx5, hy5]
  · have hag4 : ∀ a, a ≠ x → a ≠ y → a ∉ B.addrs t.fictional →
        (t5.put y ⟨C.par, some x, D.ptr t.fictional, vy, cy⟩).mem a = t1.mem a := by
      intro a h1 h2 h3
      rw [put_mem_ne _ _ h2, hag5 a h3]
      simp [put_mem_ne, h1, h2]
    have hag6 : ∀ a, a ≠ x → a ≠ y → a ∉ B.addrs t.fictional → a ∉ C.addrs t.fictional →
        (t5.put y ⟨C.par, some x, D.ptr t.fictional, vy, cy⟩).mem a = t.mem a := by
      intro a h1 h2 h3 h4
      rw [hag4 a h1 h2 h3, hag1 a h4]
    refine Models.compose ?_ ?_ ?_ ?_
    · simp only [put_fictional, put_root, hfic5, hroot5, Tree.ptr_node]
      refine RepCtx.congr_ctx C _ (fun a ha => ?_) hC1
      exact hag4 a (by rintro rfl; tauto) (by rintro rfl; tauto)
        (fun h => (by tauto : (B.addrs t.fictional).Disjoint (C.addrs t.fictional)) h ha)
    · simp only [put_fictional, hfic5]
      refine ⟨by simp, ⟨?_, ?_, ?_⟩, ?_⟩
      · simp [put_mem_ne, hxy, hx5]
      · refine Rep.congr A _ (fun a ha => ?_) hA
        exact hag6 a (by rintro rfl; tauto) (by rintro rfl; tauto)
          (fun h => (by tauto : (A.addrs t.fictional).Disjoint (B.addrs t.fictional)) ha h)
          (fun h => (by tauto : (A.addrs t.fictional).Disjoint (C.addrs t.fictional)) ha h)
      · exact Rep.put _ (by tauto) hB5
      · refine Rep.congr D _ (fun a ha => ?_) hD
        exact hag6 a (by rintro rfl; tauto) (by rintro rfl; tauto)
          (fun h => (by tauto : (B.addrs t.fictional).Disjoint (D.addrs t.fictional)) h ha)
          (fun h => (by tauto : (D.addrs t.fictional).Disjoint (C.addrs t.fictional)) ha h)
    · simp only [put_fictional, hfic5, Tree.addrs, List.nodup_append, List.nodup_cons,
        List.mem_append, List.mem_cons, List.disjoint_append_left, List.disjoint_append_right,
        List.disjoint_cons_left, List.disjoint_cons_right, not_or, List.cons_append,
        List.append_assoc]
      tauto
    · intro a ha
      simp only [put_brk, hbrk5] at ha
      rw [put_mem_ne, hdead5]
      · simp only [RBTree.put]
        have := hs1.dead a (hM.fresh a (hs1.brk ▸ ha))
        have hax : a ≠ x := by rintro rfl; simp [hx1] at this
        have hay : a ≠ y := by rintro rfl; simp [hy1] at this
        simp [hax, hay, this]
      · rintro rfl
        have := hs1.dead a (hM.fresh a (hs1.brk ▸ ha))
        simp [hy1] at this
  · refine ⟨by simp [hbrk5, hs1.brk], by simp [hfic5], by simp [hsize5, hs1.size], ?_⟩
    intro a ha
    have h1 := hs1.dead a ha
    have hax : a ≠ x := by rintro rfl; simp [hx] at ha
    have hay : a ≠ y := by rintro rfl; simp [hy] at ha
    rw [put_mem_ne _ _ hay, hdead5]
    simp [put_mem_ne, hax, hay, h1]

theorem RightRotate_spec {t : RBTree V} {chk : Bool} {C : Ctx V} {A B D : Tree V}
    {x y : Nat} {cx cy : Color} {vx vy : V}
    (hM : Models t chk (C.plug (.node (.node A y cy vy B) x cx vx D))) :
    ∃ t', RightRotate t x = .ok t' ∧
      Models t' chk (C.plug (.node A y cy vy (.node B x cx vx D))) ∧ Same t t' := by
  obtain ⟨hC, ⟨hx, ⟨hy, hA, hB⟩, hD⟩, hnd⟩ := hM.decomp
  simp only [Tree.addrs, List.nodup_append, List.nodup_cons, List.mem_append,
    List.mem_cons, List.disjoint_append_left, List.disjoint_append_right,
    List.disjoint_cons_left, List.disjoint_cons_right, not_or, List.cons_append,
    List.append_assoc] at hnd
  simp only [Tree.ptr_node] at hx hy hC
  have hxy : x ≠ y := by tauto
  have hyx : y ≠ x := fun e => hxy e.symm
  obtain ⟨t1, e1, hC1, hag1, hs1⟩ := replaceChild_spec (some y) hC hx rfl (by tauto) (by tauto)
    (by simp)
  have hx1 : t1.mem x = _ := (hag1 x (by tauto)).trans hx
  have hy1 : t1.mem y = _ := (hag1 y (by tauto)).trans hy
  have hB4 : Rep (((t1.put y ⟨C.par, A.ptr t.fictional, B.ptr t.fictional, vy, cy⟩).put x
      ⟨some y, some y, D.ptr t.fictional, vx, cx⟩).put x
      ⟨some y, B.ptr t.fictional, D.ptr t.fictional, vx, cx⟩).mem
      (((t1.put y ⟨C.par, A.ptr t.fictional, B.ptr t.fictional, vy, cy⟩).put x
      ⟨some y, some y, D.ptr t.fictional, vx, cx⟩).put x
      ⟨some y, B.ptr t.fictional, D.ptr t.fictional, vx, cx⟩).fictional chk B (some y) := by
    simp only [put_fictional, hs1.fictional]
    refine Rep.put _ (by tauto) (Rep.put _ (by tauto) (Rep.put _ (by tauto) ?_))
    exact Rep.congr B _ (fun a ha => hag1 a (by intro h; exact (by tauto : a ∉ C.addrs t.fictional) h)) hB
  obtain ⟨t5, e5, hB5, hbrk5, hroot5, hfic5, hsize5, hag5, hdead5⟩ :=
    Rep.reparent (some x) hB4 (by simp only [put_fictional, hs1.fictional]; tauto)
  simp only [put_fictional, hs1.fictional, put_brk, put_root, put_size] at e5 hB5 hbrk5 hroot5 hfic5 hsize5 hag5
  have hx5 : t5.mem x = some ⟨some y, B.ptr t.fictional, D.ptr t.fictional, vx, cx⟩ := by
    rw [hag5 x (by tauto)]; simp
  have hy5 : t5.mem y = some ⟨C.par, A.ptr t.fictional, B.ptr t.fictional, vy, cy⟩ := by
    rw [hag5 y (by tauto)]; simp [put_mem_ne, hyx]
  refine ⟨t5.put y ⟨C.par, A.ptr t.fictional, some x, vy, cy⟩, ?_, ?_, ?_⟩
  · simp [RightRotate, RBTree.node, RBTree.setParent, RBTree.setRight, RBTree.setLeft, hx, e1,
      hx1, hy1, put_mem_ne, put_mem_ne', hxy, hyx, ok_bind, e5, hx5, hy5]
  · have hag4 : ∀ a, a ≠ x → a ≠ y → a ∉ B.addrs t.fictional →
        (t5.put y ⟨C.par, A.ptr t.fictional, some x, vy, cy⟩).mem a = t1.mem a := by
      intro a h1 h2 h3
      rw [put_mem_ne _ _ h2, hag5 a h3]
      simp [put_mem_ne, h1, h2]
    have hag6 : ∀ a, a ≠ x → a ≠ y → a ∉ B.addrs t.fictional → a ∉ C.addrs t.fictional →
        (t5.put y ⟨C.par, A.ptr t.fictional, some x, vy, cy⟩).mem a = t.mem a := by
      intro a h1 h2 h3 h4
      rw [hag4 a h1 h2 h3, hag1 a h4]
    refine Models.compose ?_ ?_ ?_ ?_
    · simp only [put_fictional, put_root, hfic5, hroot5, Tree.ptr_node]
      refine RepCtx.congr_ctx C _ (fun a ha => ?_) hC1
      exact hag4 a (by rintro rfl; tauto) (by rintro rfl; tauto)
        (fun h => (by tauto : (B.addrs t.fictional).Disjoint (C.addrs t.fictional)) h ha)
    · simp only [put_fictional, hfic5]
      refine ⟨by simp, ?_, ⟨?_, ?_, ?_⟩⟩
      · refine Rep.congr A _ (fun a ha => ?_) hA
        exact hag6 a (by rintro rfl; tauto) (by rintro rfl; tauto)
          (fun h => (by tauto : (A.addrs t.fictional).Disjoint (B.addrs t.fictional)) ha h)
          (fun h => (by tauto : (A.addrs t.fictional).Disjoint (C.addrs t.fictional)) ha h)
      · simp [put_mem_ne, hxy, hx5]
      · exact Rep.put _ (by tauto) hB5
      · refine Rep.congr D _ (fun a ha => ?_) hD
        exact hag6 a (by rintro rfl; tauto) (by rintro rfl; tauto)
          (fun h => (by tauto : (B.addrs t.fictional).Disjoint (D.addrs t.fictional)) h ha)
          (fun h => (by tauto : (D.addrs t.fictional).Disjoint (C.addrs t.fictional)) ha h)
    · simp only [put_fictional, hfic5, Tree.addrs, List.nodup_append, List.nodup_cons,
        List.mem_append, List.mem_cons, List.disjoint_append_left, List.disjoint_append_right,
        List.disjoint_cons_left, List.disjoint_cons_right, not_or, List.cons_append,
        List.append_assoc]
      tauto
    · intro a ha
      simp only [put_brk, hbrk5] at ha
      rw [put_mem_ne, hdead5]
      · simp only [RBTree.put]
        have := hs1.dead a (hM.fresh a (hs1.brk ▸ ha))
        have hax : a ≠ x := by rintro rfl; simp [hx1] at this
        have hay : a ≠ y := by rintro rfl; simp [hy1] at this
        simp [hax, hay, this]
      · rintro rfl
        have := hs1.dead a (hM.fresh a (hs1.brk ▸ ha))
        simp [hy1] at this
  · refine ⟨by simp [hbrk5, hs1.brk], by simp [hfic5], by simp [hsize5, hs1.size], ?_⟩
    intro a ha
    have h1 := hs1.dead a ha
    have hax : a ≠ x := by rintro rfl; simp [hx] at ha
    have hay : a ≠ y := by rintro rfl; simp [hy] at ha
    rw [put_mem_ne _ _ hay, hdead5]
    simp [put_mem_ne, hax, hay, h1]

theorem setColor_spec {t : RBTree V} {chk : Bool} {C : Ctx V} {l r : Tree V} {a : Nat}
    {c : Color} {v : V} (c' : Color) (hM : Models t chk (C.plug (.node l a c v r))) :
    ∃ t', t.setColor (some a) c' = .ok t' ∧ Models t' chk (C.plug (.node l a c' v r)) ∧
      Same t t' := by
  obtain ⟨hC, ⟨ha, hl, hr⟩, hnd⟩ := hM.decomp
  simp only [Tree.addrs, List.nodup_append, List.nodup_cons, List.mem_append,
    List.mem_cons, List.disjoint_append_left, List.disjoint_append_right,
    List.disjoint_cons_left, List.disjoint_cons_right, not_or, List.cons_append,
    List.append_assoc] at hnd
  refine ⟨_, setColor_put c' ha, ?_, Same.of_put _ ha⟩
  refine Models.compose ?_ ?_ ?_ ?_
  · exact RepCtx.put_ctx _ (by tauto) hC
  · exact ⟨by simp, Rep.put _ (by tauto) hl, Rep.put _ (by tauto) hr⟩
  · simpa [Tree.addrs] using hM.decomp.2.2
  · exact (Same.of_put _ ha).fresh hM.fresh

theorem IsBlack_node {t : RBTree V} {a : Nat} {n : RBNode V} (h : t.mem a = some n) :
    IsBlack t (some a) = .ok (n.color == Color.Black) := by
  simp [IsBlack, node_of_mem h, ok_bind, pure_ok]

theorem IsBlack_rep {t : RBTree V} {chk : Bool} {u : Tree V} {par : Option Nat}
    (h : Rep t.mem t.fictional chk u par) : IsBlack t (u.ptr t.fictional) = .ok (!u.isRed) := by
  cases u with
  | nil => rfl
  | fict =>
    obtain ⟨pp, g, hm, _⟩ := h
    simp [IsBlack_node hm, Tree.isRed]
  | node l a c v r =>
    obtain ⟨hm, _, _⟩ := h
    cases c <;> simp [IsBlack_node hm, Tree.isRed]

theorem Ctx.root_mem_addrs {m : Nat → Option (RBNode V)} {F : Nat} {chk : Bool} {rt : Nat} :
    ∀ (C : Ctx V) (p : Option Nat), C ≠ .top → RepCtx m F chk rt C p → rt ∈ C.addrs F
  | .top, _, h, _ => absurd rfl h
  | .left up a c v r, p, _, h => by
    obtain ⟨hm, hr, hup⟩ := h
    cases up with
    | top => simp only [RepCtx, Option.some.injEq] at hup; simp [Ctx.addrs, hup]
    | left up' a' c' v' r' =>
      have := Ctx.root_mem_addrs (.left up' a' c' v' r') _ (by simp) hup
      simp only [Ctx.addrs, List.mem_cons, List.mem_append] at this ⊢
      tauto
    | right l' a' c' v' up' =>
      have := Ctx.root_mem_addrs (.right l' a' c' v' up') _ (by simp) hup
      simp only [Ctx.addrs, List.mem_cons, List.mem_append] at this ⊢
      tauto
  | .right l a c v up, p, _, h => by
    obtain ⟨hm, hr, hup⟩ := h
    cases up with
    | top => simp only [RepCtx, Option.some.injEq] at hup; simp [Ctx.addrs, hup]
    | left up' a' c' v' r' =>
      have := Ctx.root_mem_addrs (.left up' a' c' v' r') _ (by simp) hup
      simp only [Ctx.addrs, List.mem_cons, List.mem_append] at this ⊢
      tauto
    | right l' a' c' v' up' =>
      have := Ctx.root_mem_addrs (.right l' a' c' v' up') _ (by simp) hup
      simp only [Ctx.addrs, List.mem_cons, List.mem_append] at this ⊢
      tauto

theorem Models.root_eq_iff {t : RBTree V} {chk : Bool} {C : Ctx V} {l r : Tree V} {a : Nat}
    {c : Color} {v : V} (h : Models t chk (C.plug (.node l a c v r))) :
    a = t.root ↔ C = .top := by
  obtain ⟨hC, _, hnd⟩ := h.decomp
  constructor
  · intro e
    by_contra hne
    have := Ctx.root_mem_addrs C _ hne hC
    rw [← e] at this
    simp only [Tree.addrs, List.nodup_append, List.nodup_cons, List.mem_append,
      List.mem_cons, List.disjoint_append_left, List.disjoint_append_right,
      List.disjoint_cons_left, List.disjoint_cons_right, not_or, List.cons_append,
      List.append_assoc] at hnd
    tauto
  · rintro rfl
    simpa [RepCtx] using hC

theorem Ctx.rootColor_left_ne_top {up : Ctx V} {a : Nat} {c : Color} {v : V} {r : Tree V}
    (h : up ≠ .top) : (Ctx.left up a c v r).rootColor = up.rootColor := by
  cases up with
  | top => exact absurd rfl h
  | left up' a' c' v' r' =>
    simp only [Ctx.rootColor]
    cases h' : (up'.rootColor) <;> simp
  | right l' a' c' v' up' =>
    simp only [Ctx.rootColor]
    cases h' : (up'.rootColor) <;> simp

theorem Ctx.rootColor_right_ne_top {up : Ctx V} {a : Nat} {c : Color} {v : V} {l : Tree V}
    (h : up ≠ .top) : (Ctx.right l a c v up).rootColor = up.rootColor := by
  cases up with
  | top => exact absurd rfl h
  | left up' a' c' v' r' =>
    simp only [Ctx.rootColor]
    cases h' : (up'.rootColor) <;> simp
  | right l' a' c' v' up' =>
    simp only [Ctx.rootColor]
    cases h' : (up'.rootColor) <;> simp

theorem Models.left_ptr_ne {t : RBTree V} {chk : Bool} {C : Ctx V} {l rl rr : Tree V}
    {a ra : Nat} {c rc : Color} {v rv : V}
    (h : Models t chk (C.plug (.node l a c v (.node rl ra rc rv rr)))) :
    l.ptr t.fictional ≠ some ra := by
  obtain ⟨_, _, hnd⟩ := h.decomp
  simp only [Tree.addrs, List.nodup_append, List.nodup_cons, List.mem_append,
    List.mem_cons, List.disjoint_append_left, List.disjoint_append_right,
    List.disjoint_cons_left, List.disjoint_cons_right, not_or, List.cons_append,
    List.append_assoc] at hnd
  exact Tree.ptr_ne_of_not_mem (by tauto)

theorem Models.right_ptr_ne {t : RBTree V} {chk : Bool} {C : Ctx V} {ll lr r : Tree V}
    {a la : Nat} {c lc : Color} {v lv : V}
    (h : Models t chk (C.plug (.node (.node ll la lc lv lr) a c v r))) :
    r.ptr t.fictional ≠ some la := by
  obtain ⟨_, _, hnd⟩ := h.decomp
  simp only [Tree.addrs, List.nodup_append, List.nodup_cons, List.mem_append,
    List.mem_cons, List.disjoint_append_left, List.disjoint_append_right,
    List.disjoint_cons_left, List.disjoint_cons_right, not_or, List.cons_append,
    List.append_assoc] at hnd
  exact Tree.ptr_ne_of_not_mem (by tauto)

theorem Tree.isRed_iff {u : Tree V} (h : u.isRed = true) :
    ∃ ul ua uv ur, u = .node ul ua Color.Red uv ur := by
  cases u with
  | nil => simp [Tree.isRed] at h
  | fict => simp [Tree.isRed] at h
  | node l a c v r =>
    cases c with
    | Red => exact ⟨l, a, v, r, rfl⟩
    | Black => simp [Tree.isRed] at h

theorem Ctx.fixInsert_ll_red {up : Ctx V} {g : Nat} {gc : Color} {gv : V} {u : Tree V}
    {p : Nat} {pv : V} {pr s : Tree V} (hu : u.isRed = true) (hup : up ≠ .top) :
    (Ctx.left (.left up g gc gv u) p Color.Red pv pr).fixInsert s =
      up.fixInsert (.node (.node s p .Black pv pr) g .Red gv (u.paint .Black)) := by
  cases up with
  | top => exact absurd rfl hup
  | left _ _ _ _ _ => simp [Ctx.fixInsert, hu]
  | right _ _ _ _ _ => simp [Ctx.fixInsert, hu]

theorem Ctx.fixInsert_lr_red {up : Ctx V} {g : Nat} {gc : Color} {gv : V} {u : Tree V}
    {p : Nat} {pv : V} {pl s : Tree V} (hu : u.isRed = true) (hup : up ≠ .top) :
    (Ctx.right pl p Color.Red pv (.left up g gc gv u)).fixInsert s =
      up.fixInsert (.node (.node pl p .Black pv s) g .Red gv (u.paint .Black)) := by
  cases up with
  | top => exact absurd rfl hup
  | left _ _ _ _ _ => simp [Ctx.fixInsert, hu]
  | right _ _ _ _ _ => simp [Ctx.fixInsert, hu]

theorem Ctx.fixInsert_rl_red {up : Ctx V} {g : Nat} {gc : Color} {gv : V} {u : Tree V}
    {p : Nat} {pv : V} {pr s : Tree V} (hu : u.isRed = true) (hup : up ≠ .top) :
    (Ctx.left (.right u g gc gv up) p Color.Red pv pr).fixInsert s =
      up.fixInsert (.node (u.paint .Black) g .Red gv (.node s p .Black pv pr)) := by
  cases up with
  | top => exact absurd rfl hup
  | left _ _ _ _ _ => simp [Ctx.fixInsert, hu]
  | right _ _ _ _ _ => simp [Ctx.fixInsert, hu]

theorem Ctx.fixInsert_rr_red {up : Ctx V} {g : Nat} {gc : Color} {gv : V} {u : Tree V}
    {p : Nat} {pv : V} {pl s : Tree V} (hu : u.isRed = true) (hup : up ≠ .top) :
    (Ctx.right pl p Color.Red pv (.right u g gc gv up)).fixInsert s =
      up.fixInsert (.node (u.paint .Black) g .Red gv (.node pl p .Black pv s)) := by
  cases up with
  | top => exact absurd rfl hup
  | left _ _ _ _ _ => simp [Ctx.fixInsert, hu]
  | right _ _ _ _ _ => simp [Ctx.fixInsert, hu]

theorem FixAfterInsert_spec {chk : Bool} :
    ∀ (fuel : Nat) (t : RBTree V) (C : Ctx V) (sl : Tree V) (n : Nat) (sc : Color) (sv : V)
      (sr : Tree V), Models t chk (C.plug (.node sl n sc sv sr)) →
      C.rootColor ≠ some Color.Red → C.depth < fuel →
      ∃ t', FixAfterInsert t fuel n = .ok t' ∧
        Models t' chk (C.fixInsert (.node sl n sc sv sr)) ∧ Same t t' := by
  intro fuel
  induction fuel with
  | zero => intro t C sl n sc sv sr _ _ hd; omega
  | succ fuel ih =>
    intro t C sl n sc sv sr hM hrc hd
    have hn := hM.cell
    cases C with
    | top =>
      obtain ⟨t', e, hM', hs⟩ := setColor_spec (C := .top) Color.Black hM
      refine ⟨t', ?_, hM', hs⟩
      simp only [Ctx.par_top] at hn
      simp [FixAfterInsert, node_of_mem hn, ok_bind, e]
    | left up p pc pv pr =>
      have hMp : Models t chk (up.plug (.node (.node sl n sc sv sr) p pc pv pr)) := hM
      have hp := hMp.cell
      simp only [Ctx.par_left, Ctx.par_right, Tree.ptr_node] at hn hp
      cases up with
      | top =>
        have hpc : pc = Color.Black := by
          cases pc
          · simp [Ctx.rootColor] at hrc
          · rfl
        subst hpc
        refine ⟨t, ?_, hM, Same.refl t⟩
        simp [FixAfterInsert, node_of_mem hn, ok_bind, IsBlack_node hp, pure_ok]
      | left up g gc gv u =>
        have hMg : Models t chk (up.plug (.node (.node (.node sl n sc sv sr) p pc pv pr) g gc gv u)) := hM
        have hg := hMg.cell
        have hu := hMg.decomp.2.1.2.2
        simp only [Ctx.par_left, Ctx.par_right, Tree.ptr_node] at hp hg
        cases pc with
        | Black =>
          refine ⟨t, ?_, by simpa [Ctx.fixInsert] using hMg, Same.refl t⟩
          simp [FixAfterInsert, node_of_mem hn, ok_bind, IsBlack_node hp, pure_ok]
        | Red =>
          by_cases hur : u.isRed = true
          · obtain ⟨ul, ua, uv, ur, rfl⟩ := Tree.isRed_iff hur
            have hua := (show Models t chk ((Ctx.right (.node (.node sl n sc sv sr) p Color.Red pv pr) g gc gv up).plug (.node ul ua Color.Red uv ur)) from hM).cell
            simp only [Ctx.par_left, Ctx.par_right, Tree.ptr_node] at hua
            by_cases hup : up = .top
            · subst hup
              have hM1 : Models t chk ((Ctx.right (.node (.node sl n sc sv sr) p Color.Red pv pr) g gc gv Ctx.top).plug (.node ul ua Color.Red uv ur)) := hM
              obtain ⟨t2, e2, hM2, hs2⟩ := setColor_spec Color.Black hM1
              have hM2' : Models t2 chk ((Ctx.left Ctx.top g gc gv (.node ul ua Color.Black uv ur)).plug (.node (.node sl n sc sv sr) p Color.Red pv pr)) := hM2
              obtain ⟨t3, e3, hM3, hs3⟩ := setColor_spec Color.Black hM2'
              have hM3' : Models t3 chk (Ctx.top.plug (.node (.node (.node sl n sc sv sr) p Color.Black pv pr) g gc gv (.node ul ua Color.Black uv ur))) := hM3
              have hr0 : g = t.root := hMg.root_eq_iff.2 rfl
              have hr3 : g = t3.root := hM3'.root_eq_iff.2 rfl
              refine ⟨t3, ?_, by simpa [Ctx.fixInsert, Tree.isRed, Tree.paint, Ctx.plug] using hM3',
                hs2.trans hs3⟩
              simp [FixAfterInsert, node_of_mem hn, ok_bind, IsBlack_node hp, pure_ok,
                node_of_mem hp, node_of_mem hg, IsBlack_node hua, e2, e3, ← hr0, ← hr3]
            · have hr0 : g ≠ t.root := fun e => hup (hMg.root_eq_iff.1 e)
              obtain ⟨t1, e1, hM1, hs1⟩ := setColor_spec Color.Red hMg
              have hM1' : Models t1 chk ((Ctx.right (.node (.node sl n sc sv sr) p Color.Red pv pr) g Color.Red gv up).plug (.node ul ua Color.Red uv ur)) := hM1
              obtain ⟨t2, e2, hM2, hs2⟩ := setColor_spec Color.Black hM1'
              have hM2' : Models t2 chk ((Ctx.left up g Color.Red gv (.node ul ua Color.Black uv ur)).plug (.node (.node sl n sc sv sr) p Color.Red pv pr)) := hM2
              obtain ⟨t3, e3, hM3, hs3⟩ := setColor_spec Color.Black hM2'
              have hM3' : Models t3 chk (up.plug (.node (.node (.node sl n sc sv sr) p Color.Black pv pr) g Color.Red gv (.node ul ua Color.Black uv ur))) := hM3
              have hr3 : g ≠ t3.root := fun e => hup (hM3'.root_eq_iff.1 e)
              have hrc' : up.rootColor ≠ some Color.Red := by
                rw [Ctx.rootColor_left_ne_top (by simp), Ctx.rootColor_left_ne_top hup] at hrc; exact hrc
              obtain ⟨t4, e4, hM4, hs4⟩ := ih t3 up _ g Color.Red gv _ hM3' hrc'
                (by simp only [Ctx.depth] at hd; omega)
              refine ⟨t4, ?_, ?_, ((hs1.trans hs2).trans hs3).trans hs4⟩
              · simp [FixAfterInsert, node_of_mem hn, ok_bind, IsBlack_node hp, pure_ok,
                  node_of_mem hp, node_of_mem hg, IsBlack_node hua, e1, e2, e3, hr0, hr3, e4]
              · rw [Ctx.fixInsert_ll_red (by simp [Tree.isRed]) hup]
                simpa [Tree.paint] using hM4
          · have hur' : u.isRed = false := by simpa using hur
            obtain ⟨t2, e2, hM2, hs2⟩ := RightRotate_spec hMg
            have hM2' : Models t2 chk ((Ctx.right (.node sl n sc sv sr) p Color.Red pv up).plug
                (.node pr g gc gv u)) := hM2
            obtain ⟨t3, e3, hM3, hs3⟩ := setColor_spec Color.Red hM2'
            have hM3' : Models t3 chk (up.plug (.node (.node sl n sc sv sr) p Color.Red pv
                (.node pr g Color.Red gv u))) := hM3
            obtain ⟨t4, e4, hM4, hs4⟩ := setColor_spec Color.Black hM3'
            refine ⟨t4, ?_, by simpa [Ctx.fixInsert, hur'] using hM4, (hs2.trans hs3).trans hs4⟩
            simp [FixAfterInsert, node_of_mem hn, ok_bind, IsBlack_node hp, pure_ok,
              node_of_mem hp, node_of_mem hg, IsBlack_rep hu, hur', e2, e3, e4]
      | right u g gc gv up =>
        have hMg : Models t chk (up.plug (.node u g gc gv (.node (.node sl n sc sv sr) p pc pv pr))) := hM
        have hg := hMg.cell
        have hu := hMg.decomp.2.1.2.1
        simp only [Ctx.par_left, Ctx.par_right, Tree.ptr_node] at hp hg
        have hgl := hMg.left_ptr_ne
        cases pc with
        | Black =>
          refine ⟨t, ?_, by simpa [Ctx.fixInsert] using hMg, Same.refl t⟩
          simp [FixAfterInsert, node_of_mem hn, ok_bind, IsBlack_node hp, pure_ok]
        | Red =>
          by_cases hur : u.isRed = true
          · obtain ⟨ul, ua, uv, ur, rfl⟩ := Tree.isRed_iff hur
            have hua := (show Models t chk ((Ctx.left up g gc gv (.node (.node sl n sc sv sr) p Color.Red pv pr)).plug (.node ul ua Color.Red uv ur)) from hM).cell
            simp only [Ctx.par_left, Ctx.par_right, Tree.ptr_node] at hua hgl
            by_cases hup : up = .top
            · subst hup
              have hM1 : Models t chk ((Ctx.left Ctx.top g gc gv (.node (.node sl n sc sv sr) p Color.Red pv pr)).plug (.node ul ua Color.Red uv ur)) := hM
              obtain ⟨t2, e2, hM2, hs2⟩ := setColor_spec Color.Black hM1
              have hM2' : Models t2 chk ((Ctx.right (.node ul ua Color.Black uv ur) g gc gv Ctx.top).plug (.node (.node sl n sc sv sr) p Color.Red pv pr)) := hM2
              obtain ⟨t3, e3, hM3, hs3⟩ := setColor_spec Color.Black hM2'
              have hM3' : Models t3 chk (Ctx.top.plug (.node (.node ul ua Color.Black uv ur) g gc gv (.node (.node sl n sc sv sr) p Color.Black pv pr))) := hM3
              have hr0 : g = t.root := hMg.root_eq_iff.2 rfl
              have hr3 : g = t3.root := hM3'.root_eq_iff.2 rfl
              refine ⟨t3, ?_, by simpa [Ctx.fixInsert, Tree.isRed, Tree.paint, Ctx.plug] using hM3',
                hs2.trans hs3⟩
              simp [FixAfterInsert, node_of_mem hn, ok_bind, IsBlack_node hp, pure_ok,
                node_of_mem hp, node_of_mem hg, IsBlack_node hua, e2, e3, ← hr0, ← hr3, hgl]
            · have hr0 : g ≠ t.root := fun e => hup (hMg.root_eq_iff.1 e)
              obtain ⟨t1, e1, hM1, hs1⟩ := setColor_spec Color.Red hMg
              have hM1' : Models t1 chk ((Ctx.left up g Color.Red gv (.node (.node sl n sc sv sr) p Color.Red pv pr)).plug (.node ul ua Color.Red uv ur)) := hM1
              obtain ⟨t2, e2, hM2, hs2⟩ := setColor_spec Color.Black hM1'
              have hM2' : Models t2 chk ((Ctx.right (.node ul ua Color.Black uv ur) g Color.Red gv up).plug (.node (.node sl n sc sv sr) p Color.Red pv pr)) := hM2
              obtain ⟨t3, e3, hM3, hs3⟩ := setColor_spec Color.Black hM2'
              have hM3' : Models t3 chk (up.plug (.node (.node ul ua Color.Black uv ur) g Color.Red gv (.node (.node sl n sc sv sr) p Color.Black pv pr))) := hM3
              have hr3 : g ≠ t3.root := fun e => hup (hM3'.root_eq_iff.1 e)
              have hrc' : up.rootColor ≠ some Color.Red := by
                rw [Ctx.rootColor_left_ne_top (by simp), Ctx.rootColor_right_ne_top hup] at hrc; exact hrc
              obtain ⟨t4, e4, hM4, hs4⟩ := ih t3 up _ g Color.Red gv _ hM3' hrc'
                (by simp only [Ctx.depth] at hd; omega)
              refine ⟨t4, ?_, ?_, ((hs1.trans hs2).trans hs3).trans hs4⟩
              · simp [FixAfterInsert, node_of_mem hn, ok_bind, IsBlack_node hp, pure_ok,
                  node_of_mem hp, node_of_mem hg, IsBlack_node hua, e1, e2, e3, hr0, hr3, e4, hgl]
              · rw [Ctx.fixInsert_rl_red (by simp [Tree.isRed]) hup]
                simpa [Tree.paint] using hM4
          · have hur' : u.isRed = false := by simpa using hur
            obtain ⟨t1, e1, hM1, hs1⟩ := RightRotate_spec hMp
            have hM1' : Models t1 chk (up.plug (.node u g gc gv (.node sl n sc sv
                (.node sr p Color.Red pv pr)))) := hM1
            have hg1 := hM1'.cell
            have hgl1 := hM1'.left_ptr_ne
            simp only [Tree.ptr_node] at hg1
            obtain ⟨t2, e2, hM2, hs2⟩ := LeftRotate_spec hM1'
            have hM2' : Models t2 chk ((Ctx.left up n sc sv (.node sr p Color.Red pv pr)).plug
                (.node u g gc gv sl)) := hM2
            obtain ⟨t3, e3, hM3, hs3⟩ := setColor_spec Color.Red hM2'
            have hM3' : Models t3 chk (up.plug (.node (.node u g Color.Red gv sl) n sc sv
                (.node sr p Color.Red pv pr))) := hM3
            obtain ⟨t4, e4, hM4, hs4⟩ := setColor_spec Color.Black hM3'
            refine ⟨t4, ?_, by simpa [Ctx.fixInsert, hur'] using hM4,
              ((hs1.trans hs2).trans hs3).trans hs4⟩
            simp [FixAfterInsert, node_of_mem hn, ok_bind, IsBlack_node hp, pure_ok,
              node_of_mem hp, node_of_mem hg, IsBlack_rep hu, hur', e1, e2, e3, e4, hgl,
              node_of_mem hg1, hgl1]
    | right pl p pc pv up =>
      have hMp : Models t chk (up.plug (.node pl p pc pv (.node sl n sc sv sr))) := hM
      have hp := hMp.cell
      simp only [Ctx.par_left, Ctx.par_right, Tree.ptr_node] at hn hp
      cases up with
      | top =>
        have hpc : pc = Color.Black := by
          cases pc
          · simp [Ctx.rootColor] at hrc
          · rfl
        subst hpc
        refine ⟨t, ?_, hM, Same.refl t⟩
        simp [FixAfterInsert, node_of_mem hn, ok_bind, IsBlack_node hp, pure_ok]
      | left up g gc gv u =>
        have hMg : Models t chk (up.plug (.node (.node pl p pc pv (.node sl n sc sv sr)) g gc gv u)) := hM
        have hg := hMg.cell
        have hu := hMg.decomp.2.1.2.2
        simp only [Ctx.par_left, Ctx.par_right, Tree.ptr_node] at hp hg
        have hpl := hMp.left_ptr_ne
        cases pc with
        | Black =>
          refine ⟨t, ?_, by simpa [Ctx.fixInsert] using hMg, Same.refl t⟩
          simp [FixAfterInsert, node_of_mem hn, ok_bind, IsBlack_node hp, pure_ok]
        | Red =>
          by_cases hur : u.isRed = true
          · obtain ⟨ul, ua, uv, ur, rfl⟩ := Tree.isRed_iff hur
            have hua := (show Models t chk ((Ctx.right (.node pl p Color.Red pv (.node sl n sc sv sr)) g gc gv up).plug (.node ul ua Color.Red uv ur)) from hM).cell
            simp only [Ctx.par_left, Ctx.par_right, Tree.ptr_node] at hua
            by_cases hup : up = .top
            · subst hup
              have hM1 : Models t chk ((Ctx.right (.node pl p Color.Red pv (.node sl n sc sv sr)) g gc gv Ctx.top).plug (.node ul ua Color.Red uv ur)) := hM
              obtain ⟨t2, e2, hM2, hs2⟩ := setColor_spec Color.Black hM1
              have hM2' : Models t2 chk ((Ctx.left Ctx.top g gc gv (.node ul ua Color.Black uv ur)).plug (.node pl p Color.Red pv (.node sl n sc sv sr))) := hM2
              obtain ⟨t3, e3, hM3, hs3⟩ := setColor_spec Color.Black hM2'
              have hM3' : Models t3 chk (Ctx.top.plug (.node (.node pl p Color.Black pv (.node sl n sc sv sr)) g gc gv (.node ul ua Color.Black uv ur))) := hM3
              have hr0 : g = t.root := hMg.root_eq_iff.2 rfl
              have hr3 : g = t3.root := hM3'.root_eq_iff.2 rfl
              refine ⟨t3, ?_, by simpa [Ctx.fixInsert, Tree.isRed, Tree.paint, Ctx.plug] using hM3',
                hs2.trans hs3⟩
              simp [FixAfterInsert, node_of_mem hn, ok_bind, IsBlack_node hp, pure_ok,
                node_of_mem hp, node_of_mem hg, IsBlack_node hua, e2, e3, ← hr0, ← hr3, hpl]
            · have hr0 : g ≠ t.root := fun e => hup (hMg.root_eq_iff.1 e)
              obtain ⟨t1, e1, hM1, hs1⟩ := setColor_spec Color.Red hMg
              have hM1' : Models t1 chk ((Ctx.right (.node pl p Color.Red pv (.node sl n sc sv sr)) g Color.Red gv up).plug (.node ul ua Color.Red uv ur)) := hM1
              obtain ⟨t2, e2, hM2, hs2⟩ := setColor_spec Color.Black hM1'
              have hM2' : Models t2 chk ((Ctx.left up g Color.Red gv (.node ul ua Color.Black uv ur)).plug (.node pl p Color.Red pv (.node sl n sc sv sr))) := hM2
              obtain ⟨t3, e3, hM3, hs3⟩ := setColor_spec Color.Black hM2'
              have hM3' : Models t3 chk (up.plug (.node (.node pl p Color.Black pv (.node sl n sc sv sr)) g Color.Red gv (.node ul ua Color.Black uv ur))) := hM3
              have hr3 : g ≠ t3.root := fun e => hup (hM3'.root_eq_iff.1 e)
              have hrc' : up.rootColor ≠ some Color.Red := by
                rw [Ctx.rootColor_right_ne_top (by simp), Ctx.rootColor_left_ne_top hup] at hrc; exact hrc
              obtain ⟨t4, e4, hM4, hs4⟩ := ih t3 up _ g Color.Red gv _ hM3' hrc'
                (by simp only [Ctx.depth] at hd; omega)
              refine ⟨t4, ?_, ?_, ((hs1.trans hs2).trans hs3).trans hs4⟩
              · simp [FixAfterInsert, node_of_mem hn, ok_bind, IsBlack_node hp, pure_ok,
                  node_of_mem hp, node_of_mem hg, IsBlack_node hua, e1, e2, e3, hr0, hr3, e4, hpl]
              · rw [Ctx.fixInsert_lr_red (by simp [Tree.isRed]) hup]
                simpa [Tree.paint] using hM4
          · have hur' : u.isRed = false := by simpa using hur
            obtain ⟨t1, e1, hM1, hs1⟩ := LeftRotate_spec hMp
            have hM1' : Models t1 chk (up.plug (.node (.node (.node pl p Color.Red pv sl) n sc sv sr)
                g gc gv u)) := hM1
            have hg1 := hM1'.cell
            simp only [Tree.ptr_node] at hg1
            obtain ⟨t2, e2, hM2, hs2⟩ := RightRotate_spec hM1'
            have hM2' : Models t2 chk ((Ctx.right (.node pl p Color.Red pv sl) n sc sv up).plug
                (.node sr g gc gv u)) := hM2
            obtain ⟨t3, e3, hM3, hs3⟩ := setColor_spec Color.Red hM2'
            have hM3' : Models t3 chk (up.plug (.node (.node pl p Color.Red pv sl) n sc sv
                (.node sr g Color.Red gv u))) := hM3
            obtain ⟨t4, e4, hM4, hs4⟩ := setColor_spec Color.Black hM3'
            refine ⟨t4, ?_, by simpa [Ctx.fixInsert, hur'] using hM4,
              ((hs1.trans hs2).trans hs3).trans hs4⟩
            simp [FixAfterInsert, node_of_mem hn, ok_bind, IsBlack_node hp, pure_ok,
              node_of_mem hp, node_of_mem hg, IsBlack_rep hu, hur', e1, e2, e3, e4, hpl,
              node_of_mem hg1]
      | right u g gc gv up =>
        have hMg : Models t chk (up.plug (.node u g gc gv (.node pl p pc pv (.node sl n sc sv sr)))) := hM
        have hg := hMg.cell
        have hu := hMg.decomp.2.1.2.1
        simp only [Ctx.par_left, Ctx.par_right, Tree.ptr_node] at hp hg
        have hgl := hMg.left_ptr_ne
        have hpl := hMp.left_ptr_ne
        cases pc with
        | Black =>
          refine ⟨t, ?_, by simpa [Ctx.fixInsert] using hMg, Same.refl t⟩
          simp [FixAfterInsert, node_of_mem hn, ok_bind, IsBlack_node hp, pure_ok]
        | Red =>
          by_cases hur : u.isRed = true
          · obtain ⟨ul, ua, uv, ur, rfl⟩ := Tree.isRed_iff hur
            have hua := (show Models t chk ((Ctx.left up g gc gv (.node pl p Color.Red pv (.node sl n sc sv sr))).plug (.node ul ua Color.Red uv ur)) from hM).cell
            simp only [Ctx.par_left, Ctx.par_right, Tree.ptr_node] at hua hgl
            by_cases hup : up = .top
            · subst hup
              have hM1 : Models t chk ((Ctx.left Ctx.top g gc gv (.node pl p Color.Red pv (.node sl n sc sv sr))).plug (.node ul ua Color.Red uv ur)) := hM
              obtain ⟨t2, e2, hM2, hs2⟩ := setColor_spec Color.Black hM1
              have hM2' : Models t2 chk ((Ctx.right (.node ul ua Color.Black uv ur) g gc gv Ctx.top).plug (.node pl p Color.Red pv (.node sl n sc sv sr))) := hM2
              obtain ⟨t3, e3, hM3, hs3⟩ := setColor_spec Color.Black hM2'
              have hM3' : Models t3 chk (Ctx.top.plug (.node (.node ul ua Color.Black uv ur) g gc gv (.node pl p Color.Black pv (.node sl n sc sv sr)))) := hM3
              have hr0 : g = t.root := hMg.root_eq_iff.2 rfl
              have hr3 : g = t3.root := hM3'.root_eq_iff.2 rfl
              refine ⟨t3, ?_, by simpa [Ctx.fixInsert, Tree.isRed, Tree.paint, Ctx.plug] using hM3',
                hs2.trans hs3⟩
              simp [FixAfterInsert, node_of_mem hn, ok_bind, IsBlack_node hp, pure_ok,
                node_of_mem hp, node_of_mem hg, IsBlack_node hua, e2, e3, ← hr0, ← hr3, hgl, hpl]
            · have hr0 : g ≠ t.root := fun e => hup (hMg.root_eq_iff.1 e)
              obtain ⟨t1, e1, hM1, hs1⟩ := setColor_spec Color.Red hMg
              have hM1' : Models t1 chk ((Ctx.left up g Color.Red gv (.node pl p Color.Red pv (.node sl n sc sv sr))).plug (.node ul ua Color.Red uv ur)) := hM1
              obtain ⟨t2, e2, hM2, hs2⟩ := setColor_spec Color.Black hM1'
              have hM2' : Models t2 chk ((Ctx.right (.node ul ua Color.Black uv ur) g Color.Red gv up).plug (.node pl p Color.Red pv (.node sl n sc sv sr))) := hM2
              obtain ⟨t3, e3, hM3, hs3⟩ := setColor_spec Color.Black hM2'
              have hM3' : Models t3 chk (up.plug (.node (.node ul ua Color.Black uv ur) g Color.Red gv (.node pl p Color.Black pv (.node sl n sc sv sr)))) := hM3
              have hr3 : g ≠ t3.root := fun e => hup (hM3'.root_eq_iff.1 e)
              have hrc' : up.rootColor ≠ some Color.Red := by
                rw [Ctx.rootColor_right_ne_top (by simp), Ctx.rootColor_right_ne_top hup] at hrc; exact hrc
              obtain ⟨t4, e4, hM4, hs4⟩ := ih t3 up _ g Color.Red gv _ hM3' hrc'
                (by simp only [Ctx.depth] at hd; omega)
              refine ⟨t4, ?_, ?_, ((hs1.trans hs2).trans hs3).trans hs4⟩
              · simp [FixAfterInsert, node_of_mem hn, ok_bind, IsBlack_node hp, pure_ok,
                  node_of_mem hp, node_of_mem hg, IsBlack_node hua, e1, e2, e3, hr0, hr3, e4, hgl, hpl]
              · rw [Ctx.fixInsert_rr_red (by simp [Tree.isRed]) hup]
                simpa [Tree.paint] using hM4
          · have hur' : u.isRed = false := by simpa using hur
            obtain ⟨t2, e2, hM2, hs2⟩ := LeftRotate_spec hMg
            have hM2' : Models t2 chk ((Ctx.left up p Color.Red pv (.node sl n sc sv sr)).plug
                (.node u g gc gv pl)) := hM2
            obtain ⟨t3, e3, hM3, hs3⟩ := setColor_spec Color.Red hM2'
            have hM3' : Models t3 chk (up.plug (.node (.node u g Color.Red gv pl) p Color.Red pv
                (.node sl n sc sv sr))) := hM3
            obtain ⟨t4, e4, hM4, hs4⟩ := setColor_spec Color.Black hM3'
            refine ⟨t4, ?_, by simpa [Ctx.fixInsert, hur'] using hM4, (hs2.trans hs3).trans hs4⟩
            simp [FixAfterInsert, node_of_mem hn, ok_bind, IsBlack_node hp, pure_ok,
              node_of_mem hp, node_of_mem hg, IsBlack_rep hu, hur', e2, e3, e4, hgl, hpl]

/-! ## Attaching a new node -/

@[simp] theorem allocate_snd (t : RBTree V) (n : RBNode V) : (t.allocate n).2 = t.brk := rfl
@[simp] theorem allocate_mem_self (t : RBTree V) (n : RBNode V) :
    (t.allocate n).1.mem t.brk = some n := by simp [RBTree.allocate]
theorem allocate_mem_ne (t : RBTree V) (n : RBNode V) {a : Nat} (h : a ≠ t.brk) :
    (t.allocate n).1.mem a = t.mem a := by simp [RBTree.allocate, h]
@[simp] theorem allocate_brk (t : RBTree V) (n : RBNode V) : (t.allocate n).1.brk = t.brk + 1 := rfl
@[simp] theorem allocate_root (t : RBTree V) (n : RBNode V) : (t.allocate n).1.root = t.root := rfl
@[simp] theorem allocate_fictional (t : RBTree V) (n : RBNode V) :
    (t.allocate n).1.fictional = t.fictional := rfl
@[simp] theorem allocate_size (t : RBTree V) (n : RBNode V) : (t.allocate n).1.size = t.size := rfl

theorem Models.lt_brk {t : RBTree V} {chk : Bool} {T : Tree V} (h : Models t chk T) {a : Nat}
    (ha : a ∈ T.addrs t.fictional) : a < t.brk := by
  by_contra hge
  have := Rep.live T none h.rep a ha
  rw [h.fresh a (by omega)] at this
  simp at this

theorem Rep.allocate {t : RBTree V} {F : Nat} {chk : Bool} {T : Tree V} {par : Option Nat}
    (n : RBNode V) (ha : t.brk ∉ T.addrs F) (h : Rep t.mem F chk T par) :
    Rep (t.allocate n).1.mem F chk T par := by
  refine Rep.congr T par (fun b hb => ?_) h
  exact allocate_mem_ne t n (fun e => ha (e ▸ hb))

theorem RepCtx.allocate_ctx {t : RBTree V} {F : Nat} {chk : Bool} {rt : Nat} {C : Ctx V}
    {p : Option Nat} (n : RBNode V) (ha : t.brk ∉ C.addrs F)
    (h : RepCtx t.mem F chk rt C p) : RepCtx (t.allocate n).1.mem F chk rt C p := by
  refine RepCtx.congr_ctx C p (fun b hb => ?_) h
  exact allocate_mem_ne t n (fun e => ha (e ▸ hb))

theorem attach_left_spec (P : Params K V) {t : RBTree V} {chk : Bool} {C : Ctx V}
    {a : Nat} {c : Color} {v : V} {r : Tree V} (val : V)
    (hM : Models t chk (C.plug (.node .nil a c v r))) (haF : a ≠ t.fictional)
    (h1 : P.comp (P.conv val) (P.conv v) = true) :
    ∃ t', attachNew P t val a = .ok (some (t', t.brk)) ∧
      Models t' chk ((Ctx.left C a c v r).plug (.node .nil t.brk Color.Red val .nil)) ∧
      Grown t t' := by
  obtain ⟨hC, ⟨ha, _, hr⟩, hnd⟩ := hM.decomp
  have hbrk : ∀ b ∈ (C.plug (.node .nil a c v r)).addrs t.fictional, b ≠ t.brk :=
    fun b hb => Nat.ne_of_lt (hM.lt_brk hb)
  have hbrk' : ∀ b ∈ (Tree.node .nil a c v r).addrs t.fictional ++ C.addrs t.fictional,
      b ≠ t.brk :=
    fun b hb => hbrk b ((plug_addrs_perm t.fictional C _).mem_iff.2 hb)
  simp only [Tree.addrs, List.nodup_append, List.nodup_cons, List.mem_append,
    List.mem_cons, List.disjoint_append_left, List.disjoint_append_right,
    List.disjoint_cons_left, List.disjoint_cons_right, not_or, List.cons_append,
    List.append_assoc, List.nil_append, List.not_mem_nil, false_or, List.nodup_nil,
    true_and, not_false_eq_true] at hnd hbrk'
  have habrk : a ≠ t.brk := hbrk' a (Or.inl rfl)
  simp only [Tree.ptr_nil] at ha
  refine ⟨((t.allocate ⟨some a, none, none, val, Color.Red⟩).1.put a
    ⟨C.par, some t.brk, r.ptr t.fictional, v, c⟩), ?_, ?_, ⟨rfl, rfl, rfl⟩⟩
  · simp [attachNew, haF, node_of_mem ha, ok_bind, h1, RBTree.setLeft, allocate_mem_ne, habrk, ha,
      pure_ok]
  · refine Models.compose (C := Ctx.left C a c v r) ?_ ?_ ?_ ?_
    · simp only [put_fictional, allocate_fictional, put_root, allocate_root, Tree.ptr_node]
      refine ⟨by simp, ?_, ?_⟩
      · exact Rep.put _ (by tauto) (Rep.allocate _ (fun h => hbrk' _ (by tauto) rfl) hr)
      · exact RepCtx.put_ctx _ (by tauto) (RepCtx.allocate_ctx _ (fun h => hbrk' _ (by tauto) rfl) hC)
    · simp only [put_fictional, allocate_fictional, Ctx.par_left]
      refine ⟨?_, trivial, trivial⟩
      rw [put_mem_ne _ _ (Ne.symm habrk)]
      simp
    · simp only [put_fictional, allocate_fictional, Tree.addrs, Ctx.addrs,
        List.nodup_append, List.nodup_cons, List.mem_append,
        List.mem_cons, List.disjoint_append_left, List.disjoint_append_right,
        List.disjoint_cons_left, List.disjoint_cons_right, not_or, List.cons_append,
        List.append_assoc, List.nil_append, List.not_mem_nil, false_or, List.nodup_nil,
        true_and, not_false_eq_true, List.mem_singleton, List.nodup_singleton]
      have h1 : t.brk ≠ a := Ne.symm habrk
      have h2 : t.brk ∉ r.addrs t.fictional := fun h => hbrk' _ (by tauto) rfl
      have h3 : t.brk ∉ C.addrs t.fictional := fun h => hbrk' _ (by tauto) rfl
      tauto
    · intro b hb
      simp only [put_brk, allocate_brk] at hb
      rw [put_mem_ne _ _ (by rintro rfl; have := hM.lt_brk (a := b) (by
        rw [(plug_addrs_perm t.fictional C _).mem_iff]; simp [Tree.addrs]); omega),
        allocate_mem_ne _ _ (by omega)]
      exact hM.fresh b (by omega)

theorem attach_right_spec (P : Params K V) {t : RBTree V} {chk : Bool} {C : Ctx V}
    {a : Nat} {c : Color} {v : V} {l : Tree V} (val : V)
    (hM : Models t chk (C.plug (.node l a c v .nil))) (haF : a ≠ t.fictional)
    (h1 : P.comp (P.conv val) (P.conv v) = false)
    (h2 : P.comp (P.conv v) (P.conv val) = true) :
    ∃ t', attachNew P t val a = .ok (some (t', t.brk)) ∧
      Models t' chk ((Ctx.right l a c v C).plug (.node .nil t.brk Color.Red val .nil)) ∧
      Grown t t' := by
  obtain ⟨hC, ⟨ha, hl, _⟩, hnd⟩ := hM.decomp
  have hbrk : ∀ b ∈ (C.plug (.node l a c v .nil)).addrs t.fictional, b ≠ t.brk :=
    fun b hb => Nat.ne_of_lt (hM.lt_brk hb)
  have hbrk' : ∀ b ∈ (Tree.node l a c v .nil).addrs t.fictional ++ C.addrs t.fictional,
      b ≠ t.brk :=
    fun b hb => hbrk b ((plug_addrs_perm t.fictional C _).mem_iff.2 hb)
  simp only [Tree.addrs, Ctx.addrs, List.nodup_append, List.nodup_cons, List.mem_append,
    List.mem_cons, List.disjoint_append_left, List.disjoint_append_right,
    List.disjoint_cons_left, List.disjoint_cons_right, not_or, List.cons_append,
    List.append_assoc, List.nil_append, List.append_nil, List.not_mem_nil, false_or, or_false,
    List.nodup_nil, true_and, and_true, not_false_eq_true, List.mem_singleton,
    List.nodup_singleton, List.disjoint_singleton, List.singleton_disjoint,
    List.disjoint_nil_left, List.disjoint_nil_right] at hnd hbrk'
  have habrk : a ≠ t.brk := hbrk' a (by tauto)
  simp only [Tree.ptr_nil] at ha
  refine ⟨((t.allocate ⟨some a, none, none, val, Color.Red⟩).1.put a
    ⟨C.par, l.ptr t.fictional, some t.brk, v, c⟩), ?_, ?_, ⟨rfl, rfl, rfl⟩⟩
  · simp [attachNew, haF, node_of_mem ha, ok_bind, h1, h2, RBTree.setRight, allocate_mem_ne,
      habrk, ha, pure_ok]
  · refine Models.compose (C := Ctx.right l a c v C) ?_ ?_ ?_ ?_
    · simp only [put_fictional, allocate_fictional, put_root, allocate_root, Tree.ptr_node]
      refine ⟨by simp, ?_, ?_⟩
      · exact Rep.put _ (by tauto) (Rep.allocate _ (fun h => hbrk' _ (by tauto) rfl) hl)
      · exact RepCtx.put_ctx _ (by tauto) (RepCtx.allocate_ctx _ (fun h => hbrk' _ (by tauto) rfl) hC)
    · simp only [put_fictional, allocate_fictional, Ctx.par_right]
      refine ⟨?_, trivial, trivial⟩
      rw [put_mem_ne _ _ (Ne.symm habrk)]
      simp
    · simp only [Tree.addrs, Ctx.addrs, List.nodup_append, List.nodup_cons, List.mem_append,
    List.mem_cons, List.disjoint_append_left, List.disjoint_append_right,
    List.disjoint_cons_left, List.disjoint_cons_right, not_or, List.cons_append,
    List.append_assoc, List.nil_append, List.append_nil, List.not_mem_nil, false_or, or_false,
    List.nodup_nil, true_and, and_true, not_false_eq_true, List.mem_singleton,
    List.nodup_singleton, List.disjoint_singleton, List.singleton_disjoint,
    List.disjoint_nil_left, List.disjoint_nil_right]
      have h1 : t.brk ≠ a := Ne.symm habrk
      have h2 : t.brk ∉ l.addrs t.fictional := fun h => hbrk' _ (by tauto) rfl
      have h3 : t.brk ∉ C.addrs t.fictional := fun h => hbrk' _ (by tauto) rfl
      simp only [put_fictional, allocate_fictional]
      tauto
    · intro b hb
      simp only [put_brk, allocate_brk] at hb
      rw [put_mem_ne _ _ (by rintro rfl; have := hM.lt_brk (a := b) (by
        rw [(plug_addrs_perm t.fictional C _).mem_iff]; simp [Tree.addrs]); omega),
        allocate_mem_ne _ _ (by omega)]
      exact hM.fresh b (by omega)

theorem attach_fict_spec (P : Params K V) {t : RBTree V} {C : Ctx V} (val : V)
    (hM : Models t true (C.plug .fict))
    (hC : C = .top ∨ ∃ l a c v up, C = .right l a c v up) :
    ∃ t', attachNew P t val t.fictional = .ok (some (t', t.brk)) ∧
      Models t' true (C.plug (.node .nil t.brk Color.Red val .fict)) ∧ Grown t t' := by
  obtain ⟨hCr, ⟨pp, g, hF, hpp⟩, hnd⟩ := hM.decomp
  have hpp := hpp rfl
  subst hpp
  have hbrk : ∀ b ∈ (C.plug .fict).addrs t.fictional, b ≠ t.brk :=
    fun b hb => Nat.ne_of_lt (hM.lt_brk hb)
  have hbrk' : ∀ b ∈ (Tree.fict : Tree V).addrs t.fictional ++ C.addrs t.fictional,
      b ≠ t.brk :=
    fun b hb => hbrk b ((plug_addrs_perm t.fictional C _).mem_iff.2 hb)
  have hFbrk : t.fictional ≠ t.brk := hbrk' _ (by simp [Tree.addrs])
  rcases hC with rfl | ⟨l, a, c, v, up, rfl⟩
  · simp only [Ctx.par_top] at hF
    refine ⟨({ (t.allocate ⟨none, none, some t.fictional, val, Color.Red⟩).1 with
      root := t.brk }).put t.fictional ⟨some t.brk, none, none, g, Color.Black⟩, ?_, ?_,
      ⟨rfl, rfl, rfl⟩⟩
    · simp [attachNew, node_of_mem hF, ok_bind, RBTree.node, allocate_mem_ne, hFbrk, hF,
        pure_ok, RBTree.setParent]
    · refine Models.compose (C := Ctx.top) ?_ ?_ ?_ ?_
      · simp [RepCtx]
      · simp only [put_fictional, Ctx.par_top]
        refine ⟨?_, trivial, ?_⟩
        · rw [put_mem_ne _ _ (Ne.symm hFbrk)]
          simp [RBTree.allocate]
        · exact ⟨some t.brk, g, by simp [RBTree.allocate], fun _ => rfl⟩
      · simp [Tree.addrs, Ctx.addrs, Ne.symm hFbrk, RBTree.allocate]
      · intro b hb
        simp only [put_brk] at hb
        have hb' : t.brk + 1 ≤ b := hb
        have hFlt := hM.lt_brk (a := t.fictional) (by simp [Ctx.plug, Tree.addrs])
        rw [put_mem_ne _ _ (by omega)]
        simp only [RBTree.allocate]
        rw [if_neg (by omega)]
        exact hM.fresh b (by omega)
  · obtain ⟨ha, hl, hup⟩ := hCr
    simp only [Tree.addrs, Ctx.addrs, List.nodup_append, List.nodup_cons, List.mem_append,
    List.mem_cons, List.disjoint_append_left, List.disjoint_append_right,
    List.disjoint_cons_left, List.disjoint_cons_right, not_or, List.cons_append,
    List.append_assoc, List.nil_append, List.append_nil, List.not_mem_nil, false_or, or_false,
    List.nodup_nil, true_and, and_true, not_false_eq_true, List.mem_singleton,
    List.nodup_singleton, List.disjoint_singleton, List.singleton_disjoint,
    List.disjoint_nil_left, List.disjoint_nil_right] at hnd hbrk'
    simp only [Ctx.par_right, Tree.ptr_fict] at hF ha
    have habrk : a ≠ t.brk := hbrk' a (by tauto)
    have haF : a ≠ t.fictional := by tauto
    refine ⟨(((t.allocate ⟨some a, none, some t.fictional, val, Color.Red⟩).1.put a
      ⟨up.par, l.ptr t.fictional, some t.brk, v, c⟩)).put t.fictional
      ⟨some t.brk, none, none, g, Color.Black⟩, ?_, ?_, ⟨rfl, rfl, rfl⟩⟩
    · simp [attachNew, node_of_mem hF, ok_bind, RBTree.node, allocate_mem_ne, hFbrk, hF,
        pure_ok, RBTree.setParent, RBTree.setRight, habrk, ha, put_mem_ne, Ne.symm haF]
    · refine Models.compose (C := Ctx.right l a c v up) ?_ ?_ ?_ ?_
      · simp only [put_fictional, allocate_fictional, put_root, allocate_root, Tree.ptr_node]
        refine ⟨?_, ?_, ?_⟩
        · rw [put_mem_ne _ _ haF]; simp
        · exact Rep.put _ (by tauto) (Rep.put _ (by tauto)
            (Rep.allocate _ (fun h => hbrk' _ (by tauto) rfl) hl))
        · exact RepCtx.put_ctx _ (by tauto) (RepCtx.put_ctx _ (by tauto)
            (RepCtx.allocate_ctx _ (fun h => hbrk' _ (by tauto) rfl) hup))
      · simp only [put_fictional, allocate_fictional, Ctx.par_right]
        refine ⟨?_, trivial, ?_⟩
        · rw [put_mem_ne _ _ (Ne.symm hFbrk), put_mem_ne _ _ (Ne.symm habrk)]
          simp
        · exact ⟨some t.brk, g, by simp, fun _ => rfl⟩
      · simp only [Tree.addrs, Ctx.addrs, List.nodup_append, List.nodup_cons, List.mem_append,
    List.mem_cons, List.disjoint_append_left, List.disjoint_append_right,
    List.disjoint_cons_left, List.disjoint_cons_right, not_or, List.cons_append,
    List.append_assoc, List.nil_append, List.append_nil, List.not_mem_nil, false_or, or_false,
    List.nodup_nil, true_and, and_true, not_false_eq_true, List.mem_singleton,
    List.nodup_singleton, List.disjoint_singleton, List.singleton_disjoint,
    List.disjoint_nil_left, List.disjoint_nil_right]
        have h1 : t.brk ≠ a := Ne.symm habrk
        have h2 : t.brk ∉ l.addrs t.fictional := fun h => hbrk' _ (by tauto) rfl
        have h3 : t.brk ∉ up.addrs t.fictional := fun h => hbrk' _ (by tauto) rfl
        have h4 : t.brk ≠ t.fictional := Ne.symm hFbrk
        simp only [put_fictional, allocate_fictional]
        tauto
      · intro b hb
        simp only [put_brk, allocate_brk] at hb
        have hFlt := hM.lt_brk (a := t.fictional) (by
          rw [(plug_addrs_perm t.fictional _ _).mem_iff]; simp [Tree.addrs])
        have halt := hM.lt_brk (a := a) (by
          rw [(plug_addrs_perm t.fictional _ _).mem_iff]; simp [Tree.addrs, Ctx.addrs])
        rw [put_mem_ne _ _ (by omega), put_mem_ne _ _ (by omega), allocate_mem_ne _ _ (by omega)]
        exact hM.fresh b (by omega)

/-! ## The in-order walk -/

theorem plug_items : ∀ (C : Ctx V) (S : Tree V),
    (C.plug S).items = C.before ++ S.items ++ C.after
  | .top, S => by simp [Ctx.plug, Ctx.before, Ctx.after]
  | .left up a c v r, S => by
    simp only [Ctx.plug, Ctx.before, Ctx.after]
    rw [plug_items up]
    simp [Tree.items]
  | .right l a c v up, S => by
    simp only [Ctx.plug, Ctx.before, Ctx.after]
    rw [plug_items up]
    simp [Tree.items]

theorem Tree.inorder_items (T : Tree V) :
    T.inorder = T.items.filterMap (fun o => o.map Prod.snd) := by
  induction T with
  | nil => rfl
  | fict => rfl
  | node l a c v r ihl ihr => simp [Tree.inorder, Tree.items, ihl, ihr, List.filterMap_append]

theorem Tree.nodes_items (T : Tree V) :
    T.nodes = T.items.filterMap (fun o => o.map Prod.fst) := by
  induction T with
  | nil => rfl
  | fict => rfl
  | node l a c v r ihl ihr => simp [Tree.nodes, Tree.items, ihl, ihr, List.filterMap_append]

theorem Tree.addrs_items (F : Nat) (T : Tree V) :
    T.addrs F = T.items.map (fun o => (o.map Prod.fst).getD F) := by
  induction T with
  | nil => rfl
  | fict => rfl
  | node l a c v r ihl ihr => simp [Tree.addrs, Tree.items, ihl, ihr]

theorem Tree.noFict_items (T : Tree V) : T.noFict = true ↔ none ∉ T.items := by
  induction T with
  | nil => simp [Tree.noFict, Tree.items]
  | fict => simp [Tree.noFict, Tree.items]
  | node l a c v r ihl ihr =>
    simp [Tree.noFict, Tree.items, ihl, ihr]

theorem Tree.endsFict_items (T : Tree V) :
    T.endsFict = true ↔ ∃ l, none ∉ l ∧ T.items = l ++ [none] := by
  induction T with
  | nil => simp [Tree.endsFict, Tree.items]
  | fict =>
    simp only [Tree.endsFict, Tree.items, true_iff]
    exact ⟨[], by simp, rfl⟩
  | node l a c v r ihl ihr =>
    simp only [Tree.endsFict, Tree.items, Bool.and_eq_true, ihr, Tree.noFict_items]
    constructor
    · rintro ⟨hl, l', hl', hr⟩
      refine ⟨l.items ++ some (a, v) :: l', ?_, by simp [hr]⟩
      simp [hl, hl']
    · rintro ⟨l', hl', h⟩
      have hne : r.items ≠ [] := by
        intro hr
        rw [hr] at h
        have := congrArg List.getLast? h
        simp at this
      obtain ⟨r', x, hr'⟩ : ∃ r' x, r.items = r' ++ [x] :=
        ⟨r.items.dropLast, r.items.getLast hne, (List.dropLast_append_getLast hne).symm⟩
      rw [hr', ← List.cons_append, ← List.append_assoc] at h
      have h2 := List.append_inj' h rfl
      obtain ⟨h3, h4⟩ := h2
      simp only [List.cons.injEq, and_true] at h4
      subst h4
      subst h3
      simp only [List.mem_append, List.mem_cons, not_or] at hl'
      exact ⟨hl'.1, r', hl'.2.2, hr'⟩

theorem Tree.paint_items (c : Color) (T : Tree V) : (T.paint c).items = T.items := by
  cases T <;> rfl

theorem fixInsert_items : ∀ (C : Ctx V) (sl : Tree V) (n : Nat) (sc : Color) (sv : V)
    (sr : Tree V), (C.fixInsert (.node sl n sc sv sr)).items =
      (C.plug (.node sl n sc sv sr)).items
  | .top, sl, n, sc, sv, sr => by simp [Ctx.fixInsert, Tree.paint, Ctx.plug, Tree.items]
  | .left .top p pc pv pr, sl, n, sc, sv, sr => by simp [Ctx.fixInsert, Ctx.plug]
  | .right pl p pc pv .top, sl, n, sc, sv, sr => by simp [Ctx.fixInsert, Ctx.plug]
  | .left (.left up g gc gv u) p pc pv pr, sl, n, sc, sv, sr => by
    simp only [Ctx.fixInsert, Ctx.plug]
    split
    · rfl
    · split
      · cases up with
        | top => simp [Ctx.plug, Tree.items, Tree.paint_items]
        | left up' a' c' v' r' =>
          simp only []
          rw [fixInsert_items, plug_items, plug_items]
          simp [Tree.items, Tree.paint_items]
        | right l' a' c' v' up' =>
          simp only []
          rw [fixInsert_items, plug_items, plug_items]
          simp [Tree.items, Tree.paint_items]
      · rw [plug_items, plug_items]; simp [Tree.items]
  | .right pl p pc pv (.left up g gc gv u), sl, n, sc, sv, sr => by
    simp only [Ctx.fixInsert, Ctx.plug]
    split
    · rfl
    · split
      · cases up with
        | top => simp [Ctx.plug, Tree.items, Tree.paint_items]
        | left up' a' c' v' r' =>
          simp only []
          rw [fixInsert_items, plug_items, plug_items]
          simp [Tree.items, Tree.paint_items]
        | right l' a' c' v' up' =>
          simp only []
          rw [fixInsert_items, plug_items, plug_items]
          simp [Tree.items, Tree.paint_items]
      · rw [plug_items, plug_items]; simp [Tree.items]
  | .left (.right u g gc gv up) p pc pv pr, sl, n, sc, sv, sr => by
    simp only [Ctx.fixInsert, Ctx.plug]
    split
    · rfl
    · split
      · cases up with
        | top => simp [Ctx.plug, Tree.items, Tree.paint_items]
        | left up' a' c' v' r' =>
          simp only []
          rw [fixInsert_items, plug_items, plug_items]
          simp [Tree.items, Tree.paint_items]
        | right l' a' c' v' up' =>
          simp only []
          rw [fixInsert_items, plug_items, plug_items]
          simp [Tree.items, Tree.paint_items]
      · rw [plug_items, plug_items]; simp [Tree.items]
  | .right pl p pc pv (.right u g gc gv up), sl, n, sc, sv, sr => by
    simp only [Ctx.fixInsert, Ctx.plug]
    split
    · rfl
    · split
      · cases up with
        | top => simp [Ctx.plug, Tree.items, Tree.paint_items]
        | left up' a' c' v' r' =>
          simp only []
          rw [fixInsert_items, plug_items, plug_items]
          simp [Tree.items, Tree.paint_items]
        | right l' a' c' v' up' =>
          simp only []
          rw [fixInsert_items, plug_items, plug_items]
          simp [Tree.items, Tree.paint_items]
      · rw [plug_items, plug_items]; simp [Tree.items]

theorem Ctx.rootColor_none_iff (C : Ctx V) : C.rootColor = none ↔ C = .top := by
  cases C with
  | top => simp [Ctx.rootColor]
  | left up a c v r =>
    simp only [Ctx.rootColor]
    cases up.rootColor <;> simp
  | right l a c v up =>
    simp only [Ctx.rootColor]
    cases up.rootColor <;> simp

theorem plug_rootBlack : ∀ (C : Ctx V) (S : Tree V), C.rootColor ≠ some Color.Red →
    (C = .top → S.rootBlack = true) → (C.plug S).rootBlack = true
  | .top, S, _, h => h rfl
  | .left up a c v r, S, hrc, _ => by
    simp only [Ctx.plug]
    refine plug_rootBlack up _ ?_ ?_
    · intro h
      simp [Ctx.rootColor, h] at hrc
    · rintro rfl
      cases c
      · simp [Ctx.rootColor] at hrc
      · rfl
  | .right l a c v up, S, hrc, _ => by
    simp only [Ctx.plug]
    refine plug_rootBlack up _ ?_ ?_
    · intro h
      simp [Ctx.rootColor, h] at hrc
    · rintro rfl
      cases c
      · simp [Ctx.rootColor] at hrc
      · rfl

theorem fixInsert_rootBlack : ∀ (C : Ctx V) (sl : Tree V) (n : Nat) (sc : Color) (sv : V)
    (sr : Tree V), C.rootColor ≠ some Color.Red →
    (C.fixInsert (.node sl n sc sv sr)).rootBlack = true
  | .top, sl, n, sc, sv, sr, _ => by simp [Ctx.fixInsert, Tree.paint, Tree.rootBlack]
  | .left .top p pc pv pr, sl, n, sc, sv, sr, hrc => by
    cases pc
    · simp [Ctx.rootColor] at hrc
    · rfl
  | .right pl p pc pv .top, sl, n, sc, sv, sr, hrc => by
    cases pc
    · simp [Ctx.rootColor] at hrc
    · rfl
  | .left (.left up g gc gv u) p pc pv pr, sl, n, sc, sv, sr, hrc => by
    simp only [Ctx.fixInsert]
    split
    · exact plug_rootBlack (Ctx.left (Ctx.left up g gc gv u) p pc pv pr) (.node sl n sc sv sr) hrc (by simp)
    · have hrc2 : (Ctx.left up g gc gv u : Ctx V).rootColor ≠ some Color.Red := by
        rwa [Ctx.rootColor_left_ne_top (by simp)] at hrc
      split
      · cases up with
        | top =>
          have : gc = Color.Black := by
            cases gc
            · simp [Ctx.rootColor] at hrc2
            · rfl
          subst this
          rfl
        | left up' a' c' v' r' =>
          simp only []
          apply fixInsert_rootBlack
          rwa [Ctx.rootColor_left_ne_top (by simp)] at hrc2
        | right l' a' c' v' up' =>
          simp only []
          apply fixInsert_rootBlack
          rwa [Ctx.rootColor_left_ne_top (by simp)] at hrc2
      · refine plug_rootBlack up _ ?_ (by simp [Tree.rootBlack])
        cases up with
        | top => simp [Ctx.rootColor]
        | left up' a' c' v' r' => rwa [Ctx.rootColor_left_ne_top (by simp)] at hrc2
        | right l' a' c' v' up' => rwa [Ctx.rootColor_left_ne_top (by simp)] at hrc2
  | .right pl p pc pv (.left up g gc gv u), sl, n, sc, sv, sr, hrc => by
    simp only [Ctx.fixInsert]
    split
    · exact plug_rootBlack (Ctx.right pl p pc pv (Ctx.left up g gc gv u)) (.node sl n sc sv sr) hrc (by simp)
    · have hrc2 : (Ctx.left up g gc gv u : Ctx V).rootColor ≠ some Color.Red := by
        rwa [Ctx.rootColor_right_ne_top (by simp)] at hrc
      split
      · cases up with
        | top =>
          have : gc = Color.Black := by
            cases gc
            · simp [Ctx.rootColor] at hrc2
            · rfl
          subst this
          rfl
        | left up' a' c' v' r' =>
          simp only []
          apply fixInsert_rootBlack
          rwa [Ctx.rootColor_left_ne_top (by simp)] at hrc2
        | right l' a' c' v' up' =>
          simp only []
          apply fixInsert_rootBlack
          rwa [Ctx.rootColor_left_ne_top (by simp)] at hrc2
      · refine plug_rootBlack up _ ?_ (by simp [Tree.rootBlack])
        cases up with
        | top => simp [Ctx.rootColor]
        | left up' a' c' v' r' => rwa [Ctx.rootColor_left_ne_top (by simp)] at hrc2
        | right l' a' c' v' up' => rwa [Ctx.rootColor_left_ne_top (by simp)] at hrc2
  | .left (.right u g gc gv up) p pc pv pr, sl, n, sc, sv, sr, hrc => by
    simp only [Ctx.fixInsert]
    split
    · exact plug_rootBlack (Ctx.left (Ctx.right u g gc gv up) p pc pv pr) (.node sl n sc sv sr) hrc (by simp)
    · have hrc2 : (Ctx.right u g gc gv up : Ctx V).rootColor ≠ some Color.Red := by
        rwa [Ctx.rootColor_left_ne_top (by simp)] at hrc
      split
      · cases up with
        | top =>
          have : gc = Color.Black := by
            cases gc
            · simp [Ctx.rootColor] at hrc2
            · rfl
          subst this
          rfl
        | left up' a' c' v' r' =>
          simp only []
          apply fixInsert_rootBlack
          rwa [Ctx.rootColor_right_ne_top (by simp)] at hrc2
        | right l' a' c' v' up' =>
          simp only []
          apply fixInsert_rootBlack
          rwa [Ctx.rootColor_right_ne_top (by simp)] at hrc2
      · refine plug_rootBlack up _ ?_ (by simp [Tree.rootBlack])
        cases up with
        | top => simp [Ctx.rootColor]
        | left up' a' c' v' r' => rwa [Ctx.rootColor_right_ne_top (by simp)] at hrc2
        | right l' a' c' v' up' => rwa [Ctx.rootColor_right_ne_top (by simp)] at hrc2
  | .right pl p pc pv (.right u g gc gv up), sl, n, sc, sv, sr, hrc => by
    simp only [Ctx.fixInsert]
    split
    · exact plug_rootBlack (Ctx.right pl p pc pv (Ctx.right u g gc gv up)) (.node sl n sc sv sr) hrc (by simp)
    · have hrc2 : (Ctx.right u g gc gv up : Ctx V).rootColor ≠ some Color.Red := by
        rwa [Ctx.rootColor_right_ne_top (by simp)] at hrc
      split
      · cases up with
        | top =>
          have : gc = Color.Black := by
            cases gc
            · simp [Ctx.rootColor] at hrc2
            · rfl
          subst this
          rfl
        | left up' a' c' v' r' =>
          simp only []
          apply fixInsert_rootBlack
          rwa [Ctx.rootColor_right_ne_top (by simp)] at hrc2
        | right l' a' c' v' up' =>
          simp only []
          apply fixInsert_rootBlack
          rwa [Ctx.rootColor_right_ne_top (by simp)] at hrc2
      · refine plug_rootBlack up _ ?_ (by simp [Tree.rootBlack])
        cases up with
        | top => simp [Ctx.rootColor]
        | left up' a' c' v' r' => rwa [Ctx.rootColor_right_ne_top (by simp)] at hrc2
        | right l' a' c' v' up' => rwa [Ctx.rootColor_right_ne_top (by simp)] at hrc2

/-! ## Insert on a laid out tree -/

theorem findPath_stop (P : Params K V) (key : K) (S : Tree V) (C : Ctx V) :
    ∀ C' l a c v r, Tree.findPath P key C S = (C', .node l a c v r) →
      (P.comp (P.conv v) key = true → r = .nil ∨ r = .fict) ∧
      (P.comp (P.conv v) key = false → P.comp key (P.conv v) = true → l = .nil) := by
  refine findPath_ind P key
    (motive := fun C S res => ∀ C' l a c v r, res = (C', .node l a c v r) →
      (P.comp (P.conv v) key = true → r = .nil ∨ r = .fict) ∧
      (P.comp (P.conv v) key = false → P.comp key (P.conv v) = true → l = .nil))
    ?_ ?_ ?_ ?_ ?_ ?_ ?_ ?_ ?_ S C
  · intro C C' l a c v r h; simp at h
  · intro C C' l a c v r h; simp at h
  · intro C l a c v r h1 h2 C' l' a' c' v' r' h
    simp only [Prod.mk.injEq, Tree.node.injEq] at h
    obtain ⟨_, rfl, rfl, rfl, rfl, rfl⟩ := h
    simp [h1, h2]
  · intro C l a c v h1 C' l' a' c' v' r' h
    simp only [Prod.mk.injEq, Tree.node.injEq] at h
    obtain ⟨_, rfl, rfl, rfl, rfl, rfl⟩ := h
    simp [h1]
  · intro C l a c v h1 C' l' a' c' v' r' h
    simp only [Prod.mk.injEq, Tree.node.injEq] at h
    obtain ⟨_, rfl, rfl, rfl, rfl, rfl⟩ := h
    simp [h1]
  · intro C l a c v rl ra rc rv rr h1 ih
    exact ih
  · intro C a c v r h1 h2 C' l' a' c' v' r' h
    simp only [Prod.mk.injEq, Tree.node.injEq] at h
    obtain ⟨_, rfl, rfl, rfl, rfl, rfl⟩ := h
    simp [h1]
  · intro C a c v r h1 h2 C' l' a' c' v' r' h
    simp at h
  · intro C ll la lc lv lr a c v r h1 h2 ih
    exact ih

theorem findPath_fict (P : Params K V) (key : K) (S : Tree V) (C : Ctx V) :
    ∀ C', Tree.findPath P key C S = (C', .fict) →
      (S = .fict ∧ C' = C) ∨ ∃ up a c v r, C' = .left up a c v r := by
  refine findPath_ind P key
    (motive := fun C S res => ∀ C', res = (C', .fict) →
      (S = .fict ∧ C' = C) ∨ ∃ up a c v r, C' = .left up a c v r)
    ?_ ?_ ?_ ?_ ?_ ?_ ?_ ?_ ?_ S C
  · intro C C' h; simp at h
  · intro C C' h
    simp only [Prod.mk.injEq, and_true] at h
    exact Or.inl ⟨rfl, h.symm⟩
  · intro C l a c v r h1 h2 C' h; simp at h
  · intro C l a c v h1 C' h; simp at h
  · intro C l a c v h1 C' h; simp at h
  · intro C l a c v rl ra rc rv rr h1 ih C' h
    rcases ih C' h with ⟨h', _⟩ | h'
    · simp at h'
    · exact Or.inr h'
  · intro C a c v r h1 h2 C' h; simp at h
  · intro C a c v r h1 h2 C' h
    simp only [Prod.mk.injEq, and_true] at h
    exact Or.inr ⟨C, a, c, v, r, h.symm⟩
  · intro C ll la lc lv lr a c v r h1 h2 ih C' h
    rcases ih C' h with ⟨h', _⟩ | h'
    · simp at h'
    · exact Or.inr h'

theorem plug_rootBlack_inv : ∀ (C : Ctx V) (S : Tree V), (C.plug S).rootBlack = true →
    C.rootColor ≠ some Color.Red
  | .top, S, _ => by simp [Ctx.rootColor]
  | .left up a c v r, S, h => by
    simp only [Ctx.plug] at h
    have ih := plug_rootBlack_inv up _ h
    simp only [Ctx.rootColor]
    cases hup : up.rootColor with
    | some k => simpa [hup] using ih
    | none =>
      have := (Ctx.rootColor_none_iff up).1 hup
      subst this
      cases c
      · simp [Ctx.plug, Tree.rootBlack] at h
      · simp
  | .right l a c v up, S, h => by
    simp only [Ctx.plug] at h
    have ih := plug_rootBlack_inv up _ h
    simp only [Ctx.rootColor]
    cases hup : up.rootColor with
    | some k => simpa [hup] using ih
    | none =>
      have := (Ctx.rootColor_none_iff up).1 hup
      subst this
      cases c
      · simp [Ctx.plug, Tree.rootBlack] at h
      · simp

theorem plug_count : ∀ (C : Ctx V) (S : Tree V), C.depth + S.count ≤ (C.plug S).count
  | .top, S => by simp [Ctx.plug, Ctx.depth]
  | .left up a c v r, S => by
    simp only [Ctx.plug, Ctx.depth]
    have := plug_count up (.node S a c v r)
    simp only [Tree.count] at this
    omega
  | .right l a c v up, S => by
    simp only [Ctx.plug, Ctx.depth]
    have := plug_count up (.node l a c v S)
    simp only [Tree.count] at this
    omega

theorem Models.incSize {t : RBTree V} {chk : Bool} {T : Tree V} (h : Models t chk T) :
    Models t.incSize chk T := ⟨h.rep, h.root, h.nodup, h.fresh⟩

theorem Models.depth_lt {t : RBTree V} {chk : Bool} {C : Ctx V} {S : Tree V}
    (h : Models t chk (C.plug S)) : C.depth < t.budget := by
  have h1 := plug_count C S
  have h2 := h.count_le
  simp only [RBTree.budget]
  omega

theorem ends_unique {α : Type} {l X Y : List (Option α)} (hl : none ∉ l)
    (h : l ++ [none] = X ++ none :: Y) : Y = [] ∧ X = l := by
  rcases List.append_eq_append_iff.1 h with ⟨a', h1, h2⟩ | ⟨c', h1, h2⟩
  · cases a' with
    | nil =>
      simp only [List.nil_append, List.cons.injEq, true_and] at h2
      exact ⟨h2.symm, by simpa using h1⟩
    | cons b bs =>
      simp only [List.cons_append, List.cons.injEq] at h2
      have := h2.2
      simp at this
  · cases c' with
    | nil =>
      simp only [List.nil_append, List.cons.injEq, true_and] at h2
      exact ⟨h2, by simpa using h1.symm⟩
    | cons b bs =>
      simp only [List.cons_append, List.cons.injEq] at h2
      exfalso
      apply hl
      rw [h1, ← h2.1]
      simp

theorem endsFict_fict_ctx {C : Ctx V} (h : (C.plug .fict).endsFict = true) :
    C.after = [] ∧ (C = .top ∨ ∃ l a c v up, C = .right l a c v up) := by
  obtain ⟨l, hl, hi⟩ := (Tree.endsFict_items _).1 h
  rw [plug_items] at hi
  simp only [Tree.items, List.append_assoc, List.singleton_append] at hi
  have := (ends_unique hl hi.symm).1
  refine ⟨this, ?_⟩
  cases C with
  | top => exact Or.inl rfl
  | left up a c v r => simp [Ctx.after] at this
  | right l a c v up => exact Or.inr ⟨l, a, c, v, up, rfl⟩

theorem Insert_new_spec (P : Params K V) (sw : StrictWeakOrder P.comp) (t : RBTree V)
    (T : Tree V) (hM : Models t true T) (hE : T.endsFict = true) (hO : T.Ordered P)
    (hRB : T.rootBlack = true) (x : V)
    (hne : ∀ v ∈ T.inorder, P.equiv (P.conv v) (P.conv x) = false) :
    ∃ (t' : RBTree V) (C : Ctx V) (e : Tree V), Insert P t x = Except.ok (t', some t.brk) ∧
      InsertMove P t x = Except.ok (t', some t.brk) ∧
      T = C.plug e ∧ (e = Tree.nil ∨ e = Tree.fict) ∧ C.searched P (P.conv x) ∧
      Models t' true (C.fixInsert (Tree.node Tree.nil t.brk Color.Red x e)) ∧
      t'.brk = t.brk + 1 ∧ t'.fictional = t.fictional ∧ t'.size = (t.size + 1) % 2 ^ 64 := by
  have hF := hM.fict_not_node hE
  have hpl : _ = T := findPath_plug P (P.conv x) T .top
  have hsr := findPath_searched P (P.conv x) T .top trivial
  -- the attachment, in each of the three cases
  have key : ∃ (t1 : RBTree V) (p : Nat) (C : Ctx V) (e : Tree V),
      Find P t (P.conv x) = Except.ok p ∧
      attachNew P t x p = Except.ok (some (t1, t.brk)) ∧ T = C.plug e ∧
      (e = Tree.nil ∨ e = Tree.fict) ∧
      C.searched P (P.conv x) ∧
      Models t1 true (C.plug (.node .nil t.brk Color.Red x e)) ∧ Grown t t1 := by
    rcases Find_cases P t (P.conv x) true T hM hF with
      ⟨hs, hf, pp, g, hm⟩ | ⟨C, l, a, c, v, r, hfp, hs, hf, hm, haF, hv, ha, hc⟩
    · -- Find returned the end marker
      rcases hfp : Tree.findPath P (P.conv x) .top T with ⟨C, s⟩
      rw [hfp] at hpl hsr
      simp only [Tree.findStop, hfp] at hs
      simp only at hpl hsr
      cases s with
      | nil => simp [Tree.stopOf] at hs
      | fict =>
        have hT : T = C.plug .fict := hpl.symm
        have hCf := (endsFict_fict_ctx (hT ▸ hE)).2
        obtain ⟨t', e1, hM', hg⟩ := attach_fict_spec P x (hT ▸ hM) hCf
        exact ⟨t', _, C, .fict, hf, e1, hT, Or.inr rfl, hsr, hM', hg⟩
      | node l a c v r =>
        have hcr : P.comp (P.conv v) (P.conv x) = true ∧ r = .fict := by
          by_contra hcon
          rw [stopOf_node_of P _ l a c v r hcon] at hs
          simp at hs
        obtain ⟨hc1, rfl⟩ := hcr
        have hT : T = (Ctx.right l a c v C).plug .fict := hpl.symm
        obtain ⟨t', e1, hM', hg⟩ := attach_fict_spec P x (hT ▸ hM)
          (Or.inr ⟨l, a, c, v, C, rfl⟩)
        exact ⟨t', _, _, .fict, hf, e1, hT, Or.inr rfl, ⟨hc1, hsr⟩, hM', hg⟩
    · rw [hfp] at hpl hsr
      simp only at hpl hsr
      have hstop := findPath_stop P (P.conv x) T .top C l a c v r hfp
      have hnev := hne v hv
      by_cases h1 : P.comp (P.conv x) (P.conv v) = true
      · have h0 : P.comp (P.conv v) (P.conv x) = false := sw.asymm h1
        have hl := hstop.2 h0 h1
        subst hl
        have hT : T = C.plug (.node .nil a c v r) := hpl.symm
        obtain ⟨t', e1, hM', hg⟩ := attach_left_spec P x (hT ▸ hM) haF h1
        exact ⟨t', _, .left C a c v r, .nil, hf, e1, hT, Or.inl rfl, ⟨h1, hsr⟩, hM', hg⟩
      · have h1 : P.comp (P.conv x) (P.conv v) = false := by simpa using h1
        have h2 : P.comp (P.conv v) (P.conv x) = true := by
          by_contra h2
          simp [Params.equiv, h1, h2] at hnev
        have hr : r = .nil := by
          rcases hstop.1 h2 with hr | hr
          · exact hr
          · exact absurd ⟨h2, hr⟩ hc
        subst hr
        have hT : T = C.plug (.node l a c v .nil) := hpl.symm
        obtain ⟨t', e1, hM', hg⟩ := attach_right_spec P x (hT ▸ hM) haF h1 h2
        exact ⟨t', _, .right l a c v C, .nil, hf, e1, hT, Or.inl rfl, ⟨h2, hsr⟩, hM', hg⟩
  obtain ⟨t1, p, C, e, hf, hat, hT, he, hsr', hM1, hg⟩ := key
  have hrc : C.rootColor ≠ some Color.Red := plug_rootBlack_inv C e (hT ▸ hRB)
  have hM2 : Models t1.incSize true (C.plug (.node .nil t.brk Color.Red x e)) := hM1.incSize
  obtain ⟨t', efix, hM', hs⟩ := FixAfterInsert_spec t1.incSize.budget t1.incSize C .nil t.brk
    Color.Red x e hM2 hrc hM2.depth_lt
  refine ⟨t', C, e, ?_, ?_, hT, he, hsr', hM', ?_, ?_, ?_⟩
  · simp [Insert, hf, ok_bind, hat, pure_ok, efix]
  · simp [InsertMove, hf, ok_bind, hat, pure_ok, efix]
  · rw [hs.brk]; exact hg.brk
  · rw [hs.fictional]; exact hg.fictional
  · rw [hs.size]; simp [RBTree.incSize, hg.size]

/-! ## Order and shape after an insertion -/

theorem itemVals_append (l1 l2 : List (Option (Nat × V))) :
    itemVals (l1 ++ l2) = itemVals l1 ++ itemVals l2 := by
  simp [itemVals, List.filterMap_append]

theorem itemVals_items (T : Tree V) : itemVals T.items = T.inorder := by
  rw [Tree.inorder_items]; rfl

theorem plug_inorder (C : Ctx V) (S : Tree V) :
    (C.plug S).inorder = itemVals C.before ++ S.inorder ++ itemVals C.after := by
  rw [← itemVals_items, plug_items, itemVals_append, itemVals_append, itemVals_items]

theorem Ordered_sub (P : Params K V) (C : Ctx V) (S : Tree V) (h : (C.plug S).Ordered P) :
    S.Ordered P := by
  unfold Tree.Ordered at h ⊢
  rw [plug_inorder] at h
  exact (List.pairwise_append.1 (List.pairwise_append.1 h).1).2.1

theorem StrictWeakOrder.lt_of_not_lt {comp : K → K → Bool} (sw : StrictWeakOrder comp)
    {v u k : K} (h1 : comp v u = false) (h2 : comp v k = true) : comp u k = true := by
  by_contra h
  have h : comp u k = false := by simpa using h
  by_cases h3 : comp k u = true
  · have := sw.trans v k u h2 h3
    simp [this] at h1
  · have := sw.lt_equiv h2 (by simpa using h3) h
    simp [this] at h1

theorem StrictWeakOrder.gt_of_not_gt {comp : K → K → Bool} (sw : StrictWeakOrder comp)
    {v u k : K} (h1 : comp u v = false) (h2 : comp k v = true) : comp k u = true := by
  by_contra h
  have h : comp k u = false := by simpa using h
  by_cases h3 : comp u k = true
  · have := sw.trans u k v h3 h2
    simp [this] at h1
  · have := sw.equiv_lt (by simpa using h3) h h2
    simp [this] at h1

theorem searched_bounds (P : Params K V) (sw : StrictWeakOrder P.comp) (key : K) :
    ∀ (C : Ctx V) (S : Tree V), (C.plug S).Ordered P → C.searched P key →
      (∀ u ∈ itemVals C.before, P.comp (P.conv u) key = true) ∧
      (∀ u ∈ itemVals C.after, P.comp key (P.conv u) = true)
  | .top, S, _, _ => by simp [Ctx.before, Ctx.after, itemVals]
  | .left up a c v r, S, hO, hs => by
    obtain ⟨h1, h2⟩ := hs
    have ih := searched_bounds P sw key up (.node S a c v r) hO h2
    have hsub := (Tree.Ordered_node P S a c v r).1 (Ordered_sub P up _ hO)
    refine ⟨ih.1, ?_⟩
    intro u hu
    simp only [Ctx.after, List.cons_append, itemVals_append] at hu
    have : itemVals (some (a, v) :: (r.items ++ up.after)) =
        v :: (r.inorder ++ itemVals up.after) := by
      simp [itemVals, ← Tree.inorder_items, List.filterMap_append]
    rw [this] at hu
    simp only [List.mem_cons, List.mem_append] at hu
    rcases hu with rfl | hu | hu
    · exact h1
    · exact sw.gt_of_not_gt (hsub.2.2.2.1 u hu) h1
    · exact ih.2 u hu
  | .right l a c v up, S, hO, hs => by
    obtain ⟨h1, h2⟩ := hs
    have ih := searched_bounds P sw key up (.node l a c v S) hO h2
    have hsub := (Tree.Ordered_node P l a c v S).1 (Ordered_sub P up _ hO)
    refine ⟨?_, ih.2⟩
    intro u hu
    have : itemVals (up.before ++ l.items ++ [some (a, v)]) =
        itemVals up.before ++ l.inorder ++ [v] := by
      simp [itemVals, ← Tree.inorder_items, List.filterMap_append]
    simp only [Ctx.before] at hu
    rw [this] at hu
    simp only [List.mem_cons, List.mem_append, List.mem_singleton, List.not_mem_nil,
      or_false] at hu
    rcases hu with (hu | hu) | rfl
    · exact ih.1 u hu
    · exact sw.lt_of_not_lt (hsub.2.2.1 u hu) h1
    · exact h1

theorem pairwise_insert {α : Type} {R : α → α → Prop} {l1 l2 : List α} {x : α}
    (h : (l1 ++ l2).Pairwise R) (h1 : ∀ a ∈ l1, R a x) (h2 : ∀ b ∈ l2, R x b) :
    (l1 ++ x :: l2).Pairwise R := by
  rw [List.pairwise_append] at h ⊢
  refine ⟨h.1, List.pairwise_cons.2 ⟨h2, h.2.1⟩, ?_⟩
  intro a ha b hb
  rcases List.mem_cons.1 hb with rfl | hb
  · exact h1 a ha
  · exact h.2.2 a ha b hb

/-- Shape of the tree after attaching a node holding x at a searched position and
running the fix-up. -/
theorem fixInsert_props (P : Params K V) (sw : StrictWeakOrder P.comp) (C : Ctx V)
    (e : Tree V) (n : Nat) (x : V) (he : e = .nil ∨ e = .fict)
    (hE : (C.plug e).endsFict = true) (hO : (C.plug e).Ordered P)
    (hRB : (C.plug e).rootBlack = true) (hs : C.searched P (P.conv x)) :
    (C.fixInsert (.node .nil n Color.Red x e)).endsFict = true ∧
    (C.fixInsert (.node .nil n Color.Red x e)).Ordered P ∧
    (C.fixInsert (.node .nil n Color.Red x e)).rootBlack = true ∧
    (C.fixInsert (.node .nil n Color.Red x e)).inorder =
      itemVals C.before ++ x :: itemVals C.after ∧
    (C.plug e).inorder = itemVals C.before ++ itemVals C.after := by
  have hi := fixInsert_items C .nil n Color.Red x e
  have hin : (C.fixInsert (.node .nil n Color.Red x e)).inorder =
      itemVals C.before ++ x :: itemVals C.after := by
    rw [← itemVals_items, hi, plug_items, itemVals_append, itemVals_append]
    rcases he with rfl | rfl <;> simp [Tree.items, itemVals]
  have hin0 : (C.plug e).inorder = itemVals C.before ++ itemVals C.after := by
    rw [plug_inorder]
    rcases he with rfl | rfl <;> simp [Tree.inorder]
  refine ⟨?_, ?_, fixInsert_rootBlack C .nil n Color.Red x e (plug_rootBlack_inv C e hRB),
    hin, hin0⟩
  · rw [Tree.endsFict_items, hi, plug_items]
    obtain ⟨l, hl, hit⟩ := (Tree.endsFict_items _).1 hE
    rw [plug_items] at hit
    rcases he with rfl | rfl
    · simp only [Tree.items, List.append_nil, List.nil_append] at hit ⊢
      have hne : C.after ≠ [] := by
        intro h0
        rw [h0, List.append_nil] at hit
        cases C with
        | top => simp [Ctx.before] at hit
        | left up a c v r => simp [Ctx.after] at h0
        | right l' a c v up =>
          simp only [Ctx.before] at hit
          have := congrArg List.getLast? hit
          simp at this
      obtain ⟨r', y, hr'⟩ : ∃ r' y, C.after = r' ++ [y] :=
        ⟨C.after.dropLast, C.after.getLast hne, (List.dropLast_append_getLast hne).symm⟩
      rw [hr', ← List.append_assoc] at hit
      obtain ⟨h3, h4⟩ := List.append_inj' hit rfl
      simp only [List.cons.injEq, and_true] at h4
      subst h4
      refine ⟨C.before ++ some (n, x) :: r', ?_, by simp [hr']⟩
      rw [← h3] at hl
      simp only [List.mem_append, not_or] at hl
      simp [hl.1, hl.2]
    · simp only [Tree.items, List.append_nil, List.nil_append, List.append_assoc,
        List.singleton_append] at hit ⊢
      obtain ⟨h1, h2⟩ := ends_unique hl hit.symm
      refine ⟨C.before ++ [some (n, x)], ?_, by simp [h1]⟩
      rw [h2]
      simp [hl]
  · unfold Tree.Ordered
    rw [hin]
    have hb := searched_bounds P sw (P.conv x) C e hO hs
    refine pairwise_insert ?_ ?_ ?_
    · rw [← hin0]; exact hO
    · intro a ha; exact sw.asymm (hb.1 a ha)
    · intro b hb'; exact sw.asymm (hb.2 b hb')

/-! ## Reading the tree back from the store -/

theorem readTree_rep (t : RBTree V) (chk : Bool) :
    ∀ (T : Tree V) (fuel : Nat) (par : Option Nat), Rep t.mem t.fictional chk T par →
      t.fictional ∉ T.nodes → T.height ≤ fuel → readTree t fuel (T.ptr t.fictional) = T := by
  intro T
  induction T with
  | nil => intro fuel par _ _ _; cases fuel <;> simp [readTree]
  | fict =>
    intro fuel par _ _ hh
    cases fuel with
    | zero => simp [Tree.height] at hh
    | succ f => simp [readTree]
  | node l a c v r ihl ihr =>
    intro fuel par hR hF hh
    cases fuel with
    | zero => simp [Tree.height] at hh
    | succ f =>
      simp only [Tree.nodes, List.mem_append, List.mem_cons, not_or] at hF
      simp only [Tree.height] at hh
      obtain ⟨hm, hl, hr⟩ := hR
      have haF : a ≠ t.fictional := fun e => hF.2.1 e.symm
      simp only [Tree.ptr_node, readTree, haF, if_false, hm]
      rw [ihl f _ hl hF.1 (by omega), ihr f _ hr hF.2.2 (by omega)]

theorem Models.toTree {t : RBTree V} {chk : Bool} {T : Tree V} (h : Models t chk T)
    (hE : T.endsFict = true) : t.toTree = T := by
  unfold RBTree.toTree
  rw [← h.root]
  refine readTree_rep t chk T _ none h.rep (h.fict_not_node hE) ?_
  have h1 := T.height_le_count
  have h2 := h.count_le
  simp only [RBTree.budget]
  omega

theorem Models.new (g : V) : Models (RBTree.new g) true (Tree.fict : Tree V) := by
  refine ⟨?_, rfl, by simp [Tree.addrs], ?_⟩
  · exact ⟨none, g, by simp [RBTree.new], fun _ => rfl⟩
  · intro a ha
    simp only [RBTree.new] at ha ⊢
    have : a ≠ 0 := by omega
    simp [this]

/-! ## Insertion into a single-value tree -/

theorem insert_step (P : Params K V) (sw : StrictWeakOrder P.comp) (hmulti : P.IsMulti = false)
    (t : RBTree V) (T : Tree V) (hM : Models t true T) (hE : T.endsFict = true)
    (hS : T.inorder.Pairwise (fun a b => P.comp (P.conv a) (P.conv b) = true))
    (hRB : T.rootBlack = true) (hsz : t.size = T.inorder.length % 2 ^ 64) (x : V) :
    ∃ (t' : RBTree V) (T' : Tree V), t.insert P x = Except.ok t' ∧ Models t' true T' ∧
      T'.endsFict = true ∧
      T'.inorder.Pairwise (fun a b => P.comp (P.conv a) (P.conv b) = true) ∧
      T'.rootBlack = true ∧ t'.size = T'.inorder.length % 2 ^ 64 ∧
      (∀ y ∈ T'.inorder, y ∈ T.inorder ∨ y = x) ∧ (∀ y ∈ T.inorder, y ∈ T'.inorder) ∧
      (∃ v ∈ T'.inorder, P.equiv (P.conv v) (P.conv x) = true) := by
  have hO : T.Ordered P := hS.imp (fun h => sw.asymm h)
  by_cases hex : ∃ v ∈ T.inorder, P.equiv (P.conv v) (P.conv x) = true
  · have h := insert_equal_rejected P sw hmulti t true T hM hE hO x hex
    exact ⟨t, T, h.2.2.1, hM, hE, hS, hRB, hsz, fun y hy => Or.inl hy, fun y hy => hy, hex⟩
  · have hne : ∀ v ∈ T.inorder, P.equiv (P.conv v) (P.conv x) = false := by
      intro v hv
      by_contra h
      exact hex ⟨v, hv, by simpa using h⟩
    obtain ⟨t', C, e, h1, _, hT, he, hs, hM', _, _, hsz'⟩ :=
      Insert_new_spec P sw t T hM hE hO hRB x hne
    subst hT
    obtain ⟨p1, p2, p3, p4, p5⟩ := fixInsert_props P sw C e t.brk x he hE hO hRB hs
    have hb := searched_bounds P sw (P.conv x) C e hO hs
    refine ⟨t', _, by simp [RBTree.insert, h1, ok_bind, pure_ok], hM', p1, ?_, p3, ?_, ?_, ?_, ?_⟩
    · rw [p4]
      refine pairwise_insert ?_ hb.1 hb.2
      rw [← p5]; exact hS
    · rw [hsz', hsz, p4, p5]
      simp only [List.length_append, List.length_cons]
      omega
    · intro y hy
      rw [p4] at hy
      rw [p5]
      simp only [List.mem_append, List.mem_cons] at hy ⊢
      tauto
    · intro y hy
      rw [p5] at hy
      rw [p4]
      simp only [List.mem_append, List.mem_cons] at hy ⊢
      tauto
    · refine ⟨x, by rw [p4]; simp, ?_⟩
      simp [Params.equiv, sw.irrefl]

theorem insertAll_spec (P : Params K V) (sw : StrictWeakOrder P.comp)
    (hmulti : P.IsMulti = false) :
    ∀ (L : List V) (t : RBTree V) (T : Tree V), Models t true T → T.endsFict = true →
      T.inorder.Pairwise (fun a b => P.comp (P.conv a) (P.conv b) = true) →
      T.rootBlack = true → t.size = T.inorder.length % 2 ^ 64 →
      ∃ (t' : RBTree V) (T' : Tree V), insertAll P t L = Except.ok t' ∧ Models t' true T' ∧
        T'.endsFict = true ∧
        T'.inorder.Pairwise (fun a b => P.comp (P.conv a) (P.conv b) = true) ∧
        T'.rootBlack = true ∧ t'.size = T'.inorder.length % 2 ^ 64 ∧
        (∀ y ∈ T'.inorder, y ∈ T.inorder ∨ y ∈ L) ∧ (∀ y ∈ T.inorder, y ∈ T'.inorder) ∧
        (∀ x ∈ L, ∃ v ∈ T'.inorder, P.equiv (P.conv v) (P.conv x) = true)
  | [], t, T, hM, hE, hS, hRB, hsz =>
    ⟨t, T, rfl, hM, hE, hS, hRB, hsz, fun y hy => Or.inl hy, fun y hy => hy, by simp⟩
  | x :: xs, t, T, hM, hE, hS, hRB, hsz => by
    obtain ⟨t1, T1, h1, hM1, hE1, hS1, hRB1, hsz1, ha, hb, hc⟩ :=
      insert_step P sw hmulti t T hM hE hS hRB hsz x
    obtain ⟨t2, T2, h2, hM2, hE2, hS2, hRB2, hsz2, ha2, hb2, hc2⟩ :=
      insertAll_spec P sw hmulti xs t1 T1 hM1 hE1 hS1 hRB1 hsz1
    refine ⟨t2, T2, by simp [insertAll, h1, ok_bind, h2], hM2, hE2, hS2, hRB2, hsz2, ?_, ?_, ?_⟩
    · intro y hy
      rcases ha2 y hy with h | h
      · rcases ha y h with h | h
        · exact Or.inl h
        · exact Or.inr (by simp [h])
      · exact Or.inr (by simp [h])
    · intro y hy; exact hb2 y (hb y hy)
    · intro y hy
      rcases List.mem_cons.1 hy with rfl | hy
      · obtain ⟨v, hv, hve⟩ := hc
        exact ⟨v, hb2 v hv, hve⟩
      · exact hc2 y hy

/-! ## Building a single-value tree from a list -/

theorem natLess_swo : StrictWeakOrder (fun a b : Nat => decide (a < b)) := by
  refine ⟨by simp, ?_, ?_⟩
  · intro a b c h1 h2
    simp only [decide_eq_true_eq] at h1 h2 ⊢
    omega
  · intro a b c h1 h2 h3 h4
    simp only [decide_eq_false_iff_not] at h1 h2 h3 h4 ⊢
    omega

theorem natLess_total (a b : Nat) (h1 : decide (a < b) = false) (h2 : decide (b < a) = false) :
    a = b := by
  simp only [decide_eq_false_iff_not] at h1 h2
  omega

theorem Models.rootColor_black {t : RBTree V} {chk : Bool} {T : Tree V} (h : Models t chk T)
    (hE : T.endsFict = true) (hRB : T.rootBlack = true) : t.rootColor = some Color.Black := by
  cases T with
  | nil => simp [Tree.endsFict] at hE
  | fict =>
    obtain ⟨pp, g, hm, _⟩ := h.rep
    have hr := h.root
    simp only [Tree.ptr_fict, Option.some.injEq] at hr
    simp [RBTree.rootColor, ← hr, hm]
  | node l a c v r =>
    obtain ⟨hm, _, _⟩ := h.rep
    have hr := h.root
    simp only [Tree.ptr_node, Option.some.injEq] at hr
    cases c with
    | Red => simp [Tree.rootBlack] at hRB
    | Black => simp [RBTree.rootColor, ← hr, hm]

theorem ofList_general [DecidableEq K] (P : Params K K) (hconv : P.conv = id)
    (hmulti : P.IsMulti = false) (sw : StrictWeakOrder P.comp)
    (htot : ∀ a b, P.comp a b = false → P.comp b a = false → a = b) (g : K) (L : List K)
    (hlen : L.dedup.length < 2 ^ 64) :
    ∃ t, RBTree.ofList P g L = Except.ok t ∧
      t.inorder.Pairwise (fun a b => P.comp a b = true) ∧ (∀ x, x ∈ t.inorder ↔ x ∈ L) ∧
      t.size = L.dedup.length ∧ t.rootColor = some Color.Black := by
  obtain ⟨t, T, h1, hM, hE, hS, hRB, hsz, ha, _, hc⟩ :=
    insertAll_spec P sw hmulti L (RBTree.new g) Tree.fict (Models.new g) rfl
      (by simp [Tree.inorder]) rfl (by simp [RBTree.new, Tree.inorder])
  have hT : t.inorder = T.inorder := by rw [RBTree.inorder, hM.toTree hE]
  simp only [hconv, id] at hS hc
  have hmem : ∀ x, x ∈ T.inorder ↔ x ∈ L := by
    intro x
    constructor
    · intro hx
      rcases ha x hx with h | h
      · simp [Tree.inorder] at h
      · exact h
    · intro hx
      obtain ⟨v, hv, hve⟩ := hc x hx
      simp only [Params.equiv, Bool.and_eq_true, Bool.not_eq_true'] at hve
      rw [← htot v x hve.1 hve.2]
      exact hv
  have hnd : T.inorder.Nodup := by
    refine hS.imp ?_
    intro a b hab e
    subst e
    rw [sw.irrefl] at hab
    simp at hab
  have hperm : T.inorder.Perm L.dedup :=
    (List.perm_ext_iff_of_nodup hnd (List.nodup_dedup L)).2
      (fun x => by rw [hmem, List.mem_dedup])
  refine ⟨t, h1, by rw [hT]; exact hS, by rw [hT]; exact hmem, ?_,
    hM.rootColor_black hE hRB⟩
  rw [hsz, hperm.length_eq]
  exact Nat.mod_eq_of_lt hlen

theorem sorted_unique (l : List Nat) (h1 : l.Pairwise (fun a b => decide (a < b) = true))
    (r : List Nat) (h2 : r.Pairwise (fun a b => a < b)) (h3 : ∀ x, x ∈ l ↔ x ∈ r) : l = r := by
  have h1' : l.Pairwise (fun a b => a < b) := h1.imp (by simp)
  have n1 : l.Nodup := h1'.imp (fun h => Nat.ne_of_lt h)
  have n2 : r.Nodup := h2.imp (fun h => Nat.ne_of_lt h)
  exact List.eq_of_perm_of_sorted ((List.perm_ext_iff_of_nodup n1 n2).2 h3) h1' h2

/-! ## begin() and the first branch of LowerBound -/

theorem descendLeft_spec (t : RBTree V) (chk : Bool) :
    ∀ (T : Tree V) (fuel : Nat) (par : Option Nat) (a : Nat),
      Rep t.mem t.fictional chk T par → T.ptr t.fictional = some a → T.height ≤ fuel →
      ∃ b, (T.addrs t.fictional).head? = some b ∧ descendLeft t fuel a = Except.ok b := by
  intro T
  induction T with
  | nil => intro fuel par a _ hp; simp at hp
  | fict =>
    intro fuel par a hR hp hh
    simp only [Tree.ptr_fict, Option.some.injEq] at hp
    subst hp
    obtain ⟨pp, g, hm, _⟩ := hR
    cases fuel with
    | zero => simp [Tree.height] at hh
    | succ f =>
      exact ⟨t.fictional, by simp [Tree.addrs], by simp [descendLeft, node_of_mem hm, ok_bind, pure_ok]⟩
  | node l a' c v r ihl ihr =>
    intro fuel par a hR hp hh
    simp only [Tree.ptr_node, Option.some.injEq] at hp
    subst hp
    obtain ⟨hm, hl, hr⟩ := hR
    cases fuel with
    | zero => simp [Tree.height] at hh
    | succ f =>
      simp only [Tree.height] at hh
      cases hlp : l.ptr t.fictional with
      | none =>
        have hl0 : l = .nil := by cases l <;> simp_all
        subst hl0
        refine ⟨a', by simp [Tree.addrs], ?_⟩
        simp [descendLeft, node_of_mem hm, ok_bind, pure_ok]
      | some la =>
        obtain ⟨b, hb1, hb2⟩ := ihl f (some a') la hl hlp (by omega)
        refine ⟨b, ?_, ?_⟩
        · simp only [Tree.addrs]
          cases hla : l.addrs t.fictional with
          | nil => rw [hla] at hb1; simp at hb1
          | cons x xs => rw [hla] at hb1; simpa using hb1
        · simp [descendLeft, node_of_mem hm, ok_bind, hlp, hb2]

theorem begin_spec {t : RBTree V} {chk : Bool} {T : Tree V} (hM : Models t chk T) :
    ∃ b, (T.addrs t.fictional).head? = some b ∧ t.begin = Except.ok b := by
  have h1 := T.height_le_count
  have h2 := hM.count_le
  exact descendLeft_spec t chk T t.budget none t.root hM.rep hM.root
    (by simp only [RBTree.budget]; omega)

theorem walkNodes_append (l1 l2 : List (Option (Nat × V))) :
    walkNodes (l1 ++ l2) = walkNodes l1 ++ walkNodes l2 := by
  simp [walkNodes, List.filterMap_append]

theorem mem_walkNodes {l : List (Option (Nat × V))} {p : Nat × V} (h : p ∈ walkNodes l) :
    p.2 ∈ itemVals l := by
  simp only [walkNodes, List.mem_filterMap, id] at h
  obtain ⟨o, ho, rfl⟩ := h
  simp only [itemVals, List.mem_filterMap]
  exact ⟨some p, ho, rfl⟩

theorem addrs_head_items (F : Nat) (T : Tree V) (b : Nat) (hb : b ≠ F)
    (h : (T.addrs F).head? = some b) :
    ∃ v rest, T.items = some (b, v) :: rest := by
  induction T with
  | nil => simp [Tree.addrs] at h
  | fict => simp only [Tree.addrs, List.head?_cons, Option.some.injEq] at h; exact absurd h.symm hb
  | node l a c v r ihl ihr =>
    simp only [Tree.addrs] at h
    cases hla : l.addrs F with
    | nil =>
      rw [hla] at h
      simp only [List.nil_append, List.head?_cons, Option.some.injEq] at h
      subst h
      have : l.items = [] := by
        have := congrArg List.length (Tree.addrs_items F l)
        rw [hla] at this
        simp only [List.length_nil, List.length_map] at this
        exact List.length_eq_zero.1 this.symm
      exact ⟨v, r.items, by simp [Tree.items, this]⟩
    | cons x xs =>
      rw [hla] at h
      simp only [List.cons_append, List.head?_cons, Option.some.injEq] at h
      subst h
      obtain ⟨v', rest, hr⟩ := ihl (by rw [hla]; rfl)
      exact ⟨v', rest ++ some (a, v) :: r.items, by simp [Tree.items, hr]⟩

theorem Rep.items_val {m : Nat → Option (RBNode V)} {F : Nat} {chk : Bool} :
    ∀ (T : Tree V) (par : Option Nat) (a : Nat) (v : V), Rep m F chk T par →
      some (a, v) ∈ T.items → ∃ n, m a = some n ∧ n.val = v := by
  intro T
  induction T with
  | nil => intro par a v _ h; simp [Tree.items] at h
  | fict => intro par a v _ h; simp [Tree.items] at h
  | node l b c w r ihl ihr =>
    intro par a v hR h
    obtain ⟨hm, hl, hr⟩ := hR
    simp only [Tree.items, List.mem_append, List.mem_cons, Option.some.injEq,
      Prod.mk.injEq] at h
    rcases h with h | ⟨rfl, rfl⟩ | h
    · exact ihl _ a v hl h
    · exact ⟨_, hm, rfl⟩
    · exact ihr _ a v hr h

theorem find_none_of_forall {α : Type} (p : α → Bool) (l : List α)
    (h : ∀ x ∈ l, p x = false) : l.find? p = none := by
  rw [List.find?_eq_none]
  intro x hx
  simp [h x hx]

theorem lower_bound_below (P : Params K V) (sw : StrictWeakOrder P.comp) (t : RBTree V)
    (chk : Bool) (T : Tree V) (hM : Models t chk T) (hE : T.endsFict = true)
    (hO : T.Ordered P) (k : K) (a : Nat) (v : V) (hf : Find P t k = Except.ok a)
    (ha : a ≠ t.fictional) (hv : t.valAt a = some v) (hc : P.comp (P.conv v) k = true) :
    t.lower_bound P k = Except.ok a ∧ lastLess P k T.items = some (a, v) := by
  have hF := hM.fict_not_node hE
  obtain ⟨b, _, hb⟩ := begin_spec hM
  rcases Find_cases P t k chk T hM hF with ⟨_, hf', _⟩ | ⟨C, l, a', c, v', r, hfp, _, hf', hm, _, _, _, hnf⟩
  · rw [hf] at hf'
    simp only [Except.ok.injEq] at hf'
    exact absurd hf' ha
  · rw [hf] at hf'
    simp only [Except.ok.injEq] at hf'
    subst hf'
    have hvv : v' = v := by simpa [RBTree.valAt, hm] using hv
    subst hvv
    have hst := (findPath_stop P k T .top C l a c v' r hfp).1 hc
    have hr : r = .nil := by
      rcases hst with h | h
      · exact h
      · exact absurd ⟨hc, h⟩ hnf
    subst hr
    refine ⟨?_, ?_⟩
    · simp [RBTree.lower_bound, LowerBound, hf, ok_bind, hb, node_of_mem hm, hc, pure_ok]
    · have hpl : C.plug (.node l a c v' .nil) = T := by
        have := findPath_plug P k T .top
        rw [hfp] at this
        exact this
      have hs : C.searched P k := by
        have := findPath_searched P k T .top trivial
        rw [hfp] at this
        exact this
      have hbd := (searched_bounds P sw k C _ (by rw [hpl]; exact hO) hs).2
      rw [← hpl, plug_items]
      simp only [lastLess, Tree.items, walkNodes_append, List.reverse_append, List.find?_append,
        List.append_nil]
      have h0 : (walkNodes C.after).reverse.find? (fun p => P.comp (P.conv p.2) k) = none := by
        apply find_none_of_forall
        intro x hx
        have := hbd x.2 (mem_walkNodes (List.mem_reverse.1 hx))
        have := sw.asymm this
        simpa using this
      rw [h0]
      simp [walkNodes, hc]

theorem lower_bound_first (P : Params K V) (sw : StrictWeakOrder P.comp) (t : RBTree V)
    (chk : Bool) (T : Tree V) (hM : Models t chk T) (hE : T.endsFict = true)
    (hO : T.Ordered P) (k : K) (a : Nat) (v : V) (hf : Find P t k = Except.ok a)
    (ha : a ≠ t.fictional) (hv : t.valAt a = some v) (hc : P.comp (P.conv v) k = false)
    (hc2 : P.comp k (P.conv v) = true) (hbeg : t.begin = Except.ok a) :
    t.lower_bound P k = Except.ok t.end ∧ lastLess P k T.items = none := by
  obtain ⟨b, hb1, hb2⟩ := begin_spec hM
  rw [hbeg] at hb2
  simp only [Except.ok.injEq] at hb2
  subst hb2
  obtain ⟨n, hm⟩ : ∃ n, t.mem a = some n := by
    cases h : t.mem a with
    | none => simp [RBTree.valAt, h] at hv
    | some n => exact ⟨n, rfl⟩
  have hnv : n.val = v := by simpa [RBTree.valAt, hm] using hv
  refine ⟨?_, ?_⟩
  · simp [RBTree.lower_bound, LowerBound, hf, ok_bind, hbeg, node_of_mem hm, hnv, hc, hc2,
      pure_ok]
  · obtain ⟨v0, rest, hit⟩ := addrs_head_items t.fictional T a ha hb1
    have hT : T.inorder = v0 :: itemVals rest := by
      rw [← itemVals_items, hit]; simp [itemVals]
    have hv0 : v0 = v := by
      have hmem : some (a, v0) ∈ T.items := by rw [hit]; simp
      obtain ⟨n', hh1, hh2⟩ := Rep.items_val T none a v0 hM.rep hmem
      rw [hm] at hh1
      simp only [Option.some.injEq] at hh1
      rw [← hnv, hh1, hh2]
    subst hv0
    have hO' : (v0 :: itemVals rest).Pairwise
        (fun a b => P.comp (P.conv b) (P.conv a) = false) := by
      rw [← hT]; exact hO
    have hall : ∀ u ∈ T.inorder, P.comp (P.conv u) k = false := by
      intro u hu
      rw [hT] at hu
      rcases List.mem_cons.1 hu with rfl | hu
      · exact hc
      · have h1 := (List.pairwise_cons.1 hO').1 u hu
        exact sw.asymm (sw.gt_of_not_gt h1 hc2)
    simp only [lastLess]
    apply find_none_of_forall
    intro x hx
    have := mem_walkNodes (List.mem_reverse.1 hx)
    rw [itemVals_items] at this
    exact hall _ this

theorem lower_bound_empty (P : Params K V) (t : RBTree V) (chk : Bool)
    (hM : Models t chk (Tree.fict : Tree V)) (k : K) :
    t.lower_bound P k = Except.ok t.end := by
  obtain ⟨pp, g, hm, _⟩ := hM.rep
  have hr := hM.root
  simp only [Tree.ptr_fict, Option.some.injEq] at hr
  have hbud : t.budget = (t.budget - 1) + 1 := by simp only [RBTree.budget]; omega
  have hF : Find P t k = Except.ok t.fictional := by
    rcases Find_cases P t k chk _ hM (by simp [Tree.nodes]) with ⟨_, hf, _⟩ | ⟨C, l, a, c, v, r, hfp, _⟩
    · exact hf
    · simp [Tree.findPath] at hfp
  have hB : t.begin = Except.ok t.fictional := by
    obtain ⟨b, hb1, hb2⟩ := begin_spec hM
    simp only [Tree.addrs, List.head?_cons, Option.some.injEq] at hb1
    rw [hb2, hb1]
  simp only [RBTree.lower_bound, LowerBound, hF, ok_bind, hB, node_of_mem hm, RBTree.end]
  by_cases h1 : P.comp (P.conv g) k = true
  · simp [h1, pure_ok, ok_bind]
  · by_cases h2 : P.comp k (P.conv g) = true
    · simp [h1, h2, pure_ok, ok_bind]
    · rw [hbud]
      simp [h1, h2, pure_ok, ok_bind, lowerLoop, node_of_mem hm]

/-! ## Well-formed tree objects -/

theorem ofList_valid (P : Params K V) (sw : StrictWeakOrder P.comp) (hmulti : P.IsMulti = false)
    (g : V) (L : List V) : ∃ t, RBTree.ofList P g L = Except.ok t ∧ t.Valid P := by
  obtain ⟨t, T, h1, hM, hE, hS, _⟩ :=
    insertAll_spec P sw hmulti L (RBTree.new g) Tree.fict (Models.new g) rfl
      (by simp [Tree.inorder]) rfl (by simp [RBTree.new, Tree.inorder])
  exact ⟨t, h1, true, T, hM, hE, hS.imp (fun h => sw.asymm h)⟩

theorem treeOf_valid (L : List Nat) : (treeOf L).Valid natSet := by
  obtain ⟨t, h1, h2⟩ := ofList_valid natSet natLess_swo rfl 0 L
  simp only [treeOf, h1]
  exact h2

theorem new_valid (P : Params K V) (g : V) : (RBTree.new g).Valid P :=
  ⟨true, Tree.fict, Models.new g, rfl, by simp [Tree.Ordered, Tree.inorder]⟩

theorem Valid.inorder_eq {P : Params K V} {t : RBTree V} {chk : Bool} {T : Tree V}
    (hM : Models t chk T) (hE : T.endsFict = true) :
    t.inorder = T.inorder ∧ t.items = T.items := by
  simp [RBTree.inorder, RBTree.items, hM.toTree hE]

theorem endsFict_inorder_nil (T : Tree V) (hE : T.endsFict = true) (h : T.inorder = []) :
    T = Tree.fict := by
  cases T with
  | nil => simp [Tree.endsFict] at hE
  | fict => rfl
  | node l a c v r => simp [Tree.inorder] at h

/-! ## Red-black conditions on subtrees and paths -/

theorem bh_node_iff (l : Tree V) (a : Nat) (c : Color) (v : V) (r : Tree V) (H : Nat) :
    (Tree.node l a c v r).blackHeight = some H ↔
      ∃ h, l.blackHeight = some h ∧ r.blackHeight = some h ∧
        H = (if c = Color.Black then h + 1 else h) := by
  simp only [Tree.blackHeight]
  cases hl : l.blackHeight with
  | none => simp
  | some x =>
    cases hr : r.blackHeight with
    | none => simp
    | some y =>
      by_cases hxy : x = y
      · subst hxy
        simp only [if_true, Option.some.injEq]
        constructor
        · intro h; exact ⟨x, rfl, rfl, h.symm⟩
        · rintro ⟨h, rfl, _, rfl⟩; rfl
      · simp only [hxy, if_false]
        constructor
        · intro h; simp at h
        · rintro ⟨h, h1, h2, _⟩
          simp only [Option.some.injEq] at h1 h2
          omega

theorem bh_black {l r : Tree V} {h : Nat} (a : Nat) (v : V) (hl : l.blackHeight = some h)
    (hr : r.blackHeight = some h) :
    (Tree.node l a Color.Black v r).blackHeight = some (h + 1) := by
  rw [bh_node_iff]; exact ⟨h, hl, hr, by simp⟩

theorem bh_red {l r : Tree V} {h : Nat} (a : Nat) (v : V) (hl : l.blackHeight = some h)
    (hr : r.blackHeight = some h) :
    (Tree.node l a Color.Red v r).blackHeight = some h := by
  rw [bh_node_iff]; exact ⟨h, hl, hr, by simp⟩

theorem bh_zero_not_red {T : Tree V} (h0 : T.blackHeight = some 0) (hr : T.isRed = false) :
    T = Tree.nil ∨ T = Tree.fict := by
  cases T with
  | nil => exact Or.inl rfl
  | fict => exact Or.inr rfl
  | node l a c v r =>
    cases c with
    | Red => simp [Tree.isRed] at hr
    | Black =>
      rw [bh_node_iff] at h0
      obtain ⟨h, _, _, h3⟩ := h0
      simp at h3

theorem bh_pos_not_red {T : Tree V} {h : Nat} (h0 : T.blackHeight = some (h + 1))
    (hr : T.isRed = false) :
    ∃ l a v r, T = Tree.node l a Color.Black v r ∧ l.blackHeight = some h ∧
      r.blackHeight = some h := by
  cases T with
  | nil => simp [Tree.blackHeight] at h0
  | fict => simp [Tree.blackHeight] at h0
  | node l a c v r =>
    cases c with
    | Red => simp [Tree.isRed] at hr
    | Black =>
      rw [bh_node_iff] at h0
      obtain ⟨h', h1, h2, h3⟩ := h0
      simp only [if_true, Nat.add_right_cancel_iff] at h3
      subst h3
      exact ⟨l, a, v, r, rfl, h1, h2⟩

theorem isRed_cases (T : Tree V) :
    (T.isRed = true ∧ ∃ l a v r, T = Tree.node l a Color.Red v r) ∨ T.isRed = false := by
  cases T with
  | nil => exact Or.inr rfl
  | fict => exact Or.inr rfl
  | node l a c v r =>
    cases c with
    | Red => exact Or.inl ⟨rfl, l, a, v, r, rfl⟩
    | Black => exact Or.inr rfl

theorem noRedRed_node (l : Tree V) (a : Nat) (c : Color) (v : V) (r : Tree V) :
    (Tree.node l a c v r).noRedRed = true ↔
      (c = Color.Red → l.isRed = false ∧ r.isRed = false) ∧ l.noRedRed = true ∧
        r.noRedRed = true := by
  cases c <;> simp [Tree.noRedRed, and_assoc]

theorem RB_decomp : ∀ (C : Ctx V) (S : Tree V) (H : Nat),
    (C.plug S).blackHeight = some H → (C.plug S).noRedRed = true →
    ∃ h, S.blackHeight = some h ∧ S.noRedRed = true ∧ C.RB h ∧
      (S.isRed = true → C.frameColor ≠ some Color.Red)
  | .top, S, H, h1, h2 => ⟨H, h1, h2, trivial, by simp [Ctx.frameColor]⟩
  | .left up a c v r, S, H, h1, h2 => by
    obtain ⟨h', g1, g2, g3, g4⟩ := RB_decomp up (.node S a c v r) H h1 h2
    rw [bh_node_iff] at g1
    obtain ⟨h, k1, k2, k3⟩ := g1
    rw [noRedRed_node] at g2
    subst k3
    refine ⟨h, k1, g2.2.1, ⟨k2, g2.2.2, ?_, g3⟩, ?_⟩
    · intro hc
      subst hc
      exact ⟨(g2.1 rfl).2, g4 rfl⟩
    · intro hs
      simp only [Ctx.frameColor, ne_eq, Option.some.injEq]
      intro hc
      have := (g2.1 hc).1
      simp [hs] at this
  | .right l a c v up, S, H, h1, h2 => by
    obtain ⟨h', g1, g2, g3, g4⟩ := RB_decomp up (.node l a c v S) H h1 h2
    rw [bh_node_iff] at g1
    obtain ⟨h, k1, k2, k3⟩ := g1
    rw [noRedRed_node] at g2
    subst k3
    refine ⟨h, k2, g2.2.2, ⟨k1, g2.2.1, ?_, g3⟩, ?_⟩
    · intro hc
      subst hc
      exact ⟨(g2.1 rfl).1, g4 rfl⟩
    · intro hs
      simp only [Ctx.frameColor, ne_eq, Option.some.injEq]
      intro hc
      have := (g2.1 hc).2
      simp [hs] at this

theorem RB_compose : ∀ (C : Ctx V) (S : Tree V) (h : Nat),
    S.blackHeight = some h → S.noRedRed = true → C.RB h →
    (S.isRed = true → C.frameColor ≠ some Color.Red) →
    ∃ H, (C.plug S).blackHeight = some H ∧ (C.plug S).noRedRed = true
  | .top, S, h, h1, h2, _, _ => ⟨h, h1, h2⟩
  | .left up a c v r, S, h, h1, h2, h3, h4 => by
    obtain ⟨k1, k2, k3, k4⟩ := h3
    refine RB_compose up (.node S a c v r) _ ((bh_node_iff _ _ _ _ _ _).2 ⟨h, h1, k1, rfl⟩)
      ((noRedRed_node _ _ _ _ _).2 ⟨?_, h2, k2⟩) k4 ?_
    · intro hc
      refine ⟨?_, (k3 hc).1⟩
      cases hs : S.isRed with
      | false => rfl
      | true => exact absurd (by simp [Ctx.frameColor, hc]) (h4 hs)
    · intro hr
      have : c = Color.Red := by
        cases c with
        | Red => rfl
        | Black => simp [Tree.isRed] at hr
      exact (k3 this).2
  | .right l a c v up, S, h, h1, h2, h3, h4 => by
    obtain ⟨k1, k2, k3, k4⟩ := h3
    refine RB_compose up (.node l a c v S) _ ((bh_node_iff _ _ _ _ _ _).2 ⟨h, k1, h1, rfl⟩)
      ((noRedRed_node _ _ _ _ _).2 ⟨?_, k2, h2⟩) k4 ?_
    · intro hc
      refine ⟨(k3 hc).1, ?_⟩
      cases hs : S.isRed with
      | false => rfl
      | true => exact absurd (by simp [Ctx.frameColor, hc]) (h4 hs)
    · intro hr
      have : c = Color.Red := by
        cases c with
        | Red => rfl
        | Black => simp [Tree.isRed] at hr
      exact (k3 this).2

theorem isRed_red (l : Tree V) (a : Nat) (v : V) (r : Tree V) :
    (Tree.node l a Color.Red v r).isRed = true := rfl

theorem isRed_black (l : Tree V) (a : Nat) (v : V) (r : Tree V) :
    (Tree.node l a Color.Black v r).isRed = false := rfl

theorem isRed_nil : (Tree.nil : Tree V).isRed = false := rfl

theorem isRed_fict : (Tree.fict : Tree V).isRed = false := rfl

/-! ## One call of the fix-up after an erasure, on laid out trees -/

theorem fixBlack_left (l : Tree V) (p : Nat) (pc : Color) (pv : V) (r : Tree V) (h : Nat)
    (hl : l.blackHeight = some h) (hr : r.blackHeight = some (h + 1)) (hlr : l.isRed = false)
    (hln : l.noRedRed = true) (hrn : r.noRedRed = true) (hrb : r.isRed = false) :
    ∃ S' flag, Tree.fixBlack true (.node l p pc pv r) = some (S', flag) ∧
      S'.noRedRed = true ∧ itemMarks S'.items = itemMarks (Tree.node l p pc pv r).items ∧
      (flag = false →
        S'.blackHeight = some (if pc = Color.Black then h + 2 else h + 1) ∧
        (S'.isRed = true → pc = Color.Red)) ∧
      (flag = true → pc = Color.Black ∧ S'.blackHeight = some (h + 1) ∧ S'.isRed = false) := by
  obtain ⟨bl, b, bv, br, rfl, hbl, hbr⟩ := bh_pos_not_red hr hrb
  rw [noRedRed_node] at hrn
  obtain ⟨-, hbln, hbrn⟩ := hrn
  rcases isRed_cases bl with ⟨-, gl, g, gv, gr, rfl⟩ | hblr
  · rw [bh_node_iff] at hbl
    obtain ⟨h', hgl, hgr, e⟩ := hbl
    simp only [if_false, reduceCtorEq] at e
    subst e
    rw [noRedRed_node] at hbln
    obtain ⟨hg, hgln, hgrn⟩ := hbln
    obtain ⟨hglr, hgrr⟩ := hg rfl
    cases pc with
    | Black =>
      refine ⟨_, _, rfl, ?_, ?_, ?_, ?_⟩
      · simp [noRedRed_node, isRed_red, isRed_black, isRed_nil, isRed_fict, *]
      · simp [Tree.items, itemMarks]
      · intro _
        exact ⟨bh_black _ _ (bh_black _ _ hl hgl) (bh_black _ _ hgr hbr), by simp [isRed_red, isRed_black]⟩
      · intro hf; simp at hf
    | Red =>
      rcases isRed_cases br with ⟨-, fl, f, fv, fr, rfl⟩ | hbrr
      · rw [bh_node_iff] at hbr
        obtain ⟨h', hfl, hfr, e⟩ := hbr
        simp only [if_false, reduceCtorEq] at e
        subst e
        rw [noRedRed_node] at hbrn
        obtain ⟨hf, hfln, hfrn⟩ := hbrn
        refine ⟨_, _, rfl, ?_, ?_, ?_, ?_⟩
        · simp [noRedRed_node, isRed_red, isRed_black, isRed_nil, isRed_fict, *]
        · simp [Tree.items, itemMarks]
        · intro _
          exact ⟨bh_red _ _ (bh_black _ _ hl (bh_red _ _ hgl hgr)) (bh_black _ _ hfl hfr),
            by simp⟩
        · intro hf; simp at hf
      · have hres : Tree.fixBlack true
            (.node l p Color.Red pv (.node (.node gl g Color.Red gv gr) b Color.Black bv br)) =
            some (.node (.node l p .Red pv gl) g .Black gv (.node gr b .Red bv br), false) := by
          cases br with
          | nil => rfl
          | fict => rfl
          | node fl f fc fv fr =>
            cases fc with
            | Red => simp [isRed_red] at hbrr
            | Black => rfl
        refine ⟨_, _, hres, ?_, ?_, ?_, ?_⟩
        · simp [noRedRed_node, isRed_red, isRed_black, isRed_nil, isRed_fict, *]
        · simp [Tree.items, itemMarks]
        · intro _
          exact ⟨bh_black _ _ (bh_red _ _ hl hgl) (bh_red _ _ hgr hbr), by simp [isRed_red, isRed_black]⟩
        · intro hf; simp at hf
  · have hres : Tree.fixBlack true (.node l p pc pv (.node bl b Color.Black bv br)) =
        some (.node (.node l p .Red pv bl) b .Black bv br, decide (pc = Color.Black)) := by
      cases bl with
      | nil => cases pc <;> rfl
      | fict => cases pc <;> rfl
      | node gl g gc gv gr =>
        cases gc with
        | Red => simp [isRed_red] at hblr
        | Black => cases pc <;> rfl
    refine ⟨_, _, hres, ?_, ?_, ?_, ?_⟩
    · simp [noRedRed_node, isRed_red, isRed_black, isRed_nil, isRed_fict, *]
    · simp [Tree.items, itemMarks]
    · intro hf
      have hpc : pc = Color.Red := by
        cases pc with
        | Red => rfl
        | Black => simp at hf
      subst hpc
      exact ⟨bh_black _ _ (bh_red _ _ hl hbl) hbr, by simp⟩
    · intro hf
      have hpc : pc = Color.Black := by simpa using hf
      subst hpc
      exact ⟨rfl, bh_black _ _ (bh_red _ _ hl hbl) hbr, by simp [isRed_red, isRed_black]⟩

theorem fixBlack_right (l : Tree V) (p : Nat) (pc : Color) (pv : V) (r : Tree V) (h : Nat)
    (hr : r.blackHeight = some h) (hl : l.blackHeight = some (h + 1)) (hrr : r.isRed = false)
    (hln : l.noRedRed = true) (hrn : r.noRedRed = true) (hlb : l.isRed = false) :
    ∃ S' flag, Tree.fixBlack false (.node l p pc pv r) = some (S', flag) ∧
      S'.noRedRed = true ∧ itemMarks S'.items = itemMarks (Tree.node l p pc pv r).items ∧
      (flag = false →
        S'.blackHeight = some (if pc = Color.Black then h + 2 else h + 1) ∧
        (S'.isRed = true → pc = Color.Red)) ∧
      (flag = true → pc = Color.Black ∧ S'.blackHeight = some (h + 1) ∧ S'.isRed = false) := by
  obtain ⟨bl, b, bv, br, rfl, hbl, hbr⟩ := bh_pos_not_red hl hlb
  rw [noRedRed_node] at hln
  obtain ⟨-, hbln, hbrn⟩ := hln
  rcases isRed_cases br with ⟨-, gl, g, gv, gr, rfl⟩ | hbrr
  · rw [bh_node_iff] at hbr
    obtain ⟨h', hgl, hgr, e⟩ := hbr
    simp only [if_false, reduceCtorEq] at e
    subst e
    rw [noRedRed_node] at hbrn
    obtain ⟨hg, hgln, hgrn⟩ := hbrn
    obtain ⟨hglr, hgrr⟩ := hg rfl
    cases pc with
    | Black =>
      refine ⟨_, _, rfl, ?_, ?_, ?_, ?_⟩
      · simp [noRedRed_node, isRed_red, isRed_black, isRed_nil, isRed_fict, *]
      · simp [Tree.items, itemMarks]
      · intro _
        exact ⟨bh_black _ _ (bh_black _ _ hbl hgl) (bh_black _ _ hgr hr), by simp [isRed_red, isRed_black]⟩
      · intro hf; simp at hf
    | Red =>
      rcases isRed_cases bl with ⟨-, fl, f, fv, fr, rfl⟩ | hblr
      · rw [bh_node_iff] at hbl
        obtain ⟨h', hfl, hfr, e⟩ := hbl
        simp only [if_false, reduceCtorEq] at e
        subst e
        rw [noRedRed_node] at hbln
        obtain ⟨hf, hfln, hfrn⟩ := hbln
        refine ⟨_, _, rfl, ?_, ?_, ?_, ?_⟩
        · simp [noRedRed_node, isRed_red, isRed_black, isRed_nil, isRed_fict, *]
        · simp [Tree.items, itemMarks]
        · intro _
          exact ⟨bh_red _ _ (bh_black _ _ hfl hfr) (bh_black _ _ (bh_red _ _ hgl hgr) hr),
            by simp⟩
        · intro hf; simp at hf
      · have hres : Tree.fixBlack false
            (.node (.node bl b Color.Black bv (.node gl g Color.Red gv gr)) p Color.Red pv r) =
            some (.node (.node bl b .Red bv gl) g .Black gv (.node gr p .Red pv r), false) := by
          cases bl with
          | nil => rfl
          | fict => rfl
          | node fl f fc fv fr =>
            cases fc with
            | Red => simp [isRed_red] at hblr
            | Black => rfl
        refine ⟨_, _, hres, ?_, ?_, ?_, ?_⟩
        · simp [noRedRed_node, isRed_red, isRed_black, isRed_nil, isRed_fict, *]
        · simp [Tree.items, itemMarks]
        · intro _
          exact ⟨bh_black _ _ (bh_red _ _ hbl hgl) (bh_red _ _ hgr hr), by simp [isRed_red, isRed_black]⟩
        · intro hf; simp at hf
  · have hres : Tree.fixBlack false (.node (.node bl b Color.Black bv br) p pc pv r) =
        some (.node bl b .Black bv (.node br p .Red pv r), decide (pc = Color.Black)) := by
      cases br with
      | nil => cases pc <;> rfl
      | fict => cases pc <;> rfl
      | node gl g gc gv gr =>
        cases gc with
        | Red => simp [isRed_red] at hbrr
        | Black => cases pc <;> rfl
    refine ⟨_, _, hres, ?_, ?_, ?_, ?_⟩
    · simp [noRedRed_node, isRed_red, isRed_black, isRed_nil, isRed_fict, *]
    · simp [Tree.items, itemMarks]
    · intro hf
      have hpc : pc = Color.Red := by
        cases pc with
        | Red => rfl
        | Black => simp at hf
      subst hpc
      exact ⟨bh_black _ _ hbl (bh_red _ _ hbr hr), by simp⟩
    · intro hf
      have hpc : pc = Color.Black := by simpa using hf
      subst hpc
      exact ⟨rfl, bh_black _ _ hbl (bh_red _ _ hbr hr), by simp [isRed_red, isRed_black]⟩

theorem fixSub_of_black_left (l : Tree V) (p : Nat) (pc : Color) (pv : V) (r : Tree V)
    (hr : r.isRed = false) :
    Tree.fixSub true (.node l p pc pv r) = Tree.fixBlack true (.node l p pc pv r) := by
  cases r with
  | nil => rfl
  | fict => rfl
  | node bl b bc bv br =>
    cases bc with
    | Red => simp [isRed_red] at hr
    | Black => rfl

theorem fixSub_of_black_right (l : Tree V) (p : Nat) (pc : Color) (pv : V) (r : Tree V)
    (hl : l.isRed = false) :
    Tree.fixSub false (.node l p pc pv r) = Tree.fixBlack false (.node l p pc pv r) := by
  cases l with
  | nil => rfl
  | fict => rfl
  | node bl b bc bv br =>
    cases bc with
    | Red => simp [isRed_red] at hl
    | Black => rfl

theorem fixSub_spec (isleft : Bool) (h : Nat) (S : Tree V) (hD : S.Deficient isleft h) :
    ∃ S' flag, Tree.fixSub isleft S = some (S', flag) ∧
      S'.noRedRed = true ∧ itemMarks S'.items = itemMarks S.items ∧
      (flag = false →
        S'.blackHeight = some (if S.isRed = true then h + 1 else h + 2) ∧
        (S'.isRed = true → S.isRed = true)) ∧
      (flag = true → S.isRed = false ∧ S'.blackHeight = some (h + 1) ∧ S'.isRed = false) := by
  cases S with
  | nil => cases isleft <;> exact absurd hD (by simp [Tree.Deficient])
  | fict => cases isleft <;> exact absurd hD (by simp [Tree.Deficient])
  | node l p pc pv r =>
    cases isleft with
    | true =>
      obtain ⟨hl, hr, hlr, hln, hrn, hpr⟩ := hD
      rcases isRed_cases r with ⟨hrr, bl, b, bv, br, rfl⟩ | hrr
      · have hpc : pc = Color.Black := by
          cases pc with
          | Black => rfl
          | Red => have := hpr rfl; simp [isRed_red] at this
        subst hpc
        rw [bh_node_iff] at hr
        obtain ⟨h', hbl, hbr, e⟩ := hr
        simp only [if_false, reduceCtorEq] at e
        subst e
        rw [noRedRed_node] at hrn
        obtain ⟨hb, hbln, hbrn⟩ := hrn
        obtain ⟨hblr, hbrr⟩ := hb rfl
        obtain ⟨s, flag, e, hsn, hsm, hf, ht⟩ :=
          fixBlack_left l p Color.Red pv bl h hl hbl hlr hln hbln hblr
        have hflag : flag = false := by
          cases flag with
          | false => rfl
          | true => have := (ht rfl).1; simp at this
        subst hflag
        obtain ⟨hsb, -⟩ := hf rfl
        simp only [if_false, reduceCtorEq] at hsb
        refine ⟨.node s b .Black bv br, false, by simp [Tree.fixSub, e], ?_, ?_, ?_, ?_⟩
        · simp [noRedRed_node, *]
        · simp only [Tree.items, itemMarks, List.map_append, List.map_cons] at hsm ⊢
          simp [hsm]
        · intro _
          exact ⟨by simpa [isRed_black] using bh_black b bv hsb hbr, by simp [isRed_black]⟩
        · intro hf; simp at hf
      · rw [fixSub_of_black_left l p pc pv r hrr]
        obtain ⟨s, flag, e, hsn, hsm, hf, ht⟩ :=
          fixBlack_left l p pc pv r h hl hr hlr hln hrn hrr
        refine ⟨s, flag, e, hsn, hsm, ?_, ?_⟩
        · intro hfl
          obtain ⟨h1, h2⟩ := hf hfl
          cases pc with
          | Red => exact ⟨by simpa [isRed_red] using h1, fun _ => rfl⟩
          | Black =>
            refine ⟨by simpa [isRed_black] using h1, ?_⟩
            intro hs; have := h2 hs; simp at this
        · intro hfl
          obtain ⟨h1, h2, h3⟩ := ht hfl
          subst h1
          exact ⟨rfl, h2, h3⟩
    | false =>
      obtain ⟨hr, hl, hrr, hln, hrn, hpl⟩ := hD
      rcases isRed_cases l with ⟨hlr, bl, b, bv, br, rfl⟩ | hlr
      · have hpc : pc = Color.Black := by
          cases pc with
          | Black => rfl
          | Red => have := hpl rfl; simp [isRed_red] at this
        subst hpc
        rw [bh_node_iff] at hl
        obtain ⟨h', hbl, hbr, e⟩ := hl
        simp only [if_false, reduceCtorEq] at e
        subst e
        rw [noRedRed_node] at hln
        obtain ⟨hb, hbln, hbrn⟩ := hln
        obtain ⟨hblr, hbrr⟩ := hb rfl
        obtain ⟨s, flag, e, hsn, hsm, hf, ht⟩ :=
          fixBlack_right br p Color.Red pv r h hr hbr hrr hbrn hrn hbrr
        have hflag : flag = false := by
          cases flag with
          | false => rfl
          | true => have := (ht rfl).1; simp at this
        subst hflag
        obtain ⟨hsb, -⟩ := hf rfl
        simp only [if_false, reduceCtorEq] at hsb
        refine ⟨.node bl b .Black bv s, false, by simp [Tree.fixSub, e], ?_, ?_, ?_, ?_⟩
        · simp [noRedRed_node, *]
        · simp only [Tree.items, itemMarks, List.map_append, List.map_cons] at hsm ⊢
          simp [hsm]
        · intro _
          exact ⟨by simpa [isRed_black] using bh_black b bv hbl hsb, by simp [isRed_black]⟩
        · intro hf; simp at hf
      · rw [fixSub_of_black_right l p pc pv r hlr]
        obtain ⟨s, flag, e, hsn, hsm, hf, ht⟩ :=
          fixBlack_right l p pc pv r h hr hl hrr hln hrn hlr
        refine ⟨s, flag, e, hsn, hsm, ?_, ?_⟩
        · intro hfl
          obtain ⟨h1, h2⟩ := hf hfl
          cases pc with
          | Red => exact ⟨by simpa [isRed_red] using h1, fun _ => rfl⟩
          | Black =>
            refine ⟨by simpa [isRed_black] using h1, ?_⟩
            intro hs; have := h2 hs; simp at this
        · intro hfl
          obtain ⟨h1, h2, h3⟩ := ht hfl
          subst h1
          exact ⟨rfl, h2, h3⟩

theorem fixErase_done (C : Ctx V) (S S' : Tree V) (isleft : Bool)
    (h : Tree.fixSub isleft S = some (S', false)) : C.fixErase S isleft = some (C.plug S') := by
  cases C <;> simp [Ctx.fixErase, h]

theorem fixErase_top (S S' : Tree V) (isleft : Bool)
    (h : Tree.fixSub isleft S = some (S', true)) :
    (Ctx.top : Ctx V).fixErase S isleft = some S' := by
  simp [Ctx.fixErase, h]

theorem fixErase_left (up : Ctx V) (a : Nat) (c : Color) (v : V) (r : Tree V) (S S' : Tree V)
    (isleft : Bool) (h : Tree.fixSub isleft S = some (S', true)) :
    (Ctx.left up a c v r).fixErase S isleft = up.fixErase (.node S' a c v r) true := by
  conv_lhs => rw [Ctx.fixErase]
  simp only [h]

theorem fixErase_right (l : Tree V) (a : Nat) (c : Color) (v : V) (up : Ctx V) (S S' : Tree V)
    (isleft : Bool) (h : Tree.fixSub isleft S = some (S', true)) :
    (Ctx.right l a c v up).fixErase S isleft = up.fixErase (.node l a c v S') false := by
  conv_lhs => rw [Ctx.fixErase]
  simp only [h]

theorem plug_marks (C : Ctx V) (S : Tree V) :
    itemMarks (C.plug S).items = itemMarks C.before ++ itemMarks S.items ++ itemMarks C.after := by
  rw [plug_items]; simp [itemMarks]

theorem fixErase_spec : ∀ (C : Ctx V) (S : Tree V) (isleft : Bool) (h : Nat),
    S.Deficient isleft h → C.RB (if S.isRed = true then h + 1 else h + 2) →
    (S.isRed = true → C.frameColor ≠ some Color.Red) →
    ∃ T' H, C.fixErase S isleft = some T' ∧ T'.blackHeight = some H ∧ T'.noRedRed = true ∧
      itemMarks T'.items = itemMarks (C.plug S).items := by
  intro C
  induction C with
  | top =>
    intro S isleft h hD _ _
    obtain ⟨S', flag, e, hn, hm, hf, ht⟩ := fixSub_spec isleft h S hD
    cases flag with
    | false => exact ⟨S', _, fixErase_done _ _ _ _ e, (hf rfl).1, hn, hm⟩
    | true => exact ⟨S', _, fixErase_top _ _ _ e, (ht rfl).2.1, hn, hm⟩
  | left up a c v r ih =>
    intro S isleft h hD hC hF
    obtain ⟨S', flag, e, hn, hm, hf, ht⟩ := fixSub_spec isleft h S hD
    cases flag with
    | false =>
      obtain ⟨h1, h2⟩ := hf rfl
      obtain ⟨H, g1, g2⟩ := RB_compose (.left up a c v r) S' _ h1 hn hC (fun hs => hF (h2 hs))
      refine ⟨_, H, fixErase_done _ _ _ _ e, g1, g2, ?_⟩
      rw [plug_marks, plug_marks, hm]
    | true =>
      obtain ⟨h1, h2, h3⟩ := ht rfl
      simp only [h1, if_false, Bool.false_eq_true] at hC
      obtain ⟨k1, k2, k3, k4⟩ := hC
      have hD' : (Tree.node S' a c v r).Deficient true (h + 1) :=
        ⟨h2, k1, h3, hn, k2, fun hc => (k3 hc).1⟩
      have hC' : up.RB (if (Tree.node S' a c v r).isRed = true then h + 1 + 1 else h + 1 + 2) := by
        cases c with
        | Red => simpa [isRed_red] using k4
        | Black => simpa [isRed_black] using k4
      have hF' : (Tree.node S' a c v r).isRed = true → up.frameColor ≠ some Color.Red := by
        intro hr
        cases c with
        | Red => exact (k3 rfl).2
        | Black => simp [isRed_black] at hr
      obtain ⟨T', H, e', g1, g2, g3⟩ := ih (.node S' a c v r) true (h + 1) hD' hC' hF'
      refine ⟨T', H, by rw [fixErase_left _ _ _ _ _ _ _ _ e]; exact e', g1, g2, ?_⟩
      rw [g3, plug_marks, plug_marks]
      simp only [Tree.items, itemMarks, List.map_append, List.map_cons] at hm ⊢
      simp [hm, Ctx.before, Ctx.after]
  | right l a c v up ih =>
    intro S isleft h hD hC hF
    obtain ⟨S', flag, e, hn, hm, hf, ht⟩ := fixSub_spec isleft h S hD
    cases flag with
    | false =>
      obtain ⟨h1, h2⟩ := hf rfl
      obtain ⟨H, g1, g2⟩ := RB_compose (.right l a c v up) S' _ h1 hn hC (fun hs => hF (h2 hs))
      refine ⟨_, H, fixErase_done _ _ _ _ e, g1, g2, ?_⟩
      rw [plug_marks, plug_marks, hm]
    | true =>
      obtain ⟨h1, h2, h3⟩ := ht rfl
      simp only [h1, if_false, Bool.false_eq_true] at hC
      obtain ⟨k1, k2, k3, k4⟩ := hC
      have hD' : (Tree.node l a c v S').Deficient false (h + 1) :=
        ⟨h2, k1, h3, k2, hn, fun hc => (k3 hc).1⟩
      have hC' : up.RB (if (Tree.node l a c v S').isRed = true then h + 1 + 1 else h + 1 + 2) := by
        cases c with
        | Red => simpa [isRed_red] using k4
        | Black => simpa [isRed_black] using k4
      have hF' : (Tree.node l a c v S').isRed = true → up.frameColor ≠ some Color.Red := by
        intro hr
        cases c with
        | Red => exact (k3 rfl).2
        | Black => simp [isRed_black] at hr
      obtain ⟨T', H, e', g1, g2, g3⟩ := ih (.node l a c v S') false (h + 1) hD' hC' hF'
      refine ⟨T', H, by rw [fixErase_right _ _ _ _ _ _ _ _ e]; exact e', g1, g2, ?_⟩
      rw [g3, plug_marks, plug_marks]
      simp only [Tree.items, itemMarks, List.map_append, List.map_cons] at hm ⊢
      simp [hm, Ctx.before, Ctx.after]

/-! ## Paths put together, and the rightmost node of a subtree -/

theorem plug_comp : ∀ (D C : Ctx V) (S : Tree V), (D.comp C).plug S = C.plug (D.plug S)
  | .top, C, S => rfl
  | .left up a c v r, C, S => by simp only [Ctx.comp, Ctx.plug]; exact plug_comp up C _
  | .right l a c v up, C, S => by simp only [Ctx.comp, Ctx.plug]; exact plug_comp up C _

theorem comp_top : ∀ (D : Ctx V), D.comp .top = D
  | .top => rfl
  | .left up a c v r => by simp only [Ctx.comp, comp_top up]
  | .right l a c v up => by simp only [Ctx.comp, comp_top up]

theorem comp_assoc : ∀ (D E C : Ctx V), (D.comp E).comp C = D.comp (E.comp C)
  | .top, E, C => rfl
  | .left up a c v r, E, C => by simp only [Ctx.comp, comp_assoc up]
  | .right l a c v up, E, C => by simp only [Ctx.comp, comp_assoc up]

theorem comp_before : ∀ (D C : Ctx V), (D.comp C).before = C.before ++ D.before
  | .top, C => by simp [Ctx.comp, Ctx.before]
  | .left up a c v r, C => by simp only [Ctx.comp, Ctx.before]; exact comp_before up C
  | .right l a c v up, C => by
    simp only [Ctx.comp, Ctx.before, comp_before up C, List.append_assoc]

theorem comp_after : ∀ (D C : Ctx V), (D.comp C).after = D.after ++ C.after
  | .top, C => by simp [Ctx.comp, Ctx.after]
  | .left up a c v r, C => by
    simp only [Ctx.comp, Ctx.after, comp_after up C, List.append_assoc, List.cons_append]
  | .right l a c v up, C => by simp only [Ctx.comp, Ctx.after]; exact comp_after up C

theorem comp_par_of_ne_top : ∀ (D C : Ctx V), D ≠ .top → (D.comp C).par = D.par
  | .top, _, h => absurd rfl h
  | .left up a c v r, _, _ => rfl
  | .right l a c v up, _, _ => rfl

theorem comp_frameColor_of_ne_top : ∀ (D C : Ctx V), D ≠ .top →
    (D.comp C).frameColor = D.frameColor
  | .top, _, h => absurd rfl h
  | .left up a c v r, _, _ => rfl
  | .right l a c v up, _, _ => rfl

theorem comp_RB_congr (C C' : Ctx V) (h1 : ∀ h, C.RB h ↔ C'.RB h)
    (h2 : C.frameColor = C'.frameColor) :
    ∀ (D : Ctx V), (∀ h, (D.comp C).RB h ↔ (D.comp C').RB h) ∧
      (D.comp C).frameColor = (D.comp C').frameColor
  | .top => ⟨h1, h2⟩
  | .left up a c v r => by
    obtain ⟨g1, g2⟩ := comp_RB_congr C C' h1 h2 up
    refine ⟨fun h => ?_, rfl⟩
    simp only [Ctx.comp, Ctx.RB, g1, g2]
  | .right l a c v up => by
    obtain ⟨g1, g2⟩ := comp_RB_congr C C' h1 h2 up
    refine ⟨fun h => ?_, rfl⟩
    simp only [Ctx.comp, Ctx.RB, g1, g2]

theorem comp_ne_top (D : Ctx V) {C : Ctx V} (h : C ≠ .top) : D.comp C ≠ .top := by
  cases D with
  | top => exact h
  | left up a c v r => simp [Ctx.comp]
  | right l a c v up => simp [Ctx.comp]

theorem maxPath_nil (C : Ctx V) (l : Tree V) (a : Nat) (c : Color) (v : V) :
    Tree.maxPath C (.node l a c v .nil) = (C, .node l a c v .nil) := by
  simp [Tree.maxPath]

theorem maxPath_node (C : Ctx V) (l : Tree V) (a : Nat) (c : Color) (v : V)
    (rl : Tree V) (ra : Nat) (rc : Color) (rv : V) (rr : Tree V) :
    Tree.maxPath C (.node l a c v (.node rl ra rc rv rr)) =
      Tree.maxPath (.right l a c v C) (.node rl ra rc rv rr) := by
  conv_lhs => rw [Tree.maxPath]

theorem maxPath_spec : ∀ (S : Tree V) (C : Ctx V), S.noFict = true → S ≠ .nil →
    ∃ (D : Ctx V) (ml : Tree V) (m : Nat) (mc : Color) (mv : V),
      Tree.maxPath C S = (D.comp C, Tree.node ml m mc mv Tree.nil) ∧
      D.plug (Tree.node ml m mc mv Tree.nil) = S ∧ D.after = [] ∧
      D.before ++ ml.items ++ [some (m, mv)] = S.items := by
  intro S
  induction S with
  | nil => intro C _ h; exact absurd rfl h
  | fict => intro C h; simp [Tree.noFict] at h
  | node l a c v r ihl ihr =>
    intro C hnf _
    simp only [Tree.noFict, Bool.and_eq_true] at hnf
    cases r with
    | nil =>
      exact ⟨Ctx.top, l, a, c, v, maxPath_nil C l a c v, rfl, rfl, by simp [Ctx.before, Tree.items]⟩
    | fict => simp [Tree.noFict] at hnf
    | node rl ra rc rv rr =>
      obtain ⟨D, ml, m, mc, mv, h1, h2, h3, h4⟩ := ihr (Ctx.right l a c v C) hnf.2 (by simp)
      refine ⟨D.comp (Ctx.right l a c v Ctx.top), ml, m, mc, mv, ?_, ?_, ?_, ?_⟩
      · rw [maxPath_node, h1, comp_assoc]; rfl
      · rw [plug_comp, h2]; rfl
      · rw [comp_after, h3]; rfl
      · rw [comp_before]
        simp only [Ctx.before, List.nil_append, List.append_assoc] at h4 ⊢
        rw [Tree.items, ← h4]
        simp

theorem bh_zero_shape {T : Tree V} (h0 : T.blackHeight = some 0) (hn : T.noRedRed = true) :
    T = .nil ∨ T = .fict ∨ ∃ gl x xv gr, T = .node gl x Color.Red xv gr ∧
      (gl = .nil ∨ gl = .fict) ∧ (gr = .nil ∨ gr = .fict) := by
  rcases isRed_cases T with ⟨-, gl, x, xv, gr, rfl⟩ | hr
  · rw [bh_node_iff] at h0
    obtain ⟨h, h1, h2, e⟩ := h0
    simp only [if_false, reduceCtorEq] at e
    subst e
    rw [noRedRed_node] at hn
    obtain ⟨hg, -, -⟩ := hn
    obtain ⟨g1, g2⟩ := hg rfl
    exact Or.inr (Or.inr ⟨gl, x, xv, gr, rfl, bh_zero_not_red h1 g1, bh_zero_not_red h2 g2⟩)
  · rcases bh_zero_not_red h0 hr with h | h
    · exact Or.inl h
    · exact Or.inr (Or.inl h)

theorem plug_ends_sub (C : Ctx V) (l : Tree V) (a : Nat) (c : Color) (v : V) (r : Tree V)
    (hE : (C.plug (.node l a c v r)).endsFict = true) :
    l.noFict = true ∧ (r.noFict = true ∨ C.after = []) ∧ none ∉ C.before := by
  obtain ⟨L, hL, hi⟩ := (Tree.endsFict_items _).1 hE
  rw [plug_items] at hi
  simp only [Tree.items, List.append_assoc, List.cons_append] at hi
  have key : ∀ (X Y : List (Option (Nat × V))) (y : Option (Nat × V)),
      X ++ y :: Y = L ++ [none] → none ∉ X := by
    intro X Y y e hX
    rcases List.append_eq_append_iff.1 e with ⟨a', h1, h2⟩ | ⟨c', h1, h2⟩
    · rw [h1] at hL
      exact hL (List.mem_append_left _ hX)
    · cases c' with
      | nil =>
        simp only [List.append_nil] at h1
        rw [h1] at hX
        exact hL hX
      | cons z zs =>
        simp only [List.cons_append, List.cons.injEq] at h2
        have := h2.2
        simp at this
  refine ⟨?_, ?_, ?_⟩
  · rw [Tree.noFict_items]
    intro hm
    exact key (C.before ++ l.items) (r.items ++ C.after) (some (a, v))
      (by simpa using hi) (List.mem_append_right _ hm)
  · by_cases hA : C.after = []
    · exact Or.inr hA
    · left
      rw [Tree.noFict_items]
      intro hm
      obtain ⟨A', y, hy⟩ : ∃ A' y, C.after = A' ++ [y] :=
        ⟨C.after.dropLast, C.after.getLast hA, (List.dropLast_append_getLast hA).symm⟩
      refine key (C.before ++ l.items ++ some (a, v) :: r.items ++ A') [] y ?_
        (List.mem_append_left _ (List.mem_append_right _ (List.mem_cons_of_mem _ hm)))
      rw [← hi, hy]
      simp
  · intro hm
    obtain ⟨y, Y, hY⟩ : ∃ y Y, l.items ++ some (a, v) :: (r.items ++ C.after) = y :: Y := by
      cases l.items with
      | nil => exact ⟨_, _, rfl⟩
      | cons z zs => exact ⟨_, _, rfl⟩
    exact key C.before Y y (by rw [← hY]; exact hi) hm

/-! ## Erase on laid out trees keeps the red-black conditions -/

theorem bh_leaf {r : Tree V} (hr : r = .nil ∨ r = .fict) : r.blackHeight = some 0 ∧
    r.noRedRed = true ∧ r.isRed = false := by
  rcases hr with rfl | rfl <;> exact ⟨rfl, rfl, rfl⟩

theorem eraseLeaf_spec (C : Ctx V) (c : Color) (r : Tree V) (hr : r = .nil ∨ r = .fict)
    (hC : C.RB (if c = Color.Black then 1 else 0))
    (hF : c = Color.Red → C.frameColor ≠ some Color.Red)
    (hs1 : r = .fict → C.after = []) (hs2 : r = .nil → C ≠ .top) :
    ∃ T' H, C.eraseLeaf c r = some T' ∧ T'.blackHeight = some H ∧ T'.noRedRed = true ∧
      itemMarks T'.items = itemMarks C.before ++ itemMarks r.items ++ itemMarks C.after := by
  obtain ⟨hr0, hrn, hrr⟩ := bh_leaf hr
  cases C with
  | top =>
    rcases hr with rfl | rfl
    · exact absurd rfl (hs2 rfl)
    · exact ⟨.fict, 0, rfl, rfl, rfl, by simp [Ctx.before, Ctx.after, itemMarks]⟩
  | left up a1 c1 v1 r1 =>
    rcases hr with rfl | rfl
    · cases c with
      | Black =>
        simp only [if_true] at hC
        obtain ⟨k1, k2, k3, k4⟩ := hC
        have hD : (Tree.node .nil a1 c1 v1 r1).Deficient true 0 :=
          ⟨rfl, k1, rfl, rfl, k2, fun hc => (k3 hc).1⟩
        have hC' : up.RB (if (Tree.node .nil a1 c1 v1 r1).isRed = true then 0 + 1 else 0 + 2) := by
          cases c1 with
          | Red => simpa [isRed_red] using k4
          | Black => simpa [isRed_black] using k4
        have hF' : (Tree.node .nil a1 c1 v1 r1).isRed = true →
            up.frameColor ≠ some Color.Red := by
          intro h
          cases c1 with
          | Red => exact (k3 rfl).2
          | Black => simp [isRed_black] at h
        obtain ⟨T', H, e, g1, g2, g3⟩ := fixErase_spec up _ true 0 hD hC' hF'
        refine ⟨T', H, by simp [Ctx.eraseLeaf, e], g1, g2, ?_⟩
        rw [g3, plug_marks]
        simp [Tree.items, itemMarks, Ctx.before, Ctx.after]
      | Red =>
        simp only [if_false, reduceCtorEq] at hC
        obtain ⟨H, g1, g2⟩ := RB_compose (.left up a1 c1 v1 r1) .nil 0 rfl rfl hC (by simp [isRed_nil])
        refine ⟨(Ctx.left up a1 c1 v1 r1).plug .nil, H, by simp [Ctx.eraseLeaf, Ctx.plug],
          g1, g2, ?_⟩
        rw [plug_marks]
    · have := hs1 rfl
      simp [Ctx.after] at this
  | right l1 a1 c1 v1 up =>
    have key : ∃ T' H, (if c = Color.Black then up.fixErase (.node l1 a1 c1 v1 r) false
        else some (up.plug (.node l1 a1 c1 v1 r))) = some T' ∧ T'.blackHeight = some H ∧
        T'.noRedRed = true ∧ itemMarks T'.items =
          itemMarks (Ctx.right l1 a1 c1 v1 up).before ++ itemMarks r.items ++
            itemMarks (Ctx.right l1 a1 c1 v1 up).after := by
      cases c with
      | Black =>
        simp only [if_true] at hC
        obtain ⟨k1, k2, k3, k4⟩ := hC
        have hD : (Tree.node l1 a1 c1 v1 r).Deficient false 0 :=
          ⟨hr0, k1, hrr, k2, hrn, fun hc => (k3 hc).1⟩
        have hC' : up.RB (if (Tree.node l1 a1 c1 v1 r).isRed = true then 0 + 1 else 0 + 2) := by
          cases c1 with
          | Red => simpa [isRed_red] using k4
          | Black => simpa [isRed_black] using k4
        have hF' : (Tree.node l1 a1 c1 v1 r).isRed = true →
            up.frameColor ≠ some Color.Red := by
          intro h
          cases c1 with
          | Red => exact (k3 rfl).2
          | Black => simp [isRed_black] at h
        obtain ⟨T', H, e, g1, g2, g3⟩ := fixErase_spec up _ false 0 hD hC' hF'
        refine ⟨T', H, by simp [e], g1, g2, ?_⟩
        rw [g3, plug_marks]
        simp [Tree.items, itemMarks, Ctx.before, Ctx.after]
      | Red =>
        simp only [if_false, reduceCtorEq] at hC
        obtain ⟨H, g1, g2⟩ := RB_compose (.right l1 a1 c1 v1 up) r 0 hr0 hrn hC (by simp [hrr])
        refine ⟨(Ctx.right l1 a1 c1 v1 up).plug r, H, by simp [Ctx.plug], g1, g2, ?_⟩
        rw [plug_marks]
    rcases hr with rfl | rfl
    · simpa [Ctx.eraseLeaf] using key
    · simpa [Ctx.eraseLeaf] using key

theorem eraseT_leaf (fuel : Nat) (C : Ctx V) (a : Nat) (c : Color) (v : V) (r : Tree V)
    (hr : r = .nil ∨ r = .fict) :
    eraseT (fuel + 1) C (.node .nil a c v r) = C.eraseLeaf c r := by
  rcases hr with rfl | rfl <;> simp [eraseT]

theorem eraseT_spec (fuel : Nat) (C : Ctx V) (l : Tree V) (a : Nat) (c : Color) (v : V)
    (r : Tree V) (H : Nat) (hbh : (C.plug (.node l a c v r)).blackHeight = some H)
    (hn : (C.plug (.node l a c v r)).noRedRed = true)
    (hE : (C.plug (.node l a c v r)).endsFict = true) :
    ∃ T' H', eraseT (fuel + 3) C (.node l a c v r) = some T' ∧ T'.blackHeight = some H' ∧
      T'.noRedRed = true ∧
      itemMarks T'.items =
        itemMarks C.before ++ itemMarks l.items ++ itemMarks r.items ++ itemMarks C.after := by
  obtain ⟨hS, g1, g2, g3, g4⟩ := RB_decomp C _ H hbh hn
  rw [bh_node_iff] at g1
  obtain ⟨h, hl, hr, e⟩ := g1
  subst e
  rw [noRedRed_node] at g2
  obtain ⟨hcr, hln, hrn⟩ := g2
  obtain ⟨hlf, hrf, hbf⟩ := plug_ends_sub C l a c v r hE
  have hg4 : c = Color.Red → C.frameColor ≠ some Color.Red := by
    intro hc; subst hc; exact g4 rfl
  cases l with
  | fict => simp [Tree.noFict] at hlf
  | nil =>
    simp only [Tree.blackHeight, Option.some.injEq] at hl
    subst hl
    rcases bh_zero_shape hr hrn with rfl | rfl | ⟨gl, x, xv, gr, rfl, hgl, hgr⟩
    · -- leaf, right child absent
      rw [eraseT_leaf _ _ _ _ _ _ (Or.inl rfl)]
      have hCt : C ≠ .top := by
        rintro rfl
        simp [Ctx.plug, Tree.endsFict] at hE
      obtain ⟨T', H', e1, e2, e3, e4⟩ := eraseLeaf_spec C c .nil (Or.inl rfl) (by simpa using g3)
        hg4 (by simp) (fun _ => hCt)
      exact ⟨T', H', e1, e2, e3, by simpa [Tree.items, itemMarks] using e4⟩
    · -- leaf, right child the end marker
      rw [eraseT_leaf _ _ _ _ _ _ (Or.inr rfl)]
      have hA : C.after = [] :=
        (endsFict_fict_ctx (C := .right .nil a c v C) hE).1
      obtain ⟨T', H', e1, e2, e3, e4⟩ := eraseLeaf_spec C c .fict (Or.inr rfl) (by simpa using g3)
        hg4 (fun _ => hA) (by simp)
      exact ⟨T', H', e1, e2, e3, by simpa [Tree.items, itemMarks] using e4⟩
    · -- one child, on the right
      have hglnil : gl = .nil := by
        rcases hgl with h | h
        · exact h
        · subst h
          exfalso
          have h1 := (plug_ends_sub (.right .nil a c v C) .fict x Color.Red xv gr hE).1
          simp [Tree.noFict] at h1
      subst hglnil
      have he : eraseT (fuel + 3) C (.node .nil a c v (.node .nil x Color.Red xv gr)) =
          some (C.plug (.node .nil a c xv gr)) := by
        rcases hgr with rfl | rfl <;> simp [eraseT, Ctx.eraseLeaf, Ctx.plug]
      obtain ⟨hgr0, hgrn, hgrr⟩ := bh_leaf hgr
      have hbh' : (Tree.node .nil a c xv gr).blackHeight =
          some (if c = Color.Black then 0 + 1 else 0) :=
        (bh_node_iff _ _ _ _ _ _).2 ⟨0, rfl, hgr0, rfl⟩
      obtain ⟨H', e2, e3⟩ := RB_compose C (.node .nil a c xv gr) _ hbh'
        ((noRedRed_node _ _ _ _ _).2 ⟨fun _ => ⟨rfl, hgrr⟩, rfl, hgrn⟩) g3
        (by intro hr; cases c with
          | Red => exact hg4 rfl
          | Black => simp [isRed_black] at hr)
      refine ⟨_, H', he, e2, e3, ?_⟩
      rw [plug_marks]
      simp [Tree.items, itemMarks]
  | node ll la lc lv lr =>
    cases r with
    | node rl ra rc rv rr =>
      -- two children
      obtain ⟨D, ml, m, mc, mv, hmp, hpl, hDa, hit⟩ :=
        maxPath_spec (.node ll la lc lv lr) .top hlf (by simp)
      rw [comp_top] at hmp
      -- the tree seen from the rightmost node of the left subtree
      have hT : C.plug (.node (.node ll la lc lv lr) a c v (.node rl ra rc rv rr)) =
          (D.comp (.left C a c v (.node rl ra rc rv rr))).plug (.node ml m mc mv .nil) := by
        rw [plug_comp, hpl]; rfl
      rw [hT] at hbh hn hE
      obtain ⟨hM, q1, q2, q3, q4⟩ := RB_decomp _ _ H hbh hn
      rw [bh_node_iff] at q1
      obtain ⟨h', hml, hnil, e⟩ := q1
      simp only [Tree.blackHeight, Option.some.injEq] at hnil
      subst hnil
      subst e
      rw [noRedRed_node] at q2
      obtain ⟨hmcr, hmln, -⟩ := q2
      have hmlf := (plug_ends_sub _ ml m mc mv .nil hE).1
      obtain ⟨t1, t2⟩ := comp_RB_congr (.left C a c v (.node rl ra rc rv rr))
        (.left C a c mv (.node rl ra rc rv rr)) (fun _ => Iff.rfl) rfl D
      have q3' := (t1 _).1 q3
      have hq4 : mc = Color.Red →
          (D.comp (.left C a c mv (.node rl ra rc rv rr))).frameColor ≠ some Color.Red := by
        intro hc; subst hc; rw [← t2]; exact q4 rfl
      have hmarks : itemMarks C.before ++ itemMarks (Tree.node ll la lc lv lr).items ++
          itemMarks (Tree.node rl ra rc rv rr).items ++ itemMarks C.after =
          itemMarks C.before ++ (itemMarks D.before ++ itemMarks ml.items ++ [some mv]) ++
          itemMarks (Tree.node rl ra rc rv rr).items ++ itemMarks C.after := by
        rw [← hit]; simp [itemMarks]
      rw [hmarks]
      rcases bh_zero_shape hml hmln with rfl | rfl | ⟨gl, x, xv, gr, rfl, hgl, hgr⟩
      · -- the rightmost node is a leaf
        have he : eraseT (fuel + 3) C
            (.node (.node ll la lc lv lr) a c v (.node rl ra rc rv rr)) =
            (D.comp (.left C a c mv (.node rl ra rc rv rr))).eraseLeaf mc .nil := by
          conv_lhs => rw [eraseT]
          simp only [hmp]
          rw [eraseT_leaf _ _ _ _ _ _ (Or.inl rfl)]
        obtain ⟨T', H', e1, e2, e3, e4⟩ := eraseLeaf_spec _ mc .nil (Or.inl rfl)
          (by simpa using q3') hq4 (by simp) (fun _ => comp_ne_top D (by simp))
        refine ⟨T', H', by rw [he]; exact e1, e2, e3, ?_⟩
        rw [e4, comp_before, comp_after, hDa]
        simp [Tree.items, itemMarks, Ctx.before, Ctx.after]
      · simp [Tree.noFict] at hmlf
      · -- the rightmost node has a left child
        have hmlf' := hmlf
        simp only [Tree.noFict, Bool.and_eq_true] at hmlf'
        have hglnil : gl = .nil := by
          rcases hgl with h | h
          · exact h
          · subst h; simp [Tree.noFict] at hmlf'
        have hgrnil : gr = .nil := by
          rcases hgr with h | h
          · exact h
          · subst h; simp [Tree.noFict] at hmlf'
        subst hglnil
        subst hgrnil
        have he : eraseT (fuel + 3) C
            (.node (.node ll la lc lv lr) a c v (.node rl ra rc rv rr)) =
            some ((D.comp (.left C a c mv (.node rl ra rc rv rr))).plug
              (.node .nil m mc xv .nil)) := by
          conv_lhs => rw [eraseT]
          simp only [hmp]
          simp [eraseT, Ctx.eraseLeaf, Ctx.plug]
        have hbh' : (Tree.node .nil m mc xv .nil).blackHeight =
            some (if mc = Color.Black then 0 + 1 else 0) :=
          (bh_node_iff _ _ _ _ _ _).2 ⟨0, rfl, rfl, rfl⟩
        obtain ⟨H', e2, e3⟩ := RB_compose _ (.node .nil m mc xv .nil) _ hbh'
          ((noRedRed_node _ _ _ _ _).2 ⟨fun _ => ⟨rfl, rfl⟩, rfl, rfl⟩) q3'
          (by intro hr; cases mc with
            | Red => exact hq4 rfl
            | Black => simp [isRed_black] at hr)
        refine ⟨_, H', he, e2, e3, ?_⟩
        rw [plug_marks, comp_before, comp_after, hDa]
        simp [Tree.items, itemMarks, Ctx.before, Ctx.after]
    | nil =>
      -- one child, on the left
      simp only [Tree.blackHeight, Option.some.injEq] at hr
      subst hr
      simp only [Tree.noFict, Bool.and_eq_true] at hlf
      rcases bh_zero_shape hl hln with h0 | h0 | ⟨gl, x, xv, gr, h0, hgl, hgr⟩
      · simp at h0
      · simp at h0
      · simp only [Tree.node.injEq] at h0
        obtain ⟨rfl, rfl, rfl, rfl, rfl⟩ := h0
        have hglnil : ll = .nil := by
          rcases hgl with h | h
          · exact h
          · subst h; simp [Tree.noFict] at hlf
        have hgrnil : lr = .nil := by
          rcases hgr with h | h
          · exact h
          · subst h; simp [Tree.noFict] at hlf
        subst hglnil
        subst hgrnil
        have he : eraseT (fuel + 3) C (.node (.node .nil la Color.Red lv .nil) a c v .nil) =
            some (C.plug (.node .nil a c lv .nil)) := by
          simp [eraseT, Ctx.eraseLeaf, Ctx.plug]
        have hbh' : (Tree.node .nil a c lv .nil).blackHeight =
            some (if c = Color.Black then 0 + 1 else 0) :=
          (bh_node_iff _ _ _ _ _ _).2 ⟨0, rfl, rfl, rfl⟩
        obtain ⟨H', e2, e3⟩ := RB_compose C (.node .nil a c lv .nil) _ hbh'
          ((noRedRed_node _ _ _ _ _).2 ⟨fun _ => ⟨rfl, rfl⟩, rfl, rfl⟩) g3
          (by intro hr; cases c with
            | Red => exact hg4 rfl
            | Black => simp [isRed_black] at hr)
        refine ⟨_, H', he, e2, e3, ?_⟩
        rw [plug_marks]
        simp [Tree.items, itemMarks]
    | fict =>
      simp only [Tree.blackHeight, Option.some.injEq] at hr
      subst hr
      simp only [Tree.noFict, Bool.and_eq_true] at hlf
      rcases bh_zero_shape hl hln with h0 | h0 | ⟨gl, x, xv, gr, h0, hgl, hgr⟩
      · simp at h0
      · simp at h0
      · simp only [Tree.node.injEq] at h0
        obtain ⟨rfl, rfl, rfl, rfl, rfl⟩ := h0
        have hglnil : ll = .nil := by
          rcases hgl with h | h
          · exact h
          · subst h; simp [Tree.noFict] at hlf
        have hgrnil : lr = .nil := by
          rcases hgr with h | h
          · exact h
          · subst h; simp [Tree.noFict] at hlf
        subst hglnil
        subst hgrnil
        have he : eraseT (fuel + 3) C (.node (.node .nil la Color.Red lv .nil) a c v .fict) =
            some (C.plug (.node .nil a c lv .fict)) := by
          simp [eraseT, Ctx.eraseLeaf, Ctx.plug]
        have hbh' : (Tree.node .nil a c lv .fict).blackHeight =
            some (if c = Color.Black then 0 + 1 else 0) :=
          (bh_node_iff _ _ _ _ _ _).2 ⟨0, rfl, rfl, rfl⟩
        obtain ⟨H', e2, e3⟩ := RB_compose C (.node .nil a c lv .fict) _ hbh'
          ((noRedRed_node _ _ _ _ _).2 ⟨fun _ => ⟨rfl, rfl⟩, rfl, rfl⟩) g3
          (by intro hr; cases c with
            | Red => exact hg4 rfl
            | Black => simp [isRed_black] at hr)
        refine ⟨_, H', he, e2, e3, ?_⟩
        rw [plug_marks]
        simp [Tree.items, itemMarks]

/-! ## FixAfterErase in the store: the removed node was a left child -/

theorem fixAbove_step {t : RBTree V} {chk : Bool} {C : Ctx V} {l r : Tree V} {b : Nat}
    {c : Color} {v : V} (fuel : Nat) (hM : Models t chk (C.plug (.node l b c v r))) :
    (do
      let bn2 ← t.node (some b)
      match bn2.parent with
      | some bp => do
        let bpn ← t.node (some bp)
        FixAfterErase t fuel bp (bpn.left == some b)
      | none => pure t) = fixAbove t fuel C := by
  have hb := hM.cell
  cases C with
  | top =>
    simp only [Ctx.par_top] at hb
    simp [node_of_mem hb, ok_bind, fixAbove]
  | left up a c1 v1 r1 =>
    have ha := (show Models t chk (up.plug (.node (.node l b c v r) a c1 v1 r1)) from hM).cell
    simp only [Ctx.par_left, Tree.ptr_node] at hb ha
    simp [node_of_mem hb, ok_bind, node_of_mem ha, fixAbove]
  | right l1 a c1 v1 up =>
    have hM' : Models t chk (up.plug (.node l1 a c1 v1 (.node l b c v r))) := hM
    have ha := hM'.cell
    have hne := hM'.left_ptr_ne
    simp only [Ctx.par_right, Tree.ptr_node] at hb ha
    have : (l1.ptr t.fictional == some b) = false := by simpa using hne
    simp [node_of_mem hb, ok_bind, node_of_mem ha, fixAbove, this]

theorem FixAfterErase_left_near_black {t : RBTree V} {chk : Bool} {C : Ctx V}
    {l bl br : Tree V} {p b : Nat} {pc : Color} {pv bv : V} (fuel : Nat)
    (hM : Models t chk (C.plug (.node l p pc pv (.node bl b Color.Black bv br))))
    (hblr : bl.isRed = false) :
    ∃ t', Models t' chk (C.plug (.node (.node l p Color.Red pv bl) b Color.Black bv br)) ∧
      Same t t' ∧
      FixAfterErase t (fuel + 1) p true =
        (if pc = Color.Black then fixAbove t' fuel C else Except.ok t') := by
  have hp := hM.cell
  have hMb : Models t chk ((Ctx.right l p pc pv C).plug (.node bl b Color.Black bv br)) := hM
  have hb := hMb.cell
  have hRbl : Rep t.mem t.fictional chk bl (some b) := hMb.decomp.2.1.2.1
  simp only [Ctx.par_right, Tree.ptr_node] at hp hb
  obtain ⟨t1, e1, hM1, hs1⟩ := LeftRotate_spec hM
  have hM1p : Models t1 chk ((Ctx.left C b Color.Black bv br).plug (.node l p pc pv bl)) := hM1
  have hp1 := hM1p.cell
  cases pc with
  | Red =>
    refine ⟨t1, hM1, hs1, ?_⟩
    simp [FixAfterErase, node_of_mem hp, ok_bind, IsBlack_node hb, node_of_mem hb,
      IsBlack_rep hRbl, hblr, e1, IsBlack_node hp1, pure_ok]
  | Black =>
    obtain ⟨t2, e2, hM2, hs2⟩ := setColor_spec Color.Red hM1p
    have hM2' : Models t2 chk
        (C.plug (.node (.node l p Color.Red pv bl) b Color.Black bv br)) := hM2
    refine ⟨t2, hM2', hs1.trans hs2, ?_⟩
    have := fixAbove_step fuel hM2'
    simp only [if_true]
    rw [← this]
    simp [FixAfterErase, node_of_mem hp, ok_bind, IsBlack_node hb, node_of_mem hb,
      IsBlack_rep hRbl, hblr, e1, IsBlack_node hp1, pure_ok, e2]

theorem FixAfterErase_left_near_red_pblack {t : RBTree V} {chk : Bool} {C : Ctx V}
    {l gl gr br : Tree V} {p b g : Nat} {pv bv gv : V} (fuel : Nat)
    (hM : Models t chk (C.plug (.node l p Color.Black pv
      (.node (.node gl g Color.Red gv gr) b Color.Black bv br)))) :
    ∃ t', Models t' chk (C.plug (.node (.node l p Color.Black pv gl) g Color.Black gv
        (.node gr b Color.Black bv br))) ∧
      Same t t' ∧ FixAfterErase t (fuel + 1) p true = Except.ok t' := by
  have hp := hM.cell
  have hMb : Models t chk ((Ctx.right l p Color.Black pv C).plug
      (.node (.node gl g Color.Red gv gr) b Color.Black bv br)) := hM
  have hb := hMb.cell
  have hRbl : Rep t.mem t.fictional chk (.node gl g Color.Red gv gr) (some b) :=
    hMb.decomp.2.1.2.1
  have hMg : Models t chk ((Ctx.left (Ctx.right l p Color.Black pv C) b Color.Black bv br).plug
      (.node gl g Color.Red gv gr)) := hM
  simp only [Ctx.par_right, Tree.ptr_node] at hp hb
  have hgb := IsBlack_rep hRbl
  simp only [Tree.ptr_node, isRed_red] at hgb
  obtain ⟨t1, e1, hM1, hs1⟩ := setColor_spec Color.Black hMg
  have hM1b : Models t1 chk ((Ctx.right l p Color.Black pv C).plug
      (.node (.node gl g Color.Black gv gr) b Color.Black bv br)) := hM1
  obtain ⟨t2, e2, hM2, hs2⟩ := RightRotate_spec hM1b
  have hM2p : Models t2 chk (C.plug (.node l p Color.Black pv
      (.node gl g Color.Black gv (.node gr b Color.Black bv br)))) := hM2
  obtain ⟨t3, e3, hM3, hs3⟩ := LeftRotate_spec hM2p
  refine ⟨t3, hM3, (hs1.trans hs2).trans hs3, ?_⟩
  simp [FixAfterErase, node_of_mem hp, ok_bind, IsBlack_node hb, node_of_mem hb, hgb,
    IsBlack_node hp, pure_ok, e1, e2, e3]

theorem FixAfterErase_left_far_black {t : RBTree V} {chk : Bool} {C : Ctx V}
    {l gl gr br : Tree V} {p b g : Nat} {pv bv gv : V} (fuel : Nat)
    (hM : Models t chk (C.plug (.node l p Color.Red pv
      (.node (.node gl g Color.Red gv gr) b Color.Black bv br))))
    (hbrr : br.isRed = false) :
    ∃ t', Models t' chk (C.plug (.node (.node l p Color.Red pv gl) g Color.Black gv
        (.node gr b Color.Red bv br))) ∧
      Same t t' ∧ FixAfterErase t (fuel + 1) p true = Except.ok t' := by
  have hp := hM.cell
  have hMb : Models t chk ((Ctx.right l p Color.Red pv C).plug
      (.node (.node gl g Color.Red gv gr) b Color.Black bv br)) := hM
  have hb := hMb.cell
  have hRbl : Rep t.mem t.fictional chk (.node gl g Color.Red gv gr) (some b) :=
    hMb.decomp.2.1.2.1
  have hRbr : Rep t.mem t.fictional chk br (some b) := hMb.decomp.2.1.2.2
  have hMg : Models t chk ((Ctx.left (Ctx.right l p Color.Red pv C) b Color.Black bv br).plug
      (.node gl g Color.Red gv gr)) := hM
  simp only [Ctx.par_right, Tree.ptr_node] at hp hb
  have hgb := IsBlack_rep hRbl
  simp only [Tree.ptr_node, isRed_red] at hgb
  obtain ⟨t1, e1, hM1, hs1⟩ := setColor_spec Color.Black hMg
  have hM1b : Models t1 chk ((Ctx.right l p Color.Red pv C).plug
      (.node (.node gl g Color.Black gv gr) b Color.Black bv br)) := hM1
  obtain ⟨t2, e2, hM2, hs2⟩ := setColor_spec Color.Red hM1b
  obtain ⟨t3, e3, hM3, hs3⟩ := RightRotate_spec hM2
  have hM3p : Models t3 chk (C.plug (.node l p Color.Red pv
      (.node gl g Color.Black gv (.node gr b Color.Red bv br)))) := hM3
  obtain ⟨t4, e4, hM4, hs4⟩ := LeftRotate_spec hM3p
  refine ⟨t4, hM4, ((hs1.trans hs2).trans hs3).trans hs4, ?_⟩
  simp [FixAfterErase, node_of_mem hp, ok_bind, IsBlack_node hb, node_of_mem hb, hgb,
    IsBlack_node hp, pure_ok, IsBlack_rep hRbr, hbrr, e1, e2, e3, e4]

theorem FixAfterErase_left_far_red {t : RBTree V} {chk : Bool} {C : Ctx V}
    {l gl gr fl fr : Tree V} {p b g f : Nat} {pv bv gv fv : V} (fuel : Nat)
    (hM : Models t chk (C.plug (.node l p Color.Red pv
      (.node (.node gl g Color.Red gv gr) b Color.Black bv (.node fl f Color.Red fv fr))))) :
    ∃ t', Models t' chk (C.plug (.node (.node l p Color.Black pv (.node gl g Color.Red gv gr))
        b Color.Red bv (.node fl f Color.Black fv fr))) ∧
      Same t t' ∧ FixAfterErase t (fuel + 1) p true = Except.ok t' := by
  have hp := hM.cell
  have hMb : Models t chk ((Ctx.right l p Color.Red pv C).plug
      (.node (.node gl g Color.Red gv gr) b Color.Black bv (.node fl f Color.Red fv fr))) := hM
  have hb := hMb.cell
  have hRbl : Rep t.mem t.fictional chk (.node gl g Color.Red gv gr) (some b) :=
    hMb.decomp.2.1.2.1
  have hRbr : Rep t.mem t.fictional chk (.node fl f Color.Red fv fr) (some b) :=
    hMb.decomp.2.1.2.2
  simp only [Ctx.par_right, Tree.ptr_node] at hp hb
  have hgb := IsBlack_rep hRbl
  have hfb := IsBlack_rep hRbr
  simp only [Tree.ptr_node, isRed_red] at hgb hfb
  obtain ⟨t1, e1, hM1, hs1⟩ := setColor_spec Color.Red hMb
  have hM1f : Models t1 chk ((Ctx.right (.node gl g Color.Red gv gr) b Color.Red bv
      (Ctx.right l p Color.Red pv C)).plug (.node fl f Color.Red fv fr)) := hM1
  obtain ⟨t2, e2, hM2, hs2⟩ := setColor_spec Color.Black hM1f
  have hM2p : Models t2 chk (C.plug (.node l p Color.Red pv
      (.node (.node gl g Color.Red gv gr) b Color.Red bv (.node fl f Color.Black fv fr)))) := hM2
  obtain ⟨t3, e3, hM3, hs3⟩ := setColor_spec Color.Black hM2p
  obtain ⟨t4, e4, hM4, hs4⟩ := LeftRotate_spec hM3
  refine ⟨t4, hM4, ((hs1.trans hs2).trans hs3).trans hs4, ?_⟩
  simp [FixAfterErase, node_of_mem hp, ok_bind, IsBlack_node hb, node_of_mem hb, hgb,
    IsBlack_node hp, pure_ok, hfb, e1, e2, e3, e4]

theorem FixAfterErase_left_brother_red {t : RBTree V} {chk : Bool} {C : Ctx V}
    {l bl br : Tree V} {p b : Nat} {pc : Color} {pv bv : V} (fuel : Nat)
    (hM : Models t chk (C.plug (.node l p pc pv (.node bl b Color.Red bv br)))) :
    ∃ t', Models t' chk ((Ctx.left C b Color.Black bv br).plug (.node l p Color.Red pv bl)) ∧
      Same t t' ∧ FixAfterErase t (fuel + 1) p true = FixAfterErase t' fuel p true := by
  have hp := hM.cell
  have hMb : Models t chk ((Ctx.right l p pc pv C).plug (.node bl b Color.Red bv br)) := hM
  have hb := hMb.cell
  simp only [Ctx.par_right, Tree.ptr_node] at hp hb
  obtain ⟨t1, e1, hM1, hs1⟩ := LeftRotate_spec hM
  obtain ⟨t2, e2, hM2, hs2⟩ := setColor_spec Color.Black hM1
  have hM2p : Models t2 chk ((Ctx.left C b Color.Black bv br).plug (.node l p pc pv bl)) := hM2
  obtain ⟨t3, e3, hM3, hs3⟩ := setColor_spec Color.Red hM2p
  refine ⟨t3, hM3, (hs1.trans hs2).trans hs3, ?_⟩
  simp [FixAfterErase, node_of_mem hp, ok_bind, IsBlack_node hb, pure_ok, e1, e2, e3]

/-! ## FixAfterErase in the store: the removed node was a right child -/

theorem FixAfterErase_right_near_black {t : RBTree V} {chk : Bool} {C : Ctx V}
    {r bl br : Tree V} {p b : Nat} {pc : Color} {pv bv : V} (fuel : Nat)
    (hM : Models t chk (C.plug (.node (.node bl b Color.Black bv br) p pc pv r)))
    (hbrr : br.isRed = false) :
    ∃ t', Models t' chk (C.plug (.node bl b Color.Black bv (.node br p Color.Red pv r))) ∧
      Same t t' ∧
      FixAfterErase t (fuel + 1) p false =
        (if pc = Color.Black then fixAbove t' fuel C else Except.ok t') := by
  have hp := hM.cell
  have hMb : Models t chk ((Ctx.left C p pc pv r).plug (.node bl b Color.Black bv br)) := hM
  have hb := hMb.cell
  have hRbr : Rep t.mem t.fictional chk br (some b) := hMb.decomp.2.1.2.2
  simp only [Ctx.par_left, Tree.ptr_node] at hp hb
  obtain ⟨t1, e1, hM1, hs1⟩ := RightRotate_spec hM
  have hM1p : Models t1 chk ((Ctx.right bl b Color.Black bv C).plug (.node br p pc pv r)) := hM1
  have hp1 := hM1p.cell
  cases pc with
  | Red =>
    refine ⟨t1, hM1, hs1, ?_⟩
    simp [FixAfterErase, node_of_mem hp, ok_bind, IsBlack_node hb, node_of_mem hb,
      IsBlack_rep hRbr, hbrr, e1, IsBlack_node hp1, pure_ok]
  | Black =>
    obtain ⟨t2, e2, hM2, hs2⟩ := setColor_spec Color.Red hM1p
    have hM2' : Models t2 chk
        (C.plug (.node bl b Color.Black bv (.node br p Color.Red pv r))) := hM2
    refine ⟨t2, hM2', hs1.trans hs2, ?_⟩
    have := fixAbove_step fuel hM2'
    simp only [if_true]
    rw [← this]
    simp [FixAfterErase, node_of_mem hp, ok_bind, IsBlack_node hb, node_of_mem hb,
      IsBlack_rep hRbr, hbrr, e1, IsBlack_node hp1, pure_ok, e2]

theorem FixAfterErase_right_near_red_pblack {t : RBTree V} {chk : Bool} {C : Ctx V}
    {r gl gr bl : Tree V} {p b g : Nat} {pv bv gv : V} (fuel : Nat)
    (hM : Models t chk (C.plug (.node
      (.node bl b Color.Black bv (.node gl g Color.Red gv gr)) p Color.Black pv r))) :
    ∃ t', Models t' chk (C.plug (.node (.node bl b Color.Black bv gl) g Color.Black gv
        (.node gr p Color.Black pv r))) ∧
      Same t t' ∧ FixAfterErase t (fuel + 1) p false = Except.ok t' := by
  have hp := hM.cell
  have hMb : Models t chk ((Ctx.left C p Color.Black pv r).plug
      (.node bl b Color.Black bv (.node gl g Color.Red gv gr))) := hM
  have hb := hMb.cell
  have hRbr : Rep t.mem t.fictional chk (.node gl g Color.Red gv gr) (some b) :=
    hMb.decomp.2.1.2.2
  have hMg : Models t chk ((Ctx.right bl b Color.Black bv (Ctx.left C p Color.Black pv r)).plug
      (.node gl g Color.Red gv gr)) := hM
  simp only [Ctx.par_left, Tree.ptr_node] at hp hb
  have hgb := IsBlack_rep hRbr
  simp only [Tree.ptr_node, isRed_red] at hgb
  obtain ⟨t1, e1, hM1, hs1⟩ := setColor_spec Color.Black hMg
  have hM1b : Models t1 chk ((Ctx.left C p Color.Black pv r).plug
      (.node bl b Color.Black bv (.node gl g Color.Black gv gr))) := hM1
  obtain ⟨t2, e2, hM2, hs2⟩ := LeftRotate_spec hM1b
  have hM2p : Models t2 chk (C.plug (.node
      (.node (.node bl b Color.Black bv gl) g Color.Black gv gr) p Color.Black pv r)) := hM2
  obtain ⟨t3, e3, hM3, hs3⟩ := RightRotate_spec hM2p
  refine ⟨t3, hM3, (hs1.trans hs2).trans hs3, ?_⟩
  simp [FixAfterErase, node_of_mem hp, ok_bind, IsBlack_node hb, node_of_mem hb, hgb,
    IsBlack_node hp, pure_ok, e1, e2, e3]

theorem FixAfterErase_right_far_black {t : RBTree V} {chk : Bool} {C : Ctx V}
    {r gl gr bl : Tree V} {p b g : Nat} {pv bv gv : V} (fuel : Nat)
    (hM : Models t chk (C.plug (.node
      (.node bl b Color.Black bv (.node gl g Color.Red gv gr)) p Color.Red pv r)))
    (hblr : bl.isRed = false) :
    ∃ t', Models t' chk (C.plug (.node (.node bl b Color.Red bv gl) g Color.Black gv
        (.node gr p Color.Red pv r))) ∧
      Same t t' ∧ FixAfterErase t (fuel + 1) p false = Except.ok t' := by
  have hp := hM.cell
  have hMb : Models t chk ((Ctx.left C p Color.Red pv r).plug
      (.node bl b Color.Black bv (.node gl g Color.Red gv gr))) := hM
  have hb := hMb.cell
  have hRbr : Rep t.mem t.fictional chk (.node gl g Color.Red gv gr) (some b) :=
    hMb.decomp.2.1.2.2
  have hRbl : Rep t.mem t.fictional chk bl (some b) := hMb.decomp.2.1.2.1
  have hMg : Models t chk ((Ctx.right bl b Color.Black bv (Ctx.left C p Color.Red pv r)).plug
      (.node gl g Color.Red gv gr)) := hM
  simp only [Ctx.par_left, Tree.ptr_node] at hp hb
  have hgb := IsBlack_rep hRbr
  simp only [Tree.ptr_node, isRed_red] at hgb
  obtain ⟨t1, e1, hM1, hs1⟩ := setColor_spec Color.Black hMg
  have hM1b : Models t1 chk ((Ctx.left C p Color.Red pv r).plug
      (.node bl b Color.Black bv (.node gl g Color.Black gv gr))) := hM1
  obtain ⟨t2, e2, hM2, hs2⟩ := setColor_spec Color.Red hM1b
  obtain ⟨t3, e3, hM3, hs3⟩ := LeftRotate_spec hM2
  have hM3p : Models t3 chk (C.plug (.node
      (.node (.node bl b Color.Red bv gl) g Color.Black gv gr) p Color.Red pv r)) := hM3
  obtain ⟨t4, e4, hM4, hs4⟩ := RightRotate_spec hM3p
  refine ⟨t4, hM4, ((hs1.trans hs2).trans hs3).trans hs4, ?_⟩
  simp [FixAfterErase, node_of_mem hp, ok_bind, IsBlack_node hb, node_of_mem hb, hgb,
    IsBlack_node hp, pure_ok, IsBlack_rep hRbl, hblr, e1, e2, e3, e4]

theorem FixAfterErase_right_far_red {t : RBTree V} {chk : Bool} {C : Ctx V}
    {r gl gr fl fr : Tree V} {p b g f : Nat} {pv bv gv fv : V} (fuel : Nat)
    (hM : Models t chk (C.plug (.node
      (.node (.node fl f Color.Red fv fr) b Color.Black bv (.node gl g Color.Red gv gr))
      p Color.Red pv r))) :
    ∃ t', Models t' chk (C.plug (.node (.node fl f Color.Black fv fr) b Color.Red bv
        (.node (.node gl g Color.Red gv gr) p Color.Black pv r))) ∧
      Same t t' ∧ FixAfterErase t (fuel + 1) p false = Except.ok t' := by
  have hp := hM.cell
  have hMb : Models t chk ((Ctx.left C p Color.Red pv r).plug
      (.node (.node fl f Color.Red fv fr) b Color.Black bv (.node gl g Color.Red gv gr))) := hM
  have hb := hMb.cell
  have hRbr : Rep t.mem t.fictional chk (.node gl g Color.Red gv gr) (some b) :=
    hMb.decomp.2.1.2.2
  have hRbl : Rep t.mem t.fictional chk (.node fl f Color.Red fv fr) (some b) :=
    hMb.decomp.2.1.2.1
  simp only [Ctx.par_left, Tree.ptr_node] at hp hb
  have hgb := IsBlack_rep hRbr
  have hfb := IsBlack_rep hRbl
  simp only [Tree.ptr_node, isRed_red] at hgb hfb
  obtain ⟨t1, e1, hM1, hs1⟩ := setColor_spec Color.Red hMb
  have hM1f : Models t1 chk ((Ctx.left (Ctx.left C p Color.Red pv r) b Color.Red bv
      (.node gl g Color.Red gv gr)).plug (.node fl f Color.Red fv fr)) := hM1
  obtain ⟨t2, e2, hM2, hs2⟩ := setColor_spec Color.Black hM1f
  have hM2p : Models t2 chk (C.plug (.node
      (.node (.node fl f Color.Black fv fr) b Color.Red bv (.node gl g Color.Red gv gr))
      p Color.Red pv r)) := hM2
  obtain ⟨t3, e3, hM3, hs3⟩ := setColor_spec Color.Black hM2p
  obtain ⟨t4, e4, hM4, hs4⟩ := RightRotate_spec hM3
  refine ⟨t4, hM4, ((hs1.trans hs2).trans hs3).trans hs4, ?_⟩
  simp [FixAfterErase, node_of_mem hp, ok_bind, IsBlack_node hb, node_of_mem hb, hgb,
    IsBlack_node hp, pure_ok, hfb, e1, e2, e3, e4]

theorem FixAfterErase_right_brother_red {t : RBTree V} {chk : Bool} {C : Ctx V}
    {r bl br : Tree V} {p b : Nat} {pc : Color} {pv bv : V} (fuel : Nat)
    (hM : Models t chk (C.plug (.node (.node bl b Color.Red bv br) p pc pv r))) :
    ∃ t', Models t' chk ((Ctx.right bl b Color.Black bv C).plug (.node br p Color.Red pv r)) ∧
      Same t t' ∧ FixAfterErase t (fuel + 1) p false = FixAfterErase t' fuel p false := by
  have hp := hM.cell
  have hMb : Models t chk ((Ctx.left C p pc pv r).plug (.node bl b Color.Red bv br)) := hM
  have hb := hMb.cell
  simp only [Ctx.par_left, Tree.ptr_node] at hp hb
  obtain ⟨t1, e1, hM1, hs1⟩ := RightRotate_spec hM
  obtain ⟨t2, e2, hM2, hs2⟩ := setColor_spec Color.Black hM1
  have hM2p : Models t2 chk ((Ctx.right bl b Color.Black bv C).plug (.node br p pc pv r)) := hM2
  obtain ⟨t3, e3, hM3, hs3⟩ := setColor_spec Color.Red hM2p
  refine ⟨t3, hM3, (hs1.trans hs2).trans hs3, ?_⟩
  simp [FixAfterErase, node_of_mem hp, ok_bind, IsBlack_node hb, pure_ok, e1, e2, e3]

/-! ## FixAfterErase in the store follows the laid out tree -/

theorem fixBlack_left_near_black (l : Tree V) (p : Nat) (pc : Color) (pv : V)
    (bl : Tree V) (b : Nat) (bv : V) (br : Tree V) (h : bl.isRed = false) :
    Tree.fixBlack true (.node l p pc pv (.node bl b Color.Black bv br)) =
      some (.node (.node l p .Red pv bl) b .Black bv br, decide (pc = Color.Black)) := by
  cases bl with
  | nil => cases pc <;> rfl
  | fict => cases pc <;> rfl
  | node gl g gc gv gr =>
    cases gc with
    | Red => simp [isRed_red] at h
    | Black => cases pc <;> rfl

theorem fixBlack_left_far_black (l : Tree V) (p : Nat) (pv : V)
    (gl : Tree V) (g : Nat) (gv : V) (gr : Tree V) (b : Nat) (bv : V) (br : Tree V)
    (h : br.isRed = false) :
    Tree.fixBlack true
      (.node l p Color.Red pv (.node (.node gl g Color.Red gv gr) b Color.Black bv br)) =
      some (.node (.node l p .Red pv gl) g .Black gv (.node gr b .Red bv br), false) := by
  cases br with
  | nil => rfl
  | fict => rfl
  | node fl f fc fv fr =>
    cases fc with
    | Red => simp [isRed_red] at h
    | Black => rfl

theorem fixBlack_right_near_black (r : Tree V) (p : Nat) (pc : Color) (pv : V)
    (bl : Tree V) (b : Nat) (bv : V) (br : Tree V) (h : br.isRed = false) :
    Tree.fixBlack false (.node (.node bl b Color.Black bv br) p pc pv r) =
      some (.node bl b .Black bv (.node br p .Red pv r), decide (pc = Color.Black)) := by
  cases br with
  | nil => cases pc <;> rfl
  | fict => cases pc <;> rfl
  | node gl g gc gv gr =>
    cases gc with
    | Red => simp [isRed_red] at h
    | Black => cases pc <;> rfl

theorem fixBlack_right_far_black (r : Tree V) (p : Nat) (pv : V)
    (gl : Tree V) (g : Nat) (gv : V) (gr : Tree V) (b : Nat) (bv : V) (bl : Tree V)
    (h : bl.isRed = false) :
    Tree.fixBlack false
      (.node (.node bl b Color.Black bv (.node gl g Color.Red gv gr)) p Color.Red pv r) =
      some (.node (.node bl b .Red bv gl) g .Black gv (.node gr p .Red pv r), false) := by
  cases bl with
  | nil => rfl
  | fict => rfl
  | node fl f fc fv fr =>
    cases fc with
    | Red => simp [isRed_red] at h
    | Black => rfl

theorem FixAfterErase_fixBlack {t : RBTree V} {chk : Bool} {C : Ctx V} {S S' : Tree V}
    {flag isleft : Bool} {p : Nat} (fuel : Nat) (hM : Models t chk (C.plug S))
    (hp : S.ptr t.fictional = some p) (h : S.fixBlack isleft = some (S', flag)) :
    ∃ t', Models t' chk (C.plug S') ∧ Same t t' ∧
      FixAfterErase t (fuel + 1) p isleft =
        (if flag = true then fixAbove t' fuel C else Except.ok t') := by
  cases S with
  | nil => simp at hp
  | fict => cases isleft <;> simp [Tree.fixBlack] at h
  | node l p' pc pv r =>
    simp only [Tree.ptr_node, Option.some.injEq] at hp
    subst hp
    cases isleft with
    | true =>
      cases r with
      | nil => simp [Tree.fixBlack] at h
      | fict => simp [Tree.fixBlack] at h
      | node bl b bc bv br =>
        cases bc with
        | Red => simp [Tree.fixBlack] at h
        | Black =>
          rcases isRed_cases bl with ⟨-, gl, g, gv, gr, rfl⟩ | hblr
          · cases pc with
            | Black =>
              simp only [Tree.fixBlack, if_true, Option.some.injEq, Prod.mk.injEq] at h
              obtain ⟨rfl, rfl⟩ := h
              obtain ⟨t', h1, h2, h3⟩ := FixAfterErase_left_near_red_pblack fuel hM
              exact ⟨t', h1, h2, by simpa using h3⟩
            | Red =>
              rcases isRed_cases br with ⟨-, fl, f, fv, fr, rfl⟩ | hbrr
              · simp only [Tree.fixBlack, if_false, reduceCtorEq, Option.some.injEq,
                  Prod.mk.injEq] at h
                obtain ⟨rfl, rfl⟩ := h
                obtain ⟨t', h1, h2, h3⟩ := FixAfterErase_left_far_red fuel hM
                exact ⟨t', h1, h2, by simpa using h3⟩
              · rw [fixBlack_left_far_black _ _ _ _ _ _ _ _ _ _ hbrr] at h
                simp only [Option.some.injEq, Prod.mk.injEq] at h
                obtain ⟨rfl, rfl⟩ := h
                obtain ⟨t', h1, h2, h3⟩ := FixAfterErase_left_far_black fuel hM hbrr
                exact ⟨t', h1, h2, by simpa using h3⟩
          · rw [fixBlack_left_near_black _ _ _ _ _ _ _ _ hblr] at h
            simp only [Option.some.injEq, Prod.mk.injEq] at h
            obtain ⟨rfl, rfl⟩ := h
            obtain ⟨t', h1, h2, h3⟩ := FixAfterErase_left_near_black fuel hM hblr
            exact ⟨t', h1, h2, by simpa using h3⟩
    | false =>
      cases l with
      | nil => simp [Tree.fixBlack] at h
      | fict => simp [Tree.fixBlack] at h
      | node bl b bc bv br =>
        cases bc with
        | Red => simp [Tree.fixBlack] at h
        | Black =>
          rcases isRed_cases br with ⟨-, gl, g, gv, gr, rfl⟩ | hbrr
          · cases pc with
            | Black =>
              simp only [Tree.fixBlack, if_true, Option.some.injEq, Prod.mk.injEq] at h
              obtain ⟨rfl, rfl⟩ := h
              obtain ⟨t', h1, h2, h3⟩ := FixAfterErase_right_near_red_pblack fuel hM
              exact ⟨t', h1, h2, by simpa using h3⟩
            | Red =>
              rcases isRed_cases bl with ⟨-, fl, f, fv, fr, rfl⟩ | hblr
              · simp only [Tree.fixBlack, if_false, reduceCtorEq, Option.some.injEq,
                  Prod.mk.injEq] at h
                obtain ⟨rfl, rfl⟩ := h
                obtain ⟨t', h1, h2, h3⟩ := FixAfterErase_right_far_red fuel hM
                exact ⟨t', h1, h2, by simpa using h3⟩
              · rw [fixBlack_right_far_black _ _ _ _ _ _ _ _ _ _ hblr] at h
                simp only [Option.some.injEq, Prod.mk.injEq] at h
                obtain ⟨rfl, rfl⟩ := h
                obtain ⟨t', h1, h2, h3⟩ := FixAfterErase_right_far_black fuel hM hblr
                exact ⟨t', h1, h2, by simpa using h3⟩
          · rw [fixBlack_right_near_black _ _ _ _ _ _ _ _ hbrr] at h
            simp only [Option.some.injEq, Prod.mk.injEq] at h
            obtain ⟨rfl, rfl⟩ := h
            obtain ⟨t', h1, h2, h3⟩ := FixAfterErase_right_near_black fuel hM hbrr
            exact ⟨t', h1, h2, by simpa using h3⟩

theorem fixBlack_red_flag (isleft : Bool) (l : Tree V) (p : Nat) (pv : V) (r : Tree V)
    (S' : Tree V) (flag : Bool)
    (h : Tree.fixBlack isleft (.node l p Color.Red pv r) = some (S', flag)) : flag = false := by
  cases isleft with
  | true =>
    cases r with
    | nil => simp [Tree.fixBlack] at h
    | fict => simp [Tree.fixBlack] at h
    | node bl b bc bv br =>
      cases bc with
      | Red => simp [Tree.fixBlack] at h
      | Black =>
        rcases isRed_cases bl with ⟨-, gl, g, gv, gr, rfl⟩ | hblr
        · rcases isRed_cases br with ⟨-, fl, f, fv, fr, rfl⟩ | hbrr
          · simp only [Tree.fixBlack, if_false, reduceCtorEq, Option.some.injEq,
              Prod.mk.injEq] at h
            exact h.2.symm
          · rw [fixBlack_left_far_black _ _ _ _ _ _ _ _ _ _ hbrr] at h
            simp only [Option.some.injEq, Prod.mk.injEq] at h
            exact h.2.symm
        · rw [fixBlack_left_near_black _ _ _ _ _ _ _ _ hblr] at h
          simp only [Option.some.injEq, Prod.mk.injEq] at h
          rw [← h.2]; simp
  | false =>
    cases l with
    | nil => simp [Tree.fixBlack] at h
    | fict => simp [Tree.fixBlack] at h
    | node bl b bc bv br =>
      cases bc with
      | Red => simp [Tree.fixBlack] at h
      | Black =>
        rcases isRed_cases br with ⟨-, gl, g, gv, gr, rfl⟩ | hbrr
        · rcases isRed_cases bl with ⟨-, fl, f, fv, fr, rfl⟩ | hblr
          · simp only [Tree.fixBlack, if_false, reduceCtorEq, Option.some.injEq,
              Prod.mk.injEq] at h
            exact h.2.symm
          · rw [fixBlack_right_far_black _ _ _ _ _ _ _ _ _ _ hblr] at h
            simp only [Option.some.injEq, Prod.mk.injEq] at h
            exact h.2.symm
        · rw [fixBlack_right_near_black _ _ _ _ _ _ _ _ hbrr] at h
          simp only [Option.some.injEq, Prod.mk.injEq] at h
          rw [← h.2]; simp

theorem FixAfterErase_fixSub {t : RBTree V} {chk : Bool} {C : Ctx V} {S S' : Tree V}
    {flag isleft : Bool} {p : Nat} (fuel : Nat) (hM : Models t chk (C.plug S))
    (hp : S.ptr t.fictional = some p) (h : S.fixSub isleft = some (S', flag)) :
    ∃ t', Models t' chk (C.plug S') ∧ Same t t' ∧
      FixAfterErase t (fuel + 2) p isleft =
        (if flag = true then fixAbove t' (fuel + 1) C else Except.ok t') := by
  cases S with
  | nil => simp at hp
  | fict => cases isleft <;> simp [Tree.fixSub, Tree.fixBlack] at h
  | node l p' pc pv r =>
    have hp' := hp
    simp only [Tree.ptr_node, Option.some.injEq] at hp'
    subst hp'
    cases isleft with
    | true =>
      rcases isRed_cases r with ⟨-, bl, b, bv, br, rfl⟩ | hrr
      · simp only [Tree.fixSub] at h
        cases hfb : Tree.fixBlack true (.node l p' Color.Red pv bl) with
        | none => simp [hfb] at h
        | some res =>
          obtain ⟨s, fl⟩ := res
          simp only [hfb, Option.some.injEq, Prod.mk.injEq] at h
          obtain ⟨rfl, rfl⟩ := h
          have hfl := fixBlack_red_flag _ _ _ _ _ _ _ hfb
          subst hfl
          obtain ⟨t1, hM1, hs1, e1⟩ := FixAfterErase_left_brother_red (fuel + 1) hM
          obtain ⟨t2, hM2, hs2, e2⟩ := FixAfterErase_fixBlack fuel hM1 rfl hfb
          refine ⟨t2, hM2, hs1.trans hs2, ?_⟩
          rw [e1, e2]; simp
      · rw [fixSub_of_black_left _ _ _ _ _ hrr] at h
        exact FixAfterErase_fixBlack (fuel + 1) hM hp h
    | false =>
      rcases isRed_cases l with ⟨-, bl, b, bv, br, rfl⟩ | hlr
      · simp only [Tree.fixSub] at h
        cases hfb : Tree.fixBlack false (.node br p' Color.Red pv r) with
        | none => simp [hfb] at h
        | some res =>
          obtain ⟨s, fl⟩ := res
          simp only [hfb, Option.some.injEq, Prod.mk.injEq] at h
          obtain ⟨rfl, rfl⟩ := h
          have hfl := fixBlack_red_flag _ _ _ _ _ _ _ hfb
          subst hfl
          obtain ⟨t1, hM1, hs1, e1⟩ := FixAfterErase_right_brother_red (fuel + 1) hM
          obtain ⟨t2, hM2, hs2, e2⟩ := FixAfterErase_fixBlack fuel hM1 rfl hfb
          refine ⟨t2, hM2, hs1.trans hs2, ?_⟩
          rw [e1, e2]; simp
      · rw [fixSub_of_black_right _ _ _ _ _ hlr] at h
        exact FixAfterErase_fixBlack (fuel + 1) hM hp h

theorem FixAfterErase_spec {chk : Bool} : ∀ (C : Ctx V) (S : Tree V) (isleft : Bool)
    (T' : Tree V) (fuel : Nat) (t : RBTree V) (p : Nat), Models t chk (C.plug S) →
    S.ptr t.fictional = some p → C.fixErase S isleft = some T' → C.depth + 2 ≤ fuel →
    ∃ t', FixAfterErase t fuel p isleft = Except.ok t' ∧ Models t' chk T' ∧ Same t t' := by
  intro C
  induction C with
  | top =>
    intro S isleft T' fuel t p hM hp hfe hfuel
    obtain ⟨f, rfl⟩ : ∃ f, fuel = f + 2 := ⟨fuel - 2, by omega⟩
    cases hfs : Tree.fixSub isleft S with
    | none => simp [Ctx.fixErase, hfs] at hfe
    | some res =>
      obtain ⟨S', flag⟩ := res
      obtain ⟨t', hM', hs, e⟩ := FixAfterErase_fixSub f hM hp hfs
      cases flag with
      | false =>
        rw [fixErase_done _ _ _ _ hfs] at hfe
        simp only [Option.some.injEq] at hfe
        subst hfe
        exact ⟨t', by simpa using e, hM', hs⟩
      | true =>
        rw [fixErase_top _ _ _ hfs] at hfe
        simp only [Option.some.injEq] at hfe
        subst hfe
        exact ⟨t', by simpa [fixAbove, pure_ok] using e, hM', hs⟩
  | left up a c v r ih =>
    intro S isleft T' fuel t p hM hp hfe hfuel
    simp only [Ctx.depth] at hfuel
    obtain ⟨f, rfl⟩ : ∃ f, fuel = f + 2 := ⟨fuel - 2, by omega⟩
    cases hfs : Tree.fixSub isleft S with
    | none =>
      rw [Ctx.fixErase] at hfe
      simp [hfs] at hfe
    | some res =>
      obtain ⟨S', flag⟩ := res
      obtain ⟨t', hM', hs, e⟩ := FixAfterErase_fixSub f hM hp hfs
      cases flag with
      | false =>
        rw [fixErase_done _ _ _ _ hfs] at hfe
        simp only [Option.some.injEq] at hfe
        subst hfe
        exact ⟨t', by simpa using e, hM', hs⟩
      | true =>
        rw [fixErase_left _ _ _ _ _ _ _ _ hfs] at hfe
        have hM2 : Models t' chk (up.plug (.node S' a c v r)) := hM'
        obtain ⟨t2, e2, hM2', hs2⟩ := ih (.node S' a c v r) true T' (f + 1) t' a hM2 rfl hfe
          (by omega)
        exact ⟨t2, by simpa [fixAbove, e2] using e, hM2', hs.trans hs2⟩
  | right l a c v up ih =>
    intro S isleft T' fuel t p hM hp hfe hfuel
    simp only [Ctx.depth] at hfuel
    obtain ⟨f, rfl⟩ : ∃ f, fuel = f + 2 := ⟨fuel - 2, by omega⟩
    cases hfs : Tree.fixSub isleft S with
    | none =>
      rw [Ctx.fixErase] at hfe
      simp [hfs] at hfe
    | some res =>
      obtain ⟨S', flag⟩ := res
      obtain ⟨t', hM', hs, e⟩ := FixAfterErase_fixSub f hM hp hfs
      cases flag with
      | false =>
        rw [fixErase_done _ _ _ _ hfs] at hfe
        simp only [Option.some.injEq] at hfe
        subst hfe
        exact ⟨t', by simpa using e, hM', hs⟩
      | true =>
        rw [fixErase_right _ _ _ _ _ _ _ _ hfs] at hfe
        have hM2 : Models t' chk (up.plug (.node l a c v S')) := hM'
        obtain ⟨t2, e2, hM2', hs2⟩ := ih (.node l a c v S') false T' (f + 1) t' a hM2 rfl hfe
          (by omega)
        exact ⟨t2, by simpa [fixAbove, e2] using e, hM2', hs.trans hs2⟩

/-! ## Pieces of Erase in the store -/

theorem Rep.weaken_chk {m : Nat → Option (RBNode V)} {F : Nat} {chk : Bool} :
    ∀ (T : Tree V) (par : Option Nat), Rep m F chk T par → Rep m F false T par
  | .nil, _, _ => trivial
  | .fict, _, h => by
    obtain ⟨pp, g, hm, _⟩ := h
    exact ⟨pp, g, hm, by simp⟩
  | .node l a c v r, _, h => ⟨h.1, Rep.weaken_chk l _ h.2.1, Rep.weaken_chk r _ h.2.2⟩

theorem Models.weaken {t : RBTree V} {chk : Bool} {T : Tree V} (h : Models t chk T) :
    Models t false T :=
  ⟨Rep.weaken_chk T none h.rep, h.root, h.nodup, h.fresh⟩

theorem plug_nodes_congr : ∀ (C : Ctx V) (S S' : Tree V), S.nodes = S'.nodes →
    (C.plug S).nodes = (C.plug S').nodes
  | .top, S, S', h => h
  | .left up a c v r, S, S', h => by
    simp only [Ctx.plug]
    exact plug_nodes_congr up _ _ (by simp [Tree.nodes, h])
  | .right l a c v up, S, S', h => by
    simp only [Ctx.plug]
    exact plug_nodes_congr up _ _ (by simp [Tree.nodes, h])

theorem setVal_spec {t : RBTree V} {chk : Bool} {C : Ctx V} {l r : Tree V} {a : Nat}
    {c : Color} {v : V} (v' : V) (hM : Models t chk (C.plug (.node l a c v r))) :
    ∃ t', t.setVal (some a) v' = .ok t' ∧ Models t' chk (C.plug (.node l a c v' r)) ∧
      Same t t' := by
  obtain ⟨hC, ⟨ha, hl, hr⟩, hnd⟩ := hM.decomp
  simp only [Tree.addrs, List.nodup_append, List.nodup_cons, List.mem_append,
    List.mem_cons, List.disjoint_append_left, List.disjoint_append_right,
    List.disjoint_cons_left, List.disjoint_cons_right, not_or, List.cons_append,
    List.append_assoc] at hnd
  refine ⟨_, setVal_put v' ha, ?_, Same.of_put _ ha⟩
  refine Models.compose ?_ ?_ ?_ ?_
  · exact RepCtx.put_ctx _ (by tauto) hC
  · exact ⟨by simp, Rep.put _ (by tauto) hl, Rep.put _ (by tauto) hr⟩
  · simpa [Tree.addrs] using hM.decomp.2.2
  · exact (Same.of_put _ ha).fresh hM.fresh

theorem Models.depth_le {t : RBTree V} {chk : Bool} {C : Ctx V} {S : Tree V}
    (h : Models t chk (C.plug S)) : C.depth + S.count ≤ t.brk := by
  have h1 := plug_count C S
  have h2 := h.count_le
  omega

theorem maxPath_plug : ∀ (S : Tree V) (C : Ctx V),
    (Tree.maxPath C S).1.plug (Tree.maxPath C S).2 = C.plug S := by
  intro S
  induction S with
  | nil => intro C; rfl
  | fict => intro C; rfl
  | node l a c v r ihl ihr =>
    intro C
    cases r with
    | nil => rw [maxPath_nil]
    | fict => simp [Tree.maxPath, Ctx.plug]
    | node rl ra rc rv rr => rw [maxPath_node, ihr]; rfl

theorem descendRight_spec (t : RBTree V) (chk : Bool) :
    ∀ (S : Tree V) (C : Ctx V) (fuel : Nat) (par : Option Nat) (x : Nat),
      Rep t.mem t.fictional chk S par → S.ptr t.fictional = some x → S.height ≤ fuel →
      ∃ y, (Tree.maxPath C S).2.ptr t.fictional = some y ∧
        descendRight t fuel x = Except.ok y := by
  intro S
  induction S with
  | nil => intro C fuel par x _ hp; simp at hp
  | fict =>
    intro C fuel par x hR hp hh
    simp only [Tree.ptr_fict, Option.some.injEq] at hp
    subst hp
    obtain ⟨pp, g, hm, _⟩ := hR
    cases fuel with
    | zero => simp [Tree.height] at hh
    | succ f =>
      exact ⟨t.fictional, rfl, by simp [descendRight, node_of_mem hm, ok_bind, pure_ok]⟩
  | node l a c v r ihl ihr =>
    intro C fuel par x hR hp hh
    simp only [Tree.ptr_node, Option.some.injEq] at hp
    subst hp
    obtain ⟨hm, hl, hr⟩ := hR
    cases fuel with
    | zero => simp [Tree.height] at hh
    | succ f =>
      simp only [Tree.height] at hh
      cases r with
      | nil =>
        refine ⟨a, by rw [maxPath_nil]; rfl, ?_⟩
        simp only [Tree.ptr_nil] at hm
        simp [descendRight, node_of_mem hm, ok_bind, pure_ok]
      | fict =>
        obtain ⟨pp, g, hmF, _⟩ := hr
        simp only [Tree.ptr_fict] at hm
        refine ⟨t.fictional, by simp [Tree.maxPath], ?_⟩
        cases f with
        | zero => simp [Tree.height] at hh
        | succ f' =>
          simp [descendRight, node_of_mem hm, ok_bind, pure_ok, node_of_mem hmF]
      | node rl ra rc rv rr =>
        obtain ⟨y, hy1, hy2⟩ := ihr (.right l a c v C) f (some a) ra hr rfl (by omega)
        simp only [Tree.ptr_node] at hm
        exact ⟨y, by rw [maxPath_node]; exact hy1,
          by simp [descendRight, node_of_mem hm, ok_bind, hy2]⟩

theorem swapVal_spec {t : RBTree V} {chk : Bool} {C D : Ctx V} {r ml mr : Tree V}
    {a m : Nat} {c mc : Color} {v mv : V}
    (hM : Models t chk (C.plug (.node (D.plug (.node ml m mc mv mr)) a c v r))) :
    ∃ t', t.swapVal (some m) (some a) = .ok t' ∧
      Models t' chk (C.plug (.node (D.plug (.node ml m mc v mr)) a c mv r)) ∧ Same t t' := by
  have ha := hM.cell
  have hM1 : Models t chk ((D.comp (.left C a c v r)).plug (.node ml m mc mv mr)) := by
    rw [plug_comp]; exact hM
  have hm := hM1.cell
  obtain ⟨t1, e1, hM2, hs1⟩ := setVal_spec v hM1
  rw [plug_comp] at hM2
  have hM2' : Models t1 chk (C.plug (.node (D.plug (.node ml m mc v mr)) a c v r)) := hM2
  obtain ⟨t2, e2, hM3, hs2⟩ := setVal_spec mv hM2'
  refine ⟨t2, ?_, hM3, hs1.trans hs2⟩
  simp [RBTree.swapVal, node_of_mem ha, node_of_mem hm, ok_bind, e1, e2]

theorem swapVal_right_spec {t : RBTree V} {chk : Bool} {C : Ctx V} {l ml mr : Tree V}
    {a m : Nat} {c mc : Color} {v mv : V}
    (hM : Models t chk (C.plug (.node l a c v (.node ml m mc mv mr)))) :
    ∃ t', t.swapVal (some m) (some a) = .ok t' ∧
      Models t' chk (C.plug (.node l a c mv (.node ml m mc v mr))) ∧ Same t t' := by
  have ha := hM.cell
  have hM1 : Models t chk ((Ctx.right l a c v C).plug (.node ml m mc mv mr)) := hM
  have hm := hM1.cell
  obtain ⟨t1, e1, hM2, hs1⟩ := setVal_spec v hM1
  have hM2' : Models t1 chk (C.plug (.node l a c v (.node ml m mc v mr))) := hM2
  obtain ⟨t2, e2, hM3, hs2⟩ := setVal_spec mv hM2'
  refine ⟨t2, ?_, hM3, hs1.trans hs2⟩
  simp [RBTree.swapVal, node_of_mem ha, node_of_mem hm, ok_bind, e1, e2]

/-! ## The leaf branch of Erase in the store -/

theorem Models.deallocate {t : RBTree V} {chk : Bool} {T : Tree V} (h : Models t chk T)
    {a : Nat} (ha : a ∉ T.addrs t.fictional) : Models (t.deallocate a).decSize chk T := by
  refine ⟨?_, h.root, h.nodup, ?_⟩
  · refine Rep.congr T none (fun b hb => ?_) h.rep
    have : b ≠ a := fun e => ha (e ▸ hb)
    simp [RBTree.deallocate, RBTree.decSize, this]
  · intro x hx
    have := h.fresh x hx
    simp only [RBTree.deallocate, RBTree.decSize]
    split
    · rfl
    · exact this

theorem detach_left_nil {t : RBTree V} {chk : Bool} {up : Ctx V} {r1 : Tree V} {a a1 : Nat}
    {c c1 : Color} {v v1 : V}
    (hM : Models t chk (up.plug (.node (.node .nil a c v .nil) a1 c1 v1 r1))) :
    ∃ t1, t.setLeft (some a1) none = .ok t1 ∧
      Models (t1.deallocate a).decSize chk (up.plug (.node .nil a1 c1 v1 r1)) ∧
      t1.brk = t.brk ∧ t1.fictional = t.fictional ∧ t1.size = t.size := by
  obtain ⟨hC, ⟨ha1, hS, hr1⟩, hnd⟩ := hM.decomp
  simp only [Tree.addrs, List.nodup_append, List.nodup_cons, List.mem_append,
    List.mem_cons, List.disjoint_append_left, List.disjoint_append_right,
    List.disjoint_cons_left, List.disjoint_cons_right, not_or, List.cons_append,
    List.append_assoc, List.nil_append, List.not_mem_nil, not_false_eq_true, true_and,
    List.nodup_nil, List.append_nil] at hnd
  simp only [Tree.ptr_node] at ha1 hC
  refine ⟨_, setLeft_put none ha1, ?_, rfl, rfl, rfl⟩
  have hM1 : Models (t.put a1 { (⟨up.par, some a, r1.ptr t.fictional, v1, c1⟩ : RBNode V) with
      left := none }) chk (up.plug (.node .nil a1 c1 v1 r1)) := by
    refine Models.compose ?_ ?_ ?_ ?_
    · simp only [Tree.ptr_node]
      exact RepCtx.put_ctx _ (by tauto) hC
    · exact ⟨by simp, trivial, Rep.put _ (by tauto) hr1⟩
    · simp only [Tree.addrs, List.nil_append, List.cons_append, List.nodup_cons,
        List.mem_append, not_or, List.nodup_append]
      tauto
    · exact (Same.of_put _ ha1).fresh hM.fresh
  refine hM1.deallocate ?_
  have := (plug_addrs_perm t.fictional up (.node .nil a1 c1 v1 r1)).mem_iff (a := a)
  simp only [put_fictional]
  rw [this]
  simp only [Tree.addrs, List.nil_append, List.cons_append, List.mem_cons, List.mem_append,
    not_or]
  tauto

theorem detach_right_nil {t : RBTree V} {chk : Bool} {up : Ctx V} {l1 : Tree V} {a a1 : Nat}
    {c c1 : Color} {v v1 : V}
    (hM : Models t chk (up.plug (.node l1 a1 c1 v1 (.node .nil a c v .nil)))) :
    ∃ t1, t.setRight (some a1) none = .ok t1 ∧
      Models (t1.deallocate a).decSize chk (up.plug (.node l1 a1 c1 v1 .nil)) ∧
      t1.brk = t.brk ∧ t1.fictional = t.fictional ∧ t1.size = t.size := by
  obtain ⟨hC, ⟨ha1, hl1, hS⟩, hnd⟩ := hM.decomp
  simp only [Tree.addrs, List.nodup_append, List.nodup_cons, List.mem_append,
    List.mem_cons, List.disjoint_append_left, List.disjoint_append_right,
    List.disjoint_cons_left, List.disjoint_cons_right, not_or, List.cons_append,
    List.append_assoc, List.nil_append, List.not_mem_nil, not_false_eq_true, true_and,
    List.nodup_nil, List.append_nil] at hnd
  simp only [Tree.ptr_node] at ha1 hC
  refine ⟨_, setRight_put none ha1, ?_, rfl, rfl, rfl⟩
  have hM1 : Models (t.put a1 { (⟨up.par, l1.ptr t.fictional, some a, v1, c1⟩ : RBNode V) with
      right := none }) chk (up.plug (.node l1 a1 c1 v1 .nil)) := by
    refine Models.compose ?_ ?_ ?_ ?_
    · simp only [Tree.ptr_node]
      exact RepCtx.put_ctx _ (by tauto) hC
    · exact ⟨by simp, Rep.put _ (by tauto) hl1, trivial⟩
    · simp only [Tree.addrs, List.append_nil, List.nodup_cons,
        List.mem_append, not_or, List.nodup_append, List.append_assoc, List.cons_append,
        List.mem_cons, List.disjoint_cons_right]
      tauto
    · exact (Same.of_put _ ha1).fresh hM.fresh
  refine hM1.deallocate ?_
  have := (plug_addrs_perm t.fictional up (.node l1 a1 c1 v1 .nil)).mem_iff (a := a)
  simp only [put_fictional]
  rw [this]
  simp only [Tree.addrs, List.append_nil, List.mem_cons, List.mem_append, not_or]
  tauto

theorem detach_right_fict {t : RBTree V} {chk : Bool} {up : Ctx V} {l1 : Tree V} {a a1 : Nat}
    {c c1 : Color} {v v1 : V}
    (hM : Models t chk (up.plug (.node l1 a1 c1 v1 (.node .nil a c v .fict)))) :
    ∃ t1, t.setRight (some a1) (some t.fictional) = .ok t1 ∧
      Models (t1.deallocate a).decSize false (up.plug (.node l1 a1 c1 v1 .fict)) ∧
      t1.brk = t.brk ∧ t1.fictional = t.fictional ∧ t1.size = t.size := by
  obtain ⟨hC, ⟨ha1, hl1, ⟨_, _, hF⟩⟩, hnd⟩ := hM.weaken.decomp
  obtain ⟨pp, g, hmF, _⟩ := hF
  simp only [Tree.addrs, List.nodup_append, List.nodup_cons, List.mem_append,
    List.mem_cons, List.disjoint_append_left, List.disjoint_append_right,
    List.disjoint_cons_left, List.disjoint_cons_right, not_or, List.cons_append,
    List.append_assoc, List.nil_append, List.not_mem_nil, not_false_eq_true, true_and,
    List.nodup_nil, List.append_nil, List.mem_singleton] at hnd
  simp only [Tree.ptr_node] at ha1 hC
  refine ⟨_, setRight_put (some t.fictional) ha1, ?_, rfl, rfl, rfl⟩
  have hFa1 : t.fictional ≠ a1 := by tauto
  have hM1 : Models (t.put a1 { (⟨up.par, l1.ptr t.fictional, some a, v1, c1⟩ : RBNode V) with
      right := some t.fictional }) false (up.plug (.node l1 a1 c1 v1 .fict)) := by
    refine Models.compose ?_ ?_ ?_ ?_
    · simp only [Tree.ptr_node]
      exact RepCtx.put_ctx _ (by tauto) hC
    · refine ⟨by simp, Rep.put _ (by tauto) hl1, pp, g, ?_, by simp⟩
      rw [put_fictional, put_mem_ne _ _ hFa1]
      exact hmF
    · simp only [Tree.addrs, List.nodup_cons,
        List.mem_append, not_or, List.nodup_append, List.append_assoc, List.cons_append,
        List.mem_cons, List.disjoint_cons_right, put_fictional, List.singleton_append,
        List.mem_singleton, List.disjoint_cons_left]
      tauto
    · exact (Same.of_put _ ha1).fresh hM.fresh
  refine hM1.deallocate ?_
  have := (plug_addrs_perm t.fictional up (.node l1 a1 c1 v1 .fict)).mem_iff (a := a)
  simp only [put_fictional]
  rw [this]
  simp only [Tree.addrs, List.mem_cons, List.mem_append, not_or, List.mem_singleton]
  tauto

theorem detach_top_fict {t : RBTree V} {chk : Bool} {a : Nat} {c : Color} {v : V}
    (hM : Models t chk ((Ctx.top : Ctx V).plug (.node .nil a c v .fict))) :
    Models ({ t with root := t.fictional }.deallocate a).decSize false Tree.fict := by
  obtain ⟨hC, ⟨ha1, _, hF⟩, hnd⟩ := hM.decomp
  obtain ⟨pp, g, hmF, _⟩ := hF
  simp only [Tree.addrs, List.nil_append, List.append_nil, List.nodup_cons, List.mem_singleton,
    Ctx.addrs] at hnd
  have hne : t.fictional ≠ a := fun e => hnd.1 e.symm
  refine ⟨⟨pp, g, ?_, by simp⟩, rfl, by simp [Tree.addrs], ?_⟩
  · simp [RBTree.deallocate, RBTree.decSize, hne, hmF]
  · intro x hx
    have := hM.fresh x hx
    simp only [RBTree.deallocate, RBTree.decSize]
    split
    · rfl
    · exact this

/-! ## Erase in the store follows the laid out tree -/

theorem Erase_leaf_freed {t : RBTree V} {chk : Bool} {C : Ctx V} {a : Nat} {c : Color} {v : V}
    {r T' : Tree V} (fuel : Nat) (hM : Models t chk (C.plug (.node .nil a c v r)))
    (hr : r = .nil ∨ r = .fict) (hT : C.eraseLeaf c r = some T') :
    ∃ t', Erase t (fuel + 1) a = Except.ok t' ∧ Models t' false T' ∧ t'.brk = t.brk ∧
      t'.fictional = t.fictional ∧ t'.size = (t.size + (2 ^ 64 - 1)) % 2 ^ 64 ∧
      t'.mem a = none := by
  have ha := hM.cell
  simp only [Tree.ptr_nil] at ha
  cases C with
  | top =>
    rcases hr with rfl | rfl
    · simp [Ctx.eraseLeaf] at hT
    · simp only [Ctx.eraseLeaf, Option.some.injEq] at hT
      subst hT
      simp only [Ctx.par_top, Tree.ptr_fict] at ha
      refine ⟨_, ?_, detach_top_fict hM, rfl, rfl, rfl,
        by simp [RBTree.deallocate, RBTree.decSize]⟩
      simp [Erase, node_of_mem ha, ok_bind, IsBlack_node ha, pure_ok]
  | left up a1 c1 v1 r1 =>
    rcases hr with rfl | rfl
    · have hMa : Models t chk (up.plug (.node (.node .nil a c v .nil) a1 c1 v1 r1)) := hM
      have ha1 := hMa.cell
      simp only [Ctx.par_left, Tree.ptr_nil, Tree.ptr_node] at ha ha1
      obtain ⟨t1, e1, hM1, hb, hf, hsz⟩ := detach_left_nil hMa
      cases c with
      | Red =>
        simp only [Ctx.eraseLeaf, if_false, reduceCtorEq, Option.some.injEq] at hT
        subst hT
        refine ⟨_, ?_, hM1.weaken, by simp [RBTree.deallocate, RBTree.decSize, hb],
          by simp [RBTree.deallocate, RBTree.decSize, hf],
          by simp [RBTree.deallocate, RBTree.decSize, hsz],
          by simp [RBTree.deallocate, RBTree.decSize]⟩
        simp [Erase, node_of_mem ha, ok_bind, IsBlack_node ha, pure_ok, node_of_mem ha1, e1]
      | Black =>
        simp only [Ctx.eraseLeaf, if_true] at hT
        have hfuel : up.depth + 2 ≤ ((t1.deallocate a).decSize).budget := by
          have := hM1.depth_le
          simp only [RBTree.budget]
          omega
        obtain ⟨t2, e2, hM2, hs2⟩ := FixAfterErase_spec up _ true T' _ _ a1 hM1 rfl hT hfuel
        refine ⟨t2, ?_, hM2.weaken, by rw [hs2.brk]; simp [RBTree.deallocate, RBTree.decSize, hb],
          by rw [hs2.fictional]; simp [RBTree.deallocate, RBTree.decSize, hf],
          by rw [hs2.size]; simp [RBTree.deallocate, RBTree.decSize, hsz],
          hs2.dead a (by simp [RBTree.deallocate, RBTree.decSize])⟩
        simp [Erase, node_of_mem ha, ok_bind, IsBlack_node ha, pure_ok, node_of_mem ha1, e1, e2]
    · simp [Ctx.eraseLeaf] at hT
  | right l1 a1 c1 v1 up =>
    rcases hr with rfl | rfl
    · have hMa : Models t chk (up.plug (.node l1 a1 c1 v1 (.node .nil a c v .nil))) := hM
      have ha1 := hMa.cell
      have hne := hMa.left_ptr_ne
      have hne' : (l1.ptr t.fictional == some a) = false := by simpa using hne
      simp only [Ctx.par_right, Tree.ptr_nil, Tree.ptr_node] at ha ha1
      obtain ⟨t1, e1, hM1, hb, hf, hsz⟩ := detach_right_nil hMa
      cases c with
      | Red =>
        simp only [Ctx.eraseLeaf, if_false, reduceCtorEq, Option.some.injEq] at hT
        subst hT
        refine ⟨_, ?_, hM1.weaken, by simp [RBTree.deallocate, RBTree.decSize, hb],
          by simp [RBTree.deallocate, RBTree.decSize, hf],
          by simp [RBTree.deallocate, RBTree.decSize, hsz],
          by simp [RBTree.deallocate, RBTree.decSize]⟩
        simp [Erase, node_of_mem ha, ok_bind, IsBlack_node ha, pure_ok, node_of_mem ha1, e1,
          hne]
      | Black =>
        simp only [Ctx.eraseLeaf, if_true] at hT
        have hfuel : up.depth + 2 ≤ ((t1.deallocate a).decSize).budget := by
          have := hM1.depth_le
          simp only [RBTree.budget]
          omega
        obtain ⟨t2, e2, hM2, hs2⟩ := FixAfterErase_spec up _ false T' _ _ a1 hM1 rfl hT hfuel
        refine ⟨t2, ?_, hM2.weaken, by rw [hs2.brk]; simp [RBTree.deallocate, RBTree.decSize, hb],
          by rw [hs2.fictional]; simp [RBTree.deallocate, RBTree.decSize, hf],
          by rw [hs2.size]; simp [RBTree.deallocate, RBTree.decSize, hsz],
          hs2.dead a (by simp [RBTree.deallocate, RBTree.decSize])⟩
        simp [Erase, node_of_mem ha, ok_bind, IsBlack_node ha, pure_ok, node_of_mem ha1, e1, e2,
          hne, hne']
    · have hMa : Models t chk (up.plug (.node l1 a1 c1 v1 (.node .nil a c v .fict))) := hM
      have ha1 := hMa.cell
      have hne := hMa.left_ptr_ne
      have hne' : (l1.ptr t.fictional == some a) = false := by simpa using hne
      simp only [Ctx.par_right, Tree.ptr_fict, Tree.ptr_node] at ha ha1
      obtain ⟨t1, e1, hM1, hb, hf, hsz⟩ := detach_right_fict hMa
      cases c with
      | Red =>
        simp only [Ctx.eraseLeaf, if_false, reduceCtorEq, Option.some.injEq] at hT
        subst hT
        refine ⟨_, ?_, hM1, by simp [RBTree.deallocate, RBTree.decSize, hb],
          by simp [RBTree.deallocate, RBTree.decSize, hf],
          by simp [RBTree.deallocate, RBTree.decSize, hsz],
          by simp [RBTree.deallocate, RBTree.decSize]⟩
        simp [Erase, node_of_mem ha, ok_bind, IsBlack_node ha, pure_ok, node_of_mem ha1, e1,
          hne]
      | Black =>
        simp only [Ctx.eraseLeaf, if_true] at hT
        have hfuel : up.depth + 2 ≤ ((t1.deallocate a).decSize).budget := by
          have := hM1.depth_le
          simp only [RBTree.budget]
          omega
        obtain ⟨t2, e2, hM2, hs2⟩ := FixAfterErase_spec up _ false T' _ _ a1 hM1
          (by simp [RBTree.deallocate, RBTree.decSize, hf]) hT hfuel
        refine ⟨t2, ?_, hM2, by rw [hs2.brk]; simp [RBTree.deallocate, RBTree.decSize, hb],
          by rw [hs2.fictional]; simp [RBTree.deallocate, RBTree.decSize, hf],
          by rw [hs2.size]; simp [RBTree.deallocate, RBTree.decSize, hsz],
          hs2.dead a (by simp [RBTree.deallocate, RBTree.decSize])⟩
        simp [Erase, node_of_mem ha, ok_bind, IsBlack_node ha, pure_ok, node_of_mem ha1, e1, e2,
          hne, hne']

theorem Erase_leaf {t : RBTree V} {chk : Bool} {C : Ctx V} {a : Nat} {c : Color} {v : V}
    {r T' : Tree V} (fuel : Nat) (hM : Models t chk (C.plug (.node .nil a c v r)))
    (hr : r = .nil ∨ r = .fict) (hT : C.eraseLeaf c r = some T') :
    ∃ t', Erase t (fuel + 1) a = Except.ok t' ∧ Models t' false T' ∧ t'.brk = t.brk ∧
      t'.fictional = t.fictional ∧ t'.size = (t.size + (2 ^ 64 - 1)) % 2 ^ 64 := by
  obtain ⟨t', h1, h2, h3, h4, h5, _⟩ := Erase_leaf_freed fuel hM hr hT
  exact ⟨t', h1, h2, h3, h4, h5⟩

theorem Erase_sim {chk : Bool} : ∀ (fuel : Nat) (t : RBTree V) (C : Ctx V) (l : Tree V)
    (a : Nat) (c : Color) (v : V) (r : Tree V) (T' : Tree V),
    Models t chk (C.plug (.node l a c v r)) →
    t.fictional ∉ (C.plug (.node l a c v r)).nodes →
    eraseT fuel C (.node l a c v r) = some T' →
    ∃ t', Erase t fuel a = Except.ok t' ∧ Models t' false T' ∧ t'.brk = t.brk ∧
      t'.fictional = t.fictional ∧ t'.size = (t.size + (2 ^ 64 - 1)) % 2 ^ 64 := by
  intro fuel
  induction fuel with
  | zero => intro t C l a c v r T' _ _ h; simp [eraseT] at h
  | succ f ih =>
    intro t C l a c v r T' hM hF hT
    have ha := hM.cell
    cases l with
    | fict => cases r <;> simp [eraseT] at hT
    | nil =>
      cases r with
      | nil =>
        rw [eraseT_leaf _ _ _ _ _ _ (Or.inl rfl)] at hT
        exact Erase_leaf f hM (Or.inl rfl) hT
      | fict =>
        rw [eraseT_leaf _ _ _ _ _ _ (Or.inr rfl)] at hT
        exact Erase_leaf f hM (Or.inr rfl) hT
      | node rl ra rc rv rr =>
        simp only [eraseT] at hT
        have hra : ra ≠ t.fictional := by
          rintro rfl
          exact hF (plug_nodes_mem C _ _ (by simp [Tree.nodes]))
        have hra' : (some ra == some t.fictional) = false := by simpa using hra
        simp only [Tree.ptr_nil, Tree.ptr_node] at ha
        obtain ⟨t1, e1, hM1, hs1⟩ := swapVal_right_spec hM
        have hM1' : Models t1 chk ((Ctx.right .nil a c rv C).plug (.node rl ra rc v rr)) := hM1
        have hF1 : t1.fictional ∉ ((Ctx.right .nil a c rv C).plug (.node rl ra rc v rr)).nodes := by
          rw [hs1.fictional]
          have : ((Ctx.right Tree.nil a c rv C).plug (.node rl ra rc v rr)).nodes =
              (C.plug (.node .nil a c v (.node rl ra rc rv rr))).nodes :=
            plug_nodes_congr C _ _ (by simp [Tree.nodes])
          rw [this]; exact hF
        obtain ⟨t2, e2, hM2, h1, h2, h3⟩ := ih t1 _ _ _ _ _ _ _ hM1' hF1 hT
        refine ⟨t2, ?_, hM2, by rw [h1, hs1.brk], by rw [h2, hs1.fictional],
          by rw [h3, hs1.size]⟩
        simp [Erase, node_of_mem ha, ok_bind, hra, e1, e2]
    | node ll la lc lv lr =>
      have hone : ∀ (r0 : Tree V), (r0 = .nil ∨ r0 = .fict) →
          Models t chk (C.plug (.node (.node ll la lc lv lr) a c v r0)) →
          t.fictional ∉ (C.plug (.node (.node ll la lc lv lr) a c v r0)).nodes →
          eraseT f (.left C a c lv r0) (.node ll la lc v lr) = some T' →
          ∃ t', Erase t (f + 1) a = Except.ok t' ∧ Models t' false T' ∧ t'.brk = t.brk ∧
            t'.fictional = t.fictional ∧ t'.size = (t.size + (2 ^ 64 - 1)) % 2 ^ 64 := by
        intro r0 hr0 hM hF hT
        have ha := hM.cell
        simp only [Tree.ptr_node] at ha
        have hM0 : Models t chk (C.plug (.node (Ctx.top.plug (.node ll la lc lv lr)) a c v r0)) :=
          hM
        obtain ⟨t1, e1, hM1, hs1⟩ := swapVal_spec hM0
        have hM1' : Models t1 chk ((Ctx.left C a c lv r0).plug (.node ll la lc v lr)) := hM1
        have hF1 : t1.fictional ∉ ((Ctx.left C a c lv r0).plug (.node ll la lc v lr)).nodes := by
          rw [hs1.fictional]
          have : ((Ctx.left C a c lv r0).plug (.node ll la lc v lr)).nodes =
              (C.plug (.node (.node ll la lc lv lr) a c v r0)).nodes :=
            plug_nodes_congr C _ _ (by simp [Tree.nodes])
          rw [this]; exact hF
        obtain ⟨t2, e2, hM2, h1, h2, h3⟩ := ih t1 _ _ _ _ _ _ _ hM1' hF1 hT
        refine ⟨t2, ?_, hM2, by rw [h1, hs1.brk], by rw [h2, hs1.fictional],
          by rw [h3, hs1.size]⟩
        rcases hr0 with rfl | rfl
        · simp only [Tree.ptr_nil] at ha
          simp [Erase, node_of_mem ha, ok_bind, e1, e2]
        · simp only [Tree.ptr_fict] at ha
          simp [Erase, node_of_mem ha, ok_bind, e1, e2]
      cases r with
      | nil =>
        simp only [eraseT] at hT
        exact hone .nil (Or.inl rfl) hM hF hT
      | fict =>
        simp only [eraseT] at hT
        exact hone .fict (Or.inr rfl) hM hF hT
      | node rl ra rc rv rr =>
        rw [eraseT] at hT
        have hra : ra ≠ t.fictional := by
          rintro rfl
          exact hF (plug_nodes_mem C _ _ (by simp [Tree.nodes]))
        simp only [Tree.ptr_node] at ha
        have hpl := maxPath_plug (.node ll la lc lv lr) .top
        rcases hmp : Tree.maxPath .top (.node ll la lc lv lr) with ⟨D, M⟩
        rw [hmp] at hpl
        simp only at hpl
        simp only [hmp] at hT
        have hRl : Rep t.mem t.fictional chk (.node ll la lc lv lr) (some a) :=
          hM.decomp.2.1.2.1
        have hheight : (Tree.node ll la lc lv lr).height ≤ t.budget := by
          have h1 := (Tree.node ll la lc lv lr).height_le_count
          have h2 := hM.depth_le
          simp only [Tree.count] at h2 h1 ⊢
          simp only [RBTree.budget]
          omega
        obtain ⟨y, hy1, hy2⟩ := descendRight_spec t chk _ .top t.budget (some a) la hRl rfl
          hheight
        rw [hmp] at hy1
        simp only at hy1
        cases M with
        | nil => simp at hT
        | fict => simp at hT
        | node ml m mc mv mr =>
          cases mr with
          | fict => simp at hT
          | node _ _ _ _ _ => simp at hT
          | nil =>
            simp only at hT
            simp only [Tree.ptr_node, Option.some.injEq] at hy1
            subst hy1
            have hpl' : D.plug (.node ml m mc mv .nil) = .node ll la lc lv lr := hpl
            have hM0 : Models t chk (C.plug (.node (D.plug (.node ml m mc mv .nil)) a c v
                (.node rl ra rc rv rr))) := by rw [hpl']; exact hM
            obtain ⟨t1, e1, hM1, hs1⟩ := swapVal_spec hM0
            have hM1' : Models t1 chk ((D.comp (.left C a c mv (.node rl ra rc rv rr))).plug
                (.node ml m mc v .nil)) := by rw [plug_comp]; exact hM1
            have hF1 : t1.fictional ∉ ((D.comp (.left C a c mv (.node rl ra rc rv rr))).plug
                (.node ml m mc v .nil)).nodes := by
              rw [hs1.fictional, plug_comp]
              have : ((Ctx.left C a c mv (.node rl ra rc rv rr)).plug
                  (D.plug (.node ml m mc v .nil))).nodes =
                  (C.plug (.node (.node ll la lc lv lr) a c v (.node rl ra rc rv rr))).nodes := by
                refine plug_nodes_congr C _ _ ?_
                have h0 : (D.plug (.node ml m mc v .nil)).nodes =
                    (Tree.node ll la lc lv lr).nodes := by
                  rw [← hpl']
                  exact plug_nodes_congr D _ _ (by simp [Tree.nodes])
                simp only [Tree.nodes] at h0 ⊢
                rw [h0]
              rw [this]; exact hF
            obtain ⟨t2, e2, hM2, h1, h2, h3⟩ := ih t1 _ _ _ _ _ _ _ hM1' hF1 hT
            refine ⟨t2, ?_, hM2, by rw [h1, hs1.brk], by rw [h2, hs1.fictional],
              by rw [h3, hs1.size]⟩
            simp [Erase, node_of_mem ha, ok_bind, hra, decrement, hy2, e1, e2]

/-! ## One erasure at a found node -/

theorem marks_vals (l : List (Option (Nat × V))) :
    itemVals l = (itemMarks l).filterMap id := by
  induction l with
  | nil => rfl
  | cons x xs ih =>
    cases x with
    | none => simp [itemVals, itemMarks]
    | some p => simp [itemVals, itemMarks]

theorem endsFict_marks (T : Tree V) :
    T.endsFict = true ↔ ∃ L, none ∉ L ∧ itemMarks T.items = L ++ [none] := by
  rw [Tree.endsFict_items]
  constructor
  · rintro ⟨l, hl, hi⟩
    refine ⟨itemMarks l, ?_, by rw [hi]; simp [itemMarks]⟩
    simp only [itemMarks, List.mem_map, not_exists, not_and]
    intro x hx
    cases x with
    | none => exact absurd hx hl
    | some p => simp
  · rintro ⟨L, hL, hi⟩
    have hne : T.items ≠ [] := by
      intro h; rw [h] at hi; simp [itemMarks] at hi
    refine ⟨T.items.dropLast, ?_, ?_⟩
    · intro hm
      have h1 : itemMarks T.items = itemMarks T.items.dropLast ++
          itemMarks [T.items.getLast hne] := by
        conv_lhs => rw [← List.dropLast_append_getLast hne]
        simp [itemMarks]
      rw [hi] at h1
      simp only [itemMarks, List.map_cons, List.map_nil] at h1
      have h2 := List.append_inj_left' h1 rfl
      apply hL
      rw [h2]
      simp only [List.mem_map]
      exact ⟨none, hm, rfl⟩
    · have h1 : itemMarks T.items = itemMarks T.items.dropLast ++
          itemMarks [T.items.getLast hne] := by
        conv_lhs => rw [← List.dropLast_append_getLast hne]
        simp [itemMarks]
      rw [hi] at h1
      simp only [itemMarks, List.map_cons, List.map_nil] at h1
      have h2 := List.append_inj_right' h1 rfl
      simp only [List.cons.injEq, and_true] at h2
      have h3 : T.items.getLast hne = none := by
        cases h : T.items.getLast hne with
        | none => rfl
        | some p => rw [h] at h2; simp at h2
      conv_lhs => rw [← List.dropLast_append_getLast hne, h3]

theorem marks_remove_ends {A B L : List (Option V)} {v : V} (hL : none ∉ L)
    (h : A ++ some v :: B = L ++ [none]) : ∃ L', none ∉ L' ∧ A ++ B = L' ++ [none] := by
  have hB : B ≠ [] := by
    rintro rfl
    have := congrArg List.getLast? h
    simp at this
  obtain ⟨Z, y, rfl⟩ : ∃ Z y, B = Z ++ [y] :=
    ⟨B.dropLast, B.getLast hB, (List.dropLast_append_getLast hB).symm⟩
  have h' : (A ++ some v :: Z) ++ [y] = L ++ [none] := by simpa using h
  have h1 := List.append_inj_left' h' rfl
  have h2 := List.append_inj_right' h' rfl
  simp only [List.cons.injEq, and_true] at h2
  subst h2
  refine ⟨A ++ Z, ?_, by simp⟩
  rw [← h1] at hL
  simp only [List.mem_append, List.mem_cons, not_or] at hL ⊢
  tauto

theorem Tree.inorder_length_le (T : Tree V) : T.inorder.length ≤ T.count := by
  induction T with
  | nil => simp [Tree.inorder, Tree.count]
  | fict => simp [Tree.inorder, Tree.count]
  | node l a c v r ihl ihr =>
    simp only [Tree.inorder, Tree.count, List.length_append, List.length_cons]
    omega

theorem erase_found_abs (P : Params K V) (t : RBTree V) (chk : Bool) (C : Ctx V) (l : Tree V)
    (a : Nat) (c : Color) (v : V) (r : Tree V) (H : Nat)
    (hM : Models t chk (C.plug (.node l a c v r)))
    (hE : (C.plug (.node l a c v r)).endsFict = true)
    (hO : (C.plug (.node l a c v r)).Ordered P)
    (hbh : (C.plug (.node l a c v r)).blackHeight = some H)
    (hn : (C.plug (.node l a c v r)).noRedRed = true) :
    ∃ (t1 : RBTree V) (T1 : Tree V) (X Y : List V) (H1 : Nat),
      Erase t t.budget a = Except.ok t1 ∧ Models t1 false T1 ∧ T1.endsFict = true ∧
      T1.Ordered P ∧ T1.blackHeight = some H1 ∧ T1.noRedRed = true ∧
      (C.plug (.node l a c v r)).inorder = X ++ v :: Y ∧ T1.inorder = X ++ Y ∧
      t1.brk = t.brk ∧ t1.fictional = t.fictional ∧
      t1.size = (t.size + (2 ^ 64 - 1)) % 2 ^ 64 ∧
      eraseT t.budget C (.node l a c v r) = some T1 := by
  have hbud : t.budget = (t.budget - 3) + 3 := by
    have h2 := hM.depth_le
    simp only [Tree.count, RBTree.budget] at h2 ⊢
    omega
  obtain ⟨T1, H1, e1, g1, g2, g3⟩ := eraseT_spec (t.budget - 3) C l a c v r H hbh hn hE
  rw [← hbud] at e1
  obtain ⟨t1, e2, hM1, k1, k2, k3⟩ := Erase_sim t.budget t C l a c v r T1 hM
    (hM.fict_not_node hE) e1
  have hmT : itemMarks (C.plug (.node l a c v r)).items =
      (itemMarks C.before ++ itemMarks l.items) ++ some v ::
        (itemMarks r.items ++ itemMarks C.after) := by
    rw [plug_marks]; simp [Tree.items, itemMarks]
  have hmT1 : itemMarks T1.items =
      (itemMarks C.before ++ itemMarks l.items) ++
        (itemMarks r.items ++ itemMarks C.after) := by
    rw [g3]; simp
  have hi : (C.plug (.node l a c v r)).inorder =
      ((itemMarks C.before ++ itemMarks l.items).filterMap id) ++ v ::
        ((itemMarks r.items ++ itemMarks C.after).filterMap id) := by
    rw [← itemVals_items, marks_vals, hmT]; simp [List.filterMap_append]
  have hi1 : T1.inorder =
      ((itemMarks C.before ++ itemMarks l.items).filterMap id) ++
        ((itemMarks r.items ++ itemMarks C.after).filterMap id) := by
    rw [← itemVals_items, marks_vals, hmT1]; simp [List.filterMap_append]
  refine ⟨t1, T1, _, _, H1, e2, hM1, ?_, ?_, g1, g2, hi, hi1, k1, k2, k3, e1⟩
  · obtain ⟨L, hL, hLi⟩ := (endsFict_marks _).1 hE
    rw [hmT] at hLi
    obtain ⟨L', hL', hLi'⟩ := marks_remove_ends hL hLi
    exact (endsFict_marks _).2 ⟨L', hL', by rw [hmT1]; exact hLi'⟩
  · unfold Tree.Ordered at hO ⊢
    rw [hi] at hO
    rw [hi1]
    exact hO.sublist (List.Sublist.append (List.Sublist.refl _) (List.sublist_cons_self _ _))

theorem erase_found (P : Params K V) (t : RBTree V) (chk : Bool) (C : Ctx V) (l : Tree V)
    (a : Nat) (c : Color) (v : V) (r : Tree V) (H : Nat)
    (hM : Models t chk (C.plug (.node l a c v r)))
    (hE : (C.plug (.node l a c v r)).endsFict = true)
    (hO : (C.plug (.node l a c v r)).Ordered P)
    (hbh : (C.plug (.node l a c v r)).blackHeight = some H)
    (hn : (C.plug (.node l a c v r)).noRedRed = true) :
    ∃ (t1 : RBTree V) (T1 : Tree V) (X Y : List V) (H1 : Nat),
      Erase t t.budget a = Except.ok t1 ∧ Models t1 false T1 ∧ T1.endsFict = true ∧
      T1.Ordered P ∧ T1.blackHeight = some H1 ∧ T1.noRedRed = true ∧
      (C.plug (.node l a c v r)).inorder = X ++ v :: Y ∧ T1.inorder = X ++ Y ∧
      t1.brk = t.brk ∧ t1.fictional = t.fictional ∧
      t1.size = (t.size + (2 ^ 64 - 1)) % 2 ^ 64 := by
  obtain ⟨t1, T1, X, Y, H1, h1, h2, h3, h4, h5, h6, h7, h8, h9, h10, h11, _⟩ :=
    erase_found_abs P t chk C l a c v r H hM hE hO hbh hn
  exact ⟨t1, T1, X, Y, H1, h1, h2, h3, h4, h5, h6, h7, h8, h9, h10, h11⟩

/-! ## The loop of erase(key) -/

theorem eraseLoop_spec (P : Params K V) (sw : StrictWeakOrder P.comp) (k : K) :
    ∀ (fuel : Nat) (t : RBTree V) (chk : Bool) (T : Tree V) (H : Nat) (node : Nat),
      Models t chk T → T.endsFict = true → T.Ordered P → T.blackHeight = some H →
      T.noRedRed = true → t.size = T.inorder.length → T.inorder.length < 2 ^ 64 →
      T.inorder.length < fuel → Find P t k = Except.ok node →
      ∃ (t' : RBTree V) (T' : Tree V) (H' : Nat),
        eraseLoop P k fuel t node = Except.ok t' ∧ Models t' false T' ∧
        T'.endsFict = true ∧ T'.Ordered P ∧ T'.blackHeight = some H' ∧ T'.noRedRed = true ∧
        t'.size = T'.inorder.length ∧
        T'.inorder = T.inorder.filter (fun v => !P.equiv (P.conv v) k) ∧
        t'.brk = t.brk ∧ t'.fictional = t.fictional := by
  intro fuel
  induction fuel with
  | zero => intro t chk T H node _ _ _ _ _ _ _ h; omega
  | succ f ih =>
    intro t chk T H node hM hE hO hbh hn hsz hlt hfuel hfind
    have hF := hM.fict_not_node hE
    by_cases hex : ∃ u ∈ T.inorder, P.equiv (P.conv u) k = true
    · -- a node with an equivalent key is found and erased
      obtain ⟨a0, n0, hf0, ha0, hm0, _, _, he0⟩ := Find_equal P sw t chk T hM hE hO k hex
      rcases Find_cases P t k chk T hM hF with ⟨_, hf1, _⟩ | ⟨C, l, a, c, v, r, hfp, _, hf1, hm, haF, _, _, _⟩
      · rw [hf0] at hf1
        simp only [Except.ok.injEq] at hf1
        exact absurd hf1 ha0
      · rw [hf0] at hf1
        simp only [Except.ok.injEq] at hf1
        subst hf1
        rw [hm] at hm0
        simp only [Option.some.injEq] at hm0
        subst hm0
        simp only at he0
        rw [hfind] at hf0
        simp only [Except.ok.injEq] at hf0
        subst hf0
        have hpl : C.plug (.node l node c v r) = T := by
          have := findPath_plug P k T .top
          rw [hfp] at this
          exact this
        subst hpl
        obtain ⟨t1, T1, X, Y, H1, e1, hM1, hE1, hO1, hbh1, hn1, hi, hi1, hb1, hf1, hs1⟩ :=
          erase_found P t chk C l node c v r H hM hE hO hbh hn
        have hlen : (C.plug (.node l node c v r)).inorder.length = T1.inorder.length + 1 := by
          rw [hi, hi1]; simp only [List.length_append, List.length_cons]; omega
        have hsz1 : t1.size = T1.inorder.length := by
          rw [hs1, hsz, hlen]
          rw [hlen] at hlt
          omega
        obtain ⟨node1, hfind1⟩ : ∃ node1, Find P t1 k = Except.ok node1 := by
          rcases Find_cases P t1 k false T1 hM1 (hM1.fict_not_node hE1) with
            ⟨_, h, _⟩ | ⟨_, _, a', _, _, _, _, _, h, _⟩
          · exact ⟨_, h⟩
          · exact ⟨_, h⟩
        obtain ⟨t', T', H', e', hM', hE', hO', hbh', hn', hsz', hi', hb', hf'⟩ :=
          ih t1 false T1 H1 node1 hM1 hE1 hO1 hbh1 hn1 hsz1 (by omega) (by omega) hfind1
        refine ⟨t', T', H', ?_, hM', hE', hO', hbh', hn', hsz', ?_, by rw [hb', hb1],
          by rw [hf', hf1]⟩
        · have he : (!P.comp k (P.conv v) && !P.comp (P.conv v) k) = true := by
            simp only [Params.equiv, Bool.and_eq_true, Bool.not_eq_true'] at he0 ⊢
            exact ⟨he0.2, he0.1⟩
          have hne : (node != t.fictional) = true := by simpa using haF
          simp only [eraseLoop, hne, if_true, node_of_mem hm, ok_bind, he, e1, hfind1, e']
        · rw [hi', hi1, hi]
          simp [List.filter_append, List.filter_cons, he0]
    · -- no stored key is equivalent: the loop ends at once
      have hall : ∀ u ∈ T.inorder, P.equiv (P.conv u) k = false := by
        intro u hu
        by_contra h
        exact hex ⟨u, hu, by simpa using h⟩
      have hfil : T.inorder.filter (fun v => !P.equiv (P.conv v) k) = T.inorder := by
        rw [List.filter_eq_self]
        intro u hu
        simp [hall u hu]
      refine ⟨t, T, H, ?_, hM.weaken, hE, hO, hbh, hn, hsz, hfil.symm, rfl, rfl⟩
      rcases Find_cases P t k chk T hM hF with ⟨_, hf1, _⟩ | ⟨C, l, a, c, v, r, hfp, _, hf1, hm, haF, hv, _, _⟩
      · rw [hfind] at hf1
        simp only [Except.ok.injEq] at hf1
        subst hf1
        simp [eraseLoop, pure_ok]
      · rw [hfind] at hf1
        simp only [Except.ok.injEq] at hf1
        subst hf1
        have he := hall v hv
        have he' : (!P.comp k (P.conv v) && !P.comp (P.conv v) k) = false := by
          simp only [Params.equiv] at he
          rw [Bool.and_comm]; exact he
        have hne : (node != t.fictional) = true := by simpa using haF
        simp only [eraseLoop, hne, if_true, node_of_mem hm, ok_bind, he', pure_ok]
        simp

theorem erase_spec (P : Params K V) (sw : StrictWeakOrder P.comp) (k : K) (t : RBTree V)
    (chk : Bool) (T : Tree V) (H : Nat) (hM : Models t chk T) (hE : T.endsFict = true)
    (hO : T.Ordered P) (hbh : T.blackHeight = some H) (hn : T.noRedRed = true)
    (hsz : t.size = T.inorder.length) (hlt : T.inorder.length < 2 ^ 64) :
    ∃ (t' : RBTree V) (T' : Tree V) (H' : Nat),
      t.erase P k = Except.ok t' ∧ Models t' false T' ∧
      T'.endsFict = true ∧ T'.Ordered P ∧ T'.blackHeight = some H' ∧ T'.noRedRed = true ∧
      t'.size = T'.inorder.length ∧
      T'.inorder = T.inorder.filter (fun v => !P.equiv (P.conv v) k) := by
  obtain ⟨node, hfind⟩ : ∃ node, Find P t k = Except.ok node := by
    rcases Find_cases P t k chk T hM (hM.fict_not_node hE) with
      ⟨_, h, _⟩ | ⟨_, _, a', _, _, _, _, _, h, _⟩
    · exact ⟨_, h⟩
    · exact ⟨_, h⟩
  have hfuel : T.inorder.length < t.brk + 1 := by
    have h1 := T.inorder_length_le
    have h2 := hM.count_le
    omega
  obtain ⟨t', T', H', e', hM', hE', hO', hbh', hn', hsz', hi', _, _⟩ :=
    eraseLoop_spec P sw k (t.brk + 1) t chk T H node hM hE hO hbh hn hsz hlt hfuel hfind
  exact ⟨t', T', H', by simp [RBTree.erase, hfind, ok_bind, e'], hM', hE', hO', hbh', hn',
    hsz', hi'⟩

theorem Invariants.of_models {P : Params K V} {t : RBTree V} {chk : Bool} {T : Tree V} {H : Nat}
    (hM : Models t chk T) (hE : T.endsFict = true) (hO : T.Ordered P)
    (hbh : T.blackHeight = some H) (hn : T.noRedRed = true) : t.Invariants P := by
  have hT := hM.toTree hE
  refine ⟨⟨chk, by rw [hT]; exact hM⟩, by rw [hT]; exact hE, by rw [hT]; exact hO,
    by rw [hT, hbh]; rfl, by rw [hT]; exact hn⟩

theorem treeOf_invariants (L : List Nat) (h1 : (treeOf L).toTree.blackHeight.isSome = true)
    (h2 : (treeOf L).toTree.noRedRed = true) : (treeOf L).Invariants natSet := by
  obtain ⟨chk, T, hM, hE, hO⟩ := treeOf_valid L
  have hT := hM.toTree hE
  rw [hT] at h1 h2
  obtain ⟨H, hH⟩ := Option.isSome_iff_exists.1 h1
  exact Invariants.of_models hM hE hO hH h2

theorem filter_length_split {α : Type} (p : α → Bool) (l : List α) :
    (l.filter (fun v => !p v)).length + (l.filter p).length = l.length := by
  induction l with
  | nil => rfl
  | cons x xs ih =>
    cases h : p x <;> simp [List.filter_cons, h] <;> omega

/-! ## Erasing a key that is not stored -/

theorem Find_returns (P : Params K V) (t : RBTree V) (k : K) (chk : Bool) (T : Tree V)
    (hM : Models t chk T) (hE : T.endsFict = true) : ∃ node, Find P t k = Except.ok node := by
  rcases Find_cases P t k chk T hM (hM.fict_not_node hE) with
    ⟨_, h, _⟩ | ⟨_, _, a, _, _, _, _, _, h, _⟩
  · exact ⟨_, h⟩
  · exact ⟨_, h⟩

theorem erase_absent (P : Params K V) (t : RBTree V) (chk : Bool) (T : Tree V)
    (hM : Models t chk T) (hE : T.endsFict = true) (k : K)
    (hall : ∀ u ∈ T.inorder, P.equiv (P.conv u) k = false) :
    t.erase P k = Except.ok t := by
  have hF := hM.fict_not_node hE
  rcases Find_cases P t k chk T hM hF with
    ⟨_, hf1, _⟩ | ⟨C, l, a, c, v, r, hfp, _, hf1, hm, haF, hv, _, _⟩
  · simp [RBTree.erase, hf1, ok_bind, eraseLoop, pure_ok]
  · have he := hall v hv
    have he' : (!P.comp k (P.conv v) && !P.comp (P.conv v) k) = false := by
      simp only [Params.equiv] at he
      rw [Bool.and_comm]; exact he
    have hne : (a != t.fictional) = true := by simpa using haF
    simp only [RBTree.erase, hf1, ok_bind, eraseLoop, hne, if_true, node_of_mem hm, he',
      pure_ok]
    simp

/-! ## operator++ at the end marker and operator-- at the first node -/

theorem climbInc_spine (t : RBTree V) (chk : Bool) :
    ∀ (C : Ctx V) (S : Tree V) (x : Nat) (fuel : Nat), Models t chk (C.plug S) →
      S.ptr t.fictional = some x → (∃ n, t.mem x = some n ∧ n.parent = C.par) →
      C.after = [] → C.depth < fuel →
      climbInc t fuel x = Except.error Fault.IteratorOutOfBounds := by
  intro C
  induction C with
  | top =>
    intro S x fuel hM hp hn ha hd
    obtain ⟨n, hn, hpar⟩ := hn
    cases fuel with
    | zero => simp [Ctx.depth] at hd
    | succ f =>
      simp only [Ctx.par] at hpar
      simp [climbInc, node_of_mem hn, ok_bind, hpar]
  | left up a c v r ih =>
    intro S x fuel hM hp hn ha hd
    simp [Ctx.after] at ha
  | right l a c v up ih =>
    intro S x fuel hM hp hn ha hd
    obtain ⟨n, hn, hpar⟩ := hn
    have hM' : Models t chk (up.plug (.node l a c v S)) := hM
    have hc := hM'.cell
    cases fuel with
    | zero => simp [Ctx.depth] at hd
    | succ f =>
      simp only [Ctx.par] at hpar
      simp only [Ctx.depth] at hd
      simp only [Ctx.after] at ha
      have ih' := ih (.node l a c v S) a f hM' rfl ⟨_, hc, rfl⟩ ha (by omega)
      simp [climbInc, node_of_mem hn, ok_bind, hpar, node_of_mem hc, hp, ih']

theorem climbDec_spine (t : RBTree V) (chk : Bool) :
    ∀ (C : Ctx V) (S : Tree V) (x : Nat) (fuel : Nat), Models t chk (C.plug S) →
      S.ptr t.fictional = some x → (∃ n, t.mem x = some n ∧ n.parent = C.par) →
      C.before = [] → C.depth < fuel →
      climbDec t fuel x = Except.error Fault.IteratorOutOfBounds := by
  intro C
  induction C with
  | top =>
    intro S x fuel hM hp hn ha hd
    obtain ⟨n, hn, hpar⟩ := hn
    cases fuel with
    | zero => simp [Ctx.depth] at hd
    | succ f =>
      simp only [Ctx.par] at hpar
      simp [climbDec, node_of_mem hn, ok_bind, hpar]
  | right l a c v up ih =>
    intro S x fuel hM hp hn ha hd
    simp [Ctx.before] at ha
  | left up a c v r ih =>
    intro S x fuel hM hp hn ha hd
    obtain ⟨n, hn, hpar⟩ := hn
    have hM' : Models t chk (up.plug (.node S a c v r)) := hM
    have hc := hM'.cell
    cases fuel with
    | zero => simp [Ctx.depth] at hd
    | succ f =>
      simp only [Ctx.par] at hpar
      simp only [Ctx.depth] at hd
      simp only [Ctx.before] at ha
      have ih' := ih (.node S a c v r) a f hM' rfl ⟨_, hc, rfl⟩ ha (by omega)
      simp [climbDec, node_of_mem hn, ok_bind, hpar, node_of_mem hc, hp, ih']

theorem endsFict_position : ∀ (T : Tree V) (C : Ctx V), T.endsFict = true → C.after = [] →
    ∃ D : Ctx V, D.plug Tree.fict = C.plug T ∧ D.after = []
  | .nil, _, h, _ => by simp [Tree.endsFict] at h
  | .fict, C, _, hC => ⟨C, rfl, hC⟩
  | .node l a c v r, C, h, hC => by
    simp only [Tree.endsFict, Bool.and_eq_true] at h
    exact endsFict_position r (.right l a c v C) h.2 (by simpa [Ctx.after] using hC)

theorem increment_end_throws {t : RBTree V} {T : Tree V} (hM : Models t true T)
    (hE : T.endsFict = true) :
    increment t t.end = Except.error Fault.IteratorOutOfBounds := by
  obtain ⟨D, hD, hDa⟩ := endsFict_position T .top hE rfl
  simp only [Ctx.plug] at hD
  subst hD
  obtain ⟨_, ⟨pp, g, hF, hpp⟩, _⟩ := hM.decomp
  have hpp := hpp rfl
  have := climbInc_spine t true D .fict t.fictional t.budget hM rfl ⟨_, hF, hpp⟩ hDa
    hM.depth_lt
  simp [increment, RBTree.end, node_of_mem hF, ok_bind, this]

theorem descendLeft_dec (t : RBTree V) :
    ∀ (S : Tree V) (C : Ctx V) (x fuel : Nat), Models t true (C.plug S) →
      S.ptr t.fictional = some x → C.before = [] → S.height ≤ fuel →
      ∃ b, descendLeft t fuel x = Except.ok b ∧
        decrement t b = Except.error Fault.IteratorOutOfBounds := by
  intro S
  induction S with
  | nil => intro C x fuel _ hp; simp at hp
  | fict =>
    intro C x fuel hM hp hb hh
    simp only [Tree.ptr_fict, Option.some.injEq] at hp
    subst hp
    obtain ⟨_, ⟨pp, g, hF, hpp⟩, _⟩ := hM.decomp
    have hpp := hpp rfl
    have hc := climbDec_spine t true C .fict t.fictional t.budget hM rfl ⟨_, hF, hpp⟩ hb
      hM.depth_lt
    cases fuel with
    | zero => simp [Tree.height] at hh
    | succ f =>
      refine ⟨t.fictional, by simp [descendLeft, node_of_mem hF, ok_bind, pure_ok], ?_⟩
      simp [decrement, node_of_mem hF, ok_bind, hc]
  | node l a c v r ihl ihr =>
    intro C x fuel hM hp hb hh
    simp only [Tree.ptr, Option.some.injEq] at hp
    subst hp
    have hc := hM.cell
    cases fuel with
    | zero => simp [Tree.height] at hh
    | succ f =>
      simp only [Tree.height] at hh
      rcases hl : l.ptr t.fictional with _ | y
      · have hcl := climbDec_spine t true C (.node l a c v r) a t.budget hM rfl
          ⟨_, hc, rfl⟩ hb hM.depth_lt
        refine ⟨a, by simp [descendLeft, node_of_mem hc, ok_bind, pure_ok, hl], ?_⟩
        simp [decrement, node_of_mem hc, ok_bind, hl, hcl]
      · have hM' : Models t true ((Ctx.left C a c v r).plug l) := hM
        obtain ⟨b, h1, h2⟩ := ihl (.left C a c v r) y f hM' hl (by simpa [Ctx.before] using hb)
          (by omega)
        exact ⟨b, by simp [descendLeft, node_of_mem hc, ok_bind, hl, h1], h2⟩

theorem decrement_begin_throws {t : RBTree V} {T : Tree V} (hM : Models t true T) :
    ∃ b, t.begin = Except.ok b ∧
      decrement t b = Except.error Fault.IteratorOutOfBounds := by
  have h1 := T.height_le_count
  have h2 := hM.count_le
  exact descendLeft_dec t T .top t.root t.budget hM hM.root rfl
    (by simp only [RBTree.budget]; omega)

/-! ## Linking a new node below a node, whatever the comparison said -/

theorem link_left_spec {t : RBTree V} {chk : Bool} {C : Ctx V}
    {a : Nat} {c : Color} {v : V} {l r : Tree V} (val : V)
    (hM : Models t chk (C.plug (.node l a c v r))) :
    ∃ t', (t.allocate ⟨some a, none, none, val, Color.Red⟩).1.setLeft (some a) (some t.brk)
        = .ok t' ∧
      Models t' chk ((Ctx.left C a c v r).plug (.node .nil t.brk Color.Red val .nil)) ∧
      Grown t t' := by
  obtain ⟨hC, ⟨ha, _, hr⟩, hnd⟩ := hM.decomp
  have hbrk : ∀ b ∈ (C.plug (.node l a c v r)).addrs t.fictional, b ≠ t.brk :=
    fun b hb => Nat.ne_of_lt (hM.lt_brk hb)
  have hbrk' : ∀ b ∈ (Tree.node l a c v r).addrs t.fictional ++ C.addrs t.fictional,
      b ≠ t.brk :=
    fun b hb => hbrk b ((plug_addrs_perm t.fictional C _).mem_iff.2 hb)
  simp only [Tree.addrs, List.nodup_append, List.nodup_cons, List.mem_append,
    List.mem_cons, List.disjoint_append_left, List.disjoint_append_right,
    List.disjoint_cons_left, List.disjoint_cons_right, not_or, List.cons_append,
    List.append_assoc, List.nil_append, List.not_mem_nil, false_or, List.nodup_nil,
    true_and, not_false_eq_true] at hnd hbrk'
  have habrk : a ≠ t.brk := hbrk' a (by tauto)
  refine ⟨((t.allocate ⟨some a, none, none, val, Color.Red⟩).1.put a
    ⟨C.par, some t.brk, r.ptr t.fictional, v, c⟩), ?_, ?_, ⟨rfl, rfl, rfl⟩⟩
  · simp [RBTree.setLeft, allocate_mem_ne, habrk, ha]
  · refine Models.compose (C := Ctx.left C a c v r) ?_ ?_ ?_ ?_
    · simp only [put_fictional, allocate_fictional, put_root, allocate_root, Tree.ptr_node]
      refine ⟨by simp, ?_, ?_⟩
      · exact Rep.put _ (by tauto) (Rep.allocate _ (fun h => hbrk' _ (by tauto) rfl) hr)
      · exact RepCtx.put_ctx _ (by tauto) (RepCtx.allocate_ctx _ (fun h => hbrk' _ (by tauto) rfl) hC)
    · simp only [put_fictional, allocate_fictional, Ctx.par_left]
      refine ⟨?_, trivial, trivial⟩
      rw [put_mem_ne _ _ (Ne.symm habrk)]
      simp
    · simp only [put_fictional, allocate_fictional, Tree.addrs, Ctx.addrs,
        List.nodup_append, List.nodup_cons, List.mem_append,
        List.mem_cons, List.disjoint_append_left, List.disjoint_append_right,
        List.disjoint_cons_left, List.disjoint_cons_right, not_or, List.cons_append,
        List.append_assoc, List.nil_append, List.not_mem_nil, false_or, List.nodup_nil,
        true_and, not_false_eq_true, List.mem_singleton, List.nodup_singleton]
      have h1 : t.brk ≠ a := Ne.symm habrk
      have h2 : t.brk ∉ r.addrs t.fictional := fun h => hbrk' _ (by tauto) rfl
      have h3 : t.brk ∉ C.addrs t.fictional := fun h => hbrk' _ (by tauto) rfl
      tauto
    · intro b hb
      simp only [put_brk, allocate_brk] at hb
      rw [put_mem_ne _ _ (by rintro rfl; have := hM.lt_brk (a := b) (by
        rw [(plug_addrs_perm t.fictional C _).mem_iff]; simp [Tree.addrs]); omega),
        allocate_mem_ne _ _ (by omega)]
      exact hM.fresh b (by omega)

theorem link_right_spec {t : RBTree V} {chk : Bool} {C : Ctx V}
    {a : Nat} {c : Color} {v : V} {l : Tree V} (val : V)
    (hM : Models t chk (C.plug (.node l a c v .nil))) :
    ∃ t', (t.allocate ⟨some a, none, none, val, Color.Red⟩).1.setRight (some a) (some t.brk)
        = .ok t' ∧
      Models t' chk ((Ctx.right l a c v C).plug (.node .nil t.brk Color.Red val .nil)) ∧
      Grown t t' := by
  obtain ⟨hC, ⟨ha, hl, _⟩, hnd⟩ := hM.decomp
  have hbrk : ∀ b ∈ (C.plug (.node l a c v .nil)).addrs t.fictional, b ≠ t.brk :=
    fun b hb => Nat.ne_of_lt (hM.lt_brk hb)
  have hbrk' : ∀ b ∈ (Tree.node l a c v .nil).addrs t.fictional ++ C.addrs t.fictional,
      b ≠ t.brk :=
    fun b hb => hbrk b ((plug_addrs_perm t.fictional C _).mem_iff.2 hb)
  simp only [Tree.addrs, Ctx.addrs, List.nodup_append, List.nodup_cons, List.mem_append,
    List.mem_cons, List.disjoint_append_left, List.disjoint_append_right,
    List.disjoint_cons_left, List.disjoint_cons_right, not_or, List.cons_append,
    List.append_assoc, List.nil_append, List.append_nil, List.not_mem_nil, false_or, or_false,
    List.nodup_nil, true_and, and_true, not_false_eq_true, List.mem_singleton,
    List.nodup_singleton, List.disjoint_singleton, List.singleton_disjoint,
    List.disjoint_nil_left, List.disjoint_nil_right] at hnd hbrk'
  have habrk : a ≠ t.brk := hbrk' a (by tauto)
  simp only [Tree.ptr_nil] at ha
  refine ⟨((t.allocate ⟨some a, none, none, val, Color.Red⟩).1.put a
    ⟨C.par, l.ptr t.fictional, some t.brk, v, c⟩), ?_, ?_, ⟨rfl, rfl, rfl⟩⟩
  · simp [RBTree.setRight, allocate_mem_ne, habrk, ha]
  · refine Models.compose (C := Ctx.right l a c v C) ?_ ?_ ?_ ?_
    · simp only [put_fictional, allocate_fictional, put_root, allocate_root, Tree.ptr_node]
      refine ⟨by simp, ?_, ?_⟩
      · exact Rep.put _ (by tauto) (Rep.allocate _ (fun h => hbrk' _ (by tauto) rfl) hl)
      · exact RepCtx.put_ctx _ (by tauto) (RepCtx.allocate_ctx _ (fun h => hbrk' _ (by tauto) rfl) hC)
    · simp only [put_fictional, allocate_fictional, Ctx.par_right]
      refine ⟨?_, trivial, trivial⟩
      rw [put_mem_ne _ _ (Ne.symm habrk)]
      simp
    · simp only [Tree.addrs, Ctx.addrs, List.nodup_append, List.nodup_cons, List.mem_append,
    List.mem_cons, List.disjoint_append_left, List.disjoint_append_right,
    List.disjoint_cons_left, List.disjoint_cons_right, not_or, List.cons_append,
    List.append_assoc, List.nil_append, List.append_nil, List.not_mem_nil, false_or, or_false,
    List.nodup_nil, true_and, and_true, not_false_eq_true, List.mem_singleton,
    List.nodup_singleton, List.disjoint_singleton, List.singleton_disjoint,
    List.disjoint_nil_left, List.disjoint_nil_right]
      have h1 : t.brk ≠ a := Ne.symm habrk
      have h2 : t.brk ∉ l.addrs t.fictional := fun h => hbrk' _ (by tauto) rfl
      have h3 : t.brk ∉ C.addrs t.fictional := fun h => hbrk' _ (by tauto) rfl
      simp only [put_fictional, allocate_fictional]
      tauto
    · intro b hb
      simp only [put_brk, allocate_brk] at hb
      rw [put_mem_ne _ _ (by rintro rfl; have := hM.lt_brk (a := b) (by
        rw [(plug_addrs_perm t.fictional C _).mem_iff]; simp [Tree.addrs]); omega),
        allocate_mem_ne _ _ (by omega)]
      exact hM.fresh b (by omega)

theorem plug_endsFict_congr : ∀ (C : Ctx V) (S S' : Tree V), S.endsFict = S'.endsFict →
    S.noFict = S'.noFict → (C.plug S).endsFict = (C.plug S').endsFict
  | .top, _, _, h, _ => h
  | .left up a c v r, S, S', h1, h2 => by
    simp only [Ctx.plug]
    exact plug_endsFict_congr up _ _ (by simp [Tree.endsFict, h2]) (by simp [Tree.noFict, h2])
  | .right l a c v up, S, S', h1, h2 => by
    simp only [Ctx.plug]
    exact plug_endsFict_congr up _ _ (by simp [Tree.endsFict, h1]) (by simp [Tree.noFict, h2])

/-! ## Every insertion keeps the tree linked -/

theorem insert_finish {t t1 : RBTree V} {T : Tree V} {C : Ctx V} {e e' : Tree V} {x : V}
    (hRB : T.rootBlack = true) (hT : T = C.plug e)
    (hM1 : Models t1 true (C.plug (.node .nil t.brk Color.Red x e')))
    (hE1 : (C.plug (.node .nil t.brk Color.Red x e')).endsFict = true) :
    ∃ t' T', FixAfterInsert t1.incSize t1.incSize.budget t.brk = Except.ok t' ∧
      Models t' true T' ∧ T'.endsFict = true ∧ T'.rootBlack = true := by
  have hrc : C.rootColor ≠ some Color.Red := plug_rootBlack_inv C e (hT ▸ hRB)
  have hM2 : Models t1.incSize true (C.plug (.node .nil t.brk Color.Red x e')) := hM1.incSize
  obtain ⟨t', efix, hM', hs⟩ := FixAfterInsert_spec t1.incSize.budget t1.incSize C .nil t.brk
    Color.Red x e' hM2 hrc hM2.depth_lt
  refine ⟨t', _, efix, hM', ?_, fixInsert_rootBlack C .nil t.brk Color.Red x e' hrc⟩
  rw [Tree.endsFict_items, fixInsert_items, ← Tree.endsFict_items]
  exact hE1

theorem Insert_linked (P : Params K V) (t : RBTree V) (T : Tree V) (hM : Models t true T)
    (hE : T.endsFict = true) (hRB : T.rootBlack = true) (x : V) :
    (∃ t' T' r, Insert P t x = Except.ok (t', r) ∧ Models t' true T' ∧
      T'.endsFict = true ∧ T'.rootBlack = true) ∧
    (∃ t' T' r, InsertMove P t x = Except.ok (t', r) ∧ Models t' true T' ∧
      T'.endsFict = true ∧ T'.rootBlack = true) := by
  have hF := hM.fict_not_node hE
  have hpl : _ = T := findPath_plug P (P.conv x) T .top
  rcases Find_cases P t (P.conv x) true T hM hF with
    ⟨hs, hf, pp, g, hm⟩ | ⟨C, l, a, c, v, r, hfp, hs, hf, hm, haF, hv, ha, hc⟩
  · -- Find returned the end marker
    have key : ∃ (C : Ctx V), T = C.plug .fict ∧
        (C = .top ∨ ∃ l a c v up, C = .right l a c v up) := by
      rcases hfp : Tree.findPath P (P.conv x) .top T with ⟨C, s⟩
      rw [hfp] at hpl
      simp only [Tree.findStop, hfp] at hs
      simp only at hpl
      cases s with
      | nil => simp [Tree.stopOf] at hs
      | fict =>
        have hT : T = C.plug .fict := hpl.symm
        exact ⟨C, hT, (endsFict_fict_ctx (hT ▸ hE)).2⟩
      | node l a c v r =>
        have hcr : P.comp (P.conv v) (P.conv x) = true ∧ r = .fict := by
          by_contra hcon
          rw [stopOf_node_of P _ l a c v r hcon] at hs
          simp at hs
        obtain ⟨hc1, rfl⟩ := hcr
        exact ⟨.right l a c v C, hpl.symm, Or.inr ⟨l, a, c, v, C, rfl⟩⟩
    obtain ⟨C, hT, hC⟩ := key
    obtain ⟨t1, e1, hM1, hg⟩ := attach_fict_spec P x (hT ▸ hM) hC
    have hE1 : (C.plug (.node .nil t.brk Color.Red x .fict)).endsFict = true := by
      rw [← plug_endsFict_congr C .fict _ (by simp [Tree.endsFict, Tree.noFict])
        (by simp [Tree.noFict]), ← hT]
      exact hE
    obtain ⟨t', T', efix, hM', hE', hRB'⟩ := insert_finish hRB hT hM1 hE1
    exact ⟨⟨t', T', some t.brk, by simp [Insert, hf, ok_bind, e1, pure_ok, efix], hM', hE', hRB'⟩,
      ⟨t', T', some t.brk, by simp [InsertMove, hf, ok_bind, e1, pure_ok, efix], hM', hE', hRB'⟩⟩
  · rw [hfp] at hpl
    simp only at hpl
    have hstop := findPath_stop P (P.conv x) T .top C l a c v r hfp
    have hT : T = C.plug (.node l a c v r) := hpl.symm
    subst hT
    obtain ⟨hlnf, _, _⟩ := plug_ends_sub C l a c v r hE
    -- linking to the left of the found node, over whatever is there
    have left_case : ∃ t1 t' T', (t.allocate ⟨some a, none, none, x, Color.Red⟩).1.setLeft
          (some a) (some t.brk) = Except.ok t1 ∧
        FixAfterInsert t1.incSize t1.incSize.budget t.brk = Except.ok t' ∧
        Models t' true T' ∧ T'.endsFict = true ∧ T'.rootBlack = true := by
      obtain ⟨t1, e1, hM1, hg⟩ := link_left_spec x hM
      have hE1 : ((Ctx.left C a c v r).plug (.node .nil t.brk Color.Red x .nil)).endsFict
          = true := by
        simp only [Ctx.plug]
        rw [← plug_endsFict_congr C (.node l a c v r) _
          (by simp [Tree.endsFict, Tree.noFict, hlnf])
          (by simp [Tree.noFict, hlnf])]
        exact hE
      obtain ⟨t', T', efix, hM', hE', hRB'⟩ :=
        insert_finish (C := Ctx.left C a c v r) (e := l) hRB rfl hM1 hE1
      exact ⟨t1, t', T', e1, efix, hM', hE', hRB'⟩
    by_cases h1 : P.comp (P.conv x) (P.conv v) = true
    · obtain ⟨t1, t', T', e1, efix, hM', hE', hRB'⟩ := left_case
      have hat : attachNew P t x a = Except.ok (some (t1, t.brk)) := by
        simp [attachNew, haF, node_of_mem hm, ok_bind, h1, e1, pure_ok]
      exact ⟨⟨t', T', some t.brk, by simp [Insert, hf, ok_bind, hat, pure_ok, efix], hM', hE', hRB'⟩,
        ⟨t', T', some t.brk, by simp [InsertMove, hf, ok_bind, hat, pure_ok, efix], hM', hE', hRB'⟩⟩
    · have h1 : P.comp (P.conv x) (P.conv v) = false := by simpa using h1
      by_cases h2 : P.comp (P.conv v) (P.conv x) = true
      · have hr : r = .nil := by
          rcases hstop.1 h2 with hr | hr
          · exact hr
          · exact absurd ⟨h2, hr⟩ hc
        subst hr
        obtain ⟨t1, e1, hM1, hg⟩ := link_right_spec x hM
        have hE1 : ((Ctx.right l a c v C).plug (.node .nil t.brk Color.Red x .nil)).endsFict
            = true := by
          simp only [Ctx.plug]
          rw [← plug_endsFict_congr C (.node l a c v .nil) _
            (by simp [Tree.endsFict, Tree.noFict])
            (by simp [Tree.noFict])]
          exact hE
        obtain ⟨t', T', efix, hM', hE', hRB'⟩ :=
          insert_finish (C := Ctx.right l a c v C) (e := .nil) hRB rfl hM1 hE1
        have hat : attachNew P t x a = Except.ok (some (t1, t.brk)) := by
          simp [attachNew, haF, node_of_mem hm, ok_bind, h1, h2, e1, pure_ok]
        exact ⟨⟨t', T', some t.brk, by simp [Insert, hf, ok_bind, hat, pure_ok, efix], hM', hE', hRB'⟩,
          ⟨t', T', some t.brk, by simp [InsertMove, hf, ok_bind, hat, pure_ok, efix], hM', hE', hRB'⟩⟩
      · have h2 : P.comp (P.conv v) (P.conv x) = false := by simpa using h2
        have hat : attachNew P t x a = Except.ok none := by
          simp [attachNew, haF, node_of_mem hm, ok_bind, h1, h2, pure_ok]
        cases hmul : P.IsMulti with
        | false =>
          exact ⟨⟨t, _, none, by simp [Insert, hf, ok_bind, hat, pure_ok, hmul], hM, hE, hRB⟩,
            ⟨t, _, none, by simp [InsertMove, hf, ok_bind, hat, pure_ok, hmul], hM, hE, hRB⟩⟩
        | true =>
          constructor
          · rcases hl : l.ptr t.fictional with _ | lp
            · obtain ⟨t1, t', T', e1, efix, hM', hE', hRB'⟩ := left_case
              exact ⟨t', T', some t.brk, by
                simp [Insert, hf, ok_bind, hat, pure_ok, hmul, node_of_mem hm, hl, e1, efix],
                hM', hE', hRB'⟩
            · have hlne : l ≠ .nil := by
                rintro rfl
                simp at hl
              have hM0 : Models t true ((Ctx.left C a c v r).plug l) := hM
              obtain ⟨_, hRl, _⟩ := hM0.decomp
              have hh : l.height ≤ t.budget := by
                have h3 := l.height_le_count
                have h4 := hM0.depth_le
                simp only [RBTree.budget]
                omega
              obtain ⟨y, hy, hdr⟩ := descendRight_spec t true l (Ctx.left C a c v r) t.budget
                _ lp hRl hl hh
              obtain ⟨D, ml, m, mc, mv, hmp, hDp, _, _⟩ :=
                maxPath_spec l (Ctx.left C a c v r) hlnf hlne
              rw [hmp] at hy
              simp only [Tree.ptr, Option.some.injEq] at hy
              subst hy
              have hM2 : Models t true ((D.comp (Ctx.left C a c v r)).plug
                  (.node ml m mc mv .nil)) := by
                rw [plug_comp, hDp]; exact hM
              have hE2 : ((D.comp (Ctx.left C a c v r)).plug
                  (.node ml m mc mv .nil)).endsFict = true := by
                rw [plug_comp, hDp]; exact hE
              have hRB2 : ((D.comp (Ctx.left C a c v r)).plug
                  (.node ml m mc mv .nil)).rootBlack = true := by
                rw [plug_comp, hDp]; exact hRB
              obtain ⟨t1, e1, hM1, hg⟩ := link_right_spec x hM2
              have hE1 : ((Ctx.right ml m mc mv (D.comp (Ctx.left C a c v r))).plug
                  (.node .nil t.brk Color.Red x .nil)).endsFict = true := by
                simp only [Ctx.plug]
                rw [← plug_endsFict_congr (D.comp (Ctx.left C a c v r))
                  (.node ml m mc mv .nil) _
                  (by simp [Tree.endsFict, Tree.noFict])
                  (by simp [Tree.noFict])]
                exact hE2
              obtain ⟨t', T', efix, hM', hE', hRB'⟩ :=
                insert_finish (C := Ctx.right ml m mc mv (D.comp (Ctx.left C a c v r)))
                  (e := .nil) hRB2 rfl hM1 hE1
              exact ⟨t', T', some t.brk, by
                simp [Insert, hf, ok_bind, hat, pure_ok, hmul, node_of_mem hm, hl, hdr, e1, efix],
                hM', hE', hRB'⟩
          · obtain ⟨t1, t', T', e1, efix, hM', hE', hRB'⟩ := left_case
            exact ⟨t', T', some t.brk, by
              simp [InsertMove, hf, ok_bind, hat, pure_ok, hmul, e1, efix],
              hM', hE', hRB'⟩

theorem apply_insert_linked (P : Params K V) (t : RBTree V) (T : Tree V)
    (hM : Models t true T) (hE : T.endsFict = true) (hRB : T.rootBlack = true)
    (o : Op K V) (ho : o.isInsert = true) :
    ∃ t' T', t.apply P o = Except.ok t' ∧ Models t' true T' ∧ T'.endsFict = true ∧
      T'.rootBlack = true := by
  cases o with
  | insert x =>
    obtain ⟨⟨t', T', r, e, h⟩, _⟩ := Insert_linked P t T hM hE hRB x
    exact ⟨t', T', by simp [RBTree.apply, RBTree.insert, e, ok_bind, pure_ok], h⟩
  | insertMove x =>
    obtain ⟨_, ⟨t', T', r, e, h⟩⟩ := Insert_linked P t T hM hE hRB x
    exact ⟨t', T', by simp [RBTree.apply, RBTree.insertMove, e, ok_bind, pure_ok], h⟩
  | emplace x =>
    obtain ⟨_, ⟨t', T', r, e, h⟩⟩ := Insert_linked P t T hM hE hRB x
    exact ⟨t', T', by simp [RBTree.apply, RBTree.emplace, e, ok_bind, pure_ok], h⟩
  | erase k => simp [Op.isInsert] at ho

theorem runOps_inserts_linked (P : Params K V) :
    ∀ (ops : List (Op K V)) (t : RBTree V) (T : Tree V),
      (∀ o ∈ ops, o.isInsert = true) → Models t true T → T.endsFict = true →
      T.rootBlack = true →
      ∃ t' T', runOps P t ops = Except.ok t' ∧ Models t' true T' ∧ T'.endsFict = true ∧
        T'.rootBlack = true
  | [], t, T, _, hM, hE, hRB => ⟨t, T, rfl, hM, hE, hRB⟩
  | o :: os, t, T, h, hM, hE, hRB => by
    obtain ⟨t1, T1, e1, hM1, hE1, hRB1⟩ :=
      apply_insert_linked P t T hM hE hRB o (h o (by simp))
    obtain ⟨t2, T2, e2, h2⟩ := runOps_inserts_linked P os t1 T1
      (fun o ho => h o (by simp [ho])) hM1 hE1 hRB1
    exact ⟨t2, T2, by simp [runOps, e1, ok_bind, e2], h2⟩

/-! ## The fix-up after an erasure keeps the in-order walk -/

theorem fixBlack_items (b : Bool) (S S' : Tree V) (f : Bool)
    (h : Tree.fixBlack b S = some (S', f)) : S'.items = S.items := by
  unfold Tree.fixBlack at h
  repeat' split at h
  all_goals first
    | (simp only [Option.some.injEq, Prod.mk.injEq] at h
       obtain ⟨rfl, _⟩ := h
       simp [Tree.items])
    | simp at h

theorem fixSub_items (b : Bool) (S S' : Tree V) (f : Bool)
    (h : Tree.fixSub b S = some (S', f)) : S'.items = S.items := by
  unfold Tree.fixSub at h
  split at h
  · split at h
    · rename_i s _ hfb
      simp only [Option.some.injEq, Prod.mk.injEq] at h
      obtain ⟨rfl, _⟩ := h
      have := fixBlack_items _ _ _ _ hfb
      simp only [Tree.items] at this ⊢
      rw [this]
      simp
    · simp at h
  · split at h
    · rename_i s _ hfb
      simp only [Option.some.injEq, Prod.mk.injEq] at h
      obtain ⟨rfl, _⟩ := h
      have := fixBlack_items _ _ _ _ hfb
      simp only [Tree.items] at this ⊢
      rw [this]
      simp
    · simp at h
  · exact fixBlack_items _ _ _ _ h

theorem fixErase_items : ∀ (C : Ctx V) (S : Tree V) (isleft : Bool) (T' : Tree V),
    C.fixErase S isleft = some T' → T'.items = (C.plug S).items := by
  intro C
  induction C with
  | top =>
    intro S isleft T' h
    cases hfs : Tree.fixSub isleft S with
    | none => rw [Ctx.fixErase] at h; simp [hfs] at h
    | some res =>
      obtain ⟨S', flag⟩ := res
      have hi := fixSub_items _ _ _ _ hfs
      cases flag with
      | false =>
        rw [fixErase_done _ _ _ _ hfs] at h
        simp only [Option.some.injEq] at h
        subst h
        simpa [Ctx.plug] using hi
      | true =>
        rw [fixErase_top _ _ _ hfs] at h
        simp only [Option.some.injEq] at h
        subst h
        simpa [Ctx.plug] using hi
  | left up a c v r ih =>
    intro S isleft T' h
    cases hfs : Tree.fixSub isleft S with
    | none => rw [Ctx.fixErase] at h; simp [hfs] at h
    | some res =>
      obtain ⟨S', flag⟩ := res
      have hi := fixSub_items _ _ _ _ hfs
      cases flag with
      | false =>
        rw [fixErase_done _ _ _ _ hfs] at h
        simp only [Option.some.injEq] at h
        subst h
        rw [plug_items, plug_items, hi]
      | true =>
        rw [fixErase_left _ _ _ _ _ _ _ _ hfs] at h
        rw [ih _ _ _ h]
        simp only [Ctx.plug]
        rw [plug_items, plug_items]
        simp [Tree.items, hi]
  | right l a c v up ih =>
    intro S isleft T' h
    cases hfs : Tree.fixSub isleft S with
    | none => rw [Ctx.fixErase] at h; simp [hfs] at h
    | some res =>
      obtain ⟨S', flag⟩ := res
      have hi := fixSub_items _ _ _ _ hfs
      cases flag with
      | false =>
        rw [fixErase_done _ _ _ _ hfs] at h
        simp only [Option.some.injEq] at h
        subst h
        rw [plug_items, plug_items, hi]
      | true =>
        rw [fixErase_right _ _ _ _ _ _ _ _ hfs] at h
        rw [ih _ _ _ h]
        simp only [Ctx.plug]
        rw [plug_items, plug_items]
        simp [Tree.items, hi]

theorem eraseLeaf_items (C : Ctx V) (c : Color) (r T' : Tree V)
    (h : C.eraseLeaf c r = some T') : T'.items = (C.plug r).items := by
  unfold Ctx.eraseLeaf at h
  split at h
  · simp only [Option.some.injEq] at h; subst h; rfl
  · split at h
    · rw [fixErase_items _ _ _ _ h]; rfl
    · simp only [Option.some.injEq] at h; subst h; rfl
  · split at h
    · rw [fixErase_items _ _ _ _ h]; rfl
    · simp only [Option.some.injEq] at h; subst h; rfl
  · split at h
    · rw [fixErase_items _ _ _ _ h]; rfl
    · simp only [Option.some.injEq] at h; subst h; rfl
  · simp at h

/-! ## Erasing a node with two children -/

theorem nodes_position : ∀ (T : Tree V) (C : Ctx V) (a : Nat), a ∈ T.nodes →
    ∃ (C' : Ctx V) (l : Tree V) (c : Color) (v : V) (r : Tree V),
      C.plug T = C'.plug (Tree.node l a c v r) := by
  intro T
  induction T with
  | nil => intro C a h; simp [Tree.nodes] at h
  | fict => intro C a h; simp [Tree.nodes] at h
  | node l b c v r ihl ihr =>
    intro C a h
    simp only [Tree.nodes, List.mem_append, List.mem_cons] at h
    rcases h with h | rfl | h
    · exact ihl (.left C b c v r) a h
    · exact ⟨C, l, c, v, r, rfl⟩
    · exact ihr (.right l b c v C) a h

theorem ends_suffix {α : Type} {A B L : List (Option α)} (h : A ++ B = L ++ [none])
    (hB : B ≠ []) : ∃ Z, B = Z ++ [none] ∧ L = A ++ Z := by
  obtain ⟨Z, y, hZ⟩ : ∃ Z y, B = Z ++ [y] :=
    ⟨B.dropLast, B.getLast hB, (List.dropLast_append_getLast hB).symm⟩
  rw [hZ, ← List.append_assoc] at h
  obtain ⟨h3, h4⟩ := List.append_inj' h rfl
  simp only [List.cons.injEq, and_true] at h4
  subst h4
  exact ⟨Z, hZ, h3.symm⟩

theorem Erase_two_children {chk : Bool} (t : RBTree V) (C : Ctx V) (l : Tree V) (a : Nat)
    (c : Color) (v : V) (rl : Tree V) (ra : Nat) (rc : Color) (rv : V) (rr : Tree V) (H : Nat)
    (hM : Models t chk (C.plug (.node l a c v (.node rl ra rc rv rr))))
    (hl : l ≠ .nil)
    (hbh : (C.plug (.node l a c v (.node rl ra rc rv rr))).blackHeight = some H)
    (hn : (C.plug (.node l a c v (.node rl ra rc rv rr))).noRedRed = true)
    (hE : (C.plug (.node l a c v (.node rl ra rc rv rr))).endsFict = true) :
    ∃ (D : Ctx V) (ml : Tree V) (m : Nat) (mc : Color) (mv : V) (t' : RBTree V) (T' : Tree V),
      l.items = D.before ++ ml.items ++ [some (m, mv)] ∧
      t.mem m = some ⟨(D.comp (.left C a c v (.node rl ra rc rv rr))).par,
        ml.ptr t.fictional, none, mv, mc⟩ ∧
      Erase t t.budget a = Except.ok t' ∧ Models t' false T' ∧
      ((ml = .nil ∧
          T'.items = C.before ++ D.before ++
            some (a, mv) :: ((Tree.node rl ra rc rv rr).items ++ C.after) ∧
          t'.mem m = none) ∨
       (∃ q qv, ml = .node .nil q Color.Red qv .nil ∧
          T'.items = C.before ++ D.before ++
            some (m, qv) :: some (a, mv) :: ((Tree.node rl ra rc rv rr).items ++ C.after) ∧
          t'.mem q = none)) := by
  obtain ⟨hlnf, _, _⟩ := plug_ends_sub C l a c v _ hE
  have hF := hM.fict_not_node hE
  obtain ⟨D, ml, m, mc, mv, hmp, hDp, hDa, hit⟩ := maxPath_spec l .top hlnf hl
  rw [comp_top] at hmp
  have ha := hM.cell
  have hra : ra ≠ t.fictional := by
    rintro rfl
    exact hF (plug_nodes_mem C _ _ (by simp [Tree.nodes]))
  -- the shape below the predecessor
  have hM0 : Models t chk ((D.comp (.left C a c v (.node rl ra rc rv rr))).plug
      (.node ml m mc mv .nil)) := by
    rw [plug_comp, hDp]; exact hM
  have hbh0 : ((D.comp (.left C a c v (.node rl ra rc rv rr))).plug
      (.node ml m mc mv .nil)).blackHeight = some H := by
    rw [plug_comp, hDp]; exact hbh
  have hn0 : ((D.comp (.left C a c v (.node rl ra rc rv rr))).plug
      (.node ml m mc mv .nil)).noRedRed = true := by
    rw [plug_comp, hDp]; exact hn
  obtain ⟨h, g1, g2, _, _⟩ := RB_decomp _ _ H hbh0 hn0
  rw [bh_node_iff] at g1
  obtain ⟨h0, hml, hnil, _⟩ := g1
  have h00 : h0 = 0 := by
    simp only [Tree.blackHeight, Option.some.injEq] at hnil
    exact hnil.symm
  subst h00
  rw [noRedRed_node] at g2
  have hmlnf : ml.noFict = true := by
    rw [Tree.noFict_items] at hlnf ⊢
    rw [← hit] at hlnf
    simp only [List.mem_append, not_or] at hlnf
    exact hlnf.1.2
  have hshape : ml = .nil ∨ ∃ q qv, ml = .node .nil q Color.Red qv .nil := by
    rcases bh_zero_shape hml g2.2.1 with rfl | rfl | ⟨gl, q, qv, gr, rfl, hgl, hgr⟩
    · exact Or.inl rfl
    · simp [Tree.noFict] at hmlnf
    · simp only [Tree.noFict, Bool.and_eq_true] at hmlnf
      rcases hgl with rfl | rfl
      · rcases hgr with rfl | rfl
        · exact Or.inr ⟨q, qv, rfl⟩
        · simp [Tree.noFict] at hmlnf
      · simp [Tree.noFict] at hmlnf
  have hm := hM0.cell
  simp only [Tree.ptr_nil] at hm
  -- the descent of operator--
  obtain ⟨ll, la, lc, lv, lr, rfl⟩ : ∃ ll la lc lv lr, l = Tree.node ll la lc lv lr := by
    cases l with
    | nil => exact absurd rfl hl
    | fict => simp [Tree.noFict] at hlnf
    | node ll la lc lv lr => exact ⟨ll, la, lc, lv, lr, rfl⟩
  simp only [Tree.ptr_node] at ha
  have hRl : Rep t.mem t.fictional chk (.node ll la lc lv lr) (some a) := hM.decomp.2.1.2.1
  have hheight : (Tree.node ll la lc lv lr).height ≤ t.budget := by
    have h1 := (Tree.node ll la lc lv lr).height_le_count
    have h2 := hM.depth_le
    simp only [Tree.count] at h2 h1 ⊢
    simp only [RBTree.budget]
    omega
  obtain ⟨y, hy1, hy2⟩ := descendRight_spec t chk _ .top t.budget (some a) la hRl rfl hheight
  rw [hmp] at hy1
  simp only [Tree.ptr_node, Option.some.injEq] at hy1
  subst hy1
  -- the exchange of the two values
  have hM00 : Models t chk (C.plug (.node (D.plug (.node ml m mc mv .nil)) a c v
      (.node rl ra rc rv rr))) := by rw [hDp]; exact hM
  obtain ⟨t1, e1, hM1, hs1⟩ := swapVal_spec hM00
  have hM1' : Models t1 chk ((D.comp (.left C a c mv (.node rl ra rc rv rr))).plug
      (.node ml m mc v .nil)) := by rw [plug_comp]; exact hM1
  -- the abstract result
  have hbud : t.budget = (t.budget - 3) + 3 := by
    have h2 := hM.depth_le
    simp only [Tree.count, RBTree.budget] at h2 ⊢
    omega
  obtain ⟨T1, H1, eT, _, _, _⟩ := eraseT_spec (t.budget - 3) C _ a c v _ H hbh hn hE
  rw [eraseT] at eT
  simp only [hmp] at eT
  have hbef : (D.comp (.left C a c mv (.node rl ra rc rv rr))).before = C.before ++ D.before := by
    rw [comp_before]; simp [Ctx.before]
  have haft : (D.comp (.left C a c mv (.node rl ra rc rv rr))).after =
      some (a, mv) :: ((Tree.node rl ra rc rv rr).items ++ C.after) := by
    rw [comp_after, hDa]; simp [Ctx.after]
  have key : ∀ (f : Nat) (t' : RBTree V), Erase t1 f m = Except.ok t' →
      Erase t (f + 1) a = Except.ok t' := by
    intro f t' e2
    simp [Erase, node_of_mem ha, ok_bind, hra, decrement, hy2, e1, e2]
  refine ⟨D, ml, m, mc, mv, ?_⟩
  rcases hshape with rfl | ⟨q, qv, rfl⟩
  · rw [eraseT_leaf _ _ _ _ _ _ (Or.inl rfl)] at eT
    obtain ⟨t', e2, hM2, _, _, _, hdead⟩ := Erase_leaf_freed (t.budget - 3 + 1) hM1'
      (Or.inl rfl) eT
    refine ⟨t', T1, hit.symm, hm, ?_, hM2, Or.inl ⟨rfl, ?_, hdead⟩⟩
    · rw [hbud]
      exact key _ _ e2
    · rw [eraseLeaf_items _ _ _ _ eT, plug_items, hbef, haft]
      simp [Tree.items]
  · rw [eraseT] at eT
    rw [eraseT_leaf _ _ _ _ _ _ (Or.inl rfl)] at eT
    have hm1 := hM1'.cell
    simp only [Tree.ptr_node, Tree.ptr_nil] at hm1
    have hM1'' : Models t1 chk ((D.comp (.left C a c mv (.node rl ra rc rv rr))).plug
        (.node ((Ctx.top : Ctx V).plug (.node .nil q Color.Red qv .nil)) m mc v .nil)) := hM1'
    obtain ⟨t2, e3, hM2, hs2⟩ := swapVal_spec hM1''
    have hM2' : Models t2 chk ((Ctx.left (D.comp (.left C a c mv (.node rl ra rc rv rr)))
        m mc qv .nil).plug (.node .nil q Color.Red v .nil)) := hM2
    obtain ⟨t', e4, hM4, _, _, _, hdead⟩ := Erase_leaf_freed (t.budget - 3) hM2'
      (Or.inl rfl) eT
    have key2 : ∀ (f : Nat), Erase t2 f q = Except.ok t' →
        Erase t1 (f + 1) m = Except.ok t' := by
      intro f e4
      simp [Erase, node_of_mem hm1, ok_bind, e3, e4]
    refine ⟨t', T1, hit.symm, hm, ?_, hM4, Or.inr ⟨q, qv, rfl, ?_, hdead⟩⟩
    · rw [hbud]
      exact key _ _ (key2 _ e4)
    · rw [eraseLeaf_items _ _ _ _ eT]
      simp only [Ctx.plug]
      rw [plug_items, hbef, haft]
      simp [Tree.items]

theorem ptr_none_iff (F : Nat) (T : Tree V) : T.ptr F = none ↔ T = .nil := by
  cases T <;> simp [Tree.ptr]

theorem erase_two_children_obs (P : Params K V) (t : RBTree V) (hI : t.Invariants P)
    (n : Nat) (cell : RBNode V) (hn : n ∈ t.toTree.nodes) (hc : t.mem n = some cell)
    (hl : cell.left ≠ none) (hr : cell.right ≠ none) (hrF : cell.right ≠ some t.fictional) :
    ∃ (X Y : List (Option (Nat × V))) (p : Nat) (pcell : RBNode V) (t' : RBTree V),
      t.items = X ++ some (p, pcell.val) :: some (n, cell.val) :: Y ∧
      t.mem p = some pcell ∧
      t.eraseAt n = Except.ok t' ∧
      t'.valAt n = some pcell.val ∧
      ((pcell.left = none ∧ t'.items = X ++ some (n, pcell.val) :: Y ∧ t'.mem p = none) ∨
       (∃ (X' : List (Option (Nat × V))) (q : Nat) (qv : V), pcell.left = some q ∧
          X = X' ++ [some (q, qv)] ∧
          t'.items = X' ++ some (p, qv) :: some (n, pcell.val) :: Y ∧
          t'.mem q = none ∧ t'.valAt p = some qv)) := by
  obtain ⟨⟨chk, hM⟩, hE, hO, hbh, hnr⟩ := hI
  obtain ⟨H, hH⟩ := Option.isSome_iff_exists.1 hbh
  obtain ⟨C, l, c, v, r, hpos⟩ := nodes_position t.toTree .top n hn
  simp only [Ctx.plug] at hpos
  have hitems : t.items = (C.plug (.node l n c v r)).items := by rw [RBTree.items, hpos]
  rw [hpos] at hM hE hH hnr
  have hcell := hM.cell
  rw [hc] at hcell
  simp only [Option.some.injEq] at hcell
  subst hcell
  simp only [ne_eq, ptr_none_iff] at hl hr
  obtain ⟨rl, ra, rc, rv, rr, rfl⟩ : ∃ rl ra rc rv rr, r = Tree.node rl ra rc rv rr := by
    cases r with
    | nil => exact absurd rfl hr
    | fict => simp [Tree.ptr] at hrF
    | node rl ra rc rv rr => exact ⟨rl, ra, rc, rv, rr, rfl⟩
  obtain ⟨D, ml, m, mc, mv, t', T', hit, hm, e, hM', hcase⟩ :=
    Erase_two_children t C l n c v rl ra rc rv rr H hM hl hH hnr hE
  have hTi : t.items = (C.before ++ D.before ++ ml.items) ++ some (m, mv) :: some (n, v) ::
      ((Tree.node rl ra rc rv rr).items ++ C.after) := by
    rw [hitems, plug_items]
    simp only [Tree.items] at hit ⊢
    rw [hit]
    simp
  obtain ⟨L, hL, hLi⟩ := (Tree.endsFict_items _).1 hE
  rw [← hitems, hTi] at hLi
  have hYne : (Tree.node rl ra rc rv rr).items ++ C.after ≠ [] := by simp [Tree.items]
  have hsplit : ((C.before ++ D.before ++ ml.items) ++ [some (m, mv), some (n, v)]) ++
      ((Tree.node rl ra rc rv rr).items ++ C.after) = L ++ [none] := by
    rw [← hLi]; simp
  obtain ⟨Z, hZ, hLZ⟩ := ends_suffix hsplit hYne
  rw [hLZ] at hL
  simp only [List.mem_append, List.mem_cons, not_or, List.mem_singleton, List.not_mem_nil,
    or_false] at hL
  refine ⟨C.before ++ D.before ++ ml.items, _, m, _, t', hTi, hm, e, ?_⟩
  rcases hcase with ⟨rfl, hi', hdead⟩ | ⟨q, qv, rfl, hi', hdead⟩
  · have hE' : T'.endsFict = true := by
      rw [Tree.endsFict_items]
      refine ⟨C.before ++ D.before ++ some (n, mv) :: Z, ?_, by rw [hi', hZ]; simp⟩
      simp only [List.mem_append, List.mem_cons, not_or]
      simp only [Tree.items, List.not_mem_nil, not_false_eq_true, and_true] at hL
      tauto
    have hT' := hM'.toTree hE'
    have hv : t'.valAt n = some mv := by
      obtain ⟨cn, h1, h2⟩ := Rep.items_val T' none n mv hM'.rep (by rw [hi']; simp)
      simp [RBTree.valAt, h1, h2]
    refine ⟨hv, Or.inl ⟨rfl, ?_, hdead⟩⟩
    rw [RBTree.items, hT', hi']
    simp [Tree.items]
  · have hE' : T'.endsFict = true := by
      rw [Tree.endsFict_items]
      refine ⟨C.before ++ D.before ++ some (m, qv) :: some (n, mv) :: Z, ?_,
        by rw [hi', hZ]; simp⟩
      simp only [List.mem_append, List.mem_cons, not_or]
      simp only [Tree.items, List.not_mem_nil, not_false_eq_true, and_true] at hL
      tauto
    have hT' := hM'.toTree hE'
    have hv : t'.valAt n = some mv := by
      obtain ⟨cn, h1, h2⟩ := Rep.items_val T' none n mv hM'.rep (by rw [hi']; simp)
      simp [RBTree.valAt, h1, h2]
    have hvp : t'.valAt m = some qv := by
      obtain ⟨cn, h1, h2⟩ := Rep.items_val T' none m qv hM'.rep (by rw [hi']; simp)
      simp [RBTree.valAt, h1, h2]
    refine ⟨hv, Or.inr ⟨C.before ++ D.before, q, qv, rfl, by simp [Tree.items], ?_, hdead,
      hvp⟩⟩
    rw [RBTree.items, hT', hi']

/-! ## The root stays Black through an erasure -/

theorem rootBlack_eq_not_isRed (T : Tree V) : T.rootBlack = !T.isRed := by
  cases T with
  | nil => rfl
  | fict => rfl
  | node l a c v r => cases c <;> rfl

theorem plug_rootBlack_mono : ∀ (C : Ctx V) (S S' : Tree V),
    (S'.isRed = true → S.isRed = true) → (C.plug S).rootBlack = true →
    (C.plug S').rootBlack = true
  | .top, S, S', h, hb => by
    simp only [Ctx.plug, rootBlack_eq_not_isRed, Bool.not_eq_true'] at hb ⊢
    by_contra hc
    have := h (by simpa using hc)
    rw [hb] at this
    exact absurd this (by simp)
  | .left up a c v r, S, S', _, hb => by
    simp only [Ctx.plug] at hb ⊢
    exact plug_rootBlack_mono up _ _ (by cases c <;> simp [Tree.isRed]) hb
  | .right l a c v up, S, S', _, hb => by
    simp only [Ctx.plug] at hb ⊢
    exact plug_rootBlack_mono up _ _ (by cases c <;> simp [Tree.isRed]) hb

theorem fixBlack_isRed (b : Bool) (S S' : Tree V) (f : Bool)
    (h : Tree.fixBlack b S = some (S', f)) : S'.isRed = true → S.isRed = true := by
  unfold Tree.fixBlack at h
  repeat' split at h
  all_goals first
    | (simp only [Option.some.injEq, Prod.mk.injEq] at h
       obtain ⟨rfl, _⟩ := h
       simp_all [Tree.isRed]
       done)
    | (simp only [Option.some.injEq, Prod.mk.injEq] at h
       obtain ⟨rfl, _⟩ := h
       cases ‹Color› <;> simp_all [Tree.isRed])
    | simp at h

theorem fixSub_isRed (b : Bool) (S S' : Tree V) (f : Bool)
    (h : Tree.fixSub b S = some (S', f)) : S'.isRed = true → S.isRed = true := by
  unfold Tree.fixSub at h
  split at h
  · split at h
    · simp only [Option.some.injEq, Prod.mk.injEq] at h
      obtain ⟨rfl, _⟩ := h
      simp [Tree.isRed]
    · simp at h
  · split at h
    · simp only [Option.some.injEq, Prod.mk.injEq] at h
      obtain ⟨rfl, _⟩ := h
      simp [Tree.isRed]
    · simp at h
  · exact fixBlack_isRed _ _ _ _ h

theorem fixErase_rootBlack : ∀ (C : Ctx V) (S : Tree V) (isleft : Bool) (T' : Tree V),
    C.fixErase S isleft = some T' → (C.plug S).rootBlack = true → T'.rootBlack = true := by
  intro C
  induction C with
  | top =>
    intro S isleft T' h hb
    cases hfs : Tree.fixSub isleft S with
    | none => rw [Ctx.fixErase] at h; simp [hfs] at h
    | some res =>
      obtain ⟨S', flag⟩ := res
      have hi := fixSub_isRed _ _ _ _ hfs
      cases flag with
      | false =>
        rw [fixErase_done _ _ _ _ hfs] at h
        simp only [Option.some.injEq] at h
        subst h
        exact plug_rootBlack_mono .top S S' hi hb
      | true =>
        rw [fixErase_top _ _ _ hfs] at h
        simp only [Option.some.injEq] at h
        subst h
        exact plug_rootBlack_mono .top S _ hi hb
  | left up a c v r ih =>
    intro S isleft T' h hb
    cases hfs : Tree.fixSub isleft S with
    | none => rw [Ctx.fixErase] at h; simp [hfs] at h
    | some res =>
      obtain ⟨S', flag⟩ := res
      have hi := fixSub_isRed _ _ _ _ hfs
      cases flag with
      | false =>
        rw [fixErase_done _ _ _ _ hfs] at h
        simp only [Option.some.injEq] at h
        subst h
        exact plug_rootBlack_mono _ S S' hi hb
      | true =>
        rw [fixErase_left _ _ _ _ _ _ _ _ hfs] at h
        exact ih _ _ _ h (plug_rootBlack_mono (.left up a c v r) S S' hi hb)
  | right l a c v up ih =>
    intro S isleft T' h hb
    cases hfs : Tree.fixSub isleft S with
    | none => rw [Ctx.fixErase] at h; simp [hfs] at h
    | some res =>
      obtain ⟨S', flag⟩ := res
      have hi := fixSub_isRed _ _ _ _ hfs
      cases flag with
      | false =>
        rw [fixErase_done _ _ _ _ hfs] at h
        simp only [Option.some.injEq] at h
        subst h
        exact plug_rootBlack_mono _ S S' hi hb
      | true =>
        rw [fixErase_right _ _ _ _ _ _ _ _ hfs] at h
        exact ih _ _ _ h (plug_rootBlack_mono (.right l a c v up) S S' hi hb)

theorem eraseLeaf_rootBlack (C : Ctx V) (a : Nat) (c : Color) (v : V) (r T' : Tree V)
    (h : C.eraseLeaf c r = some T') (hb : (C.plug (.node .nil a c v r)).rootBlack = true) :
    T'.rootBlack = true := by
  unfold Ctx.eraseLeaf at h
  split at h
  · simp only [Option.some.injEq] at h; subst h; rfl
  · rename_i up a1 c1 v1 r1
    have hb' : (up.plug (.node .nil a1 c1 v1 r1)).rootBlack = true :=
      plug_rootBlack_mono up (.node (.node .nil a c v .nil) a1 c1 v1 r1) _
        (by cases c1 <;> simp [Tree.isRed]) hb
    split at h
    · exact fixErase_rootBlack _ _ _ _ h hb'
    · simp only [Option.some.injEq] at h; subst h; exact hb'
  · rename_i l1 a1 c1 v1 up
    have hb' : (up.plug (.node l1 a1 c1 v1 .nil)).rootBlack = true :=
      plug_rootBlack_mono up (.node l1 a1 c1 v1 (.node .nil a c v .nil)) _
        (by cases c1 <;> simp [Tree.isRed]) hb
    split at h
    · exact fixErase_rootBlack _ _ _ _ h hb'
    · simp only [Option.some.injEq] at h; subst h; exact hb'
  · rename_i l1 a1 c1 v1 up
    have hb' : (up.plug (.node l1 a1 c1 v1 .fict)).rootBlack = true :=
      plug_rootBlack_mono up (.node l1 a1 c1 v1 (.node .nil a c v .fict)) _
        (by cases c1 <;> simp [Tree.isRed]) hb
    split at h
    · exact fixErase_rootBlack _ _ _ _ h hb'
    · simp only [Option.some.injEq] at h; subst h; exact hb'
  · simp at h

theorem eraseT_rootBlack : ∀ (fuel : Nat) (C : Ctx V) (S T' : Tree V),
    eraseT fuel C S = some T' → (C.plug S).rootBlack = true → T'.rootBlack = true := by
  intro fuel
  induction fuel with
  | zero => intro C S T' h; simp [eraseT] at h
  | succ f ih =>
    intro C S T' h hb
    cases S with
    | nil => simp [eraseT] at h
    | fict => simp [eraseT] at h
    | node l a c v r =>
      cases l with
      | fict => cases r <;> simp [eraseT] at h
      | nil =>
        cases r with
        | nil =>
          rw [eraseT_leaf _ _ _ _ _ _ (Or.inl rfl)] at h
          exact eraseLeaf_rootBlack C a c v _ _ h hb
        | fict =>
          rw [eraseT_leaf _ _ _ _ _ _ (Or.inr rfl)] at h
          exact eraseLeaf_rootBlack C a c v _ _ h hb
        | node rl ra rc rv rr =>
          simp only [eraseT] at h
          refine ih _ _ _ h ?_
          simp only [Ctx.plug]
          exact plug_rootBlack_mono C _ _ (by cases c <;> simp [Tree.isRed]) hb
      | node ll la lc lv lr =>
        cases r with
        | nil =>
          simp only [eraseT] at h
          refine ih _ _ _ h ?_
          simp only [Ctx.plug]
          exact plug_rootBlack_mono C _ _ (by cases c <;> simp [Tree.isRed]) hb
        | fict =>
          simp only [eraseT] at h
          refine ih _ _ _ h ?_
          simp only [Ctx.plug]
          exact plug_rootBlack_mono C _ _ (by cases c <;> simp [Tree.isRed]) hb
        | node rl ra rc rv rr =>
          rw [eraseT] at h
          rcases hmp : Tree.maxPath .top (.node ll la lc lv lr) with ⟨D, M⟩
          simp only [hmp] at h
          cases M with
          | nil => simp at h
          | fict => simp at h
          | node ml m mc mv mr =>
            cases mr with
            | fict => simp at h
            | node _ _ _ _ _ => simp at h
            | nil =>
              simp only at h
              refine ih _ _ _ h ?_
              rw [plug_comp]
              simp only [Ctx.plug]
              exact plug_rootBlack_mono C _ _ (by cases c <;> simp [Tree.isRed]) hb

/-! ## The range constructor -/

theorem rangeCtorLoop_stuck (P : Params K V) (seq : List V) (last first : Nat) (v : V)
    (hne : first ≠ last) (hv : seq.get? first = some v) :
    ∀ (fuel : Nat) (t : RBTree V) (T : Tree V), Models t true T → T.endsFict = true →
      T.rootBlack = true →
      rangeCtorLoop P seq last fuel t first = Except.error Fault.fuel := by
  intro fuel
  induction fuel with
  | zero => intro t T _ _ _; rfl
  | succ f ih =>
    intro t T hM hE hRB
    obtain ⟨⟨t', T', r, e, hM', hE', hRB'⟩, _⟩ := Insert_linked P t T hM hE hRB v
    have hne' : (first != last) = true := by simpa using hne
    simp only [rangeCtorLoop, hne', if_true, hv, e, ok_bind]
    exact ih t' T' hM' hE' hRB'

/-! ## FixAfterInsert restores the red-black conditions -/

theorem color_of_ne_black {c : Color} (h : ¬ c = Color.Black) : c = Color.Red := by
  cases c
  · rfl
  · exact absurd rfl h

theorem color_of_ne_red {c : Color} (h : ¬ c = Color.Red) : c = Color.Black := by
  cases c
  · exact absurd rfl h
  · rfl

theorem rb_red_node {sl sr : Tree V} {h : Nat} (n : Nat) (sv : V)
    (h1 : sl.blackHeight = some h) (h2 : sr.blackHeight = some h)
    (h3 : sl.noRedRed = true) (h4 : sr.noRedRed = true)
    (h5 : sl.isRed = false) (h6 : sr.isRed = false) :
    (Tree.node sl n Color.Red sv sr).blackHeight = some h ∧
      (Tree.node sl n Color.Red sv sr).noRedRed = true :=
  ⟨bh_red _ _ h1 h2, (noRedRed_node _ _ _ _ _).2 ⟨fun _ => ⟨h5, h6⟩, h3, h4⟩⟩

theorem rb_black_node {sl sr : Tree V} {h : Nat} (n : Nat) (sv : V)
    (h1 : sl.blackHeight = some h) (h2 : sr.blackHeight = some h)
    (h3 : sl.noRedRed = true) (h4 : sr.noRedRed = true) :
    (Tree.node sl n Color.Black sv sr).blackHeight = some (h + 1) ∧
      (Tree.node sl n Color.Black sv sr).noRedRed = true :=
  ⟨bh_black _ _ h1 h2, (noRedRed_node _ _ _ _ _).2 ⟨fun hc => by simp at hc, h3, h4⟩⟩

theorem rb_paint_black {u : Tree V} {h : Nat} (hr : u.isRed = true)
    (hu : u.blackHeight = some h) (hun : u.noRedRed = true) :
    (u.paint Color.Black).blackHeight = some (h + 1) ∧ (u.paint Color.Black).noRedRed = true ∧
      (u.paint Color.Black).isRed = false := by
  obtain ⟨ul, ua, uv, ur, rfl⟩ := Tree.isRed_iff hr
  rw [bh_node_iff] at hu
  obtain ⟨h', k1, k2, k3⟩ := hu
  simp only [if_false, reduceCtorEq] at k3
  subst k3
  rw [noRedRed_node] at hun
  simp only [Tree.paint]
  exact ⟨bh_black _ _ k1 k2, (noRedRed_node _ _ _ _ _).2 ⟨fun hc => by simp at hc, hun.2.1, hun.2.2⟩,
    rfl⟩

theorem fixInsert_rb : ∀ (C : Ctx V) (sl : Tree V) (n : Nat) (sv : V) (sr : Tree V) (h : Nat),
    sl.blackHeight = some h → sr.blackHeight = some h → sl.noRedRed = true →
    sr.noRedRed = true → sl.isRed = false → sr.isRed = false → C.RB h →
    C.rootColor ≠ some Color.Red →
    ∃ H, (C.fixInsert (.node sl n Color.Red sv sr)).blackHeight = some H ∧
      (C.fixInsert (.node sl n Color.Red sv sr)).noRedRed = true
  | .top, sl, n, sv, sr, h, h1, h2, h3, h4, h5, h6, hC, hrc => by
    simp only [Ctx.fixInsert, Tree.paint]
    exact ⟨h + 1, rb_black_node n sv h1 h2 h3 h4⟩
  | .left .top p pc pv pr, sl, n, sv, sr, h, h1, h2, h3, h4, h5, h6, hC, hrc => by
    have hpc : pc = Color.Black := color_of_ne_red (by simpa [Ctx.rootColor] using hrc)
    subst hpc
    obtain ⟨hpr, hprn, _, _⟩ := hC
    obtain ⟨hs, hsn⟩ := rb_red_node n sv h1 h2 h3 h4 h5 h6
    simp only [Ctx.fixInsert]
    exact ⟨h + 1, rb_black_node p pv hs hpr hsn hprn⟩
  | .right pl p pc pv .top, sl, n, sv, sr, h, h1, h2, h3, h4, h5, h6, hC, hrc => by
    have hpc : pc = Color.Black := color_of_ne_red (by simpa [Ctx.rootColor] using hrc)
    subst hpc
    obtain ⟨hpl, hpln, _, _⟩ := hC
    obtain ⟨hs, hsn⟩ := rb_red_node n sv h1 h2 h3 h4 h5 h6
    simp only [Ctx.fixInsert]
    exact ⟨h + 1, rb_black_node p pv hpl hs hpln hsn⟩
  | .left (.left up g gc gv u) p pc pv pr, sl, n, sv, sr, h, h1, h2, h3, h4, h5, h6, hC, hrc => by
    obtain ⟨hs, hsn⟩ := rb_red_node n sv h1 h2 h3 h4 h5 h6
    have hC0 := hC
    obtain ⟨hpr, hprn, hpc, hC2⟩ := hC
    simp only [Ctx.fixInsert]
    split
    · rename_i e
      subst e
      exact RB_compose (Ctx.left (Ctx.left up g gc gv u) p Color.Black pv pr) _ h hs hsn hC0
        (by simp [Ctx.frameColor])
    · rename_i hne
      have e := color_of_ne_black hne
      subst e
      obtain ⟨hprr, hgc⟩ := hpc rfl
      have e := color_of_ne_red (c := gc) (by simpa [Ctx.frameColor] using hgc)
      subst e
      simp only [if_false, reduceCtorEq] at hC2
      obtain ⟨hu, hun, _, hup⟩ := hC2
      simp only [if_true] at hup
      have hrc2 : (Ctx.left up g Color.Black gv u : Ctx V).rootColor ≠ some Color.Red := by
        rwa [Ctx.rootColor_left_ne_top (by simp)] at hrc
      obtain ⟨hP, hPn⟩ := rb_black_node p pv hs hpr hsn hprn
      split
      · rename_i hur
        obtain ⟨hU, hUn, hUr⟩ := rb_paint_black hur hu hun
        cases up with
        | top => exact ⟨h + 1 + 1, rb_black_node g gv hP hU hPn hUn⟩
        | left up' a' c' v' r' =>
          simp only []
          exact fixInsert_rb _ _ g gv _ (h + 1) hP hU hPn hUn rfl hUr hup
            (by rwa [Ctx.rootColor_left_ne_top (by simp)] at hrc2)
        | right l' a' c' v' up' =>
          simp only []
          exact fixInsert_rb _ _ g gv _ (h + 1) hP hU hPn hUn rfl hUr hup
            (by rwa [Ctx.rootColor_left_ne_top (by simp)] at hrc2)
      · rename_i hur
        have hur : u.isRed = false := by simpa using hur
        obtain ⟨hG, hGn⟩ := rb_red_node g gv hpr hu hprn hun hprr hur
        obtain ⟨hX, hXn⟩ := rb_black_node p pv hs hG hsn hGn
        exact RB_compose up _ (h + 1) hX hXn hup (by simp [isRed_black])
  | .right pl p pc pv (.left up g gc gv u), sl, n, sv, sr, h, h1, h2, h3, h4, h5, h6, hC, hrc => by
    obtain ⟨hs, hsn⟩ := rb_red_node n sv h1 h2 h3 h4 h5 h6
    have hC0 := hC
    obtain ⟨hpl, hpln, hpc, hC2⟩ := hC
    simp only [Ctx.fixInsert]
    split
    · rename_i e
      subst e
      exact RB_compose (Ctx.right pl p Color.Black pv (Ctx.left up g gc gv u)) _ h hs hsn hC0
        (by simp [Ctx.frameColor])
    · rename_i hne
      have e := color_of_ne_black hne
      subst e
      obtain ⟨hplr, hgc⟩ := hpc rfl
      have e := color_of_ne_red (c := gc) (by simpa [Ctx.frameColor] using hgc)
      subst e
      simp only [if_false, reduceCtorEq] at hC2
      obtain ⟨hu, hun, _, hup⟩ := hC2
      simp only [if_true] at hup
      have hrc2 : (Ctx.left up g Color.Black gv u : Ctx V).rootColor ≠ some Color.Red := by
        rwa [Ctx.rootColor_right_ne_top (by simp)] at hrc
      obtain ⟨hP, hPn⟩ := rb_black_node p pv hpl hs hpln hsn
      split
      · rename_i hur
        obtain ⟨hU, hUn, hUr⟩ := rb_paint_black hur hu hun
        cases up with
        | top => exact ⟨h + 1 + 1, rb_black_node g gv hP hU hPn hUn⟩
        | left up' a' c' v' r' =>
          simp only []
          exact fixInsert_rb _ _ g gv _ (h + 1) hP hU hPn hUn rfl hUr hup
            (by rwa [Ctx.rootColor_left_ne_top (by simp)] at hrc2)
        | right l' a' c' v' up' =>
          simp only []
          exact fixInsert_rb _ _ g gv _ (h + 1) hP hU hPn hUn rfl hUr hup
            (by rwa [Ctx.rootColor_left_ne_top (by simp)] at hrc2)
      · rename_i hur
        have hur : u.isRed = false := by simpa using hur
        obtain ⟨hQ, hQn⟩ := rb_red_node p pv hpl h1 hpln h3 hplr h5
        obtain ⟨hG, hGn⟩ := rb_red_node g gv h2 hu h4 hun h6 hur
        obtain ⟨hX, hXn⟩ := rb_black_node n sv hQ hG hQn hGn
        exact RB_compose up _ (h + 1) hX hXn hup (by simp [isRed_black])
  | .left (.right u g gc gv up) p pc pv pr, sl, n, sv, sr, h, h1, h2, h3, h4, h5, h6, hC, hrc => by
    obtain ⟨hs, hsn⟩ := rb_red_node n sv h1 h2 h3 h4 h5 h6
    have hC0 := hC
    obtain ⟨hpr, hprn, hpc, hC2⟩ := hC
    simp only [Ctx.fixInsert]
    split
    · rename_i e
      subst e
      exact RB_compose (Ctx.left (Ctx.right u g gc gv up) p Color.Black pv pr) _ h hs hsn hC0
        (by simp [Ctx.frameColor])
    · rename_i hne
      have e := color_of_ne_black hne
      subst e
      obtain ⟨hprr, hgc⟩ := hpc rfl
      have e := color_of_ne_red (c := gc) (by simpa [Ctx.frameColor] using hgc)
      subst e
      simp only [if_false, reduceCtorEq] at hC2
      obtain ⟨hu, hun, _, hup⟩ := hC2
      simp only [if_true] at hup
      have hrc2 : (Ctx.right u g Color.Black gv up : Ctx V).rootColor ≠ some Color.Red := by
        rwa [Ctx.rootColor_left_ne_top (by simp)] at hrc
      obtain ⟨hP, hPn⟩ := rb_black_node p pv hs hpr hsn hprn
      split
      · rename_i hur
        obtain ⟨hU, hUn, hUr⟩ := rb_paint_black hur hu hun
        cases up with
        | top => exact ⟨h + 1 + 1, rb_black_node g gv hU hP hUn hPn⟩
        | left up' a' c' v' r' =>
          simp only []
          exact fixInsert_rb _ _ g gv _ (h + 1) hU hP hUn hPn hUr rfl hup
            (by rwa [Ctx.rootColor_right_ne_top (by simp)] at hrc2)
        | right l' a' c' v' up' =>
          simp only []
          exact fixInsert_rb _ _ g gv _ (h + 1) hU hP hUn hPn hUr rfl hup
            (by rwa [Ctx.rootColor_right_ne_top (by simp)] at hrc2)
      · rename_i hur
        have hur : u.isRed = false := by simpa using hur
        obtain ⟨hG, hGn⟩ := rb_red_node g gv hu h1 hun h3 hur h5
        obtain ⟨hQ, hQn⟩ := rb_red_node p pv h2 hpr h4 hprn h6 hprr
        obtain ⟨hX, hXn⟩ := rb_black_node n sv hG hQ hGn hQn
        exact RB_compose up _ (h + 1) hX hXn hup (by simp [isRed_black])
  | .right pl p pc pv (.right u g gc gv up), sl, n, sv, sr, h, h1, h2, h3, h4, h5, h6, hC, hrc => by
    obtain ⟨hs, hsn⟩ := rb_red_node n sv h1 h2 h3 h4 h5 h6
    have hC0 := hC
    obtain ⟨hpl, hpln, hpc, hC2⟩ := hC
    simp only [Ctx.fixInsert]
    split
    · rename_i e
      subst e
      exact RB_compose (Ctx.right pl p Color.Black pv (Ctx.right u g gc gv up)) _ h hs hsn hC0
        (by simp [Ctx.frameColor])
    · rename_i hne
      have e := color_of_ne_black hne
      subst e
      obtain ⟨hplr, hgc⟩ := hpc rfl
      have e := color_of_ne_red (c := gc) (by simpa [Ctx.frameColor] using hgc)
      subst e
      simp only [if_false, reduceCtorEq] at hC2
      obtain ⟨hu, hun, _, hup⟩ := hC2
      simp only [if_true] at hup
      have hrc2 : (Ctx.right u g Color.Black gv up : Ctx V).rootColor ≠ some Color.Red := by
        rwa [Ctx.rootColor_right_ne_top (by simp)] at hrc
      obtain ⟨hP, hPn⟩ := rb_black_node p pv hpl hs hpln hsn
      split
      · rename_i hur
        obtain ⟨hU, hUn, hUr⟩ := rb_paint_black hur hu hun
        cases up with
        | top => exact ⟨h + 1 + 1, rb_black_node g gv hU hP hUn hPn⟩
        | left up' a' c' v' r' =>
          simp only []
          exact fixInsert_rb _ _ g gv _ (h + 1) hU hP hUn hPn hUr rfl hup
            (by rwa [Ctx.rootColor_right_ne_top (by simp)] at hrc2)
        | right l' a' c' v' up' =>
          simp only []
          exact fixInsert_rb _ _ g gv _ (h + 1) hU hP hUn hPn hUr rfl hup
            (by rwa [Ctx.rootColor_right_ne_top (by simp)] at hrc2)
      · rename_i hur
        have hur : u.isRed = false := by simpa using hur
        obtain ⟨hG, hGn⟩ := rb_red_node g gv hu hpl hun hpln hur hplr
        obtain ⟨hX, hXn⟩ := rb_black_node p pv hG hs hGn hsn
        exact RB_compose up _ (h + 1) hX hXn hup (by simp [isRed_black])

/-! ## Insertion by copy keeps the red-black conditions -/

theorem insert_finish_rb {t t1 : RBTree V} {T : Tree V} {C : Ctx V} {e : Tree V} {x : V}
    {H : Nat} (hRB : T.rootBlack = true) (hbh : T.blackHeight = some H)
    (hn : T.noRedRed = true) (hT : T = C.plug e) (he : e = .nil ∨ e = .fict)
    (hM1 : Models t1 true (C.plug (.node .nil t.brk Color.Red x e)))
    (hE1 : (C.plug (.node .nil t.brk Color.Red x e)).endsFict = true) :
    ∃ t' T' H', FixAfterInsert t1.incSize t1.incSize.budget t.brk = Except.ok t' ∧
      Models t' true T' ∧ T'.endsFict = true ∧ T'.rootBlack = true ∧
      T'.blackHeight = some H' ∧ T'.noRedRed = true := by
  have hrc : C.rootColor ≠ some Color.Red := plug_rootBlack_inv C e (hT ▸ hRB)
  have hM2 : Models t1.incSize true (C.plug (.node .nil t.brk Color.Red x e)) := hM1.incSize
  obtain ⟨t', efix, hM', hs⟩ := FixAfterInsert_spec t1.incSize.budget t1.incSize C .nil t.brk
    Color.Red x e hM2 hrc hM2.depth_lt
  subst hT
  obtain ⟨h, g1, g2, g3, _⟩ := RB_decomp C e H hbh hn
  obtain ⟨he0, hen, her⟩ := bh_leaf he
  rw [he0] at g1
  simp only [Option.some.injEq] at g1
  subst g1
  obtain ⟨H', k1, k2⟩ := fixInsert_rb C .nil t.brk x e 0 rfl he0 rfl hen rfl her g3 hrc
  refine ⟨t', _, H', efix, hM', ?_, fixInsert_rootBlack C .nil t.brk Color.Red x e hrc, k1, k2⟩
  rw [Tree.endsFict_items, fixInsert_items, ← Tree.endsFict_items]
  exact hE1

theorem Insert_copy_rb (P : Params K V)
    (asym : ∀ a b, P.comp a b = true → P.comp b a = false)
    (t : RBTree V) (T : Tree V) (H : Nat) (hM : Models t true T)
    (hE : T.endsFict = true) (hRB : T.rootBlack = true) (hbh : T.blackHeight = some H)
    (hn : T.noRedRed = true) (x : V) :
    ∃ t' T' r H', Insert P t x = Except.ok (t', r) ∧ Models t' true T' ∧
      T'.endsFict = true ∧ T'.rootBlack = true ∧ T'.blackHeight = some H' ∧
      T'.noRedRed = true := by
  have hF := hM.fict_not_node hE
  have hpl : _ = T := findPath_plug P (P.conv x) T .top
  rcases Find_cases P t (P.conv x) true T hM hF with
    ⟨hs, hf, pp, g, hm⟩ | ⟨C, l, a, c, v, r, hfp, hs, hf, hm, haF, hv, ha, hc⟩
  · -- Find returned the end marker
    have key : ∃ (C : Ctx V), T = C.plug .fict ∧
        (C = .top ∨ ∃ l a c v up, C = .right l a c v up) := by
      rcases hfp : Tree.findPath P (P.conv x) .top T with ⟨C, s⟩
      rw [hfp] at hpl
      simp only [Tree.findStop, hfp] at hs
      simp only at hpl
      cases s with
      | nil => simp [Tree.stopOf] at hs
      | fict =>
        have hT : T = C.plug .fict := hpl.symm
        exact ⟨C, hT, (endsFict_fict_ctx (hT ▸ hE)).2⟩
      | node l a c v r =>
        have hcr : P.comp (P.conv v) (P.conv x) = true ∧ r = .fict := by
          by_contra hcon
          rw [stopOf_node_of P _ l a c v r hcon] at hs
          simp at hs
        obtain ⟨hc1, rfl⟩ := hcr
        exact ⟨.right l a c v C, hpl.symm, Or.inr ⟨l, a, c, v, C, rfl⟩⟩
    obtain ⟨C, hT, hC⟩ := key
    obtain ⟨t1, e1, hM1, hg⟩ := attach_fict_spec P x (hT ▸ hM) hC
    have hE1 : (C.plug (.node .nil t.brk Color.Red x .fict)).endsFict = true := by
      rw [← plug_endsFict_congr C .fict _ (by simp [Tree.endsFict, Tree.noFict])
        (by simp [Tree.noFict]), ← hT]
      exact hE
    obtain ⟨t', T', H', efix, hM', hE', hRB', hbh', hn'⟩ :=
      insert_finish_rb hRB hbh hn hT (Or.inr rfl) hM1 hE1
    exact ⟨t', T', some t.brk, H', by simp [Insert, hf, ok_bind, e1, pure_ok, efix],
      hM', hE', hRB', hbh', hn'⟩
  · rw [hfp] at hpl
    simp only at hpl
    have hstop := findPath_stop P (P.conv x) T .top C l a c v r hfp
    have hT : T = C.plug (.node l a c v r) := hpl.symm
    subst hT
    obtain ⟨hlnf, _, _⟩ := plug_ends_sub C l a c v r hE
    -- linking to the left of the found node when it has no left child
    have left_case : l = .nil → ∃ t1 t' T' H',
        (t.allocate ⟨some a, none, none, x, Color.Red⟩).1.setLeft
          (some a) (some t.brk) = Except.ok t1 ∧
        FixAfterInsert t1.incSize t1.incSize.budget t.brk = Except.ok t' ∧
        Models t' true T' ∧ T'.endsFict = true ∧ T'.rootBlack = true ∧
        T'.blackHeight = some H' ∧ T'.noRedRed = true := by
      rintro rfl
      obtain ⟨t1, e1, hM1, hg⟩ := link_left_spec x hM
      have hE1 : ((Ctx.left C a c v r).plug (.node .nil t.brk Color.Red x .nil)).endsFict
          = true := by
        simp only [Ctx.plug]
        rw [← plug_endsFict_congr C (.node .nil a c v r) _
          (by simp [Tree.endsFict, Tree.noFict])
          (by simp [Tree.noFict])]
        exact hE
      obtain ⟨t', T', H', efix, hM', hE', hRB', hbh', hn'⟩ :=
        insert_finish_rb (C := Ctx.left C a c v r) (e := .nil) hRB hbh hn rfl (Or.inl rfl)
          hM1 hE1
      exact ⟨t1, t', T', H', e1, efix, hM', hE', hRB', hbh', hn'⟩
    by_cases h1 : P.comp (P.conv x) (P.conv v) = true
    · have h0 : P.comp (P.conv v) (P.conv x) = false := asym _ _ h1
      obtain ⟨t1, t', T', H', e1, efix, hM', hE', hRB', hbh', hn'⟩ :=
        left_case (hstop.2 h0 h1)
      have hat : attachNew P t x a = Except.ok (some (t1, t.brk)) := by
        simp [attachNew, haF, node_of_mem hm, ok_bind, h1, e1, pure_ok]
      exact ⟨t', T', some t.brk, H', by simp [Insert, hf, ok_bind, hat, pure_ok, efix],
        hM', hE', hRB', hbh', hn'⟩
    · have h1 : P.comp (P.conv x) (P.conv v) = false := by simpa using h1
      by_cases h2 : P.comp (P.conv v) (P.conv x) = true
      · have hr : r = .nil := by
          rcases hstop.1 h2 with hr | hr
          · exact hr
          · exact absurd ⟨h2, hr⟩ hc
        subst hr
        obtain ⟨t1, e1, hM1, hg⟩ := link_right_spec x hM
        have hE1 : ((Ctx.right l a c v C).plug (.node .nil t.brk Color.Red x .nil)).endsFict
            = true := by
          simp only [Ctx.plug]
          rw [← plug_endsFict_congr C (.node l a c v .nil) _
            (by simp [Tree.endsFict, Tree.noFict])
            (by simp [Tree.noFict])]
          exact hE
        obtain ⟨t', T', H', efix, hM', hE', hRB', hbh', hn'⟩ :=
          insert_finish_rb (C := Ctx.right l a c v C) (e := .nil) hRB hbh hn rfl (Or.inl rfl)
            hM1 hE1
        have hat : attachNew P t x a = Except.ok (some (t1, t.brk)) := by
          simp [attachNew, haF, node_of_mem hm, ok_bind, h1, h2, e1, pure_ok]
        exact ⟨t', T', some t.brk, H', by simp [Insert, hf, ok_bind, hat, pure_ok, efix],
          hM', hE', hRB', hbh', hn'⟩
      · have h2 : P.comp (P.conv v) (P.conv x) = false := by simpa using h2
        have hat : attachNew P t x a = Except.ok none := by
          simp [attachNew, haF, node_of_mem hm, ok_bind, h1, h2, pure_ok]
        cases hmul : P.IsMulti with
        | false =>
          exact ⟨t, _, none, H, by simp [Insert, hf, ok_bind, hat, pure_ok, hmul], hM, hE, hRB,
            hbh, hn⟩
        | true =>
          rcases hl : l.ptr t.fictional with _ | lp
          · obtain ⟨t1, t', T', H', e1, efix, hM', hE', hRB', hbh', hn'⟩ :=
              left_case ((ptr_none_iff _ _).1 hl)
            exact ⟨t', T', some t.brk, H', by
              simp [Insert, hf, ok_bind, hat, pure_ok, hmul, node_of_mem hm, hl, e1, efix],
              hM', hE', hRB', hbh', hn'⟩
          · have hlne : l ≠ .nil := by
              rintro rfl
              simp at hl
            have hM0 : Models t true ((Ctx.left C a c v r).plug l) := hM
            obtain ⟨_, hRl, _⟩ := hM0.decomp
            have hh : l.height ≤ t.budget := by
              have h3 := l.height_le_count
              have h4 := hM0.depth_le
              simp only [RBTree.budget]
              omega
            obtain ⟨y, hy, hdr⟩ := descendRight_spec t true l (Ctx.left C a c v r) t.budget
              _ lp hRl hl hh
            obtain ⟨D, ml, m, mc, mv, hmp, hDp, _, _⟩ :=
              maxPath_spec l (Ctx.left C a c v r) hlnf hlne
            rw [hmp] at hy
            simp only [Tree.ptr, Option.some.injEq] at hy
            subst hy
            have hM2 : Models t true ((D.comp (Ctx.left C a c v r)).plug
                (.node ml m mc mv .nil)) := by
              rw [plug_comp, hDp]; exact hM
            have hE2 : ((D.comp (Ctx.left C a c v r)).plug
                (.node ml m mc mv .nil)).endsFict = true := by
              rw [plug_comp, hDp]; exact hE
            have hRB2 : ((D.comp (Ctx.left C a c v r)).plug
                (.node ml m mc mv .nil)).rootBlack = true := by
              rw [plug_comp, hDp]; exact hRB
            have hbh2 : ((D.comp (Ctx.left C a c v r)).plug
                (.node ml m mc mv .nil)).blackHeight = some H := by
              rw [plug_comp, hDp]; exact hbh
            have hn2 : ((D.comp (Ctx.left C a c v r)).plug
                (.node ml m mc mv .nil)).noRedRed = true := by
              rw [plug_comp, hDp]; exact hn
            obtain ⟨t1, e1, hM1, hg⟩ := link_right_spec x hM2
            have hE1 : ((Ctx.right ml m mc mv (D.comp (Ctx.left C a c v r))).plug
                (.node .nil t.brk Color.Red x .nil)).endsFict = true := by
              simp only [Ctx.plug]
              rw [← plug_endsFict_congr (D.comp (Ctx.left C a c v r))
                (.node ml m mc mv .nil) _
                (by simp [Tree.endsFict, Tree.noFict])
                (by simp [Tree.noFict])]
              exact hE2
            obtain ⟨t', T', H', efix, hM', hE', hRB', hbh', hn'⟩ :=
              insert_finish_rb (C := Ctx.right ml m mc mv (D.comp (Ctx.left C a c v r)))
                (e := .nil) hRB2 hbh2 hn2 rfl (Or.inl rfl) hM1 hE1
            exact ⟨t', T', some t.brk, H', by
              simp [Insert, hf, ok_bind, hat, pure_ok, hmul, node_of_mem hm, hl, hdr, e1, efix],
              hM', hE', hRB', hbh', hn'⟩

theorem insertAll_rb (P : Params K V)
    (asym : ∀ a b, P.comp a b = true → P.comp b a = false) :
    ∀ (L : List V) (t : RBTree V) (T : Tree V) (H : Nat), Models t true T →
      T.endsFict = true → T.rootBlack = true → T.blackHeight = some H → T.noRedRed = true →
      ∃ t' T' H', insertAll P t L = Except.ok t' ∧ Models t' true T' ∧
        T'.endsFict = true ∧ T'.rootBlack = true ∧ T'.blackHeight = some H' ∧
        T'.noRedRed = true
  | [], t, T, H, hM, hE, hRB, hbh, hn => ⟨t, T, H, rfl, hM, hE, hRB, hbh, hn⟩
  | x :: xs, t, T, H, hM, hE, hRB, hbh, hn => by
    obtain ⟨t1, T1, r, H1, e1, hM1, hE1, hRB1, hbh1, hn1⟩ :=
      Insert_copy_rb P asym t T H hM hE hRB hbh hn x
    obtain ⟨t2, T2, H2, e2, h2⟩ := insertAll_rb P asym xs t1 T1 H1 hM1 hE1 hRB1 hbh1 hn1
    exact ⟨t2, T2, H2, by simp [insertAll, RBTree.insert, e1, ok_bind, pure_ok, e2], h2⟩

theorem insertAll_linked (P : Params K V) :
    ∀ (L : List V) (t : RBTree V) (T : Tree V), Models t true T →
      T.endsFict = true → T.rootBlack = true →
      ∃ t' T', insertAll P t L = Except.ok t' ∧ Models t' true T' ∧
        T'.endsFict = true ∧ T'.rootBlack = true
  | [], t, T, hM, hE, hRB => ⟨t, T, rfl, hM, hE, hRB⟩
  | x :: xs, t, T, hM, hE, hRB => by
    obtain ⟨⟨t1, T1, r, e1, hM1, hE1, hRB1⟩, _⟩ := Insert_linked P t T hM hE hRB x
    obtain ⟨t2, T2, e2, h2⟩ := insertAll_linked P xs t1 T1 hM1 hE1 hRB1
    exact ⟨t2, T2, by simp [insertAll, RBTree.insert, e1, ok_bind, pure_ok, e2], h2⟩

/-! ## Erase at a node keeps the invariants -/

theorem Models.rootBlack_of_color {t : RBTree V} {chk : Bool} {T : Tree V} (h : Models t chk T)
    (hc : t.rootColor = some Color.Black) : T.rootBlack = true := by
  cases T with
  | nil => rfl
  | fict => rfl
  | node l a c v r =>
    obtain ⟨hm, _, _⟩ := h.rep
    have hr := h.root
    simp only [Tree.ptr_node, Option.some.injEq] at hr
    cases c with
    | Black => rfl
    | Red => simp [RBTree.rootColor, ← hr, hm] at hc

theorem eraseAt_invariants (P : Params K V) (t : RBTree V) (hI : t.Invariants P)
    (hB : t.rootColor = some Color.Black) (n : Nat) (hn : n ∈ t.toTree.nodes) :
    ∃ t' X v Y, t.eraseAt n = Except.ok t' ∧ t'.Invariants P ∧
      t'.rootColor = some Color.Black ∧ t.valAt n = some v ∧
      t.inorder = X ++ v :: Y ∧ t'.inorder = X ++ Y := by
  obtain ⟨⟨chk, hM⟩, hE, hO, hbh, hnr⟩ := hI
  obtain ⟨H, hH⟩ := Option.isSome_iff_exists.1 hbh
  obtain ⟨C, l, c, v, r, hpos⟩ := nodes_position t.toTree .top n hn
  simp only [Ctx.plug] at hpos
  rw [hpos] at hM hE hO hH hnr
  obtain ⟨t1, T1, X, Y, H1, e1, hM1, hE1, hO1, hbh1, hn1, hi, hi1, _, _, _, hT⟩ :=
    erase_found_abs P t chk C l n c v r H hM hE hO hH hnr
  have hRB : (C.plug (.node l n c v r)).rootBlack = true := hM.rootBlack_of_color hB
  have hRB1 := eraseT_rootBlack _ _ _ _ hT hRB
  have hval : t.valAt n = some v := by
    obtain ⟨_, hR, _⟩ := hM.decomp
    obtain ⟨hm, _, _⟩ := hR
    simp [RBTree.valAt, hm]
  refine ⟨t1, X, v, Y, e1, Invariants.of_models hM1 hE1 hO1 hbh1 hn1,
    hM1.rootColor_black hE1 hRB1, hval, ?_, ?_⟩
  · rw [RBTree.inorder, hpos]; exact hi
  · rw [RBTree.inorder, hM1.toTree hE1]; exact hi1

theorem treeOf_models (L : List Nat) : Models (treeOf L) true (treeOf L).toTree := by
  obtain ⟨t, T, e, hM, hE, _⟩ :=
    insertAll_linked natSet L (RBTree.new 0) Tree.fict (Models.new 0) rfl rfl
  have ht : treeOf L = t := by simp only [treeOf, RBTree.ofList, e]
  rw [ht, hM.toTree hE]
  exact hM

variable {α : Type}

/-! ## The list: segments of linked nodes -/

theorem Seg.congr_mem {m m' : Nat → Option (listNode α)} :
    ∀ (cells : List (Nat × α)) (a : Nat) (p : Option Nat) (e : Nat) (pe : Option Nat),
      (∀ x, x ∈ cells.map Prod.fst → m' x = m x) →
      Seg m cells a p e pe → Seg m' cells a p e pe
  | [], a, p, e, pe, _, h => h
  | c :: rest, a, p, e, pe, hm, h => by
    obtain ⟨ha, nx, hc, hr⟩ := h
    refine ⟨ha, nx, ?_, Seg.congr_mem rest nx (some c.1) e pe (fun x hx => hm x ?_) hr⟩
    · rw [hm c.1 (by simp)]; exact hc
    · simp only [List.map_cons, List.mem_cons]; exact Or.inr hx

theorem Seg_append {m : Nat → Option (listNode α)} :
    ∀ (xs ys : List (Nat × α)) (a : Nat) (p : Option Nat) (e : Nat) (pe : Option Nat),
      Seg m (xs ++ ys) a p e pe ↔
        ∃ mid pm, Seg m xs a p mid pm ∧ Seg m ys mid pm e pe
  | [], ys, a, p, e, pe => by
    constructor
    · intro h; exact ⟨a, p, ⟨rfl, rfl⟩, h⟩
    · rintro ⟨mid, pm, ⟨rfl, rfl⟩, h⟩; exact h
  | c :: rest, ys, a, p, e, pe => by
    simp only [List.cons_append, Seg]
    constructor
    · rintro ⟨ha, nx, hc, hr⟩
      obtain ⟨mid, pm, h1, h2⟩ := (Seg_append rest ys nx (some c.1) e pe).1 hr
      exact ⟨mid, pm, ⟨ha, nx, hc, h1⟩, h2⟩
    · rintro ⟨mid, pm, ⟨ha, nx, hc, h1⟩, h2⟩
      exact ⟨ha, nx, hc, (Seg_append rest ys nx (some c.1) e pe).2 ⟨mid, pm, h1, h2⟩⟩

theorem Seg_snoc {m : Nat → Option (listNode α)} (xs : List (Nat × α)) (c : Nat × α)
    (a : Nat) (p : Option Nat) (e : Nat) (pe : Option Nat) :
    Seg m (xs ++ [c]) a p e pe ↔
      ∃ pm, Seg m xs a p c.1 pm ∧ m c.1 = some ⟨pm, some e, c.2⟩ ∧ pe = some c.1 := by
  rw [Seg_append]
  constructor
  · rintro ⟨mid, pm, h1, hmid, nx, hc, rfl, hpe⟩
    subst hmid
    exact ⟨pm, h1, hc, hpe.symm⟩
  · rintro ⟨pm, h1, hc, rfl⟩
    exact ⟨c.1, pm, h1, rfl, e, hc, rfl, rfl⟩

theorem LinkedList.Holds.of_new (g : α) : (LinkedList.new g).Holds [] := by
  refine ⟨⟨none, g, ⟨rfl, rfl⟩, by simp [LinkedList.new]⟩, by simp, rfl, ?_⟩
  intro a ha
  simp only [LinkedList.new] at ha ⊢
  have : a ≠ 0 := by omega
  simp [this]

theorem LinkedList.Holds.live_lt {q : LinkedList α} {cells : List (Nat × α)} (h : q.Holds cells)
    {a : Nat} {n : listNode α} (hm : q.mem a = some n) : a < q.brk := by
  by_contra hc
  have := h.fresh a (by omega)
  rw [this] at hm
  cases hm

theorem front_spec {q : LinkedList α} {a : Nat} {x : α} {rest : List (Nat × α)}
    (h : q.Holds ((a, x) :: rest)) : q.front = Except.ok x := by
  obtain ⟨pe, g, ⟨ha, nx, hc, _⟩, _⟩ := h.seg
  have hs : q.size ≠ 0 := by rw [h.size]; simp
  simp only at ha hc
  simp [LinkedList.front, hs, LinkedList.node, ha, hc, ok_bind, pure_ok]

theorem emplace_tail_eval {q : LinkedList α} {pe : Option Nat} {g : α}
    (htail : q.mem q.tail = some ⟨pe, none, g⟩) (htb : q.tail < q.brk) (y : α)
    (hpe : ∀ p, pe = some p → ∃ pn, q.mem p = some pn ∧ p ≠ q.tail ∧ p < q.brk) :
    ∃ q', q.append y = Except.ok q' ∧ q'.brk = q.brk + 1 ∧ q'.tail = q.tail ∧
      q'.size = (q.size + 1) % 2 ^ 64 ∧
      q'.head = (if pe = none then q.brk else q.head) ∧
      q'.mem q.tail = some ⟨some q.brk, none, g⟩ ∧
      q'.mem q.brk = some ⟨pe, some q.tail, y⟩ ∧
      (∀ p pn, pe = some p → q.mem p = some pn →
        q'.mem p = some { pn with next := some q.brk }) ∧
      (∀ j, j ≠ q.tail → j ≠ q.brk → pe ≠ some j → q'.mem j = q.mem j) := by
  have hne : q.tail ≠ q.brk := by omega
  have hne2 : q.brk ≠ q.tail := fun h => hne h.symm
  cases pe with
  | none =>
    refine ⟨_, by
      simp only [LinkedList.append, LinkedList.insert, LinkedList.emplace, LinkedList.node,
        htail, ok_bind, pure_ok, hne, if_false, LinkedList.put]
      rfl, ?_⟩
    refine ⟨rfl, rfl, rfl, by simp, ?_, ?_, ?_, ?_⟩
    · simp
    · simp [hne2]
    · intro p pn h; cases h
    · intro j h1 h2 _; simp [h1, h2]
  | some p =>
    obtain ⟨pn, hp, hpt, hpb⟩ := hpe p rfl
    have hpb2 : p ≠ q.brk := by omega
    have hpt2 : q.tail ≠ p := fun h => hpt h.symm
    have h4 : q.brk ≠ p := fun h => hpb2 h.symm
    refine ⟨_, by
      simp only [LinkedList.append, LinkedList.insert, LinkedList.emplace, LinkedList.node,
        htail, ok_bind, pure_ok, hne, if_false, LinkedList.put, hp, hpb2, hpt, hpt2]
      rfl, ?_⟩
    refine ⟨rfl, rfl, rfl, by simp, ?_, ?_, ?_, ?_⟩
    · simp
    · simp [hne2, h4]
    · intro p2 pn2 h hm
      cases h
      rw [hp] at hm
      cases hm
      simp [hpt]
    · intro j h1 h2 h3
      have : j ≠ p := fun h => h3 (by rw [h])
      simp [h1, h2, this]

theorem eraseWalk_one {q : LinkedList α} {a nx : Nat} {n nxc : listNode α} (fuel : Nat)
    (ha : q.mem a = some n) (hn : n.next = some nx) (hnx : q.mem nx = some nxc)
    (hnp : nxc.prev = some a) (hane : a ≠ nx) :
    LinkedList.eraseWalk (some nx) (fuel + 2) q (some a) =
      Except.ok { q with mem := fun j => if j = a then none else q.mem j
                         size := (q.size + (2 ^ 64 - 1)) % 2 ^ 64 } := by
  have h1 : (some a != some nx) = true := by simpa using hane
  have h2 : (some nx != some nx) = false := by simp
  simp only [LinkedList.eraseWalk, h1, if_true, LinkedList.node, ha, ok_bind, hn, hnx, hnp,
    h2, pure_ok]
  rfl

theorem eraseAt_eval {q : LinkedList α} {a nx : Nat} {pa : Option Nat} {x : α}
    {nxc : listNode α} (ha : q.mem a = some ⟨pa, some nx, x⟩) (hnx : q.mem nx = some nxc)
    (hnp : nxc.prev = some a) (hane : a ≠ nx)
    (hpa : ∀ p, pa = some p → ∃ pn, q.mem p = some pn ∧ p ≠ a ∧ p ≠ nx)
    (hbrk : 1 ≤ q.brk) :
    ∃ q', q.eraseAt (some a) = Except.ok q' ∧ q'.brk = q.brk ∧ q'.tail = q.tail ∧
      q'.size = (q.size + (2 ^ 64 - 1)) % 2 ^ 64 ∧
      q'.head = (if pa = none then nx else q.head) ∧
      q'.mem a = none ∧
      q'.mem nx = some { nxc with prev := pa } ∧
      (∀ p pn, pa = some p → q.mem p = some pn →
        q'.mem p = some { pn with next := some nx }) ∧
      (∀ j, j ≠ a → j ≠ nx → pa ≠ some j → q'.mem j = q.mem j) := by
  obtain ⟨k, hk⟩ : ∃ k, q.brk + 1 = k + 2 := ⟨q.brk - 1, by omega⟩
  have hna : nx ≠ a := fun h => hane h.symm
  cases pa with
  | none =>
    have hw := eraseWalk_one (q := { q with head := nx }) k ha rfl hnx hnp hane
    refine ⟨_, by
      simp only [LinkedList.eraseAt, LinkedList.increment, LinkedList.node, ha, ok_bind,
        pure_ok, LinkedList.erase, hk, hw, hna, if_false, hnx, LinkedList.put]
      rfl, ?_⟩
    refine ⟨rfl, rfl, rfl, by simp, ?_, ?_, ?_, ?_⟩
    · simp [hane]
    · simp
    · intro p pn h; cases h
    · intro j h1 h2 _; simp [h1, h2]
  | some p =>
    obtain ⟨pn, hp, hpa1, hpn⟩ := hpa p rfl
    have hap : a ≠ p := fun h => hpa1 h.symm
    have hnp2 : nx ≠ p := fun h => hpn h.symm
    have ha1 : (q.put p { pn with next := some nx }).mem a = some ⟨some p, some nx, x⟩ := by
      simp [LinkedList.put, hap, ha]
    have hnx1 : (q.put p { pn with next := some nx }).mem nx = some nxc := by
      simp [LinkedList.put, hnp2, hnx]
    have hw := eraseWalk_one (q := q.put p { pn with next := some nx }) k ha1 rfl hnx1 hnp hane
    simp only [LinkedList.put] at hw
    refine ⟨_, by
      simp only [LinkedList.eraseAt, LinkedList.increment, LinkedList.node, ha, ok_bind,
        pure_ok, LinkedList.erase, hp]
      simp only [LinkedList.put, hk, hw, ok_bind, LinkedList.node, hna, hnp2, if_false, hnx]
      rfl, ?_⟩
    refine ⟨rfl, rfl, rfl, by simp, ?_, ?_, ?_, ?_⟩
    · simp [hane, LinkedList.put]
    · simp
    · intro p2 pn2 h hm
      cases h
      rw [hp] at hm
      cases hm
      simp [LinkedList.put, hpn, hpa1]
    · intro j h1 h2 h3
      have : j ≠ p := fun h => h3 (by rw [h])
      simp [LinkedList.put, h1, h2, this]

theorem Seg.cells_live {m : Nat → Option (listNode α)} :
    ∀ (cells : List (Nat × α)) (a : Nat) (p : Option Nat) (e : Nat) (pe : Option Nat),
      Seg m cells a p e pe → ∀ x, x ∈ cells.map Prod.fst → ∃ n, m x = some n
  | [], _, _, _, _, _, x, hx => by simp at hx
  | c :: rest, a, p, e, pe, h, x, hx => by
    obtain ⟨_, nx, hc, hr⟩ := h
    simp only [List.map_cons, List.mem_cons] at hx
    rcases hx with rfl | hx
    · exact ⟨_, hc⟩
    · exact Seg.cells_live rest nx (some c.1) e pe hr x hx

theorem nodup_split {xs ys : List Nat} {a t : Nat} (h : (xs ++ a :: ys ++ [t]).Nodup) :
    xs.Nodup ∧ ys.Nodup ∧ (∀ x ∈ xs, x ≠ a ∧ x ∉ ys ∧ x ≠ t) ∧
      (∀ x ∈ ys, x ≠ a ∧ x ≠ t) ∧ a ≠ t := by
  rw [List.append_assoc, List.nodup_append] at h
  obtain ⟨h1, h2, h3⟩ := h
  rw [List.cons_append, List.nodup_cons, List.nodup_append] at h2
  obtain ⟨h4, h5, h6, h7⟩ := h2
  simp only [List.mem_append, List.mem_singleton, not_or] at h4
  refine ⟨h1, h5, ?_, ?_, h4.2⟩
  · intro x hx
    refine ⟨?_, ?_, ?_⟩
    · rintro rfl; exact List.disjoint_left.1 h3 hx (by simp)
    · intro hy; exact List.disjoint_left.1 h3 hx (by simp [hy])
    · rintro rfl; exact List.disjoint_left.1 h3 hx (by simp)
  · intro x hx
    refine ⟨?_, ?_⟩
    · rintro rfl; exact h4.1 hx
    · rintro rfl; exact List.disjoint_left.1 h7 hx (by simp)

variable {α : Type}

/-! ## The list: append and erase on a well formed list -/

theorem append_spec {q : LinkedList α} {cells : List (Nat × α)} (h : q.Holds cells) (y : α)
    (hb : cells.length + 1 < 2 ^ 64) :
    ∃ q', q.append y = Except.ok q' ∧ q'.Holds (cells ++ [(q.brk, y)]) ∧
      q'.brk = q.brk + 1 ∧ q'.tail = q.tail := by
  obtain ⟨pe, g, hseg, htail⟩ := h.seg
  have htb : q.tail < q.brk := h.live_lt htail
  have hlive := Seg.cells_live _ _ _ _ _ hseg
  have hnd := h.nodup
  have hsz : (q.size + 1) % 2 ^ 64 = cells.length + 1 := by
    rw [h.size]; exact Nat.mod_eq_of_lt hb
  have hfresh : ∀ x, x ∈ cells.map Prod.fst → x ≠ q.brk := by
    intro x hx e
    obtain ⟨n, hn⟩ := hlive x hx
    have := h.live_lt hn
    omega
  have hnd' : ((cells ++ [(q.brk, y)]).map Prod.fst ++ [q.tail]).Nodup := by
    rw [List.map_append, List.append_assoc]
    rw [List.nodup_append] at hnd ⊢
    refine ⟨hnd.1, ?_, ?_⟩
    · simp only [List.map_cons, List.map_nil, List.singleton_append, List.nodup_cons,
        List.mem_singleton, List.not_mem_nil, not_false_eq_true, List.nodup_nil, and_true]
      omega
    · intro x hx hx2
      simp only [List.map_cons, List.map_nil, List.singleton_append, List.mem_cons,
        List.mem_singleton, List.not_mem_nil, or_false] at hx2
      rcases hx2 with rfl | rfl
      · exact hfresh _ hx rfl
      · exact hnd.2.2 hx (by simp)
  rcases List.eq_nil_or_concat cells with rfl | ⟨pre, c, hcells⟩
  · obtain ⟨hh, hp⟩ := hseg
    subst hp
    obtain ⟨q', e, hbrk, htl, hsize, hhead, hmt, hmb, _, hrest⟩ :=
      emplace_tail_eval htail htb y (fun p hp => by cases hp)
    refine ⟨q', e, ⟨⟨some q.brk, g, ?_, by rw [htl]; exact hmt⟩, by rw [htl]; exact hnd',
      by rw [hsize, hsz]; simp, ?_⟩, hbrk, htl⟩
    · exact ⟨by simpa using hhead, q.tail, hmb, htl.symm, rfl⟩
    · intro a ha
      rw [hrest a (by omega) (by omega) (by simp)]
      exact h.fresh a (by omega)
  · rw [List.concat_eq_append] at hcells
    subst hcells
    obtain ⟨pm, hpre, hc, hpe⟩ := (Seg_snoc pre c q.head none q.tail pe).1 hseg
    subst hpe
    have hcm : c.1 ∈ (pre ++ [c]).map Prod.fst := by simp
    have hct : c.1 ≠ q.tail := by
      intro e
      rw [List.nodup_append] at hnd
      exact hnd.2.2 hcm (by simp [e])
    obtain ⟨q', e, hbrk, htl, hsize, hhead, hmt, hmb, hprev, hrest⟩ :=
      emplace_tail_eval htail htb y (fun p hp => by
        cases hp
        exact ⟨_, hc, hct, h.live_lt hc⟩)
    have hndpre : ∀ x, x ∈ pre.map Prod.fst → x ≠ c.1 := by
      intro x hx e
      rw [List.nodup_append] at hnd
      have h1 := hnd.1
      rw [List.map_append, List.nodup_append] at h1
      exact h1.2.2 hx (by simp [e])
    refine ⟨q', e, ⟨⟨some q.brk, g, ?_, by rw [htl]; exact hmt⟩, by rw [htl]; exact hnd',
      by rw [hsize, hsz]; simp, ?_⟩, hbrk, htl⟩
    · rw [Seg_snoc]
      refine ⟨some c.1, (Seg_snoc _ _ _ _ _ _).2 ⟨pm, ?_, ?_, rfl⟩, ?_, rfl⟩
      · have hh : q'.head = q.head := by simpa using hhead
        rw [hh]
        refine Seg.congr_mem pre _ _ _ _ ?_ hpre
        intro x hx
        have hx2 : x ∈ (pre ++ [c]).map Prod.fst := by
          simp only [List.map_append, List.mem_append]; exact Or.inl hx
        refine hrest x ?_ (hfresh x hx2) ?_
        · intro e
          rw [List.nodup_append] at hnd
          exact hnd.2.2 hx2 (by simp [e])
        · intro e
          simp only [Option.some.injEq] at e
          exact hndpre x hx e.symm
      · rw [hprev c.1 _ rfl hc]
      · rw [htl]; exact hmb
    · intro a ha
      have hcb := h.live_lt hc
      rw [hrest a (by omega) (by omega) (by simp; omega)]
      exact h.fresh a (by omega)

variable {α : Type}

theorem eraseAt_spec {q : LinkedList α} {pre post : List (Nat × α)} {a : Nat} {x : α}
    (h : q.Holds (pre ++ (a, x) :: post)) (hb : pre.length + post.length + 1 ≤ 2 ^ 64) :
    ∃ q', q.eraseAt (some a) = Except.ok q' ∧ q'.Holds (pre ++ post) ∧
      q'.brk = q.brk ∧ q'.tail = q.tail := by
  obtain ⟨pe, g, hseg, htail⟩ := h.seg
  obtain ⟨mid, pm, hpre, hmid, nx, ha, hpost⟩ := (Seg_append _ _ _ _ _ _).1 hseg
  simp only at hmid ha hpost
  subst hmid
  have hnd := h.nodup
  rw [List.map_append, List.map_cons] at hnd
  obtain ⟨ndA, ndB, hA, hB, hat⟩ := nodup_split hnd
  -- the cell after the erased one
  have hnxc : ∃ nxc, q.mem nx = some nxc ∧ nxc.prev = some mid ∧
      (nx = q.tail ∨ nx ∈ post.map Prod.fst) := by
    cases post with
    | nil =>
      obtain ⟨rfl, rfl⟩ := hpost
      exact ⟨_, htail, rfl, Or.inl rfl⟩
    | cons c post' =>
      obtain ⟨rfl, nx', hc, _⟩ := hpost
      exact ⟨_, hc, rfl, Or.inr (by simp)⟩
  obtain ⟨nxc, hnx, hnp, hnxpos⟩ := hnxc
  have hane : mid ≠ nx := by
    rcases hnxpos with e | e
    · rw [e]; exact hat
    · intro e2; rw [← e2] at e; exact (hB mid e).1 rfl
  -- the cell before the erased one
  have hpm : (pm = none ∧ pre = [] ∧ q.head = mid) ∨
      ∃ pre' c pm', pre = pre' ++ [c] ∧ pm = some c.1 ∧
        Seg q.mem pre' q.head none c.1 pm' ∧ q.mem c.1 = some ⟨pm', some mid, c.2⟩ := by
    rcases List.eq_nil_or_concat pre with rfl | ⟨pre', c, hcells⟩
    · obtain ⟨e1, e2⟩ := hpre
      exact Or.inl ⟨e2.symm, rfl, e1⟩
    · rw [List.concat_eq_append] at hcells
      subst hcells
      obtain ⟨pm', h1, h2, h3⟩ := (Seg_snoc _ _ _ _ _ _).1 hpre
      exact Or.inr ⟨pre', c, pm', rfl, h3, h1, h2⟩
  have hpa : ∀ p, pm = some p → ∃ pn, q.mem p = some pn ∧ p ≠ mid ∧ p ≠ nx := by
    intro p hp
    rcases hpm with ⟨e, _, _⟩ | ⟨pre', c, pm', rfl, e, _, hc⟩
    · rw [e] at hp; cases hp
    · rw [e] at hp
      cases hp
      have hcm : c.1 ∈ (pre' ++ [c]).map Prod.fst := by simp
      obtain ⟨k1, k2, k3⟩ := hA c.1 hcm
      refine ⟨_, hc, k1, ?_⟩
      rcases hnxpos with e | e
      · rw [e]; exact k3
      · intro e2; rw [← e2] at e; exact k2 e
  have hbrk : 1 ≤ q.brk := by
    have := h.live_lt ha
    omega
  obtain ⟨q', e, hbrk', htl, hsize, hhead, hma, hmnx, hprev, hrest⟩ :=
    eraseAt_eval ha hnx hnp hane hpa hbrk
  have hnd' : ((pre ++ post).map Prod.fst ++ [q.tail]).Nodup := by
    refine hnd.sublist ?_
    rw [List.map_append]
    refine List.Sublist.append (List.Sublist.append (List.Sublist.refl _) ?_)
      (List.Sublist.refl _)
    exact List.sublist_cons_self _ _
  have hsz : q'.size = (pre ++ post).length := by
    rw [hsize, h.size]
    simp only [List.length_append, List.length_cons]
    have : pre.length + (post.length + 1) + (2 ^ 64 - 1) =
        (pre.length + post.length) + 2 ^ 64 := by
      have : 1 ≤ 2 ^ 64 := Nat.one_le_two_pow
      omega
    rw [this, Nat.add_mod_right]
    exact Nat.mod_eq_of_lt (by omega)
  have hfresh : ∀ b, q.brk ≤ b → q'.mem b = none := by
    intro b hb2
    by_cases h1 : b = mid
    · rw [h1]; exact hma
    · have h2 : b ≠ nx := by
        intro e2
        have := h.live_lt hnx
        omega
      have h3 : pm ≠ some b := by
        intro e2
        obtain ⟨pn, hpn, _⟩ := hpa b e2
        have := h.live_lt hpn
        omega
      rw [hrest b h1 h2 h3]
      exact h.fresh b hb2
  -- the cells in front, now linked to nx
  have hfront : Seg q'.mem pre q'.head none nx pm := by
    rcases hpm with ⟨e1, e2, e3⟩ | ⟨pre', c, pm', rfl, e1, hseg', hc⟩
    · subst e1 e2
      exact ⟨by simpa using hhead, rfl⟩
    · subst e1
      have hh : q'.head = q.head := by simpa using hhead
      rw [hh]
      refine (Seg_snoc _ _ _ _ _ _).2 ⟨pm', ?_, ?_, rfl⟩
      · refine Seg.congr_mem pre' _ _ _ _ ?_ hseg'
        intro y hy
        have hy2 : y ∈ (pre' ++ [c]).map Prod.fst := by
          simp only [List.map_append, List.mem_append]; exact Or.inl hy
        obtain ⟨k1, k2, k3⟩ := hA y hy2
        refine hrest y k1 ?_ ?_
        · rcases hnxpos with e | e
          · rw [e]; exact k3
          · intro e2; rw [← e2] at e; exact k2 e
        · intro e2
          simp only [Option.some.injEq] at e2
          rw [List.map_append, List.nodup_append] at ndA
          exact ndA.2.2 hy (by simp [e2])
      · rw [hprev c.1 _ rfl hc]
  -- the cells behind, the first now with the prev link of the erased cell
  have hback : ∃ pe' g', Seg q'.mem post nx pm q'.tail pe' ∧
      q'.mem q'.tail = some ⟨pe', none, g'⟩ := by
    rw [htl]
    cases post with
    | nil =>
      obtain ⟨e1, e2⟩ := hpost
      subst e1
      rw [htail] at hnx
      cases hnx
      exact ⟨pm, g, ⟨rfl, rfl⟩, hmnx⟩
    | cons c post' =>
      obtain ⟨e1, nx', hc, hseg'⟩ := hpost
      subst e1
      rw [hc] at hnx
      cases hnx
      have hcm : c.1 ∈ (c :: post').map Prod.fst := by simp
      have hpmB : ∀ y, y ∈ (c :: post').map Prod.fst → pm ≠ some y := by
        intro y hy e2
        rcases hpm with ⟨e1, _, _⟩ | ⟨pre', c2, pm', rfl, e1, _, _⟩
        · rw [e1] at e2; cases e2
        · rw [e1] at e2
          cases e2
          exact (hA c2.1 (by simp)).2.1 hy
      refine ⟨pe, g, ⟨rfl, nx', hmnx, ?_⟩, ?_⟩
      · refine Seg.congr_mem post' _ _ _ _ ?_ hseg'
        intro y hy
        have hy2 : y ∈ (c :: post').map Prod.fst := by
          simp only [List.map_cons, List.mem_cons]; exact Or.inr hy
        refine hrest y (hB y hy2).1 ?_ (hpmB y hy2)
        intro e2
        simp only [List.map_cons, List.nodup_cons] at ndB
        exact ndB.1 (e2 ▸ hy)
      · rw [hrest q.tail (fun e2 => hat e2.symm) (fun e2 => (hB c.1 hcm).2 e2.symm) ?_]
        · exact htail
        · intro e2
          rcases hpm with ⟨e1, _, _⟩ | ⟨pre', c2, pm', rfl, e1, _, _⟩
          · rw [e1] at e2; cases e2
          · rw [e1] at e2
            simp only [Option.some.injEq] at e2
            exact (hA c2.1 (by simp)).2.2 e2
  obtain ⟨pe', g', hb1, hb2⟩ := hback
  exact ⟨q', e, ⟨⟨pe', g', (Seg_append _ _ _ _ _ _).2 ⟨nx, pm, hfront, hb1⟩, hb2⟩,
    by rw [htl]; exact hnd', hsz, by rw [hbrk']; exact hfresh⟩, hbrk', htl⟩

variable {α : Type}

/-! ## The list as a queue -/

theorem pop_front_spec {q : LinkedList α} {a : Nat} {x : α} {rest : List (Nat × α)}
    (h : q.Holds ((a, x) :: rest)) (hb : rest.length + 1 ≤ 2 ^ 64) :
    ∃ q', q.pop_front = Except.ok q' ∧ q'.Holds rest ∧ q'.brk = q.brk ∧ q'.tail = q.tail := by
  obtain ⟨pe, g, ⟨ha, _⟩, _⟩ := h.seg
  have hs : q.size ≠ 0 := by rw [h.size]; simp
  simp only at ha
  obtain ⟨q', e, h'⟩ := @eraseAt_spec _ q [] rest a x h (by simpa using hb)
  exact ⟨q', by simp only [LinkedList.pop_front, hs, if_false, ha]; exact e, h'⟩

theorem pop_back_spec {q : LinkedList α} {a : Nat} {x : α} {pre : List (Nat × α)}
    (h : q.Holds (pre ++ [(a, x)])) (hb : pre.length + 1 ≤ 2 ^ 64) :
    ∃ q', q.pop_back = Except.ok q' ∧ q'.Holds pre ∧ q'.brk = q.brk ∧ q'.tail = q.tail := by
  obtain ⟨pe, g, hseg, htail⟩ := h.seg
  obtain ⟨pm, _, _, hpe⟩ := (Seg_snoc _ _ _ _ _ _).1 hseg
  subst hpe
  have hs : q.size ≠ 0 := by rw [h.size]; simp
  obtain ⟨q', e, h'⟩ := @eraseAt_spec _ q pre [] a x h (by simpa using hb)
  rw [List.append_nil] at h'
  exact ⟨q', by
    simp only [LinkedList.pop_back, hs, if_false, LinkedList.node, htail, ok_bind]
    exact e, h'⟩

theorem pop_empty_throws (q : LinkedList α) (h : q.size = 0) :
    q.pop_front = Except.error Fault.NothingToErase ∧
      q.pop_back = Except.error Fault.NothingToErase := by
  simp [LinkedList.pop_front, LinkedList.pop_back, h]

theorem LinkedList.Holds.length_lt {q : LinkedList α} {cells : List (Nat × α)}
    (h : q.Holds cells) : cells.length + 1 ≤ q.brk := by
  obtain ⟨pe, g, hseg, htail⟩ := h.seg
  have hsub : (cells.map Prod.fst ++ [q.tail]) ⊆ List.range q.brk := by
    intro a ha
    rw [List.mem_range]
    simp only [List.mem_append, List.mem_singleton] at ha
    rcases ha with ha | rfl
    · obtain ⟨n, hn⟩ := Seg.cells_live _ _ _ _ _ hseg a ha
      exact h.live_lt hn
    · exact h.live_lt htail
  have := (List.subperm_of_subset h.nodup hsub).length_le
  simpa using this

theorem read_seg {q : LinkedList α} :
    ∀ (cells : List (Nat × α)) (a : Nat) (p : Option Nat) (pe : Option Nat) (fuel : Nat),
      Seg q.mem cells a p q.tail pe → (cells.map Prod.fst ++ [q.tail]).Nodup →
      cells.length + 1 ≤ fuel → q.read fuel a = cells.map Prod.snd
  | [], a, p, pe, fuel, h, _, hf => by
    obtain ⟨rfl, _⟩ := h
    obtain ⟨k, rfl⟩ : ∃ k, fuel = k + 1 := ⟨fuel - 1, by simp at hf; omega⟩
    simp [LinkedList.read]
  | c :: rest, a, p, pe, fuel, h, hnd, hf => by
    obtain ⟨rfl, nx, hc, hr⟩ := h
    obtain ⟨k, rfl⟩ : ∃ k, fuel = k + 1 := ⟨fuel - 1, by simp at hf; omega⟩
    have hne : c.1 ≠ q.tail := by
      intro e
      simp only [List.map_cons, List.cons_append, List.nodup_cons, List.mem_append,
        List.mem_singleton, not_or] at hnd
      exact hnd.1.2 e
    have hnd2 : (rest.map Prod.fst ++ [q.tail]).Nodup := by
      simp only [List.map_cons, List.cons_append, List.nodup_cons] at hnd
      exact hnd.2
    have ih := read_seg rest nx (some c.1) pe k hr hnd2 (by simp at hf ⊢; omega)
    simp [LinkedList.read, hne, hc, ih]

theorem LinkedList.Valid.toList_eq {q : LinkedList α} {xs : List α} (h : q.Valid xs) :
    q.toList = xs ∧ q.size = xs.length := by
  obtain ⟨cells, hH, rfl⟩ := h
  obtain ⟨pe, g, hseg, _⟩ := hH.seg
  exact ⟨read_seg cells q.head none pe q.brk hseg hH.nodup hH.length_lt, by
    rw [hH.size]; simp⟩

theorem new_list_valid (g : α) : (LinkedList.new g).Valid [] :=
  ⟨[], LinkedList.Holds.of_new g, rfl⟩

theorem front_valid {q : LinkedList α} {x : α} {xs : List α} (h : q.Valid (x :: xs)) :
    q.front = Except.ok x := by
  obtain ⟨cells, hH, hc⟩ := h
  cases cells with
  | nil => simp at hc
  | cons c rest =>
    simp only [List.map_cons, List.cons.injEq] at hc
    obtain ⟨rfl, _⟩ := hc
    exact front_spec (a := c.1) hH

theorem pop_front_valid {q : LinkedList α} {x : α} {xs : List α} (h : q.Valid (x :: xs))
    (hb : xs.length + 1 ≤ 2 ^ 64) : ∃ q', q.pop_front = Except.ok q' ∧ q'.Valid xs := by
  obtain ⟨cells, hH, hc⟩ := h
  cases cells with
  | nil => simp at hc
  | cons c rest =>
    simp only [List.map_cons, List.cons.injEq] at hc
    obtain ⟨rfl, rfl⟩ := hc
    obtain ⟨q', e, h', _⟩ := pop_front_spec (a := c.1) hH (by simpa using hb)
    exact ⟨q', e, rest, h', rfl⟩

theorem pop_back_valid {q : LinkedList α} {x : α} {xs : List α} (h : q.Valid (xs ++ [x]))
    (hb : xs.length + 1 ≤ 2 ^ 64) : ∃ q', q.pop_back = Except.ok q' ∧ q'.Valid xs := by
  obtain ⟨cells, hH, hc⟩ := h
  rcases List.eq_nil_or_concat cells with rfl | ⟨pre, c, hcells⟩
  · simp at hc
  · rw [List.concat_eq_append] at hcells
    subst hcells
    simp only [List.map_append, List.map_cons, List.map_nil] at hc
    obtain ⟨e1, e2⟩ := List.append_inj' hc rfl
    subst e1
    obtain ⟨q', e, h', _⟩ := pop_back_spec (a := c.1) (x := c.2) hH (by simpa using hb)
    exact ⟨q', e, pre, h', rfl⟩

theorem append_valid {q : LinkedList α} {xs : List α} (h : q.Valid xs) (y : α)
    (hb : xs.length + 1 < 2 ^ 64) : ∃ q', q.append y = Except.ok q' ∧ q'.Valid (xs ++ [y]) := by
  obtain ⟨cells, hH, rfl⟩ := h
  obtain ⟨q', e, h', _⟩ := append_spec hH y (by simpa using hb)
  exact ⟨q', e, _, h', by simp⟩

theorem appendAll_valid : ∀ (L : List α) (q : LinkedList α) (xs : List α), q.Valid xs →
    xs.length + L.length < 2 ^ 64 →
    ∃ q', q.appendAll L = Except.ok q' ∧ q'.Valid (xs ++ L)
  | [], q, xs, h, _ => ⟨q, rfl, by simpa using h⟩
  | y :: L, q, xs, h, hb => by
    obtain ⟨q1, e1, h1⟩ := append_valid h y (by simp at hb; omega)
    obtain ⟨q2, e2, h2⟩ := appendAll_valid L q1 (xs ++ [y]) h1 (by simp at hb ⊢; omega)
    exact ⟨q2, by simp [LinkedList.appendAll, e1, ok_bind, e2], by simpa using h2⟩

theorem drain_valid : ∀ (xs : List α) (q : LinkedList α) (fuel : Nat), q.Valid xs →
    xs.length < 2 ^ 64 → xs.length < fuel → LinkedList.drain fuel q = Except.ok xs
  | [], q, fuel, h, _, hf => by
    obtain ⟨k, rfl⟩ : ∃ k, fuel = k + 1 := ⟨fuel - 1, by simp at hf; omega⟩
    have hs := h.toList_eq.2
    simp [LinkedList.drain, hs, pure_ok]
  | x :: xs, q, fuel, h, hb, hf => by
    obtain ⟨k, rfl⟩ : ∃ k, fuel = k + 1 := ⟨fuel - 1, by simp at hf; omega⟩
    have hs := h.toList_eq.2
    obtain ⟨q1, e1, h1⟩ := pop_front_valid h (by simp at hb; omega)
    have ih := drain_valid xs q1 k h1 (by simp at hb; omega) (by simp at hf; omega)
    simp [LinkedList.drain, hs, front_valid h, ok_bind, e1, ih, pure_ok]

theorem listOf_valid (L : List Nat) (hb : L.length < 2 ^ 64) : (listOf L).Valid L := by
  obtain ⟨q, e, h⟩ := appendAll_valid L (LinkedList.new 0) [] (new_list_valid 0)
    (by simpa using hb)
  simp only [listOf, e]
  simpa using h

variable {α : Type}

theorem bind_not_nothing {β γ : Type} {x : Except Fault β} {f : β → Except Fault γ}
    (hx : x ≠ Except.error Fault.NothingToErase)
    (hf : ∀ b, f b ≠ Except.error Fault.NothingToErase) :
    (x >>= f) ≠ Except.error Fault.NothingToErase := by
  cases x with
  | error e =>
    rw [error_bind]
    intro h
    cases h
    exact hx rfl
  | ok b => rw [ok_bind]; exact hf b

theorem list_node_not_nothing (q : LinkedList α) (p : Option Nat) :
    q.node p ≠ Except.error Fault.NothingToErase := by
  unfold LinkedList.node
  repeat' split
  all_goals simp

theorem eraseWalk_not_nothing (e : Option Nat) : ∀ (fuel : Nat) (q : LinkedList α)
    (ptr : Option Nat), LinkedList.eraseWalk e fuel q ptr ≠ Except.error Fault.NothingToErase
  | 0, q, ptr => by simp [LinkedList.eraseWalk]
  | fuel + 1, q, ptr => by
    unfold LinkedList.eraseWalk
    split
    · refine bind_not_nothing (list_node_not_nothing _ _) (fun n => ?_)
      refine bind_not_nothing (list_node_not_nothing _ _) (fun nx => ?_)
      exact eraseWalk_not_nothing e fuel _ _
    · simp [pure_ok]

theorem eraseAt_not_nothing (q : LinkedList α) (pos : Option Nat) :
    q.eraseAt pos ≠ Except.error Fault.NothingToErase := by
  unfold LinkedList.eraseAt
  refine bind_not_nothing ?_ (fun e => ?_)
  · unfold LinkedList.increment
    refine bind_not_nothing (list_node_not_nothing _ _) (fun n => ?_)
    split <;> simp [pure_ok]
  · unfold LinkedList.erase
    refine bind_not_nothing (list_node_not_nothing _ _) (fun bn => ?_)
    refine bind_not_nothing ?_ (fun q1 => ?_)
    · split
      · refine bind_not_nothing (list_node_not_nothing _ _) (fun pn => ?_)
        simp [pure_ok]
      · split <;> simp [pure_ok]
    · refine bind_not_nothing (eraseWalk_not_nothing _ _ _ _) (fun q2 => ?_)
      refine bind_not_nothing (list_node_not_nothing _ _) (fun en => ?_)
      split <;> simp [pure_ok]

theorem pop_nonempty_not_nothing (q : LinkedList α) (h : q.size ≠ 0) :
    q.pop_front ≠ Except.error Fault.NothingToErase ∧
      q.pop_back ≠ Except.error Fault.NothingToErase := by
  constructor
  · simp only [LinkedList.pop_front, h, if_false]
    exact eraseAt_not_nothing _ _
  · simp only [LinkedList.pop_back, h, if_false]
    exact bind_not_nothing (list_node_not_nothing _ _) (fun t => eraseAt_not_nothing _ _)

/-! ## Trees under construction -/

theorem pends_position : ∀ (P : PTree V) (C0 : PCtx V) (e : Tree V × Nat), e ∈ P.pends →
    ∃ C : PCtx V, C0.plug P = C.plug (.pend e.1 e.2) := by
  intro P
  induction P with
  | nil => intro C0 e h; simp [PTree.pends] at h
  | pend s x =>
    intro C0 e h
    simp only [PTree.pends, List.mem_singleton] at h
    subst h
    exact ⟨C0, rfl⟩
  | fict x => intro C0 e h; simp [PTree.pends] at h
  | node l x c v r ihl ihr =>
    intro C0 e h
    simp only [PTree.pends, List.mem_append] at h
    rcases h with h | h
    · exact ihl (.left C0 x c v r) e h
    · exact ihr (.right l x c v C0) e h

theorem pplug_addrs : ∀ (C : PCtx V) (A : PTree V),
    (C.plug A).addrs.Perm (A.addrs ++ C.addrs)
  | .top, A => by simp [PCtx.plug, PCtx.addrs]
  | .left up x c v r, A => by
    simp only [PCtx.plug, PCtx.addrs]
    refine (pplug_addrs up _).trans ?_
    simp only [PTree.addrs, List.append_assoc, List.cons_append]
    exact List.Perm.refl _
  | .right l x c v up, A => by
    simp only [PCtx.plug, PCtx.addrs]
    refine (pplug_addrs up _).trans ?_
    simp only [PTree.addrs, List.append_assoc, List.cons_append]
    refine (List.Perm.append_left l.addrs List.perm_middle.symm).trans ?_
    rw [← List.append_assoc, ← List.append_assoc]
    exact List.Perm.append_right _ List.perm_append_comm

theorem pplug_pends : ∀ (C : PCtx V), ∃ rest : List (Tree V × Nat),
    ∀ A : PTree V, (C.plug A).pends.Perm (A.pends ++ rest)
  | .top => ⟨[], fun A => by simp [PCtx.plug]⟩
  | .left up x c v r => by
    obtain ⟨rest, h⟩ := pplug_pends up
    refine ⟨r.pends ++ rest, fun A => ?_⟩
    simp only [PCtx.plug]
    refine (h _).trans ?_
    simp [PTree.pends]
  | .right l x c v up => by
    obtain ⟨rest, h⟩ := pplug_pends up
    refine ⟨l.pends ++ rest, fun A => ?_⟩
    simp only [PCtx.plug]
    refine (h _).trans ?_
    simp only [PTree.pends]
    rw [← List.append_assoc]
    exact List.Perm.append_right _ List.perm_append_comm

theorem pplug_ficts : ∀ (C : PCtx V), ∃ rest : List Nat,
    ∀ A : PTree V, (C.plug A).ficts.Perm (A.ficts ++ rest)
  | .top => ⟨[], fun A => by simp [PCtx.plug]⟩
  | .left up x c v r => by
    obtain ⟨rest, h⟩ := pplug_ficts up
    refine ⟨r.ficts ++ rest, fun A => ?_⟩
    simp only [PCtx.plug]
    refine (h _).trans ?_
    simp [PTree.ficts]
  | .right l x c v up => by
    obtain ⟨rest, h⟩ := pplug_ficts up
    refine ⟨l.ficts ++ rest, fun A => ?_⟩
    simp only [PCtx.plug]
    refine (h _).trans ?_
    simp only [PTree.ficts]
    rw [← List.append_assoc]
    exact List.Perm.append_right _ List.perm_append_comm

theorem pplug_done : ∀ (C : PCtx V), ∃ k : Nat,
    ∀ A : PTree V, (C.plug A).toTree.nodes.length = A.toTree.nodes.length + k
  | .top => ⟨0, fun A => by simp [PCtx.plug]⟩
  | .left up x c v r => by
    obtain ⟨k, h⟩ := pplug_done up
    refine ⟨r.toTree.nodes.length + 1 + k, fun A => ?_⟩
    simp only [PCtx.plug]
    rw [h]
    simp [PTree.toTree, Tree.nodes]
    omega
  | .right l x c v up => by
    obtain ⟨k, h⟩ := pplug_done up
    refine ⟨l.toTree.nodes.length + 1 + k, fun A => ?_⟩
    simp only [PCtx.plug]
    rw [h]
    simp [PTree.toTree, Tree.nodes]
    omega

theorem pplug_ptr : ∀ (C : PCtx V) (A B : PTree V), A.ptr = B.ptr →
    (C.plug A).ptr = (C.plug B).ptr
  | .top, A, B, h => h
  | .left up x c v r, A, B, h => pplug_ptr up _ _ rfl
  | .right l x c v up, A, B, h => pplug_ptr up _ _ rfl

theorem PRep.congr_p {m m' : Nat → Option (RBNode V)} : ∀ (P : PTree V) (par : Option Nat),
    (∀ y, y ∈ P.addrs → m' y = m y) → PRep m P par → PRep m' P par
  | .nil, _, _, _ => trivial
  | .pend s x, par, hm, h => by
    obtain ⟨cell, h1, h2⟩ := h
    exact ⟨cell, by rw [hm x (by simp [PTree.addrs])]; exact h1, h2⟩
  | .fict x, par, hm, h => by
    obtain ⟨g, h1⟩ := h
    exact ⟨g, by rw [hm x (by simp [PTree.addrs])]; exact h1⟩
  | .node l x c v r, par, hm, h => by
    obtain ⟨h1, h2, h3⟩ := h
    refine ⟨by rw [hm x (by simp [PTree.addrs])]; exact h1, ?_, ?_⟩
    · exact PRep.congr_p l _ (fun y hy => hm y (by simp [PTree.addrs, hy])) h2
    · exact PRep.congr_p r _ (fun y hy => hm y (by simp [PTree.addrs, hy])) h3

theorem PRep.live_p {m : Nat → Option (RBNode V)} : ∀ (P : PTree V) (par : Option Nat),
    PRep m P par → ∀ y, y ∈ P.addrs → ∃ n, m y = some n
  | .nil, _, _, y, hy => by simp [PTree.addrs] at hy
  | .pend s x, par, h, y, hy => by
    obtain ⟨cell, h1, _⟩ := h
    simp only [PTree.addrs, List.mem_singleton] at hy
    subst hy
    exact ⟨_, h1⟩
  | .fict x, par, h, y, hy => by
    obtain ⟨g, h1⟩ := h
    simp only [PTree.addrs, List.mem_singleton] at hy
    subst hy
    exact ⟨_, h1⟩
  | .node l x c v r, par, h, y, hy => by
    obtain ⟨h1, h2, h3⟩ := h
    simp only [PTree.addrs, List.mem_append, List.mem_cons] at hy
    rcases hy with hy | rfl | hy
    · exact PRep.live_p l _ h2 y hy
    · exact ⟨_, h1⟩
    · exact PRep.live_p r _ h3 y hy

theorem PRep_frame {m : Nat → Option (RBNode V)} : ∀ (C : PCtx V) (A : PTree V)
    (par : Option Nat), PRep m (C.plug A) par →
    ∃ par', PRep m A par' ∧ ∀ (m' : Nat → Option (RBNode V)) (B : PTree V),
      B.ptr = A.ptr → PRep m' B par' → (∀ y, y ∈ C.addrs → m' y = m y) →
      PRep m' (C.plug B) par
  | .top, A, par, h => ⟨par, h, fun m' B _ hB _ => hB⟩
  | .left up x c v r, A, par, h => by
    obtain ⟨par2, ⟨h1, h2, h3⟩, hf⟩ := PRep_frame up (.node A x c v r) par h
    refine ⟨some x, h2, fun m' B hp hB hm => ?_⟩
    refine hf m' (.node B x c v r) rfl ⟨?_, hB, ?_⟩ ?_
    · rw [hm x (by simp [PCtx.addrs]), hp]; exact h1
    · exact PRep.congr_p r _ (fun y hy => hm y (by simp [PCtx.addrs, hy])) h3
    · intro y hy; exact hm y (by simp [PCtx.addrs, hy])
  | .right l x c v up, A, par, h => by
    obtain ⟨par2, ⟨h1, h2, h3⟩, hf⟩ := PRep_frame up (.node l x c v A) par h
    refine ⟨some x, h3, fun m' B hp hB hm => ?_⟩
    refine hf m' (.node l x c v B) rfl ⟨?_, ?_, hB⟩ ?_
    · rw [hm x (by simp [PCtx.addrs]), hp]; exact h1
    · exact PRep.congr_p l _ (fun y hy => hm y (by simp [PCtx.addrs, hy])) h2
    · intro y hy; exact hm y (by simp [PCtx.addrs, hy])

theorem Matches_frame : ∀ (C : PCtx V) (A : PTree V) (T : Tree V), (C.plug A).Matches T →
    ∃ s, A.Matches s ∧ ∀ B : PTree V, B.Matches s → (C.plug B).Matches T
  | .top, A, T, h => ⟨T, h, fun B hB => hB⟩
  | .left up x c v r, A, T, h => by
    obtain ⟨s, ⟨tl, a, tr, rfl, h1, h2⟩, hf⟩ := Matches_frame up (.node A x c v r) T h
    exact ⟨tl, h1, fun B hB => hf _ ⟨tl, a, tr, rfl, hB, h2⟩⟩
  | .right l x c v up, A, T, h => by
    obtain ⟨s, ⟨tl, a, tr, rfl, h1, h2⟩, hf⟩ := Matches_frame up (.node l x c v A) T h
    exact ⟨tr, h2, fun B hB => hf _ ⟨tl, a, tr, rfl, h1, hB⟩⟩

theorem Matches_noFict : ∀ (P : PTree V) (T : Tree V), P.Matches T → T.noFict = true →
    P.ficts = [] ∧ ∀ e, e ∈ P.pends → e.1.noFict = true
  | .nil, T, h, hn => ⟨rfl, fun e he => by simp [PTree.pends] at he⟩
  | .pend s x, T, h, hn => by
    refine ⟨rfl, fun e he => ?_⟩
    simp only [PTree.pends, List.mem_singleton] at he
    subst he
    rw [← show T = s from h]
    exact hn
  | .fict x, T, h, hn => by
    rw [show T = Tree.fict from h] at hn
    simp [Tree.noFict] at hn
  | .node l x c v r, T, h, hn => by
    obtain ⟨tl, a, tr, rfl, h1, h2⟩ := h
    simp only [Tree.noFict, Bool.and_eq_true] at hn
    obtain ⟨k1, k2⟩ := Matches_noFict l tl h1 hn.1
    obtain ⟨k3, k4⟩ := Matches_noFict r tr h2 hn.2
    refine ⟨by simp [PTree.ficts, k1, k3], fun e he => ?_⟩
    simp only [PTree.pends, List.mem_append] at he
    rcases he with he | he
    · exact k2 e he
    · exact k4 e he

theorem Matches_endsFict : ∀ (P : PTree V) (T : Tree V), P.Matches T → T.endsFict = true →
    ∀ x, ((Tree.fict : Tree V), x) ∈ P.pends → P.ficts = []
  | .nil, T, h, hn, x, hx => rfl
  | .pend s y, T, h, hn, x, hx => rfl
  | .fict y, T, h, hn, x, hx => by simp [PTree.pends] at hx
  | .node l y c v r, T, h, hn, x, hx => by
    obtain ⟨tl, a, tr, rfl, h1, h2⟩ := h
    simp only [Tree.endsFict, Bool.and_eq_true] at hn
    obtain ⟨k1, k2⟩ := Matches_noFict l tl h1 hn.1
    simp only [PTree.pends, List.mem_append] at hx
    rcases hx with hx | hx
    · have := k2 _ hx
      simp [Tree.noFict] at this
    · have := Matches_endsFict r tr h2 hn.2 x hx
      simp [PTree.ficts, k1, this]

/-! ## The copy constructor: one pass through the loop -/

theorem copyChild_spec (junk : RBNode V) {d : RBTree V} {q : LinkedList (Nat × Nat)}
    {qs : List (Nat × Nat)} {dst : Nat} {cell : RBNode V} (c : Option Nat) (isleft : Bool)
    (hd : d.mem dst = some cell) (hlt : dst < d.brk) (hq : q.Valid qs)
    (hb : qs.length + 1 < 2 ^ 64) :
    ∃ d' q', copyChild junk d q dst c isleft = Except.ok (d', q') ∧
      d'.root = d.root ∧ d'.fictional = d.fictional ∧ d'.size = d.size ∧
      d'.brk = d.brk + (if c = none then 0 else 1) ∧
      d'.mem dst = some (if isleft = true then { cell with left := c.map (fun _ => d.brk) }
        else { cell with right := c.map (fun _ => d.brk) }) ∧
      (c ≠ none → d'.mem d.brk = some { junk with parent := some dst }) ∧
      (∀ j, j ≠ dst → j ≠ d.brk → d'.mem j = d.mem j) ∧
      (c = none → d'.mem d.brk = d.mem d.brk) ∧
      q'.Valid (qs ++ c.toList.map (fun s => (s, d.brk))) := by
  have hne : dst ≠ d.brk := by omega
  have hne2 : d.brk ≠ dst := by omega
  cases c with
  | none =>
    cases isleft with
    | true =>
      refine ⟨_, q, by
        simp only [copyChild, RBTree.setLeft, hd, ok_bind, pure_ok, if_true]
        rfl, ?_⟩
      refine ⟨rfl, rfl, rfl, rfl, by simp [RBTree.put], by simp, ?_, ?_, by simpa using hq⟩
      · intro j h1 _; simp [RBTree.put, h1]
      · intro _; simp [RBTree.put, hne2]
    | false =>
      refine ⟨_, q, by
        simp only [copyChild, RBTree.setRight, hd, ok_bind, pure_ok, if_false,
          Bool.false_eq_true]
        rfl, ?_⟩
      refine ⟨rfl, rfl, rfl, rfl, by simp [RBTree.put], by simp, ?_, ?_, by simpa using hq⟩
      · intro j h1 _; simp [RBTree.put, h1]
      · intro _; simp [RBTree.put, hne2]
  | some s =>
    obtain ⟨q', e, hq'⟩ := append_valid hq (s, d.brk) hb
    cases isleft with
    | true =>
      refine ⟨_, q', by
        simp only [copyChild, RBTree.allocate, RBTree.setLeft, RBTree.setParent, hd, ok_bind,
          pure_ok, if_true, hne, if_false, RBTree.put, hne2, e]
        rfl, ?_⟩
      refine ⟨rfl, rfl, rfl, by simp, by simp [hne], by simp [hne2], ?_, by simp,
        by simpa using hq'⟩
      intro j h1 h2; simp [h1, h2]
    | false =>
      refine ⟨_, q', by
        simp only [copyChild, RBTree.allocate, RBTree.setRight, RBTree.setParent, hd, ok_bind,
          pure_ok, if_true, hne, if_false, RBTree.put, hne2, e, Bool.false_eq_true]
        rfl, ?_⟩
      refine ⟨rfl, rfl, rfl, by simp, by simp [hne], by simp [hne2], ?_, by simp,
        by simpa using hq'⟩
      intro j h1 h2; simp [h1, h2]

theorem copyLoop_body (junk : RBNode V) (src : RBTree V) {d : RBTree V}
    {q : LinkedList (Nat × Nat)} {rest : List (Nat × Nat)} {a x : Nat} {cell : RBNode V}
    {sp cl cr : Option Nat} {v : V} {c : Color} (fuel : Nat)
    (hq : q.Valid ((a, x) :: rest)) (hd : d.mem x = some cell) (hlt : x < d.brk)
    (hs : src.mem a = some ⟨sp, cl, cr, v, c⟩) (hb : rest.length + 3 < 2 ^ 64) :
    ∃ d' q', copyLoop junk src (fuel + 1) d q = copyLoop junk src fuel d' q' ∧
      q'.Valid (rest ++ cl.toList.map (fun s => (s, d.brk)) ++
        cr.toList.map (fun s => (s, d.brk + (if cl = none then 0 else 1)))) ∧
      d'.root = d.root ∧
      d'.fictional = (if a = src.fictional then x else d.fictional) ∧
      d'.size = (if a = src.fictional then d.size else (d.size + 1) % 2 ^ 64) ∧
      d'.brk = d.brk + (if cl = none then 0 else 1) + (if cr = none then 0 else 1) ∧
      d'.mem x = some ⟨cell.parent, cl.map (fun _ => d.brk),
        cr.map (fun _ => d.brk + (if cl = none then 0 else 1)),
        (if a = src.fictional then cell.val else v), c⟩ ∧
      (cl ≠ none → d'.mem d.brk = some { junk with parent := some x }) ∧
      (cr ≠ none → d'.mem (d.brk + (if cl = none then 0 else 1)) =
        some { junk with parent := some x }) ∧
      (∀ j, j ≠ x → j < d.brk → d'.mem j = d.mem j) ∧
      (∀ j, d.brk + (if cl = none then 0 else 1) + (if cr = none then 0 else 1) ≤ j →
        d'.mem j = d.mem j) := by
  have hsz : (q.size != 0) = true := by
    rw [hq.toList_eq.2]; simp
  have hfront := front_valid hq
  -- the store after the value, the size, the end marker and the color are set
  obtain ⟨d1, d2, e1, e2, h2root, h2fict, h2size, h2brk, h2x, h2rest⟩ :
      ∃ d1 d2 : RBTree V,
        (if (a != src.fictional) = true then (do
            let d' ← d.setVal (some x) v
            pure d'.incSize)
          else pure { d with fictional := x }) = Except.ok d1 ∧
        d1.setColor (some x) c = Except.ok d2 ∧
        d2.root = d.root ∧
        d2.fictional = (if a = src.fictional then x else d.fictional) ∧
        d2.size = (if a = src.fictional then d.size else (d.size + 1) % 2 ^ 64) ∧
        d2.brk = d.brk ∧
        d2.mem x = some ⟨cell.parent, cell.left, cell.right,
          (if a = src.fictional then cell.val else v), c⟩ ∧
        (∀ j, j ≠ x → d2.mem j = d.mem j) := by
    by_cases hF : a = src.fictional
    · have hF2 : (a != src.fictional) = false := by simpa using hF
      refine ⟨_, _, by
        simp only [hF2, Bool.false_eq_true, if_false, pure_ok]
        rfl, by
        simp only [RBTree.setColor, hd]
        rfl, ?_⟩
      refine ⟨rfl, by simp [hF, RBTree.put], by simp [hF, RBTree.put], rfl,
        by simp [hF, RBTree.put], ?_⟩
      intro j hj; simp [RBTree.put, hj]
    · have hF2 : (a != src.fictional) = true := by simpa using hF
      refine ⟨_, _, by
        simp only [hF2, if_true, RBTree.setVal, hd, ok_bind, pure_ok]
        rfl, by
        simp only [RBTree.setColor, RBTree.put, RBTree.incSize, if_true]
        rfl, ?_⟩
      refine ⟨rfl, by simp [hF], by simp [hF], rfl, by simp [hF], ?_⟩
      intro j hj; simp [hj]
  obtain ⟨d3, q3, e3, h3root, h3fict, h3size, h3brk, h3x, h3new, h3rest, h3none, hq3⟩ :=
    copyChild_spec junk cl true h2x (by omega) hq (by simp; omega)
  rw [h2brk] at h3brk h3new h3rest h3none hq3
  simp only [if_true] at h3x
  have h3x' : d3.mem x = some ⟨cell.parent, cl.map (fun _ => d.brk), cell.right,
      (if a = src.fictional then cell.val else v), c⟩ := by
    rw [h3x, h2brk]
  obtain ⟨d4, q4, e4, h4root, h4fict, h4size, h4brk, h4x, h4new, h4rest, h4none, hq4⟩ :=
    copyChild_spec junk cr false h3x' (by rw [h3brk]; omega) hq3 (by
      cases cl <;> simp <;> omega)
  rw [h3brk] at h4brk h4new h4rest h4none hq4 h4x
  simp only [Bool.false_eq_true, if_false] at h4x
  obtain ⟨q5, e5, hq5⟩ := pop_front_valid (x := (a, x)) (by simpa using hq4) (by
    cases cl <;> cases cr <;> simp <;> omega)
  refine ⟨d4, q5, ?_, by simpa using hq5, by rw [h4root, h3root, h2root],
    by rw [h4fict, h3fict, h2fict], by rw [h4size, h3size, h2size], h4brk, h4x, ?_, h4new,
    ?_, ?_⟩
  · have hnode : src.node (some a) = Except.ok ⟨sp, cl, cr, v, c⟩ := by
      simp [RBTree.node, hs]
    rw [copyLoop]
    simp only [hsz, if_true, hfront, ok_bind, hnode]
    rw [e1]
    simp only [ok_bind, e2, e3, e4, e5]
  · intro hcl
    have hk : (if cl = none then 0 else 1) = 1 := by simp [hcl]
    rw [hk] at h4rest
    rw [h4rest d.brk (by omega) (by omega)]
    exact h3new hcl
  · intro j hjx hj
    have hk : j ≠ d.brk + (if cl = none then 0 else 1) := by omega
    rw [h4rest j hjx hk, h3rest j hjx (by omega), h2rest j hjx]
  · intro j hj
    have hx : j ≠ x := by omega
    by_cases h1 : j = d.brk + (if cl = none then 0 else 1)
    · have hcr : cr = none := by
        by_contra hcr
        simp only [hcr, if_false] at hj
        omega
      rw [h1, h4none hcr]
      by_cases hcl : cl = none
      · simp only [hcl, if_true, Nat.add_zero]
        rw [h3none hcl, h2rest _ (by omega)]
      · simp only [hcl, if_false]
        rw [h3rest _ (by omega) (by omega), h2rest _ (by omega)]
    · rw [h4rest j hx h1]
      by_cases h2 : j = d.brk
      · have hcl : cl = none := by
          by_contra hcl
          simp only [hcl, if_false] at hj
          omega
        rw [h2, h3none hcl, h2rest _ (by omega)]
      · rw [h3rest j hx h2, h2rest j hx]

/-! ## The copy constructor: the loop invariant -/

theorem CopyInv.replace {src : RBTree V} {chk : Bool} {T : Tree V} {d D : RBTree V}
    {rest : List (Nat × Nat)} {C : PCtx V} {s : Tree V} {x : Nat} {B : PTree V}
    (hE : T.endsFict = true)
    (hI : CopyInv src chk T d (pendEntry src.fictional (s, x) :: rest) (C.plug (.pend s x)))
    (hBm : B.Matches s) (hBp : B.ptr = some x)
    (hBr : ∀ par', (∃ cell, d.mem x = some cell ∧ cell.parent = par') → PRep D.mem B par')
    (hmem : ∀ j, j ≠ x → j < d.brk → D.mem j = d.mem j)
    (hBn : B.addrs.Nodup) (hBa : ∀ y, y ∈ B.addrs → y = x ∨ d.brk ≤ y)
    (hfresh : ∀ a, D.brk ≤ a → D.mem a = none)
    (hroot : D.root = d.root)
    (hficts : (B.ficts = [] ∧ D.fictional = d.fictional) ∨
      (B.ficts = [x] ∧ D.fictional = x ∧ s = .fict))
    (hpok : ∀ e, e ∈ B.pends → e.1 ≠ .nil ∧ src.fictional ∉ e.1.nodes ∧
      ∃ par, Rep src.mem src.fictional chk e.1 par)
    (hsize : D.size = d.size + B.toTree.nodes.length)
    (hcount : B.toTree.nodes.length + (B.pends.map (fun e => e.1.count)).sum ≤ s.count) :
    CopyInv src chk T D (rest ++ B.pends.map (pendEntry src.fictional)) (C.plug B) := by
  obtain ⟨s0, hs0, hMf⟩ := Matches_frame C _ T hI.matches_src
  have hs0' : s0 = s := hs0
  subst hs0'
  obtain ⟨par', hpr, hRf⟩ := PRep_frame C _ none hI.rep
  obtain ⟨restP, hP⟩ := pplug_pends C
  obtain ⟨restF, hF⟩ := pplug_ficts C
  obtain ⟨k, hk⟩ := pplug_done C
  have haddr := pplug_addrs C (.pend s0 x)
  have hnd0 : (x :: C.addrs).Nodup := by
    have := haddr.nodup_iff.1 hI.nodup
    simpa [PTree.addrs] using this
  have hxC : x ∉ C.addrs := (List.nodup_cons.1 hnd0).1
  have hCnd : C.addrs.Nodup := (List.nodup_cons.1 hnd0).2
  have hClt : ∀ y, y ∈ C.addrs → y < d.brk := by
    intro y hy
    have hy2 : y ∈ (C.plug (.pend s0 x)).addrs :=
      haddr.symm.subset (by simp [hy])
    obtain ⟨n, hn⟩ := PRep.live_p _ _ hI.rep y hy2
    by_contra hge
    rw [hI.fresh y (by omega)] at hn
    cases hn
  have hpendP : ∀ e, e ∈ (C.plug (.pend s0 x)).pends ↔ e = (s0, x) ∨ e ∈ restP := by
    intro e
    rw [(hP _).mem_iff]
    simp [PTree.pends]
  have hpendB : ∀ e, e ∈ (C.plug B).pends ↔ e ∈ B.pends ∨ e ∈ restP := by
    intro e
    rw [(hP _).mem_iff]
    simp
  have hq0 : rest.Perm (restP.map (pendEntry src.fictional)) := by
    have h1 := hI.queue
    have h2 := (hP (.pend s0 x)).map (pendEntry src.fictional)
    have h3 := h1.trans h2
    simp only [PTree.pends, List.singleton_append, List.map_cons] at h3
    exact h3.cons_inv
  have hsumP : ((C.plug (.pend s0 x)).pends.map (fun e => e.1.count)).sum =
      s0.count + (restP.map (fun e => e.1.count)).sum := by
    rw [((hP _).map _).sum_eq]
    simp [PTree.pends]
  have hsumB : ((C.plug B).pends.map (fun e => e.1.count)).sum =
      (B.pends.map (fun e => e.1.count)).sum + (restP.map (fun e => e.1.count)).sum := by
    rw [((hP _).map _).sum_eq]
    simp
  have hdoneP : (C.plug (.pend s0 x)).toTree.nodes.length = k := by
    rw [hk]; simp [PTree.toTree, Tree.nodes]
  refine ⟨hMf B hBm, ?_, ?_, ?_, hfresh, ?_, ?_, ?_, ?_, ?_⟩
  · exact hRf D.mem B hBp (hBr par' hpr) (fun y hy =>
      hmem y (fun e => hxC (e ▸ hy)) (hClt y hy))
  · rw [pplug_ptr C B (.pend s0 x) hBp, hI.root, hroot]
  · refine (pplug_addrs C B).nodup_iff.2 ?_
    rw [List.nodup_append]
    refine ⟨hBn, hCnd, ?_⟩
    intro y hy1 hy2
    rcases hBa y hy1 with e | e
    · exact hxC (e ▸ hy2)
    · have := hClt y hy2
      omega
  · intro y hy
    have hy2 := (hF B).mem_iff.1 hy
    rw [List.mem_append] at hy2
    rcases hficts with ⟨h1, h2⟩ | ⟨h1, h2, h3⟩
    · rw [h1] at hy2
      rcases hy2 with hy2 | hy2
      · simp at hy2
      · rw [h2]
        exact hI.ficts y ((hF _).mem_iff.2 (by simp [hy2]))
    · subst h3
      have hnil := Matches_endsFict _ T hI.matches_src hE x ((hpendP _).2 (Or.inl rfl))
      have h4 := (hF (.pend Tree.fict x))
      rw [hnil] at h4
      have h5 : restF = [] := by
        have := h4.symm.eq_nil
        simpa [PTree.ficts] using this
      rw [h1, h5] at hy2
      simp only [List.mem_singleton, List.not_mem_nil, or_false] at hy2
      rw [hy2, h2]
  · refine List.Perm.trans ?_ ((hP B).map (pendEntry src.fictional)).symm
    rw [List.map_append]
    exact (List.Perm.append_right _ hq0).trans List.perm_append_comm
  · intro e he
    rcases (hpendB e).1 he with h1 | h1
    · exact hpok e h1
    · exact hI.pend_ok e ((hpendP e).2 (Or.inr h1))
  · rw [hsize, hI.size, hdoneP, hk]
    omega
  · have h1 := hI.count
    rw [hdoneP, hsumP] at h1
    rw [hk, hsumB]
    omega

theorem child_facts (s : Tree V) (F x : Nat) (par : Option Nat) (m : Nat → Option (RBNode V))
    (junk : RBNode V) (hm : s.ptr F ≠ none → m x = some { junk with parent := par }) :
    (PTree.child s (s.ptr F) x).Matches s ∧
    (PTree.child s (s.ptr F) x).ptr = (s.ptr F).map (fun _ => x) ∧
    PRep m (PTree.child s (s.ptr F) x) par ∧
    (PTree.child s (s.ptr F) x).addrs = (s.ptr F).toList.map (fun _ => x) ∧
    (PTree.child s (s.ptr F) x).ficts = [] ∧
    (PTree.child s (s.ptr F) x).toTree = .nil ∧
    (PTree.child s (s.ptr F) x).pends.map (pendEntry F) =
      (s.ptr F).toList.map (fun a => (a, x)) ∧
    ((PTree.child s (s.ptr F) x).pends.map (fun e => e.1.count)).sum = s.count ∧
    (∀ e, e ∈ (PTree.child s (s.ptr F) x).pends → e = (s, x) ∧ s ≠ .nil) := by
  cases h : s.ptr F with
  | none =>
    have hs : s = .nil := (ptr_none_iff F s).1 h
    subst hs
    simp [PTree.child, PTree.Matches, PTree.ptr, PRep, PTree.addrs, PTree.ficts, PTree.toTree,
      PTree.pends, Tree.count]
  | some a =>
    have hs : s ≠ .nil := fun e => by rw [e] at h; simp [Tree.ptr] at h
    have hm2 := hm (by rw [h]; simp)
    simp only [PTree.child, PTree.Matches, PTree.ptr, PRep, PTree.addrs, PTree.ficts,
      PTree.toTree, PTree.pends, Option.map_some', Option.toList_some, List.map_cons,
      List.map_nil, pendEntry, h, Option.getD_some, List.sum_cons, List.sum_nil, Nat.add_zero,
      List.mem_singleton, true_and]
    exact ⟨⟨_, hm2, rfl⟩, fun e he => ⟨he, hs⟩⟩

theorem pplug_todo (C : PCtx V) : ∃ k : Nat, ∀ A : PTree V,
    ((C.plug A).pends.map (fun e => e.1.count)).sum =
      (A.pends.map (fun e => e.1.count)).sum + k := by
  obtain ⟨rest, h⟩ := pplug_pends C
  refine ⟨(rest.map (fun e => e.1.count)).sum, fun A => ?_⟩
  rw [((h A).map _).sum_eq]
  simp

theorem pends_length_le : ∀ (L : List (Tree V × Nat)), (∀ e, e ∈ L → e.1 ≠ .nil) →
    L.length ≤ (L.map (fun e => e.1.count)).sum
  | [], _ => by simp
  | e :: L, h => by
    have h1 := pends_length_le L (fun e2 he2 => h e2 (by simp [he2]))
    have h2 : 1 ≤ e.1.count := by
      have := h e (by simp)
      cases he : e.1 with
      | nil => exact absurd he this
      | fict => simp [Tree.count]
      | node l a c v r => simp [Tree.count]; omega
    simp only [List.length_cons, List.map_cons, List.sum_cons]
    omega

theorem copy_step (junk : RBNode V) {src : RBTree V} {chk : Bool} {T : Tree V}
    {d : RBTree V} {q : LinkedList (Nat × Nat)} {qs : List (Nat × Nat)} {P : PTree V}
    (hE : T.endsFict = true) (hN : T.count + 3 < 2 ^ 64) (hq : q.Valid qs)
    (hI : CopyInv src chk T d qs P) (hne : qs ≠ []) (fuel : Nat) :
    ∃ d' q' qs' P', copyLoop junk src (fuel + 1) d q = copyLoop junk src fuel d' q' ∧
      q'.Valid qs' ∧ CopyInv src chk T d' qs' P' ∧
      (P'.pends.map (fun e => e.1.count)).sum + 1 =
        (P.pends.map (fun e => e.1.count)).sum := by
  cases qs with
  | nil => exact absurd rfl hne
  | cons hd rest =>
    have hmem : hd ∈ P.pends.map (pendEntry src.fictional) :=
      hI.queue.subset (List.mem_cons_self _ _)
    obtain ⟨e, he, hfe⟩ := List.mem_map.1 hmem
    obtain ⟨s, x⟩ := e
    obtain ⟨C, hC⟩ := pends_position P .top (s, x) he
    simp only [PCtx.plug] at hC
    subst hC
    subst hfe
    obtain ⟨hsn, hFs, par, hRep⟩ := hI.pend_ok (s, x) he
    simp only at hsn hFs hRep
    obtain ⟨par', ⟨cell, hcell, hcp⟩, _⟩ := PRep_frame C _ none hI.rep
    have hlt : x < d.brk := by
      by_contra hge
      rw [hI.fresh x (by omega)] at hcell
      cases hcell
    have hlen : rest.length + 1 ≤ ((C.plug (.pend s x)).pends.map (fun e => e.1.count)).sum := by
      have h1 := hI.queue.length_eq
      simp only [List.length_cons, List.length_map] at h1
      rw [h1]
      exact pends_length_le _ (fun e he => (hI.pend_ok e he).1)
    have hcnt := hI.count
    have hb : rest.length + 3 < 2 ^ 64 := by omega
    have hszlt : d.size + 1 < 2 ^ 64 := by
      rw [hI.size]; omega
    obtain ⟨k, hk⟩ := pplug_todo C
    cases s with
    | nil => exact absurd rfl hsn
    | fict =>
      obtain ⟨pp, g, hsrc, _⟩ := hRep
      have hq' : q.Valid ((src.fictional, x) :: rest) := hq
      obtain ⟨d', q', e1, hq1, h1root, h1fict, h1size, h1brk, h1x, _, _, h1rest, h1fresh⟩ :=
        copyLoop_body junk src fuel hq' hcell hlt hsrc hb
      simp only [if_true, Option.toList_none, List.map_nil, List.append_nil, Nat.add_zero,
        Option.map_none'] at hq1 h1fict h1size h1brk h1x h1fresh
      have hI' := CopyInv.replace (B := PTree.fict x) (D := d') hE hI rfl rfl
        (by
          rintro p2 ⟨cell2, hc2, hp2⟩
          rw [hcell] at hc2
          cases hc2
          exact ⟨cell.val, by rw [h1x, hp2]⟩)
        h1rest (by simp [PTree.addrs]) (by simp [PTree.addrs])
        (by
          intro a ha
          rw [h1fresh a (by omega)]
          exact hI.fresh a (by omega))
        h1root (Or.inr ⟨rfl, h1fict, rfl⟩) (by simp [PTree.pends])
        (by simp [PTree.toTree, Tree.nodes, h1size]) (by simp [PTree.toTree, Tree.nodes,
          PTree.pends, Tree.count])
      refine ⟨d', q', _, _, e1, ?_, hI', ?_⟩
      · simpa [PTree.pends] using hq1
      · rw [hk, hk]
        simp only [PTree.pends, List.map_cons, List.map_nil, List.sum_cons, List.sum_nil,
          Tree.count]
        omega
    | node l a c v r =>
      obtain ⟨hsrc, hRl, hRr⟩ := hRep
      have haF : a ≠ src.fictional := by
        intro e
        apply hFs
        simp [Tree.nodes, e]
      have hq' : q.Valid ((a, x) :: rest) := hq
      obtain ⟨d', q', e1, hq1, h1root, h1fict, h1size, h1brk, h1x, h1l, h1r, h1rest,
        h1fresh⟩ := copyLoop_body junk src fuel hq' hcell hlt hsrc hb
      simp only [haF, if_false] at h1fict h1size h1x
      obtain ⟨l1, l2, l3, l4, l5, l6, l7, l8, l9⟩ :=
        child_facts l src.fictional d.brk (some x) d'.mem junk h1l
      obtain ⟨r1, r2, r3, r4, r5, r6, r7, r8, r9⟩ :=
        child_facts r src.fictional
          (d.brk + (if l.ptr src.fictional = none then 0 else 1)) (some x) d'.mem junk h1r
      have hI' := CopyInv.replace
        (B := PTree.node (PTree.child l (l.ptr src.fictional) d.brk) x c v
          (PTree.child r (r.ptr src.fictional)
            (d.brk + (if l.ptr src.fictional = none then 0 else 1))))
        (D := d') hE hI ⟨l, a, r, rfl, l1, r1⟩ rfl
        (by
          rintro p2 ⟨cell2, hc2, hp2⟩
          rw [hcell] at hc2
          cases hc2
          exact ⟨by rw [h1x, hp2, l2, r2], l3, r3⟩)
        h1rest
        (by
          simp only [PTree.addrs, l4, r4]
          cases l.ptr src.fictional <;> cases r.ptr src.fictional <;> simp <;> omega)
        (by
          intro y hy
          simp only [PTree.addrs, l4, r4, List.mem_append, List.mem_cons, List.mem_map,
            Option.mem_toList, Option.mem_def] at hy
          rcases hy with ⟨_, _, rfl⟩ | rfl | ⟨_, _, rfl⟩
          · exact Or.inr (Nat.le_refl _)
          · exact Or.inl rfl
          · exact Or.inr (Nat.le_add_right _ _))
        (by
          intro j hj
          rw [h1fresh j (by omega)]
          exact hI.fresh j (by omega))
        h1root (Or.inl ⟨by simp [PTree.ficts, l5, r5], h1fict⟩)
        (by
          intro e he
          simp only [PTree.pends, List.mem_append] at he
          rcases he with he | he
          · obtain ⟨rfl, hl⟩ := l9 e he
            exact ⟨hl, fun hm => hFs (by simp [Tree.nodes, hm]), _, hRl⟩
          · obtain ⟨rfl, hr⟩ := r9 e he
            exact ⟨hr, fun hm => hFs (by simp [Tree.nodes, hm]), _, hRr⟩)
        (by
          simp only [PTree.toTree, l6, r6, Tree.nodes, List.nil_append, List.length_singleton]
          rw [h1size]
          exact Nat.mod_eq_of_lt hszlt)
        (by
          simp only [PTree.toTree, l6, r6, Tree.nodes, List.nil_append, List.length_singleton,
            PTree.pends, List.map_append, List.sum_append, l8, r8, Tree.count]
          omega)
      refine ⟨d', q', _, _, e1, ?_, hI', ?_⟩
      · simp only [PTree.pends, List.map_append, l7, r7]
        rw [← List.append_assoc]
        exact hq1
      · rw [hk, hk]
        simp only [PTree.pends, List.map_append, List.sum_append, l8, r8, List.map_cons,
          List.map_nil, List.sum_cons, List.sum_nil, Tree.count]
        omega

/-! ## The copy constructor: the whole loop -/

theorem copy_loop (junk : RBNode V) {src : RBTree V} {chk : Bool} {T : Tree V}
    (hE : T.endsFict = true) (hN : T.count + 3 < 2 ^ 64) :
    ∀ (n fuel : Nat) (d : RBTree V) (q : LinkedList (Nat × Nat)) (qs : List (Nat × Nat))
      (P : PTree V), q.Valid qs → CopyInv src chk T d qs P →
      (P.pends.map (fun e => e.1.count)).sum = n → n + 1 ≤ fuel →
      ∃ d' P', copyLoop junk src fuel d q = Except.ok d' ∧ CopyInv src chk T d' [] P' ∧
        P'.pends = [] := by
  intro n
  induction n using Nat.strong_induction_on with
  | _ n ih =>
    intro fuel d q qs P hq hI hn hf
    obtain ⟨k, rfl⟩ : ∃ k, fuel = k + 1 := ⟨fuel - 1, by omega⟩
    by_cases hqs : qs = []
    · subst hqs
      have hp : P.pends = [] := by
        have := hI.queue.symm.eq_nil
        simpa using this
      have hs : q.size = 0 := by rw [hq.toList_eq.2]; rfl
      refine ⟨d, P, ?_, hI, hp⟩
      simp [copyLoop, hs, pure_ok]
    · obtain ⟨d', q', qs', P', e, hq', hI', hdec⟩ := copy_step junk hE hN hq hI hqs k
      obtain ⟨d2, P2, e2, h2⟩ := ih _ (by omega) k d' q' qs' P' hq' hI' rfl (by omega)
      exact ⟨d2, P2, by rw [e, e2], h2⟩

theorem complete_rep {m : Nat → Option (RBNode V)} (F : Nat) : ∀ (P : PTree V)
    (par : Option Nat), P.pends = [] → (∀ y, y ∈ P.ficts → y = F) → PRep m P par →
    Rep m F true P.toTree par ∧ P.toTree.ptr F = P.ptr ∧ P.toTree.addrs F = P.addrs
  | .nil, par, _, _, _ => ⟨trivial, rfl, rfl⟩
  | .pend s x, par, hp, _, _ => by simp [PTree.pends] at hp
  | .fict x, par, _, hf, h => by
    obtain ⟨g, hg⟩ := h
    have hx : x = F := hf x (by simp [PTree.ficts])
    subst hx
    exact ⟨⟨par, g, hg, fun _ => rfl⟩, rfl, rfl⟩
  | .node l x c v r, par, hp, hf, h => by
    obtain ⟨h1, h2, h3⟩ := h
    simp only [PTree.pends, List.append_eq_nil] at hp
    obtain ⟨l1, l2, l3⟩ := complete_rep F l (some x) hp.1
      (fun y hy => hf y (by simp [PTree.ficts, hy])) h2
    obtain ⟨r1, r2, r3⟩ := complete_rep F r (some x) hp.2
      (fun y hy => hf y (by simp [PTree.ficts, hy])) h3
    refine ⟨⟨?_, l1, r1⟩, rfl, ?_⟩
    · rw [l2, r2]; exact h1
    · simp only [PTree.toTree, Tree.addrs, PTree.addrs, l3, r3]

theorem complete_shape : ∀ (P : PTree V) (T : Tree V), P.pends = [] → P.Matches T →
    Tree.SameShape T P.toTree
  | .nil, T, _, h => by
    rw [show T = Tree.nil from h]
    simp [PTree.toTree, Tree.SameShape]
  | .pend s x, T, hp, _ => by simp [PTree.pends] at hp
  | .fict x, T, _, h => by
    rw [show T = Tree.fict from h]
    simp [PTree.toTree, Tree.SameShape]
  | .node l x c v r, T, hp, h => by
    obtain ⟨tl, a, tr, rfl, h1, h2⟩ := h
    simp only [PTree.pends, List.append_eq_nil] at hp
    exact ⟨rfl, rfl, complete_shape l tl hp.1 h1, complete_shape r tr hp.2 h2⟩

theorem SameShape.props : ∀ (T T' : Tree V), Tree.SameShape T T' →
    T.inorder = T'.inorder ∧ T.endsFict = T'.endsFict ∧ T.noFict = T'.noFict ∧
      T.nodes.length = T'.nodes.length
  | .nil, .nil, _ => ⟨rfl, rfl, rfl, rfl⟩
  | .fict, .fict, _ => ⟨rfl, rfl, rfl, rfl⟩
  | .node l a c v r, .node l' a' c' v' r', h => by
    obtain ⟨rfl, rfl, hl, hr⟩ := h
    obtain ⟨l1, l2, l3, l4⟩ := SameShape.props l l' hl
    obtain ⟨r1, r2, r3, r4⟩ := SameShape.props r r' hr
    simp [Tree.inorder, Tree.endsFict, Tree.noFict, Tree.nodes, l1, r1, l3, r2, r3, l4, r4]
  | .nil, .fict, h => by simp [Tree.SameShape] at h
  | .nil, .node _ _ _ _ _, h => by simp [Tree.SameShape] at h
  | .fict, .nil, h => by simp [Tree.SameShape] at h
  | .fict, .node _ _ _ _ _, h => by simp [Tree.SameShape] at h
  | .node _ _ _ _ _, .nil, h => by simp [Tree.SameShape] at h
  | .node _ _ _ _ _, .fict, h => by simp [Tree.SameShape] at h

theorem copy_spec (junk : RBNode V) (f0 : Nat) (pj : Nat × Nat) {src : RBTree V} {chk : Bool}
    {T : Tree V} (hM : Models src chk T) (hE : T.endsFict = true)
    (hN : T.count + 3 < 2 ^ 64) :
    ∃ d T', src.copy junk f0 pj = Except.ok d ∧ Models d true T' ∧ Tree.SameShape T T' ∧
      d.size = T.nodes.length ∧ d.inorder = src.inorder := by
  obtain ⟨q0, e0, hq0⟩ := append_valid (new_list_valid pj) (src.root, 0) (by norm_num)
  simp only [List.nil_append] at hq0
  have hTne : T ≠ .nil := by
    intro e; rw [e] at hE; simp [Tree.endsFict] at hE
  have hI0 : CopyInv src chk T
      { mem := fun j => if j = 0 then some { junk with parent := none } else none
        brk := 1, root := 0, fictional := f0, size := 0 }
      [(src.root, 0)] (.pend T 0) := by
    refine ⟨rfl, ⟨{ junk with parent := none }, by simp, rfl⟩, rfl, by simp [PTree.addrs],
      ?_, ?_, ?_, ?_, rfl, ?_⟩
    · intro a ha
      have : a ≠ 0 := by simp at ha; omega
      simp [this]
    · intro y hy; simp [PTree.ficts] at hy
    · simp [PTree.pends, pendEntry, hM.root]
    · intro e he
      simp only [PTree.pends, List.mem_singleton] at he
      subst he
      exact ⟨hTne, hM.fict_not_node hE, none, hM.rep⟩
    · simp [PTree.toTree, Tree.nodes, PTree.pends]
  have hcnt := hM.count_le
  obtain ⟨d, P, e, hI, hp⟩ := copy_loop junk hE hN T.count (src.brk + 1) _ q0 _ _ hq0 hI0
    (by simp [PTree.pends]) (by omega)
  obtain ⟨c1, c2, c3⟩ := complete_rep d.fictional P none hp hI.ficts hI.rep
  have hsh := complete_shape P T hp hI.matches_src
  obtain ⟨s1, s2, s3, s4⟩ := SameShape.props _ _ hsh
  have hM' : Models d true P.toTree :=
    ⟨c1, by rw [c2]; exact hI.root, by rw [c3]; exact hI.nodup, hI.fresh⟩
  refine ⟨d, P.toTree, ?_, hM', hsh, ?_, ?_⟩
  · simp only [RBTree.copy, e0, ok_bind]
    exact e
  · rw [hI.size, s4]
  · rw [RBTree.inorder, RBTree.inorder, hM'.toTree (by rw [← s2]; exact hE), hM.toTree hE, s1]

theorem ok_of_obs {α β : Type} {e : Except Fault α} {f : α → β} {v : β}
    (h : e.toOption.map f = some v) : ∃ t, e = Except.ok t ∧ f t = v := by
  cases e with
  | error x => simp [Except.toOption] at h
  | ok t => exact ⟨t, rfl, by simpa [Except.toOption] using h⟩

theorem Find_marker_root (P : Params K V) (t : RBTree V) (k : K) (n : RBNode V)
    (hr : t.root = t.fictional) (hm : t.mem t.fictional = some n) (hl : n.left = none)
    (hR : n.right = none) : Find P t k = Except.ok t.fictional := by
  simp only [Find, RBTree.budget, hr]
  rw [show 2 * t.brk + 2 = (2 * t.brk + 1) + 1 from rfl, FindLoop]
  simp only [RBTree.node, hm, ok_bind, pure_ok, hl, hR]
  split <;> [skip; split] <;> simp [RBTree.node, ok_bind, pure_ok, hm, hR]

theorem insert_first_state (P : Params K V) (g x : V) :
    ∃ t1, (RBTree.new g).insert P x = Except.ok t1 ∧ t1.fictional = 0 ∧ t1.root = 1 ∧
      t1.brk = 2 ∧ t1.mem 0 = some ⟨some 1, none, none, g, Color.Black⟩ ∧
      t1.mem 1 = some ⟨none, none, some 0, x, Color.Black⟩ := by
  have hF : Find P (RBTree.new g) (P.conv x) = Except.ok 0 := by
    simp only [Find, RBTree.budget, RBTree.new]
    rw [show 2 * 1 + 2 = 3 + 1 from rfl, FindLoop]
    simp only [RBTree.node, ok_bind, pure_ok, if_true]
    split <;> [skip; split] <;> simp [RBTree.node, ok_bind, pure_ok]
  have h : ((RBTree.new g).insert P x).toOption.map (fun t => (t.fictional, t.root, t.brk,
      t.mem 0, t.mem 1)) = some (0, 1, 2, some ⟨some 1, none, none, g, Color.Black⟩,
      some ⟨none, none, some 0, x, Color.Black⟩) := by
    simp only [RBTree.insert, Insert, hF, ok_bind]
    simp [attachNew, RBTree.new, RBTree.node, RBTree.allocate, RBTree.setParent, RBTree.put,
      ok_bind, pure_ok, RBTree.incSize, RBTree.budget]
    rw [show (6 : Nat) = 5 + 1 from rfl, FixAfterInsert]
    simp [RBTree.node, RBTree.setColor, RBTree.put, ok_bind, pure_ok, Except.toOption]
  obtain ⟨t1, h1, h2⟩ := ok_of_obs h
  simp only [Prod.mk.injEq] at h2
  exact ⟨t1, h1, h2⟩

theorem erase_first_state (P : Params K V) (hirr : ∀ k, P.comp k k = false) (g x : V)
    (t : RBTree V) (hf : t.fictional = 0) (hr : t.root = 1) (hb : t.brk = 2)
    (h0 : t.mem 0 = some ⟨some 1, none, none, g, Color.Black⟩)
    (h1 : t.mem 1 = some ⟨none, none, some 0, x, Color.Black⟩) :
    ∃ t2, t.erase P (P.conv x) = Except.ok t2 ∧ t2.fictional = 0 ∧ t2.root = 0 ∧
      t2.brk = 2 ∧ t2.mem 0 = some ⟨some 1, none, none, g, Color.Black⟩ ∧
      t2.mem 1 = none := by
  have hF : Find P t (P.conv x) = Except.ok 1 := by
    simp only [Find, RBTree.budget, hb, hr]
    rw [show 2 * 2 + 2 = 5 + 1 from rfl, FindLoop]
    simp [RBTree.node, ok_bind, pure_ok, h1, hirr]
  have h : (t.erase P (P.conv x)).toOption.map (fun t => (t.fictional, t.root, t.brk,
      t.mem 0, t.mem 1)) = some (0, 0, 2, some ⟨some 1, none, none, g, Color.Black⟩,
      none) := by
    simp only [RBTree.erase, hF, ok_bind, hb]
    rw [show 2 + 1 = 2 + 1 from rfl, eraseLoop]
    simp only [hf, RBTree.node, h1, ok_bind, hirr, RBTree.budget, hb]
    rw [show 2 * 2 + 2 = 5 + 1 from rfl, Erase]
    simp only [RBTree.node, ok_bind, pure_ok, h1, hf, IsBlack, RBTree.deallocate,
      RBTree.decSize, Option.isSome_none, Option.isNone_none, Bool.false_and, Bool.true_and,
      Option.isNone_some, Bool.false_or, beq_self_eq_true, if_true, if_false]
    have hne : ((1 : Nat) != 0) = true := by decide
    simp only [hne, Bool.not_false, Bool.and_self, if_true, ok_bind, Bool.false_eq_true,
      if_false]
    have hF2 := Find_marker_root P
      ({ mem := fun j => if j = 1 then none else t.mem j, brk := t.brk, root := 0,
         fictional := 0, size := (t.size + (2 ^ 64 - 1)) % 2 ^ 64 } : RBTree V) (P.conv x)
      ⟨some 1, none, none, g, Color.Black⟩ rfl (by simp [h0]) rfl rfl
    rw [hF2]
    simp only [ok_bind]
    rw [show (2 : Nat) = 1 + 1 from rfl, eraseLoop]
    simp [Except.toOption, pure_ok, h0, hb]
  obtain ⟨t1, h1, h2⟩ := ok_of_obs h
  simp only [Prod.mk.injEq] at h2
  exact ⟨t1, h1, h2⟩

theorem attachNew_stale_marker (P : Params K V) (g y : V) (t : RBTree V)
    (hf : t.fictional = 0) (hb : t.brk = 2)
    (h0 : t.mem 0 = some ⟨some 1, none, none, g, Color.Black⟩) (h1 : t.mem 1 = none) :
    attachNew P t y 0 = Except.error Fault.invalidAccess := by
  simp [attachNew, hf, RBTree.node, h0, h1, ok_bind, RBTree.allocate, hb, RBTree.setRight]
  rfl

theorem reinsert_general (P : Params K V) (hirr : ∀ k, P.comp k k = false) (g x y : V) :
    runOps P (RBTree.new g) [.insert x, .erase (P.conv x), .insert y] =
      Except.error Fault.invalidAccess := by
  obtain ⟨t1, e1, a1, a2, a3, a4, a5⟩ := insert_first_state P g x
  obtain ⟨t2, e2, b1, b2, b3, b4, b5⟩ := erase_first_state P hirr g x t1 a1 a2 a3 a4 a5
  have hF := Find_marker_root P t2 (P.conv y) _ (by rw [b1, b2]) (by rw [b1]; exact b4) rfl rfl
  rw [b1] at hF
  simp only [runOps, RBTree.apply, e1, e2, ok_bind]
  simp only [RBTree.insert, Insert, hF, ok_bind,
    attachNew_stale_marker P g y t2 b1 b3 b4 b5]
  rfl

/-! ## Length of the paths of a red-black tree -/

theorem rb_vheight : ∀ (T : Tree V) (b : Nat), T.blackHeight = some b → T.noRedRed = true →
    T.vheight ≤ 2 * b + (if T.isRed = true then 1 else 0) ∧ 2 ^ b ≤ T.inorder.length + 1
  | .nil, b, h, _ => by
    simp only [Tree.blackHeight, Option.some.injEq] at h
    subst h
    simp [Tree.vheight, Tree.inorder]
  | .fict, b, h, _ => by
    simp only [Tree.blackHeight, Option.some.injEq] at h
    subst h
    simp [Tree.vheight, Tree.inorder]
  | .node l a c v r, b, h, hn => by
    simp only [Tree.blackHeight] at h
    cases hl : l.blackHeight with
    | none => simp [hl] at h
    | some x =>
      cases hr : r.blackHeight with
      | none => simp [hl, hr] at h
      | some y =>
        simp only [hl, hr] at h
        by_cases hxy : x = y
        · subst hxy
          simp only [if_true, Option.some.injEq] at h
          simp only [Tree.noRedRed, Bool.and_eq_true, Bool.or_eq_true, decide_eq_true_eq,
            Bool.not_eq_true', ] at hn
          obtain ⟨⟨hc, hnl⟩, hnr⟩ := hn
          obtain ⟨l1, l2⟩ := rb_vheight l x hl hnl
          obtain ⟨r1, r2⟩ := rb_vheight r x hr hnr
          simp only [Tree.vheight, Tree.inorder, List.length_append, List.length_cons]
          cases c with
          | Black =>
            simp only [if_true] at h
            subst h
            have : (Tree.node l a Color.Black v r).isRed = false := rfl
            simp only [this, Bool.false_eq_true, if_false]
            refine ⟨?_, ?_⟩
            · have e1 : (if l.isRed = true then 1 else 0) ≤ 1 := by split <;> omega
              have e2 : (if r.isRed = true then 1 else 0) ≤ 1 := by split <;> omega
              omega
            · rw [pow_succ]; omega
          | Red =>
            simp only [reduceCtorEq, if_false] at h
            subst h
            have : (Tree.node l a Color.Red v r).isRed = true := rfl
            simp only [this, if_true]
            rcases hc with hc | ⟨hc1, hc2⟩
            · cases hc
            · simp only [hc1, hc2, Bool.false_eq_true, if_false] at l1 r1
              refine ⟨by omega, by omega⟩
        · simp [hxy] at h

/-! ## Find inspects one node per level -/

theorem FindLoop_vspec (P : Params K V) (t : RBTree V) (key : K) (chk : Bool) :
    ∀ (S : Tree V) (C : Ctx V) (par : Option Nat) (fuel a : Nat),
      Rep t.mem t.fictional chk S par → S.ptr t.fictional = some a → a ≠ t.fictional →
      t.fictional ∉ S.nodes → (S.endsFict = true ∨ S.noFict = true) → S.vheight ≤ fuel →
      ∃ a', ((Tree.findPath P key C S).2).ptr t.fictional = some a' ∧
        FindLoop P t key fuel a = .ok a' := by
  intro S
  induction S with
  | nil => intro C par fuel a _ hp; simp [Tree.ptr] at hp
  | fict =>
    intro C par fuel a hrep hp hne
    simp only [Tree.ptr, Option.some.injEq] at hp
    exact absurd hp.symm hne
  | node l b c v r ihl ihr =>
    intro C par fuel a hrep hp hne hF hsh hfuel
    simp only [Tree.ptr, Option.some.injEq] at hp
    subst hp
    obtain ⟨hm, hl, hr⟩ := hrep
    obtain ⟨f, rfl⟩ : ∃ f, fuel = f + 1 := ⟨fuel - 1, by simp [Tree.vheight] at hfuel; omega⟩
    simp only [Tree.vheight] at hfuel
    simp only [Tree.nodes, List.mem_append, List.mem_cons, not_or] at hF
    have hlno : l.noFict = true := by
      rcases hsh with h | h
      · simp only [Tree.endsFict, Bool.and_eq_true] at h; exact h.1
      · simp only [Tree.noFict, Bool.and_eq_true] at h; exact h.1
    have hrsh : r.endsFict = true ∨ r.noFict = true := by
      rcases hsh with h | h
      · simp only [Tree.endsFict, Bool.and_eq_true] at h; exact Or.inl h.2
      · simp only [Tree.noFict, Bool.and_eq_true] at h; exact Or.inr h.2
    simp only [FindLoop, node_of_mem hm, ok_bind]
    by_cases h1 : P.comp (P.conv v) key = true
    · simp only [h1, if_true]
      cases r with
      | nil => exact ⟨b, by simp [findPath_gt_nil, h1, Tree.ptr], by simp [Tree.ptr, pure_ok]⟩
      | fict => exact ⟨b, by simp [findPath_gt_fict, h1, Tree.ptr], by simp [Tree.ptr, pure_ok]⟩
      | node rl ra rc rv rr =>
        have hra : ra ≠ t.fictional := by
          intro h; apply hF.2.2; simp [Tree.nodes, h]
        obtain ⟨a', h1', h2'⟩ := ihr (.right l b c v C) (some b) f ra hr (by simp [Tree.ptr])
          hra hF.2.2 hrsh (by omega)
        refine ⟨a', by simpa [findPath_gt_node, h1] using h1', ?_⟩
        simp [Tree.ptr, hra, h2']
    · have h1 : P.comp (P.conv v) key = false := by simpa using h1
      simp only [h1, if_false, Bool.false_eq_true]
      by_cases h2 : P.comp key (P.conv v) = true
      · simp only [h2, if_true]
        cases l with
        | nil => exact ⟨b, by simp [findPath_lt_nil, h1, h2, Tree.ptr], by simp [Tree.ptr, pure_ok]⟩
        | fict => simp [Tree.noFict] at hlno
        | node ll la lc lv lr =>
          have hla : la ≠ t.fictional := by
            intro h; apply hF.1; simp [Tree.nodes, h]
          obtain ⟨a', h1', h2'⟩ := ihl (.left C b c v r) (some b) f la hl (by simp [Tree.ptr])
            hla hF.1 (Or.inr hlno) (by omega)
          refine ⟨a', by simpa [findPath_lt_node, h1, h2] using h1', ?_⟩
          simp [Tree.ptr, h2']
      · have h2 : P.comp key (P.conv v) = false := by simpa using h2
        refine ⟨b, by simp [findPath_eq, h1, h2, Tree.ptr], ?_⟩
        simp [h2, pure_ok]

theorem FindWithin_vheight (P : Params K V) (t : RBTree V) (key : K) (chk : Bool) (T : Tree V)
    (hM : Models t chk T) (hE : T.endsFict = true) (hne : T ≠ .fict) :
    ∃ a, FindWithin P t key T.vheight = Except.ok a ∧ Find P t key = Except.ok a := by
  have hF : t.fictional ∉ T.nodes := hM.fict_not_node hE
  have hb : T.height ≤ t.budget := by
    have := T.height_le_count
    have := hM.count_le
    simp only [RBTree.budget]; omega
  have hroot : t.root ≠ t.fictional := by
    cases T with
    | nil => simp [Tree.endsFict] at hE
    | fict => exact absurd rfl hne
    | node l a c v r =>
      have hr := hM.root
      simp only [Tree.ptr, Option.some.injEq] at hr
      intro h
      apply hF
      simp [Tree.nodes, ← h, hr]
  obtain ⟨a1, h1, h2⟩ := FindLoop_spec P t key chk T .top none t.budget t.root hM.rep hM.root
    hF hb
  obtain ⟨a2, h3, h4⟩ := FindLoop_vspec P t key chk T .top none T.vheight t.root hM.rep hM.root
    hroot hF (Or.inl hE) (le_refl _)
  have e : a2 = a1 := by rw [h1] at h3; exact (Option.some.inj h3).symm
  subst e
  obtain ⟨a, _, ha⟩ := Find_spec P t key chk T hM hF
  refine ⟨a, ?_, ha⟩
  rw [← ha]
  simp only [FindWithin, Find, h2, h4]

theorem FindWithin_empty (P : Params K V) (t : RBTree V) (key : K) (chk : Bool)
    (hM : Models t chk Tree.fict) :
    FindWithin P t key 1 = Except.ok t.fictional ∧ Find P t key = Except.ok t.fictional := by
  have hr := hM.root
  simp only [Tree.ptr, Option.some.injEq] at hr
  obtain ⟨pp, g, hm, _⟩ := hM.rep
  have hloop : ∀ f, FindLoop P t key (f + 1) t.fictional = Except.ok t.fictional := by
    intro f
    simp only [FindLoop, node_of_mem hm, ok_bind]
    split <;> [rfl; (split <;> rfl)]
  refine ⟨?_, ?_⟩
  · simp [FindWithin, ← hr, hloop, ok_bind, node_of_mem hm, pure_ok]
  · simp [Find, RBTree.budget, ← hr, hloop, ok_bind, node_of_mem hm, pure_ok]

theorem insertAll_paths (P : Params K V)
    (asym : ∀ a b, P.comp a b = true → P.comp b a = false) (g : V) (L : List V) :
    ∃ t, insertAll P (RBTree.new g) L = Except.ok t ∧
      t.toTree.vheight ≤ 2 * Nat.log 2 (t.inorder.length + 1) ∧
      (t.inorder ≠ [] → ∀ k, ∃ a, FindWithin P t k t.toTree.vheight = Except.ok a ∧
        Find P t k = Except.ok a) ∧
      (t.inorder = [] → ∀ k, FindWithin P t k 1 = Except.ok t.fictional ∧
        Find P t k = Except.ok t.fictional) := by
  obtain ⟨t, T, H, e, hM, hE, hRB, hbh, hn⟩ :=
    insertAll_rb P asym L (RBTree.new g) Tree.fict 0 (Models.new g) rfl rfl rfl rfl
  have hT : t.toTree = T := hM.toTree hE
  obtain ⟨h1, h2⟩ := rb_vheight T H hbh hn
  have hred : T.isRed = false := by
    cases T with
    | nil => rfl
    | fict => rfl
    | node l a c v r => cases c <;> simp_all [Tree.rootBlack, Tree.isRed]
  simp only [hred, Bool.false_eq_true, if_false, Nat.add_zero] at h1
  have h3 : H ≤ Nat.log 2 (T.inorder.length + 1) :=
    (Nat.pow_le_iff_le_log (by omega) (by omega)).1 h2
  refine ⟨t, e, ?_, ?_, ?_⟩
  · rw [RBTree.inorder, hT]; omega
  · intro hne k
    rw [hT]
    refine FindWithin_vheight P t k true T hM hE ?_
    rintro rfl
    exact hne (by rw [RBTree.inorder, hT]; rfl)
  · intro he k
    rw [RBTree.inorder, hT] at he
    cases T with
    | nil => simp [Tree.endsFict] at hE
    | fict => exact FindWithin_empty P t k true hM
    | node l a c v r => simp [Tree.inorder] at he

/-! ## Erase with counted calls -/

theorem depth_comp : ∀ (D C : Ctx V), (D.comp C).depth = D.depth + C.depth
  | .top, C => by simp [Ctx.comp, Ctx.depth]
  | .left up a c v r, C => by simp only [Ctx.comp, Ctx.depth, depth_comp up C]; omega
  | .right l a c v up, C => by simp only [Ctx.comp, Ctx.depth, depth_comp up C]; omega

theorem depth_vheight_le : ∀ (C : Ctx V) (S : Tree V),
    C.depth + S.vheight ≤ (C.plug S).vheight
  | .top, S => by simp [Ctx.plug, Ctx.depth]
  | .left up a c v r, S => by
    have h := depth_vheight_le up (.node S a c v r)
    simp only [Ctx.plug, Ctx.depth, Tree.vheight] at h ⊢
    omega
  | .right l a c v up, S => by
    have h := depth_vheight_le up (.node l a c v S)
    simp only [Ctx.plug, Ctx.depth, Tree.vheight] at h ⊢
    omega

theorem leaf_nodes_split (C : Ctx V) (a : Nat) (c : Color) (v : V) (r T' : Tree V)
    (h : T'.items = (C.plug r).items) :
    ∃ X Y, (C.plug (.node .nil a c v r)).nodes = X ++ a :: Y ∧ T'.nodes = X ++ Y := by
  refine ⟨C.before.filterMap (fun o => o.map Prod.fst),
    (r.items ++ C.after).filterMap (fun o => o.map Prod.fst), ?_, ?_⟩
  · rw [Tree.nodes_items, plug_items]
    simp [Tree.items, List.filterMap_append]
  · rw [Tree.nodes_items, h, plug_items]
    simp [List.filterMap_append]

theorem EraseWithin_leaf {t : RBTree V} {chk : Bool} {C : Ctx V} {a : Nat} {c : Color} {v : V}
    {r T' : Tree V} (fix fuel : Nat) (hfix : C.depth + 1 ≤ fix) (hM : Models t chk (C.plug (.node .nil a c v r)))
    (hr : r = .nil ∨ r = .fict) (hT : C.eraseLeaf c r = some T') :
    ∃ t', EraseWithin fix t (fuel + 1) a = Except.ok t' ∧ Models t' false T' ∧ t'.brk = t.brk ∧
      t'.fictional = t.fictional ∧ t'.size = (t.size + (2 ^ 64 - 1)) % 2 ^ 64 ∧
      t'.mem a = none := by
  have ha := hM.cell
  simp only [Tree.ptr_nil] at ha
  cases C with
  | top =>
    rcases hr with rfl | rfl
    · simp [Ctx.eraseLeaf] at hT
    · simp only [Ctx.eraseLeaf, Option.some.injEq] at hT
      subst hT
      simp only [Ctx.par_top, Tree.ptr_fict] at ha
      refine ⟨_, ?_, detach_top_fict hM, rfl, rfl, rfl,
        by simp [RBTree.deallocate, RBTree.decSize]⟩
      simp [EraseWithin, node_of_mem ha, ok_bind, IsBlack_node ha, pure_ok]
  | left up a1 c1 v1 r1 =>
    rcases hr with rfl | rfl
    · have hMa : Models t chk (up.plug (.node (.node .nil a c v .nil) a1 c1 v1 r1)) := hM
      have ha1 := hMa.cell
      simp only [Ctx.par_left, Tree.ptr_nil, Tree.ptr_node] at ha ha1
      obtain ⟨t1, e1, hM1, hb, hf, hsz⟩ := detach_left_nil hMa
      cases c with
      | Red =>
        simp only [Ctx.eraseLeaf, if_false, reduceCtorEq, Option.some.injEq] at hT
        subst hT
        refine ⟨_, ?_, hM1.weaken, by simp [RBTree.deallocate, RBTree.decSize, hb],
          by simp [RBTree.deallocate, RBTree.decSize, hf],
          by simp [RBTree.deallocate, RBTree.decSize, hsz],
          by simp [RBTree.deallocate, RBTree.decSize]⟩
        simp [EraseWithin, node_of_mem ha, ok_bind, IsBlack_node ha, pure_ok, node_of_mem ha1, e1]
      | Black =>
        simp only [Ctx.eraseLeaf, if_true] at hT
        have hfuel : up.depth + 2 ≤ fix := by
          simp only [Ctx.depth] at hfix
          omega
        obtain ⟨t2, e2, hM2, hs2⟩ := FixAfterErase_spec up _ true T' fix _ a1 hM1 rfl hT hfuel
        refine ⟨t2, ?_, hM2.weaken, by rw [hs2.brk]; simp [RBTree.deallocate, RBTree.decSize, hb],
          by rw [hs2.fictional]; simp [RBTree.deallocate, RBTree.decSize, hf],
          by rw [hs2.size]; simp [RBTree.deallocate, RBTree.decSize, hsz],
          hs2.dead a (by simp [RBTree.deallocate, RBTree.decSize])⟩
        simp [EraseWithin, node_of_mem ha, ok_bind, IsBlack_node ha, pure_ok, node_of_mem ha1, e1, e2]
    · simp [Ctx.eraseLeaf] at hT
  | right l1 a1 c1 v1 up =>
    rcases hr with rfl | rfl
    · have hMa : Models t chk (up.plug (.node l1 a1 c1 v1 (.node .nil a c v .nil))) := hM
      have ha1 := hMa.cell
      have hne := hMa.left_ptr_ne
      have hne' : (l1.ptr t.fictional == some a) = false := by simpa using hne
      simp only [Ctx.par_right, Tree.ptr_nil, Tree.ptr_node] at ha ha1
      obtain ⟨t1, e1, hM1, hb, hf, hsz⟩ := detach_right_nil hMa
      cases c with
      | Red =>
        simp only [Ctx.eraseLeaf, if_false, reduceCtorEq, Option.some.injEq] at hT
        subst hT
        refine ⟨_, ?_, hM1.weaken, by simp [RBTree.deallocate, RBTree.decSize, hb],
          by simp [RBTree.deallocate, RBTree.decSize, hf],
          by simp [RBTree.deallocate, RBTree.decSize, hsz],
          by simp [RBTree.deallocate, RBTree.decSize]⟩
        simp [EraseWithin, node_of_mem ha, ok_bind, IsBlack_node ha, pure_ok, node_of_mem ha1, e1,
          hne]
      | Black =>
        simp only [Ctx.eraseLeaf, if_true] at hT
        have hfuel : up.depth + 2 ≤ fix := by
          simp only [Ctx.depth] at hfix
          omega
        obtain ⟨t2, e2, hM2, hs2⟩ := FixAfterErase_spec up _ false T' fix _ a1 hM1 rfl hT hfuel
        refine ⟨t2, ?_, hM2.weaken, by rw [hs2.brk]; simp [RBTree.deallocate, RBTree.decSize, hb],
          by rw [hs2.fictional]; simp [RBTree.deallocate, RBTree.decSize, hf],
          by rw [hs2.size]; simp [RBTree.deallocate, RBTree.decSize, hsz],
          hs2.dead a (by simp [RBTree.deallocate, RBTree.decSize])⟩
        simp [EraseWithin, node_of_mem ha, ok_bind, IsBlack_node ha, pure_ok, node_of_mem ha1, e1, e2,
          hne, hne']
    · have hMa : Models t chk (up.plug (.node l1 a1 c1 v1 (.node .nil a c v .fict))) := hM
      have ha1 := hMa.cell
      have hne := hMa.left_ptr_ne
      have hne' : (l1.ptr t.fictional == some a) = false := by simpa using hne
      simp only [Ctx.par_right, Tree.ptr_fict, Tree.ptr_node] at ha ha1
      obtain ⟨t1, e1, hM1, hb, hf, hsz⟩ := detach_right_fict hMa
      cases c with
      | Red =>
        simp only [Ctx.eraseLeaf, if_false, reduceCtorEq, Option.some.injEq] at hT
        subst hT
        refine ⟨_, ?_, hM1, by simp [RBTree.deallocate, RBTree.decSize, hb],
          by simp [RBTree.deallocate, RBTree.decSize, hf],
          by simp [RBTree.deallocate, RBTree.decSize, hsz],
          by simp [RBTree.deallocate, RBTree.decSize]⟩
        simp [EraseWithin, node_of_mem ha, ok_bind, IsBlack_node ha, pure_ok, node_of_mem ha1, e1,
          hne]
      | Black =>
        simp only [Ctx.eraseLeaf, if_true] at hT
        have hfuel : up.depth + 2 ≤ fix := by
          simp only [Ctx.depth] at hfix
          omega
        obtain ⟨t2, e2, hM2, hs2⟩ := FixAfterErase_spec up _ false T' fix _ a1 hM1
          (by simp [RBTree.deallocate, RBTree.decSize, hf]) hT hfuel
        refine ⟨t2, ?_, hM2, by rw [hs2.brk]; simp [RBTree.deallocate, RBTree.decSize, hb],
          by rw [hs2.fictional]; simp [RBTree.deallocate, RBTree.decSize, hf],
          by rw [hs2.size]; simp [RBTree.deallocate, RBTree.decSize, hsz],
          hs2.dead a (by simp [RBTree.deallocate, RBTree.decSize])⟩
        simp [EraseWithin, node_of_mem ha, ok_bind, IsBlack_node ha, pure_ok, node_of_mem ha1, e1, e2,
          hne, hne']

theorem EraseWithin_sim {chk : Bool} (fix : Nat) : ∀ (fuel : Nat) (t : RBTree V) (C : Ctx V)
    (l : Tree V) (a : Nat) (c : Color) (v : V) (r : Tree V) (T' : Tree V),
    Models t chk (C.plug (.node l a c v r)) →
    t.fictional ∉ (C.plug (.node l a c v r)).nodes →
    eraseT fuel C (.node l a c v r) = some T' →
    C.depth + (Tree.node l a c v r).vheight ≤ fix →
    ∃ t', EraseWithin fix t fuel a = Except.ok t' ∧ Models t' false T' ∧ t'.brk = t.brk ∧
      t'.fictional = t.fictional ∧ t'.size = (t.size + (2 ^ 64 - 1)) % 2 ^ 64 ∧
      ∃ X m Y, (C.plug (.node l a c v r)).nodes = X ++ m :: Y ∧ T'.nodes = X ++ Y ∧
        t'.mem m = none := by
  intro fuel
  induction fuel with
  | zero => intro t C l a c v r T' _ _ h; simp [eraseT] at h
  | succ f ih =>
    intro t C l a c v r T' hM hF hT hfix
    have ha := hM.cell
    cases l with
    | fict => cases r <;> simp [eraseT] at hT
    | nil =>
      cases r with
      | nil =>
        rw [eraseT_leaf _ _ _ _ _ _ (Or.inl rfl)] at hT
        obtain ⟨t', h1, h2, h3, h4, h5, h6⟩ := EraseWithin_leaf fix f
          (by simp only [Tree.vheight] at hfix; omega) hM (Or.inl rfl) hT
        obtain ⟨X, Y, hX, hY⟩ := leaf_nodes_split C a c v .nil T' (eraseLeaf_items _ _ _ _ hT)
        exact ⟨t', h1, h2, h3, h4, h5, X, a, Y, hX, hY, h6⟩
      | fict =>
        rw [eraseT_leaf _ _ _ _ _ _ (Or.inr rfl)] at hT
        obtain ⟨t', h1, h2, h3, h4, h5, h6⟩ := EraseWithin_leaf fix f
          (by simp only [Tree.vheight] at hfix; omega) hM (Or.inr rfl) hT
        obtain ⟨X, Y, hX, hY⟩ := leaf_nodes_split C a c v .fict T' (eraseLeaf_items _ _ _ _ hT)
        exact ⟨t', h1, h2, h3, h4, h5, X, a, Y, hX, hY, h6⟩
      | node rl ra rc rv rr =>
        simp only [eraseT] at hT
        have hra : ra ≠ t.fictional := by
          rintro rfl
          exact hF (plug_nodes_mem C _ _ (by simp [Tree.nodes]))
        have hra' : (some ra == some t.fictional) = false := by simpa using hra
        simp only [Tree.ptr_nil, Tree.ptr_node] at ha
        obtain ⟨t1, e1, hM1, hs1⟩ := swapVal_right_spec hM
        have hM1' : Models t1 chk ((Ctx.right .nil a c rv C).plug (.node rl ra rc v rr)) := hM1
        have hF1 : t1.fictional ∉ ((Ctx.right .nil a c rv C).plug (.node rl ra rc v rr)).nodes := by
          rw [hs1.fictional]
          have : ((Ctx.right Tree.nil a c rv C).plug (.node rl ra rc v rr)).nodes =
              (C.plug (.node .nil a c v (.node rl ra rc rv rr))).nodes :=
            plug_nodes_congr C _ _ (by simp [Tree.nodes])
          rw [this]; exact hF
        have hN : ((Ctx.right Tree.nil a c rv C).plug (.node rl ra rc v rr)).nodes =
            (C.plug (.node .nil a c v (.node rl ra rc rv rr))).nodes :=
          plug_nodes_congr C _ _ (by simp [Tree.nodes])
        obtain ⟨t2, e2, hM2, h1, h2, h3, X, m, Y, hX, hY, hd⟩ :=
          ih t1 _ _ _ _ _ _ _ hM1' hF1 hT
            (by simp only [Tree.vheight, Ctx.depth] at hfix ⊢; omega)
        refine ⟨t2, ?_, hM2, by rw [h1, hs1.brk], by rw [h2, hs1.fictional],
          by rw [h3, hs1.size], X, m, Y, by rw [← hN]; exact hX, hY, hd⟩
        simp [EraseWithin, node_of_mem ha, ok_bind, hra, e1, e2]
    | node ll la lc lv lr =>
      have hone : ∀ (r0 : Tree V), (r0 = .nil ∨ r0 = .fict) →
          Models t chk (C.plug (.node (.node ll la lc lv lr) a c v r0)) →
          t.fictional ∉ (C.plug (.node (.node ll la lc lv lr) a c v r0)).nodes →
          eraseT f (.left C a c lv r0) (.node ll la lc v lr) = some T' →
          ∃ t', EraseWithin fix t (f + 1) a = Except.ok t' ∧ Models t' false T' ∧
            t'.brk = t.brk ∧ t'.fictional = t.fictional ∧
            t'.size = (t.size + (2 ^ 64 - 1)) % 2 ^ 64 ∧
            ∃ X m Y, (C.plug (.node (.node ll la lc lv lr) a c v r0)).nodes = X ++ m :: Y ∧
              T'.nodes = X ++ Y ∧ t'.mem m = none := by
        intro r0 hr0 hM hF hT
        have hfix0 : (Ctx.left C a c lv r0).depth + (Tree.node ll la lc v lr).vheight ≤ fix := by
          have hmono : (Tree.node ll la lc lv lr).vheight ≤
              (Tree.node (.node ll la lc lv lr) a c v r).vheight - 1 := by
            simp only [Tree.vheight]; omega
          simp only [Tree.vheight, Ctx.depth] at hfix hmono ⊢
          omega
        have ha := hM.cell
        simp only [Tree.ptr_node] at ha
        have hM0 : Models t chk (C.plug (.node (Ctx.top.plug (.node ll la lc lv lr)) a c v r0)) :=
          hM
        obtain ⟨t1, e1, hM1, hs1⟩ := swapVal_spec hM0
        have hM1' : Models t1 chk ((Ctx.left C a c lv r0).plug (.node ll la lc v lr)) := hM1
        have hF1 : t1.fictional ∉ ((Ctx.left C a c lv r0).plug (.node ll la lc v lr)).nodes := by
          rw [hs1.fictional]
          have : ((Ctx.left C a c lv r0).plug (.node ll la lc v lr)).nodes =
              (C.plug (.node (.node ll la lc lv lr) a c v r0)).nodes :=
            plug_nodes_congr C _ _ (by simp [Tree.nodes])
          rw [this]; exact hF
        have hN : ((Ctx.left C a c lv r0).plug (.node ll la lc v lr)).nodes =
            (C.plug (.node (.node ll la lc lv lr) a c v r0)).nodes :=
          plug_nodes_congr C _ _ (by simp [Tree.nodes])
        obtain ⟨t2, e2, hM2, h1, h2, h3, X, m, Y, hX, hY, hd⟩ :=
          ih t1 _ _ _ _ _ _ _ hM1' hF1 hT hfix0
        refine ⟨t2, ?_, hM2, by rw [h1, hs1.brk], by rw [h2, hs1.fictional],
          by rw [h3, hs1.size], X, m, Y, by rw [← hN]; exact hX, hY, hd⟩
        rcases hr0 with rfl | rfl
        · simp only [Tree.ptr_nil] at ha
          simp [EraseWithin, node_of_mem ha, ok_bind, e1, e2]
        · simp only [Tree.ptr_fict] at ha
          simp [EraseWithin, node_of_mem ha, ok_bind, e1, e2]
      cases r with
      | nil =>
        simp only [eraseT] at hT
        exact hone .nil (Or.inl rfl) hM hF hT
      | fict =>
        simp only [eraseT] at hT
        exact hone .fict (Or.inr rfl) hM hF hT
      | node rl ra rc rv rr =>
        rw [eraseT] at hT
        have hra : ra ≠ t.fictional := by
          rintro rfl
          exact hF (plug_nodes_mem C _ _ (by simp [Tree.nodes]))
        simp only [Tree.ptr_node] at ha
        have hpl := maxPath_plug (.node ll la lc lv lr) .top
        rcases hmp : Tree.maxPath .top (.node ll la lc lv lr) with ⟨D, M⟩
        rw [hmp] at hpl
        simp only at hpl
        simp only [hmp] at hT
        have hRl : Rep t.mem t.fictional chk (.node ll la lc lv lr) (some a) :=
          hM.decomp.2.1.2.1
        have hheight : (Tree.node ll la lc lv lr).height ≤ t.budget := by
          have h1 := (Tree.node ll la lc lv lr).height_le_count
          have h2 := hM.depth_le
          simp only [Tree.count] at h2 h1 ⊢
          simp only [RBTree.budget]
          omega
        obtain ⟨y, hy1, hy2⟩ := descendRight_spec t chk _ .top t.budget (some a) la hRl rfl
          hheight
        rw [hmp] at hy1
        simp only at hy1
        cases M with
        | nil => simp at hT
        | fict => simp at hT
        | node ml m mc mv mr =>
          cases mr with
          | fict => simp at hT
          | node _ _ _ _ _ => simp at hT
          | nil =>
            simp only at hT
            simp only [Tree.ptr_node, Option.some.injEq] at hy1
            subst hy1
            have hpl' : D.plug (.node ml m mc mv .nil) = .node ll la lc lv lr := hpl
            have hM0 : Models t chk (C.plug (.node (D.plug (.node ml m mc mv .nil)) a c v
                (.node rl ra rc rv rr))) := by rw [hpl']; exact hM
            obtain ⟨t1, e1, hM1, hs1⟩ := swapVal_spec hM0
            have hM1' : Models t1 chk ((D.comp (.left C a c mv (.node rl ra rc rv rr))).plug
                (.node ml m mc v .nil)) := by rw [plug_comp]; exact hM1
            have hN : ((Ctx.left C a c mv (.node rl ra rc rv rr)).plug
                  (D.plug (.node ml m mc v .nil))).nodes =
                  (C.plug (.node (.node ll la lc lv lr) a c v (.node rl ra rc rv rr))).nodes := by
                refine plug_nodes_congr C _ _ ?_
                have h0 : (D.plug (.node ml m mc v .nil)).nodes =
                    (Tree.node ll la lc lv lr).nodes := by
                  rw [← hpl']
                  exact plug_nodes_congr D _ _ (by simp [Tree.nodes])
                simp only [Tree.nodes] at h0 ⊢
                rw [h0]
            have hF1 : t1.fictional ∉ ((D.comp (.left C a c mv (.node rl ra rc rv rr))).plug
                (.node ml m mc v .nil)).nodes := by
              rw [hs1.fictional, plug_comp]
              have : ((Ctx.left C a c mv (.node rl ra rc rv rr)).plug
                  (D.plug (.node ml m mc v .nil))).nodes =
                  (C.plug (.node (.node ll la lc lv lr) a c v (.node rl ra rc rv rr))).nodes := by
                refine plug_nodes_congr C _ _ ?_
                have h0 : (D.plug (.node ml m mc v .nil)).nodes =
                    (Tree.node ll la lc lv lr).nodes := by
                  rw [← hpl']
                  exact plug_nodes_congr D _ _ (by simp [Tree.nodes])
                simp only [Tree.nodes] at h0 ⊢
                rw [h0]
              rw [this]; exact hF
            have hfix1 : (D.comp (.left C a c mv (.node rl ra rc rv rr))).depth +
                (Tree.node ml m mc v .nil).vheight ≤ fix := by
              have hd := depth_vheight_le D (.node ml m mc mv .nil)
              rw [hpl'] at hd
              rw [depth_comp]
              simp only [Tree.vheight, Ctx.depth] at hfix hd ⊢
              omega
            obtain ⟨t2, e2, hM2, h1, h2, h3, X, m0, Y, hX, hY, hd⟩ :=
              ih t1 _ _ _ _ _ _ _ hM1' hF1 hT hfix1
            refine ⟨t2, ?_, hM2, by rw [h1, hs1.brk], by rw [h2, hs1.fictional],
              by rw [h3, hs1.size], X, m0, Y, ?_, hY, hd⟩
            · simp [EraseWithin, node_of_mem ha, ok_bind, hra, decrement, hy2, e1, e2]
            · rw [← hN, ← plug_comp]; exact hX

theorem erase_found_within (P : Params K V) (t : RBTree V) (chk : Bool) (C : Ctx V)
    (l : Tree V) (a : Nat) (c : Color) (v : V) (r : Tree V) (H fix : Nat)
    (hfix : (C.plug (.node l a c v r)).vheight ≤ fix)
    (hM : Models t chk (C.plug (.node l a c v r)))
    (hE : (C.plug (.node l a c v r)).endsFict = true)
    (hO : (C.plug (.node l a c v r)).Ordered P)
    (hbh : (C.plug (.node l a c v r)).blackHeight = some H)
    (hn : (C.plug (.node l a c v r)).noRedRed = true) :
    ∃ (t1 : RBTree V) (T1 : Tree V) (X Y : List V) (H1 : Nat),
      EraseWithin fix t 3 a = Except.ok t1 ∧ Models t1 false T1 ∧ T1.endsFict = true ∧
      T1.Ordered P ∧ T1.blackHeight = some H1 ∧ T1.noRedRed = true ∧
      (C.plug (.node l a c v r)).inorder = X ++ v :: Y ∧ T1.inorder = X ++ Y ∧
      t1.brk = t.brk ∧ t1.fictional = t.fictional ∧
      t1.size = (t.size + (2 ^ 64 - 1)) % 2 ^ 64 ∧
      ∃ A m B, (C.plug (.node l a c v r)).nodes = A ++ m :: B ∧ T1.nodes = A ++ B ∧
        t1.mem m = none := by
  obtain ⟨T1, H1, e1, g1, g2, g3⟩ := eraseT_spec 0 C l a c v r H hbh hn hE
  obtain ⟨t1, e2, hM1, k1, k2, k3, k4⟩ := EraseWithin_sim fix 3 t C l a c v r T1 hM
    (hM.fict_not_node hE) e1 (le_trans (depth_vheight_le C _) hfix)
  have hmT : itemMarks (C.plug (.node l a c v r)).items =
      (itemMarks C.before ++ itemMarks l.items) ++ some v ::
        (itemMarks r.items ++ itemMarks C.after) := by
    rw [plug_marks]; simp [Tree.items, itemMarks]
  have hmT1 : itemMarks T1.items =
      (itemMarks C.before ++ itemMarks l.items) ++
        (itemMarks r.items ++ itemMarks C.after) := by
    rw [g3]; simp
  have hi : (C.plug (.node l a c v r)).inorder =
      ((itemMarks C.before ++ itemMarks l.items).filterMap id) ++ v ::
        ((itemMarks r.items ++ itemMarks C.after).filterMap id) := by
    rw [← itemVals_items, marks_vals, hmT]; simp [List.filterMap_append]
  have hi1 : T1.inorder =
      ((itemMarks C.before ++ itemMarks l.items).filterMap id) ++
        ((itemMarks r.items ++ itemMarks C.after).filterMap id) := by
    rw [← itemVals_items, marks_vals, hmT1]; simp [List.filterMap_append]
  refine ⟨t1, T1, _, _, H1, e2, hM1, ?_, ?_, g1, g2, hi, hi1, k1, k2, k3, k4⟩
  · obtain ⟨L, hL, hLi⟩ := (endsFict_marks _).1 hE
    rw [hmT] at hLi
    obtain ⟨L', hL', hLi'⟩ := marks_remove_ends hL hLi
    exact (endsFict_marks _).2 ⟨L', hL', by rw [hmT1]; exact hLi'⟩
  · unfold Tree.Ordered at hO ⊢
    rw [hi] at hO
    rw [hi1]
    exact hO.sublist (List.Sublist.append (List.Sublist.refl _) (List.sublist_cons_self _ _))

theorem EraseWithin_invariants (P : Params K V) (t : RBTree V) (hI : t.Invariants P)
    (n : Nat) (hn : n ∈ t.toTree.nodes) (fix : Nat) (hfix : t.toTree.vheight ≤ fix) :
    ∃ t' A m B, EraseWithin fix t 3 n = Except.ok t' ∧ t'.Invariants P ∧
      t.toTree.nodes = A ++ m :: B ∧ t'.toTree.nodes = A ++ B ∧ t'.mem m = none ∧
      t'.size = (t.size + (2 ^ 64 - 1)) % 2 ^ 64 ∧ t'.brk = t.brk := by
  obtain ⟨⟨chk, hM⟩, hE, hO, hbh, hnr⟩ := hI
  obtain ⟨H, hH⟩ := Option.isSome_iff_exists.1 hbh
  obtain ⟨C, l, c, v, r, hpos⟩ := nodes_position t.toTree .top n hn
  simp only [Ctx.plug] at hpos
  rw [hpos] at hM hE hO hH hnr hfix
  obtain ⟨t1, T1, X, Y, H1, e1, hM1, hE1, hO1, hbh1, hn1, _, _, hb, _, hs, A, m, B, hA, hB, hd⟩ :=
    erase_found_within P t chk C l n c v r H fix hfix hM hE hO hH hnr
  refine ⟨t1, A, m, B, e1, Invariants.of_models hM1 hE1 hO1 hbh1 hn1, ?_, ?_, hd, hs, hb⟩
  · rw [hpos]; exact hA
  · rw [hM1.toTree hE1]; exact hB

/-! ## The claims -/

/-- C1: the red-black invariants do not survive every sequence of insertions.  In a
multi-value tree the calls insert(2), insert(1), insert(3), insert(0), insert(2), each
through the overload taking an rvalue, return normally, yet afterwards the nodes
reachable from the root hold 2, 2, 3 while size() is 5, and the paths from the root to
the absent children do not all contain the same number of Black nodes. -/
theorem moveInsert_breaks_blackHeight :
    (runOps natMulti (RBTree.new 0)
        [.insertMove 2, .insertMove 1, .insertMove 3, .insertMove 0, .insertMove 2]).toOption.map
      (fun t => (t.inorder, t.size, t.toTree.blackHeight)) = some ([2, 2, 3], 5, none) := by
  decide

/-- C2: after insert(1), insert(2), erase(2) the parent link of the end marker still
holds the address of the node that was freed, and the following insert(3) dereferences
that address, so the run has no defined result and no ordered tree. -/
theorem insert_after_erase_max_faults :
    (runOps natSet (RBTree.new 0) [.insert 1, .insert 2, .erase 2]).toOption.map
      (fun t => ((t.mem t.fictional).map RBNode.parent, (t.mem 2).isSome, t.inorder)) =
      some (some (some 2), false, [1]) ∧
    runOps natSet (RBTree.new 0) [.insert 1, .insert 2, .erase 2, .insert 3] =
      Except.error Fault.invalidAccess :=
  ⟨by decide, rfl⟩

/-- C3: inserting the keys of a list L one after another into an empty single-value tree
with identity key extraction and a total strict order returns a tree whose in-order
value sequence is strictly increasing and has exactly the elements of L, whose size() is
the number of distinct keys of L and whose root is Black; for L = [5,3,8,1,4,7,9] the
sequence is [1,3,4,5,7,8,9], size() is 7 and the root is Black. -/
theorem ofList_inorder_sorted_distinct [DecidableEq K] (P : Params K K) (hconv : P.conv = id)
    (hmulti : P.IsMulti = false) (sw : StrictWeakOrder P.comp)
    (htot : ∀ a b, P.comp a b = false → P.comp b a = false → a = b) (g : K) (L : List K)
    (hlen : L.dedup.length < 2 ^ 64) :
    (∃ t, RBTree.ofList P g L = Except.ok t ∧
      t.inorder.Pairwise (fun a b => P.comp a b = true) ∧ (∀ x, x ∈ t.inorder ↔ x ∈ L) ∧
      t.size = L.dedup.length ∧ t.rootColor = some Color.Black) ∧
    (∀ g0 : Nat, ∃ t, RBTree.ofList natSet g0 [5, 3, 8, 1, 4, 7, 9] = Except.ok t ∧
      t.inorder = [1, 3, 4, 5, 7, 8, 9] ∧ t.size = 7 ∧ t.rootColor = some Color.Black) := by
  refine ⟨ofList_general P hconv hmulti sw htot g L hlen, ?_⟩
  intro g0
  obtain ⟨t, h1, h2, h3, h4, h5⟩ :=
    ofList_general natSet rfl rfl natLess_swo natLess_total g0 [5, 3, 8, 1, 4, 7, 9]
      (by decide)
  refine ⟨t, h1, ?_, by rw [h4]; decide, h5⟩
  refine sorted_unique t.inorder h2 _ (by decide) ?_
  intro x
  rw [h3]
  simp only [List.mem_cons, List.mem_singleton, List.not_mem_nil, or_false]
  omega

theorem ofList_inorder_sorted_distinct_witness :
    StrictWeakOrder natSet.comp ∧ [2, 1, 2, 3].dedup.length < 2 ^ 64 ∧
    ∃ t, RBTree.ofList natSet 0 [2, 1, 2, 3] = Except.ok t ∧
      t.inorder.Pairwise (fun a b => natSet.comp a b = true) ∧
      (∀ x, x ∈ t.inorder ↔ x ∈ [2, 1, 2, 3]) ∧
      t.size = [2, 1, 2, 3].dedup.length ∧ t.rootColor = some Color.Black :=
  ⟨natLess_swo, by decide,
    (ofList_inorder_sorted_distinct natSet rfl rfl natLess_swo natLess_total 0 [2, 1, 2, 3]
      (by decide)).1⟩

/-- C4: after insert(1), erase(1) the tree is empty but the parent link of the end marker
still holds the address of the freed node; the following insert(2) dereferences it, so
the inserted value cannot be found afterwards. -/
theorem insert_into_emptied_tree_faults :
    (runOps natSet (RBTree.new 0) [.insert 1, .erase 1]).toOption.map
      (fun t => ((t.mem t.fictional).map RBNode.parent, (t.mem 1).isSome, t.root, t.size)) =
      some (some (some 1), false, 0, 0) ∧
    runOps natSet (RBTree.new 0) [.insert 1, .erase 1, .insert 2] =
      Except.error Fault.invalidAccess :=
  ⟨by decide, rfl⟩

/-- C5: for a tree that satisfies the tree invariants and whose size() is the number of
stored values, erase(k) returns; afterwards no stored value has a key equivalent to k,
the other stored values are the same and in the same order, size() has gone down by
exactly the number of values whose key was equivalent to k, and the invariants hold
again; inserting 1..7 and then erase(4) leaves the in-order sequence [1,2,3,5,6,7]. -/
theorem erase_key_removes_equivalent (P : Params K V) (sw : StrictWeakOrder P.comp)
    (t : RBTree V) (hI : t.Invariants P) (hsz : t.size = t.inorder.length)
    (hlt : t.size < 2 ^ 64) (k : K) :
    (∃ t', t.erase P k = Except.ok t' ∧
      (∀ v ∈ t'.inorder, P.equiv (P.conv v) k = false) ∧
      t'.inorder = t.inorder.filter (fun v => !P.equiv (P.conv v) k) ∧
      t'.size + (t.inorder.filter (fun v => P.equiv (P.conv v) k)).length = t.size ∧
      t'.size = t'.inorder.length ∧ t'.Invariants P) ∧
    ((treeOf [1, 2, 3, 4, 5, 6, 7]).erase natSet 4).toOption.map RBTree.inorder =
      some [1, 2, 3, 5, 6, 7] := by
  refine ⟨?_, by decide⟩
  obtain ⟨⟨chk, hM⟩, hE, hO, hbh, hn⟩ := hI
  obtain ⟨H, hH⟩ := Option.isSome_iff_exists.1 hbh
  have hlt' : t.toTree.inorder.length < 2 ^ 64 := by
    rw [RBTree.inorder] at hsz
    rw [← hsz]; exact hlt
  obtain ⟨t', T', H', e, hM', hE', hO', hbh', hn', hsz', hi'⟩ :=
    erase_spec P sw k t chk t.toTree H hM hE hO hH hn hsz hlt'
  have hT' := hM'.toTree hE'
  refine ⟨t', e, ?_, ?_, ?_, ?_, Invariants.of_models hM' hE' hO' hbh' hn'⟩
  · intro v hv
    rw [RBTree.inorder, hT', hi'] at hv
    simpa using (List.mem_filter.1 hv).2
  · rw [RBTree.inorder, hT', hi']; rfl
  · rw [hsz', hi', hsz]
    exact filter_length_split (fun v => P.equiv (P.conv v) k) t.toTree.inorder
  · rw [hsz', RBTree.inorder, hT']

theorem erase_key_removes_equivalent_witness :
    (treeOf [1, 2, 3, 4, 5, 6, 7]).Invariants natSet ∧
    ∃ t', (treeOf [1, 2, 3, 4, 5, 6, 7]).erase natSet 4 = Except.ok t' ∧
      (∀ v ∈ t'.inorder, natSet.equiv (natSet.conv v) 4 = false) ∧
      t'.inorder = (treeOf [1, 2, 3, 4, 5, 6, 7]).inorder.filter
        (fun v => !natSet.equiv (natSet.conv v) 4) ∧
      t'.size + ((treeOf [1, 2, 3, 4, 5, 6, 7]).inorder.filter
        (fun v => natSet.equiv (natSet.conv v) 4)).length = (treeOf [1, 2, 3, 4, 5, 6, 7]).size ∧
      t'.size = t'.inorder.length ∧ t'.Invariants natSet :=
  ⟨treeOf_invariants _ (by decide) (by decide),
    (erase_key_removes_equivalent natSet natLess_swo (treeOf [1, 2, 3, 4, 5, 6, 7])
      (treeOf_invariants _ (by decide) (by decide)) (by decide) (by decide) 4).1⟩

/-- C6: in a well formed single-value tree, inserting a value whose key is equivalent to
the key of a stored value is rejected by every form of insertion: both Insert overloads
return no node, and insert by copy, insert by move and emplace all return the tree
object as it was (store, root, end marker and size unchanged). -/
theorem insert_equivalent_key_rejected (P : Params K V) (sw : StrictWeakOrder P.comp)
    (hmulti : P.IsMulti = false) (t : RBTree V) (hV : t.Valid P) (x : V)
    (hex : ∃ v ∈ t.inorder, P.equiv (P.conv v) (P.conv x) = true) :
    Insert P t x = Except.ok (t, none) ∧ InsertMove P t x = Except.ok (t, none) ∧
      t.insert P x = Except.ok t ∧ t.insertMove P x = Except.ok t ∧
      t.emplace P x = Except.ok t := by
  obtain ⟨chk, T, hM, hE, hO⟩ := hV
  rw [RBTree.inorder, hM.toTree hE] at hex
  exact insert_equal_rejected P sw hmulti t chk T hM hE hO x hex

theorem insert_equivalent_key_rejected_witness :
    (treeOf [5, 3, 8]).Valid natSet ∧
    (∃ v ∈ (treeOf [5, 3, 8]).inorder, natSet.equiv (natSet.conv v) (natSet.conv 3) = true) ∧
    Insert natSet (treeOf [5, 3, 8]) 3 = Except.ok (treeOf [5, 3, 8], none) ∧
    InsertMove natSet (treeOf [5, 3, 8]) 3 = Except.ok (treeOf [5, 3, 8], none) ∧
    (treeOf [5, 3, 8]).insert natSet 3 = Except.ok (treeOf [5, 3, 8]) ∧
    (treeOf [5, 3, 8]).insertMove natSet 3 = Except.ok (treeOf [5, 3, 8]) ∧
    (treeOf [5, 3, 8]).emplace natSet 3 = Except.ok (treeOf [5, 3, 8]) :=
  ⟨treeOf_valid _, ⟨3, by decide, by decide⟩,
    insert_equivalent_key_rejected natSet natLess_swo rfl (treeOf [5, 3, 8]) (treeOf_valid _) 3
      ⟨3, by decide, by decide⟩⟩

/-- C7: in a multi-value tree holding 2, 1, 3, inserting a second 2 through the overload
taking an rvalue, or through emplace, overwrites the left child link of the found node:
the value 1 is no longer reachable although size() is 4, whereas insert by copy keeps
every value and yields 1, 2, 2, 3. -/
theorem moveInsert_duplicate_loses_left_subtree :
    (runOps natMulti (RBTree.new 0) [.insert 2, .insert 1, .insert 3, .insertMove 2]).toOption.map
      (fun t => (t.inorder, t.size)) = some ([2, 2, 3], 4) ∧
    (runOps natMulti (RBTree.new 0) [.insert 2, .insert 1, .insert 3, .emplace 2]).toOption.map
      (fun t => (t.inorder, t.size)) = some ([2, 2, 3], 4) ∧
    (runOps natMulti (RBTree.new 0) [.insert 2, .insert 1, .insert 3, .insert 2]).toOption.map
      (fun t => (t.inorder, t.size)) = some ([1, 2, 2, 3], 4) := by
  decide

/-- C8: in a well formed tree, contains(k) and find(k) return, contains(k) is true exactly
when some stored value has a key equivalent to k, and find(k) is end() exactly when
contains(k) is false; find(6) is end() after inserting [5,3,8,1,4,7,9], and on the empty
tree contains(k) is false and find(k) is end(). -/
theorem contains_iff_stored (P : Params K V) (sw : StrictWeakOrder P.comp) (t : RBTree V)
    (hV : t.Valid P) (k : K) :
    (∃ b it, t.contains P k = Except.ok b ∧ t.find P k = Except.ok it ∧
      (b = true ↔ ∃ v ∈ t.inorder, P.equiv (P.conv v) k = true) ∧
      (it = t.end ↔ b = false)) ∧
    (treeOf [5, 3, 8, 1, 4, 7, 9]).find natSet 6 = Except.ok (treeOf [5, 3, 8, 1, 4, 7, 9]).end ∧
    (∀ g : V, (RBTree.new g).contains P k = Except.ok false ∧
      (RBTree.new g).find P k = Except.ok (RBTree.new g).end) := by
  have main : ∀ (t : RBTree V), t.Valid P →
      ∃ b it, t.contains P k = Except.ok b ∧ t.find P k = Except.ok it ∧
        (b = true ↔ ∃ v ∈ t.inorder, P.equiv (P.conv v) k = true) ∧
        (it = t.end ↔ b = false) := by
    intro t hV
    obtain ⟨chk, T, hM, hE, hO⟩ := hV
    rw [RBTree.inorder, hM.toTree hE]
    exact contains_find_spec P sw t chk T hM hE hO k
  refine ⟨main t hV, rfl, ?_⟩
  intro g
  obtain ⟨b, it, h1, h2, h3, h4⟩ := main (RBTree.new g) (new_valid P g)
  have hb : b = false := by
    cases b with
    | false => rfl
    | true =>
      obtain ⟨v, hv, _⟩ := h3.1 rfl
      have : (RBTree.new g).inorder = [] := by
        rw [RBTree.inorder, (Models.new g).toTree rfl]; rfl
      rw [this] at hv
      simp at hv
  subst hb
  exact ⟨h1, by rw [h2, h4.2 rfl]⟩

theorem contains_iff_stored_witness :
    (treeOf [5, 3, 8, 1, 4, 7, 9]).Valid natSet ∧
    ∃ b it, (treeOf [5, 3, 8, 1, 4, 7, 9]).contains natSet 8 = Except.ok b ∧
      (treeOf [5, 3, 8, 1, 4, 7, 9]).find natSet 8 = Except.ok it ∧
      (b = true ↔ ∃ v ∈ (treeOf [5, 3, 8, 1, 4, 7, 9]).inorder,
        natSet.equiv (natSet.conv v) 8 = true) ∧
      (it = (treeOf [5, 3, 8, 1, 4, 7, 9]).end ↔ b = false) :=
  ⟨treeOf_valid _,
    (contains_iff_stored natSet natLess_swo (treeOf [5, 3, 8, 1, 4, 7, 9]) (treeOf_valid _) 8).1⟩

/-- C9: lower_bound(k) does not return the first node whose key is not less than k, nor
end() exactly when every stored key is less than k.  In the tree built from [1,3,5] the
first node with key not less than 2, and not less than 3, holds 3, but lower_bound(2) and
lower_bound(3) return the node holding 1; the first node with key not less than 1 holds 1,
but lower_bound(1) returns end().  In the tree built from [20,30] the first node with key
not less than 25 holds 30, but lower_bound(25) throws IteratorOutOfBounds.  When every
stored key is less than k the result depends on what the storage of the end marker
holds: in the tree built from [1,3,5] lower_bound(7) returns end() when the end marker
holds 0 and the node holding 3 when it holds 9. -/
theorem lower_bound_not_first_not_less :
    (treeOf [1, 3, 5]).items = [some (1, 1), some (2, 3), some (3, 5), none] ∧
    ((treeOf [1, 3, 5]).lower_bound natSet 2).toOption.bind (treeOf [1, 3, 5]).valAt = some 1 ∧
    (firstNotLess natSet 2 (treeOf [1, 3, 5]).items).map Prod.snd = some 3 ∧
    ((treeOf [1, 3, 5]).lower_bound natSet 3).toOption.bind (treeOf [1, 3, 5]).valAt = some 1 ∧
    (firstNotLess natSet 3 (treeOf [1, 3, 5]).items).map Prod.snd = some 3 ∧
    (treeOf [1, 3, 5]).lower_bound natSet 1 = Except.ok (treeOf [1, 3, 5]).end ∧
    (firstNotLess natSet 1 (treeOf [1, 3, 5]).items).map Prod.snd = some 1 ∧
    (treeOf [20, 30]).items = [some (1, 20), some (2, 30), none] ∧
    (treeOf [20, 30]).lower_bound natSet 25 = Except.error Fault.IteratorOutOfBounds ∧
    (firstNotLess natSet 25 (treeOf [20, 30]).items).map Prod.snd = some 30 ∧
    firstNotLess natSet 7 (treeOf [1, 3, 5]).items = none ∧
    (treeOf [1, 3, 5]).lower_bound natSet 7 = Except.ok (treeOf [1, 3, 5]).end ∧
    (RBTree.ofList natSet 9 [1, 3, 5]).toOption.map (fun t => (t.items, t.end)) =
      some ([some (1, 1), some (2, 3), some (3, 5), none], 0) ∧
    (RBTree.ofList natSet 9 [1, 3, 5] >>= fun t => t.lower_bound natSet 7) = Except.ok 2 :=
  ⟨by decide, by decide, by decide, by decide, by decide, rfl, by decide, by decide, rfl,
    by decide, by decide, rfl, by decide, rfl⟩

/-- C10: upper_bound(k) does not always return the first node whose key is greater than
k.  In the tree built from [40,20,60,10] the first node with key greater than 15 holds
20, but upper_bound(15) returns the node holding 40; in the tree built from [1], whose
end marker holds 0, upper_bound(5) throws IteratorOutOfBounds instead of returning
end(). -/
theorem upper_bound_skips_successor :
    (treeOf [40, 20, 60, 10]).inorder = [10, 20, 40, 60] ∧
    ((treeOf [40, 20, 60, 10]).upper_bound natSet 15).toOption.bind
      (treeOf [40, 20, 60, 10]).valAt = some 40 ∧
    (firstGreater natSet 15 (treeOf [40, 20, 60, 10]).items).map Prod.snd = some 20 ∧
    (treeOf [1]).upper_bound natSet 5 = Except.error Fault.IteratorOutOfBounds :=
  ⟨by decide, by decide, by decide, rfl⟩

/-- C11: count(k) does not return the number of stored values whose key is equivalent to
k.  On the tree holding the single value 5, count(5) returns 0; after inserting
[10,10,10] into a multi-value tree, count(10) returns 2; on the empty tree, and on the
tree built from [1,3,5] for the key 7 that is greater than every stored key, the call
ends in the IteratorOutOfBounds thrown by operator++ at the end marker. -/
theorem count_misses_values :
    (treeOf [5]).inorder = [5] ∧
    (treeOf [5]).count natSet 5 = Except.ok 0 ∧
    (RBTree.ofList natMulti 0 [10, 10, 10]).toOption.map RBTree.inorder = some [10, 10, 10] ∧
    (RBTree.ofList natMulti 0 [10, 10, 10] >>= fun t => t.count natMulti 10) = Except.ok 2 ∧
    (RBTree.new 0).count natSet 5 = Except.error Fault.IteratorOutOfBounds ∧
    (treeOf [1, 3, 5]).count natSet 7 = Except.error Fault.IteratorOutOfBounds :=
  ⟨by decide, rfl, by decide, rfl, rfl, rfl⟩

/-- C12: equal_range(k) does not delimit the run of nodes with a key equivalent to k.
After inserting [10,10,10] into a multi-value tree, equal_range(10) is the pair
(end(), end()), so stepping from its first to its second component visits no node; in
the tree built from [1,3,5], equal_range(3) starts at the node holding 1, and stepping
to its second component visits the nodes holding 1 and 3. -/
theorem equal_range_not_the_run :
    (RBTree.ofList natMulti 0 [10, 10, 10] >>= fun t => do
        let r ← t.equal_range natMulti 10
        let vs ← visit t r.2 (t.brk + 1) r.1
        pure (r.1 == t.end, r.2 == t.end, vs)) = Except.ok (true, true, []) ∧
    (treeOf [1, 3, 5]).items = [some (1, 1), some (2, 3), some (3, 5), none] ∧
    (treeOf [1, 3, 5]).equal_range natSet 3 = Except.ok (1, 3) ∧
    visit (treeOf [1, 3, 5]) 3 ((treeOf [1, 3, 5]).brk + 1) 1 = Except.ok [1, 2] :=
  ⟨rfl, by decide, rfl, rfl⟩

/-- C13: size() is not always the number of operator++ steps from begin() to end().
After insert(2), insert(1), insert(3), insert(0) the tree holds 0, 1, 2, 3 and size() is
4, but the traversal from begin() reaches end() after 3 steps, having met 0, 2 and 3. -/
theorem size_exceeds_traversal_steps :
    runOps natSet (RBTree.new 0) [.insert 2, .insert 1, .insert 3, .insert 0] =
      Except.ok (treeOf [2, 1, 3, 0]) ∧
    (treeOf [2, 1, 3, 0]).inorder = [0, 1, 2, 3] ∧
    (treeOf [2, 1, 3, 0]).size = 4 ∧
    (treeOf [2, 1, 3, 0]).steps = Except.ok 3 ∧
    (treeOf [2, 1, 3, 0]).traverseVals = Except.ok [0, 2, 3] :=
  ⟨rfl, by decide, by decide, rfl, rfl⟩

/-- C14: operator++ does not always move to the in-order successor.  In the tree built
from [40,20,60,10] the node holding 10 is followed in-order by the node holding 20, but
operator++ at the node holding 10 moves to the node holding 40, and the traversal from
begin() to end() meets 10, 40, 60 only. -/
theorem increment_skips_successor :
    (treeOf [40, 20, 60, 10]).items =
      [some (4, 10), some (2, 20), some (1, 40), some (3, 60), none] ∧
    increment (treeOf [40, 20, 60, 10]) 4 = Except.ok 1 ∧
    (treeOf [40, 20, 60, 10]).begin = Except.ok 4 ∧
    (treeOf [40, 20, 60, 10]).traverse = Except.ok [4, 1, 3] :=
  ⟨by decide, rfl, rfl, rfl⟩

/-- C15: operator-- does not always move to the in-order predecessor.  In the tree built
from [20,30] the node holding 30 is not begin(), yet operator-- at it throws
IteratorOutOfBounds, and so does operator-- at end(); in the tree built from [1],
operator-- at end() throws IteratorOutOfBounds instead of moving to the node holding 1. -/
theorem decrement_throws_after_begin :
    (treeOf [20, 30]).items = [some (1, 20), some (2, 30), none] ∧
    (treeOf [20, 30]).begin = Except.ok 1 ∧
    decrement (treeOf [20, 30]) 2 = Except.error Fault.IteratorOutOfBounds ∧
    decrement (treeOf [20, 30]) (treeOf [20, 30]).end =
      Except.error Fault.IteratorOutOfBounds ∧
    (treeOf [1]).items = [some (1, 1), none] ∧
    decrement (treeOf [1]) (treeOf [1]).end = Except.error Fault.IteratorOutOfBounds :=
  ⟨by decide, rfl, rfl, rfl, by decide, rfl⟩

/-- C16: every finite sequence of insertions (by copy, by move or by emplace, into a
single-value or a multi-value tree, whatever the comparator) applied to the empty tree
returns a tree on which begin() returns, operator++ at end() throws IteratorOutOfBounds
and operator-- at begin() throws IteratorOutOfBounds; the empty sequence gives the empty
tree. -/
theorem increment_end_decrement_begin_throw (P : Params K V) (g : V) (ops : List (Op K V))
    (hops : ∀ o ∈ ops, o.isInsert = true) :
    ∃ t b, runOps P (RBTree.new g) ops = Except.ok t ∧
      increment t t.end = Except.error Fault.IteratorOutOfBounds ∧
      t.begin = Except.ok b ∧ decrement t b = Except.error Fault.IteratorOutOfBounds := by
  obtain ⟨t, T, e, hM, hE, _⟩ :=
    runOps_inserts_linked P ops (RBTree.new g) Tree.fict hops (Models.new g) rfl rfl
  obtain ⟨b, hb, hd⟩ := decrement_begin_throws hM
  exact ⟨t, b, e, increment_end_throws hM hE, hb, hd⟩

theorem increment_end_decrement_begin_throw_witness :
    (∀ o ∈ ([.insert 2, .insertMove 1, .emplace 3, .insert 2] : List (Op Nat Nat)),
      o.isInsert = true) ∧
    ∃ t b, runOps natMulti (RBTree.new 0)
        [.insert 2, .insertMove 1, .emplace 3, .insert 2] = Except.ok t ∧
      increment t t.end = Except.error Fault.IteratorOutOfBounds ∧
      t.begin = Except.ok b ∧ decrement t b = Except.error Fault.IteratorOutOfBounds :=
  ⟨by decide, increment_end_decrement_begin_throw natMulti 0
    [.insert 2, .insertMove 1, .emplace 3, .insert 2] (by decide)⟩

/-- C17: dereferencing an iterator at the end marker raises nothing.  On the empty tree
made with the end marker holding g, begin() is end() and operator* there returns g; on
the tree built from [1,3,5], operator* at end() returns the 0 held by the end marker. -/
theorem deref_end_returns_value (g : V) :
    (RBTree.new g).begin = Except.ok (RBTree.new g).end ∧
    deref (RBTree.new g) (RBTree.new g).end = Except.ok g ∧
    deref (treeOf [1, 3, 5]) (treeOf [1, 3, 5]).end = Except.ok 0 :=
  ⟨rfl, rfl, rfl⟩

/-- C18: the link between the end marker and the last node does not survive every
mutation.  After insert(1), insert(2), insert(3), erase(3) the end marker is the right
child of the node holding 2, but its parent link still holds the address of the freed
node; the following emplace(4) writes through that address, so the run has no defined
result. -/
theorem end_marker_link_lost_after_erase :
    (runOps natSet (RBTree.new 0) [.insert 1, .insert 2, .insert 3, .erase 3]).toOption.map
      (fun t => (t.items, (t.mem t.fictional).map RBNode.parent, (t.mem 3).isSome)) =
      some ([some (1, 1), some (2, 2), none], some (some 3), false) ∧
    runOps natSet (RBTree.new 0) [.insert 1, .insert 2, .insert 3, .erase 3, .emplace 4] =
      Except.error Fault.invalidAccess :=
  ⟨by decide, rfl⟩

/-- C19: in a well formed tree, erase(k) for a key k that is equivalent to no stored key
returns and leaves the tree object as it was: the same store (nodes, links, colors,
values), root, end marker and size(); the same holds on the empty tree for every k. -/
theorem erase_absent_key_noop (P : Params K V) (t : RBTree V) (hV : t.Valid P) (k : K)
    (hk : ∀ v ∈ t.inorder, P.equiv (P.conv v) k = false) :
    t.erase P k = Except.ok t ∧
    ∀ g : V, (RBTree.new g).erase P k = Except.ok (RBTree.new g) := by
  obtain ⟨chk, T, hM, hE, hO⟩ := hV
  have hv : t.inorder = T.inorder := by rw [RBTree.inorder, hM.toTree hE]
  rw [hv] at hk
  refine ⟨erase_absent P t chk T hM hE k hk, fun g => ?_⟩
  exact erase_absent P (RBTree.new g) true Tree.fict (Models.new g) rfl k
    (by simp [Tree.inorder])

theorem erase_absent_key_noop_witness :
    (treeOf [1, 3, 5]).Valid natSet ∧
    (∀ v ∈ (treeOf [1, 3, 5]).inorder, natSet.equiv (natSet.conv v) 2 = false) ∧
    (treeOf [1, 3, 5]).erase natSet 2 = Except.ok (treeOf [1, 3, 5]) ∧
    ∀ g : Nat, (RBTree.new g).erase natSet 2 = Except.ok (RBTree.new g) :=
  ⟨treeOf_valid [1, 3, 5], by decide,
    erase_absent_key_noop natSet (treeOf [1, 3, 5]) (treeOf_valid [1, 3, 5]) 2 (by decide)⟩

/-- C20, as stated: the node freed by erasing a node with two children is not always the
node of its in-order predecessor.  In the tree built from [5,3,7,2] the node at address
1 holds 5 and has the children at 2 and 3; its in-order predecessor is the node at 2,
holding 3, whose left child at 4 holds 2.  After erase at the node at 1, the node at 1
holds 3, the node at 2 is still in the tree and holds 2, and the node at 4 is freed. -/
theorem erase_frees_child_of_predecessor :
    (treeOf [5, 3, 7, 2]).items =
      [some (4, 2), some (2, 3), some (1, 5), some (3, 7), none] ∧
    ((treeOf [5, 3, 7, 2]).mem 1).map (fun c => (c.left, c.right)) =
      some (some 2, some 3) ∧
    ((treeOf [5, 3, 7, 2]).mem 2).map (fun c => (c.left, c.right)) = some (some 4, none) ∧
    ((treeOf [5, 3, 7, 2]).eraseAt 1).toOption.map
      (fun t => (t.items, (t.mem 2).isSome, (t.mem 4).isSome)) =
      some ([some (2, 2), some (1, 3), some (3, 7), none], true, false) := by
  decide

/-- C20, amended: in a tree that satisfies the invariants, erase at a node n that has a
left child and a right child other than the end marker returns; n stays in the tree, at
the place in the in-order walk that n and its predecessor p had, and holds the former
value of p.  When p has no left child, the node of p is the one freed; when p has a left
child q, the node of q is the one freed and p stays in the tree, in front of n, holding
the former value of q.  The rest of the in-order walk is unchanged. -/
theorem erase_two_children_keeps_node (P : Params K V) (t : RBTree V) (hI : t.Invariants P)
    (n : Nat) (cell : RBNode V) (hn : n ∈ t.toTree.nodes) (hc : t.mem n = some cell)
    (hl : cell.left ≠ none) (hr : cell.right ≠ none) (hrF : cell.right ≠ some t.fictional) :
    ∃ (X Y : List (Option (Nat × V))) (p : Nat) (pcell : RBNode V) (t' : RBTree V),
      t.items = X ++ some (p, pcell.val) :: some (n, cell.val) :: Y ∧
      t.mem p = some pcell ∧
      t.eraseAt n = Except.ok t' ∧
      t'.valAt n = some pcell.val ∧
      ((pcell.left = none ∧ t'.items = X ++ some (n, pcell.val) :: Y ∧ t'.mem p = none) ∨
       (∃ (X' : List (Option (Nat × V))) (q : Nat) (qv : V), pcell.left = some q ∧
          X = X' ++ [some (q, qv)] ∧
          t'.items = X' ++ some (p, qv) :: some (n, pcell.val) :: Y ∧
          t'.mem q = none ∧ t'.valAt p = some qv)) :=
  erase_two_children_obs P t hI n cell hn hc hl hr hrF

theorem erase_two_children_keeps_node_witness :
    (treeOf [5, 3, 7]).Invariants natSet ∧
    1 ∈ (treeOf [5, 3, 7]).toTree.nodes ∧
    (treeOf [5, 3, 7]).mem 1 = some ⟨none, some 2, some 3, 5, Color.Black⟩ ∧
    ∃ (X Y : List (Option (Nat × Nat))) (p : Nat) (pcell : RBNode Nat) (t' : RBTree Nat),
      (treeOf [5, 3, 7]).items = X ++ some (p, pcell.val) :: some (1, 5) :: Y ∧
      (treeOf [5, 3, 7]).mem p = some pcell ∧
      (treeOf [5, 3, 7]).eraseAt 1 = Except.ok t' ∧
      t'.valAt 1 = some pcell.val ∧
      ((pcell.left = none ∧ t'.items = X ++ some (1, pcell.val) :: Y ∧ t'.mem p = none) ∨
       (∃ (X' : List (Option (Nat × Nat))) (q : Nat) (qv : Nat), pcell.left = some q ∧
          X = X' ++ [some (q, qv)] ∧
          t'.items = X' ++ some (p, qv) :: some (1, pcell.val) :: Y ∧
          t'.mem q = none ∧ t'.valAt p = some qv)) :=
  ⟨treeOf_invariants [5, 3, 7] (by decide) (by decide), by decide, rfl,
    erase_two_children_keeps_node natSet (treeOf [5, 3, 7])
      (treeOf_invariants [5, 3, 7] (by decide) (by decide)) 1
      ⟨none, some 2, some 3, 5, Color.Black⟩ (by decide) rfl (by decide) (by decide)
      (by decide)⟩

variable {α : Type}

/-- C21: the copy constructor clones the tree.  For every tree object whose store lays
out a tree T that ends in the end marker (the end marker is the right child of the last
node, or the root of the empty tree), with fewer than 2^64 - 3 nodes, and whatever the
content of freshly allocated memory, the constructor returns; the store of the new object
lays out a tree of the same shape as T, with the color and value of T at every position
and its own end marker at the position of the end marker of T; every parent link, that of
the end marker included, is the inverse of a child link; size() is the number of
value-holding nodes of T; and the in-order sequence of values is that of the source. -/
theorem copy_constructor_clones (junk : RBNode V) (f0 : Nat) (pj : Nat × Nat)
    (src : RBTree V) (chk : Bool) (T : Tree V) (hM : Models src chk T)
    (hE : T.endsFict = true) (hN : T.count + 3 < 2 ^ 64) :
    ∃ d T', src.copy junk f0 pj = Except.ok d ∧ Models d true T' ∧ d.toTree = T' ∧
      Tree.SameShape T T' ∧ T'.endsFict = true ∧ d.size = T.nodes.length ∧
      d.inorder = src.inorder := by
  obtain ⟨d, T', e, hM', hsh, hsz, hin⟩ := copy_spec junk f0 pj hM hE hN
  have hE' : T'.endsFict = true := by
    rw [← (SameShape.props T T' hsh).2.1]; exact hE
  exact ⟨d, T', e, hM', hM'.toTree hE', hsh, hE', hsz, hin⟩

theorem copy_constructor_clones_witness :
    Models (treeOf [5, 3, 7, 2]) true (treeOf [5, 3, 7, 2]).toTree ∧
    (treeOf [5, 3, 7, 2]).toTree.endsFict = true ∧
    (treeOf [5, 3, 7, 2]).toTree.count + 3 < 2 ^ 64 ∧
    ∃ d T', (treeOf [5, 3, 7, 2]).copy ⟨some 9, some 9, some 9, 0, Color.Red⟩ 8 (0, 0) =
        Except.ok d ∧
      Models d true T' ∧ d.toTree = T' ∧
      Tree.SameShape (treeOf [5, 3, 7, 2]).toTree T' ∧ T'.endsFict = true ∧
      d.size = (treeOf [5, 3, 7, 2]).toTree.nodes.length ∧
      d.inorder = (treeOf [5, 3, 7, 2]).inorder :=
  ⟨treeOf_models [5, 3, 7, 2], by decide, by decide,
    copy_constructor_clones ⟨some 9, some 9, some 9, 0, Color.Red⟩ 8 (0, 0)
      (treeOf [5, 3, 7, 2]) true (treeOf [5, 3, 7, 2]).toTree (treeOf_models [5, 3, 7, 2])
      (by decide) (by decide)⟩

/-- C22: after clear() the root is the end marker and begin() == end(), but size() is
not 0.  Clear runs --_size once for every node it frees, the end marker included, so
from the tree built by insert(1), insert(2), insert(3), whose size() is 3, clear()
leaves size() at 2^64 - 1, and so it does from the empty tree. -/
theorem clear_leaves_size_nonzero :
    (treeOf [1, 2, 3]).size = 3 ∧
    ((treeOf [1, 2, 3]).clear 0).toOption.map
        (fun t => (t.root == t.fictional, t.begin.toOption == some t.end, t.inorder, t.size))
      = some (true, true, [], 18446744073709551615) ∧
    ((RBTree.new 0).clear 0).toOption.map
        (fun t => (t.root == t.fictional, t.begin.toOption == some t.end, t.inorder, t.size))
      = some (true, true, [], 18446744073709551615) :=
  ⟨by decide, by decide, by decide⟩

/-- C23: the range constructor does not return for any non-empty range.  Its loop
while (first != last) Insert(*first) never advances first, so for every instantiation,
every sequence with at least one element and every bound on the number of passes, the
bound is exhausted with the loop still running; only the empty range yields a tree,
the empty one. -/
theorem range_constructor_never_advances (P : Params K V) (g x : V) (xs : List V)
    (fuel : Nat) :
    RBTree.ofRange P g (x :: xs) fuel = Except.error Fault.fuel ∧
    RBTree.ofRange P g [] (fuel + 1) = Except.ok (RBTree.new g) ∧
    ∃ t, insertAll P (RBTree.new g) (x :: xs) = Except.ok t :=
  ⟨rangeCtorLoop_stuck P (x :: xs) (x :: xs).length 0 x (by simp) rfl fuel (RBTree.new g)
      Tree.fict (Models.new g) rfl rfl,
    rfl,
    (insertAll_linked P (x :: xs) (RBTree.new g) Tree.fict (Models.new g) rfl rfl).imp
      fun t h => h.elim fun T h1 => h1.1⟩

/-- C24: a += b does not insert every key of b into a.  The loop of insert(first, last)
steps through b with operator++, which skips nodes (the defect shown for C13 and C14):
for b built from [40,20,60,10] and a empty, a += b leaves a holding 10, 40, 60, so 20 is
contained in b and not in a; a + b, for a holding 1, returns a set holding 1, 10, 40, 60
that does not contain 20 either. -/
theorem set_union_misses_keys :
    (treeOf [40, 20, 60, 10]).inorder = [10, 20, 40, 60] ∧
    (treeOf [40, 20, 60, 10]).contains natSet 20 = Except.ok true ∧
    (setAddAssign natSet (RBTree.new 0) (treeOf [40, 20, 60, 10])).toOption.map
      RBTree.inorder = some [10, 40, 60] ∧
    (setAddAssign natSet (RBTree.new 0) (treeOf [40, 20, 60, 10]) >>=
      fun a => a.contains natSet 20) = Except.ok false ∧
    (setAdd natSet ⟨none, none, none, 0, Color.Red⟩ 0 (0, 0) (treeOf [1])
      (treeOf [40, 20, 60, 10])).toOption.map RBTree.inorder = some [1, 10, 40, 60] ∧
    (setAdd natSet ⟨none, none, none, 0, Color.Red⟩ 0 (0, 0) (treeOf [1])
      (treeOf [40, 20, 60, 10]) >>= fun a => a.contains natSet 20) = Except.ok false :=
  ⟨by decide, rfl, by decide, rfl, by decide, rfl⟩

/-- C27: for every instantiation whose comparator is a strict weak ordering, single-value
or multi-value, and every finite sequence of values, inserting the values one after
another by copy into the empty tree returns, and in the tree reached the root is Black,
no Red node has a Red child, and all paths from the root to an absent child (the end
marker counting as absent) hold the same number of Black nodes.  The sequence is
arbitrary, so this holds after each call. -/
theorem insert_by_copy_keeps_red_black (P : Params K V) (sw : StrictWeakOrder P.comp) (g : V)
    (L : List V) :
    ∃ t, insertAll P (RBTree.new g) L = Except.ok t ∧ t.rootColor = some Color.Black ∧
      t.toTree.noRedRed = true ∧ t.toTree.blackHeight.isSome = true := by
  obtain ⟨t, T, H, e, hM, hE, hRB, hbh, hn⟩ :=
    insertAll_rb P (fun a b h => sw.asymm h) L (RBTree.new g) Tree.fict 0 (Models.new g)
      rfl rfl rfl rfl
  refine ⟨t, e, hM.rootColor_black hE hRB, ?_, ?_⟩
  · rw [hM.toTree hE]; exact hn
  · rw [hM.toTree hE, hbh]; rfl

theorem insert_by_copy_keeps_red_black_witness :
    StrictWeakOrder natMulti.comp ∧
    ∃ t, insertAll natMulti (RBTree.new 0) [2, 1, 2, 3, 2, 2, 0] = Except.ok t ∧
      t.rootColor = some Color.Black ∧ t.toTree.noRedRed = true ∧
      t.toTree.blackHeight.isSome = true :=
  ⟨natLess_swo, insert_by_copy_keeps_red_black natMulti natLess_swo 0 [2, 1, 2, 3, 2, 2, 0]⟩

/-- C28: in a tree that satisfies the invariants (the store lays out the tree, the end
marker is the right child of the last node, the in-order keys are non-decreasing, all
paths hold the same number of Black nodes, no Red node has a Red child) and whose root is
Black, Erase at any value-holding node n returns, and the tree reached satisfies the
same invariants, the end marker again being the right child of the last node or the root
of the emptied tree, and its root is Black. -/
theorem erase_node_keeps_invariants (P : Params K V) (t : RBTree V) (hI : t.Invariants P)
    (hB : t.rootColor = some Color.Black) (n : Nat) (hn : n ∈ t.toTree.nodes) :
    ∃ t', t.eraseAt n = Except.ok t' ∧ t'.Invariants P ∧ t'.rootColor = some Color.Black := by
  obtain ⟨t', X, v, Y, e, hI', hB', _⟩ := eraseAt_invariants P t hI hB n hn
  exact ⟨t', e, hI', hB'⟩

theorem erase_node_keeps_invariants_witness :
    (treeOf [6, 2, 7, 1, 4, 3, 5]).Invariants natSet ∧
    (treeOf [6, 2, 7, 1, 4, 3, 5]).rootColor = some Color.Black ∧
    4 ∈ (treeOf [6, 2, 7, 1, 4, 3, 5]).toTree.nodes ∧
    ∃ t', (treeOf [6, 2, 7, 1, 4, 3, 5]).eraseAt 4 = Except.ok t' ∧ t'.Invariants natSet ∧
      t'.rootColor = some Color.Black :=
  ⟨treeOf_invariants [6, 2, 7, 1, 4, 3, 5] (by decide) (by decide), by decide, by decide,
    erase_node_keeps_invariants natSet (treeOf [6, 2, 7, 1, 4, 3, 5])
      (treeOf_invariants [6, 2, 7, 1, 4, 3, 5] (by decide) (by decide)) (by decide) 4
      (by decide)⟩

/-- C29: in a store that lays out a tree with parent links inverse to the child links,
for a node x whose right child y is a value-holding node, LeftRotate(x) returns; in the
store reached y stands where x stood (same surrounding tree, so the same child slot of
the former parent of x, or the root), x is the left child of y, the former left subtree
of y is the right subtree of x, the parent links are again inverse to the child links,
and the in-order walk of the whole tree is the same.  RightRotate(x), for a node x whose
left child y is a value-holding node, is the mirror image. -/
theorem rotations_relink (t u : RBTree V) (chk chk2 : Bool) (C C2 : Ctx V)
    (A B D A2 B2 D2 : Tree V) (x y x2 y2 : Nat) (cx cy cx2 cy2 : Color) (vx vy vx2 vy2 : V)
    (hL : Models t chk (C.plug (.node A x cx vx (.node B y cy vy D))))
    (hR : Models u chk2 (C2.plug (.node (.node A2 y2 cy2 vy2 B2) x2 cx2 vx2 D2))) :
    (∃ t', LeftRotate t x = Except.ok t' ∧
      Models t' chk (C.plug (.node (.node A x cx vx B) y cy vy D)) ∧ Same t t' ∧
      (C.plug (.node (.node A x cx vx B) y cy vy D)).items =
        (C.plug (.node A x cx vx (.node B y cy vy D))).items) ∧
    (∃ u', RightRotate u x2 = Except.ok u' ∧
      Models u' chk2 (C2.plug (.node A2 y2 cy2 vy2 (.node B2 x2 cx2 vx2 D2))) ∧ Same u u' ∧
      (C2.plug (.node A2 y2 cy2 vy2 (.node B2 x2 cx2 vx2 D2))).items =
        (C2.plug (.node (.node A2 y2 cy2 vy2 B2) x2 cx2 vx2 D2)).items) := by
  obtain ⟨t', e1, hM1, hs1⟩ := LeftRotate_spec hL
  obtain ⟨u', e2, hM2, hs2⟩ := RightRotate_spec hR
  exact ⟨⟨t', e1, hM1, hs1, by simp [plug_items, Tree.items]⟩,
    ⟨u', e2, hM2, hs2, by simp [plug_items, Tree.items]⟩⟩

theorem rotations_relink_witness :
    Models (treeOf [1, 2, 3, 4]) true
      ((Ctx.right (.node .nil 1 Color.Black 1 .nil) 2 Color.Black 2 .top).plug
        (.node .nil 3 Color.Black 3 (.node .nil 4 Color.Red 4 .fict))) ∧
    Models (treeOf [3, 2, 1, 0]) true
      ((Ctx.left .top 2 Color.Black 2 (.node .nil 1 Color.Black 3 .fict)).plug
        (.node (.node .nil 4 Color.Red 0 .nil) 3 Color.Black 1 .nil)) ∧
    (∃ t', LeftRotate (treeOf [1, 2, 3, 4]) 3 = Except.ok t' ∧
      Models t' true ((Ctx.right (.node .nil 1 Color.Black 1 .nil) 2 Color.Black 2 .top).plug
        (.node (.node .nil 3 Color.Black 3 .nil) 4 Color.Red 4 .fict)) ∧
      Same (treeOf [1, 2, 3, 4]) t' ∧
      ((Ctx.right (.node .nil 1 Color.Black 1 .nil) 2 Color.Black 2 .top).plug
        (.node (.node .nil 3 Color.Black 3 .nil) 4 Color.Red 4 .fict)).items =
      ((Ctx.right (.node .nil 1 Color.Black 1 .nil) 2 Color.Black 2 .top).plug
        (.node .nil 3 Color.Black 3 (.node .nil 4 Color.Red 4 .fict))).items) ∧
    (∃ u', RightRotate (treeOf [3, 2, 1, 0]) 3 = Except.ok u' ∧
      Models u' true ((Ctx.left .top 2 Color.Black 2 (.node .nil 1 Color.Black 3 .fict)).plug
        (.node .nil 4 Color.Red 0 (.node .nil 3 Color.Black 1 .nil))) ∧
      Same (treeOf [3, 2, 1, 0]) u' ∧
      ((Ctx.left .top 2 Color.Black 2 (.node .nil 1 Color.Black 3 .fict)).plug
        (.node .nil 4 Color.Red 0 (.node .nil 3 Color.Black 1 .nil))).items =
      ((Ctx.left .top 2 Color.Black 2 (.node .nil 1 Color.Black 3 .fict)).plug
        (.node (.node .nil 4 Color.Red 0 .nil) 3 Color.Black 1 .nil)).items) := by
  have h1 : Models (treeOf [1, 2, 3, 4]) true
      ((Ctx.right (.node .nil 1 Color.Black 1 .nil) 2 Color.Black 2 .top).plug
        (.node .nil 3 Color.Black 3 (.node .nil 4 Color.Red 4 .fict))) :=
    (by decide : (treeOf [1, 2, 3, 4]).toTree =
      (Ctx.right (.node .nil 1 Color.Black 1 .nil) 2 Color.Black 2 .top).plug
        (.node .nil 3 Color.Black 3 (.node .nil 4 Color.Red 4 .fict))) ▸
      treeOf_models [1, 2, 3, 4]
  have h2 : Models (treeOf [3, 2, 1, 0]) true
      ((Ctx.left .top 2 Color.Black 2 (.node .nil 1 Color.Black 3 .fict)).plug
        (.node (.node .nil 4 Color.Red 0 .nil) 3 Color.Black 1 .nil)) :=
    (by decide : (treeOf [3, 2, 1, 0]).toTree =
      (Ctx.left .top 2 Color.Black 2 (.node .nil 1 Color.Black 3 .fict)).plug
        (.node (.node .nil 4 Color.Red 0 .nil) 3 Color.Black 1 .nil)) ▸
      treeOf_models [3, 2, 1, 0]
  exact ⟨h1, h2, rotations_relink _ _ _ _ _ _ _ _ _ _ _ _ _ _ _ _ _ _ _ _ _ _ _ _ h1 h2⟩

/-- C30, as stated: with a Black sibling and a Red near nephew the fix-up does not always
apply a double rotation, and with a Black parent it does not recolor the far nephew and
the sibling.  In the tree built from [6,2,7,1,4,3,5] the node at 4 (holding 1) is a
Black leaf, the left child of the Red node at 2; its sibling at 5 is Black with the Red
children at 6 (near) and 7 (far).  Erase at 4 runs the fix-up at the parent 2 and ends
with the sibling at 5 in the place of the parent and the near nephew at 6 still below
the parent: one rotation of the parent, the near nephew not rotated.  In the tree built
from [2,1,4,3,5] the Black leaf at 2 (holding 1) is the left child of the Black root at
1, its sibling at 3 is Black with the Red children at 4 (near) and 5 (far).  Erase at 2
applies the double rotation, after which the sibling at 3 is still Black and the far
nephew at 5 still Red: only the near nephew was recolored. -/
theorem erase_fixup_near_red_not_as_described :
    (treeOf [6, 2, 7, 1, 4, 3, 5]).toTree =
      .node (.node (.node .nil 4 Color.Black 1 .nil) 2 Color.Red 2
          (.node (.node .nil 6 Color.Red 3 .nil) 5 Color.Black 4
            (.node .nil 7 Color.Red 5 .nil)))
        1 Color.Black 6 (.node .nil 3 Color.Black 7 .fict) ∧
    ((treeOf [6, 2, 7, 1, 4, 3, 5]).eraseAt 4).toOption.map RBTree.toTree =
      some (.node (.node (.node .nil 2 Color.Black 2 (.node .nil 6 Color.Red 3 .nil))
            5 Color.Red 4 (.node .nil 7 Color.Black 5 .nil))
        1 Color.Black 6 (.node .nil 3 Color.Black 7 .fict)) ∧
    (treeOf [2, 1, 4, 3, 5]).toTree =
      .node (.node .nil 2 Color.Black 1 .nil) 1 Color.Black 2
        (.node (.node .nil 4 Color.Red 3 .nil) 3 Color.Black 4
          (.node .nil 5 Color.Red 5 .fict)) ∧
    ((treeOf [2, 1, 4, 3, 5]).eraseAt 2).toOption.map RBTree.toTree =
      some (.node (.node .nil 1 Color.Black 2 .nil) 4 Color.Black 3
        (.node .nil 3 Color.Black 4 (.node .nil 5 Color.Red 5 .fict))) := by
  decide

/-- C30, amended: what FixAfterErase(parent, isleft) does when the sibling is Black and
the near nephew is Red.  With p the parent, b the sibling, g the near nephew and the
removed side on the left: if p is Black, g is painted Black, b is rotated to the right
and p to the left (the far nephew, b and p keep their colors); if p is Red and the far
nephew is not Red, g is painted Black and b Red before the same double rotation; if p is
Red and the far nephew is Red, b is painted Red, the far nephew and p Black, and p alone
is rotated to the left, g staying a child of p.  In each case the call returns and the
parent links stay inverse to the child links.  The removed side on the right is the
mirror image. -/
theorem erase_fixup_near_red_cases (t u : RBTree V) (chk chk2 : Bool) (C C2 : Ctx V)
    (fuel : Nat) (l gl gr br : Tree V) (p b g : Nat) (pc : Color) (pv bv gv : V)
    (r2 gl2 gr2 bl2 : Tree V) (p2 b2 g2 : Nat) (pc2 : Color) (pv2 bv2 gv2 : V)
    (hL : Models t chk (C.plug (.node l p pc pv
      (.node (.node gl g Color.Red gv gr) b Color.Black bv br))))
    (hR : Models u chk2 (C2.plug (.node
      (.node bl2 b2 Color.Black bv2 (.node gl2 g2 Color.Red gv2 gr2)) p2 pc2 pv2 r2))) :
    (∃ t', FixAfterErase t (fuel + 1) p true = Except.ok t' ∧ Same t t' ∧
      (pc = Color.Black → Models t' chk (C.plug
        (.node (.node l p Color.Black pv gl) g Color.Black gv
          (.node gr b Color.Black bv br)))) ∧
      (pc = Color.Red → br.isRed = false → Models t' chk (C.plug
        (.node (.node l p Color.Red pv gl) g Color.Black gv (.node gr b Color.Red bv br)))) ∧
      (∀ fl f fv fr, pc = Color.Red → br = .node fl f Color.Red fv fr → Models t' chk (C.plug
        (.node (.node l p Color.Black pv (.node gl g Color.Red gv gr)) b Color.Red bv
          (.node fl f Color.Black fv fr))))) ∧
    (∃ u', FixAfterErase u (fuel + 1) p2 false = Except.ok u' ∧ Same u u' ∧
      (pc2 = Color.Black → Models u' chk2 (C2.plug
        (.node (.node bl2 b2 Color.Black bv2 gl2) g2 Color.Black gv2
          (.node gr2 p2 Color.Black pv2 r2)))) ∧
      (pc2 = Color.Red → bl2.isRed = false → Models u' chk2 (C2.plug
        (.node (.node bl2 b2 Color.Red bv2 gl2) g2 Color.Black gv2
          (.node gr2 p2 Color.Red pv2 r2)))) ∧
      (∀ fl f fv fr, pc2 = Color.Red → bl2 = .node fl f Color.Red fv fr →
        Models u' chk2 (C2.plug
          (.node (.node fl f Color.Black fv fr) b2 Color.Red bv2
            (.node (.node gl2 g2 Color.Red gv2 gr2) p2 Color.Black pv2 r2))))) := by
  constructor
  · cases pc with
    | Black =>
      obtain ⟨t', hM, hs, e⟩ := FixAfterErase_left_near_red_pblack fuel hL
      refine ⟨t', e, hs, fun _ => hM, ?_, ?_⟩
      · intro h; cases h
      · intro _ _ _ _ h; cases h
    | Red =>
      by_cases hbr : br.isRed = true
      · obtain ⟨fl, f, fv, fr, rfl⟩ := Tree.isRed_iff hbr
        obtain ⟨t', hM, hs, e⟩ := FixAfterErase_left_far_red fuel hL
        refine ⟨t', e, hs, ?_, ?_, ?_⟩
        · intro h; cases h
        · intro _ h; simp [Tree.isRed] at h
        · intro fl2 f2 fv2 fr2 _ h
          cases h
          exact hM
      · have hbr : br.isRed = false := by simpa using hbr
        obtain ⟨t', hM, hs, e⟩ := FixAfterErase_left_far_black fuel hL hbr
        refine ⟨t', e, hs, ?_, fun _ _ => hM, ?_⟩
        · intro h; cases h
        · intro fl2 f2 fv2 fr2 _ h
          subst h
          simp [Tree.isRed] at hbr
  · cases pc2 with
    | Black =>
      obtain ⟨u', hM, hs, e⟩ := FixAfterErase_right_near_red_pblack fuel hR
      refine ⟨u', e, hs, fun _ => hM, ?_, ?_⟩
      · intro h; cases h
      · intro _ _ _ _ h; cases h
    | Red =>
      by_cases hbr : bl2.isRed = true
      · obtain ⟨fl, f, fv, fr, rfl⟩ := Tree.isRed_iff hbr
        obtain ⟨u', hM, hs, e⟩ := FixAfterErase_right_far_red fuel hR
        refine ⟨u', e, hs, ?_, ?_, ?_⟩
        · intro h; cases h
        · intro _ h; simp [Tree.isRed] at h
        · intro fl2 f2 fv2 fr2 _ h
          cases h
          exact hM
      · have hbr : bl2.isRed = false := by simpa using hbr
        obtain ⟨u', hM, hs, e⟩ := FixAfterErase_right_far_black fuel hR hbr
        refine ⟨u', e, hs, ?_, fun _ _ => hM, ?_⟩
        · intro h; cases h
        · intro fl2 f2 fv2 fr2 _ h
          subst h
          simp [Tree.isRed] at hbr

theorem erase_fixup_near_red_cases_witness :
    Models (treeOf [6, 2, 7, 1, 4, 3, 5]) true
      ((Ctx.left .top 1 Color.Black 6 (.node .nil 3 Color.Black 7 .fict)).plug
        (.node (.node .nil 4 Color.Black 1 .nil) 2 Color.Red 2
          (.node (.node .nil 6 Color.Red 3 .nil) 5 Color.Black 4
            (.node .nil 7 Color.Red 5 .nil)))) ∧
    Models (treeOf [4, 5, 2, 1, 3]) true
      ((Ctx.top : Ctx Nat).plug (.node
        (.node (.node .nil 4 Color.Red 1 .nil) 3 Color.Black 2
          (.node .nil 5 Color.Red 3 .nil)) 1 Color.Black 4
        (.node .nil 2 Color.Black 5 .fict))) ∧
    (∃ t', FixAfterErase (treeOf [6, 2, 7, 1, 4, 3, 5]) (0 + 1) 2 true = Except.ok t' ∧
      Models t' true ((Ctx.left .top 1 Color.Black 6 (.node .nil 3 Color.Black 7 .fict)).plug
        (.node (.node (.node .nil 4 Color.Black 1 .nil) 2 Color.Black 2
            (.node .nil 6 Color.Red 3 .nil)) 5 Color.Red 4
          (.node .nil 7 Color.Black 5 .nil)))) ∧
    (∃ u', FixAfterErase (treeOf [4, 5, 2, 1, 3]) (0 + 1) 1 false = Except.ok u' ∧
      Models u' true ((Ctx.top : Ctx Nat).plug
        (.node (.node (.node .nil 4 Color.Red 1 .nil) 3 Color.Black 2 .nil) 5 Color.Black 3
          (.node .nil 1 Color.Black 4 (.node .nil 2 Color.Black 5 .fict))))) := by
  have h1 : Models (treeOf [6, 2, 7, 1, 4, 3, 5]) true
      ((Ctx.left .top 1 Color.Black 6 (.node .nil 3 Color.Black 7 .fict)).plug
        (.node (.node .nil 4 Color.Black 1 .nil) 2 Color.Red 2
          (.node (.node .nil 6 Color.Red 3 .nil) 5 Color.Black 4
            (.node .nil 7 Color.Red 5 .nil)))) :=
    (by decide : (treeOf [6, 2, 7, 1, 4, 3, 5]).toTree =
      (Ctx.left .top 1 Color.Black 6 (.node .nil 3 Color.Black 7 .fict)).plug
        (.node (.node .nil 4 Color.Black 1 .nil) 2 Color.Red 2
          (.node (.node .nil 6 Color.Red 3 .nil) 5 Color.Black 4
            (.node .nil 7 Color.Red 5 .nil)))) ▸
      treeOf_models [6, 2, 7, 1, 4, 3, 5]
  have h2 : Models (treeOf [4, 5, 2, 1, 3]) true
      ((Ctx.top : Ctx Nat).plug (.node
        (.node (.node .nil 4 Color.Red 1 .nil) 3 Color.Black 2
          (.node .nil 5 Color.Red 3 .nil)) 1 Color.Black 4
        (.node .nil 2 Color.Black 5 .fict))) :=
    (by decide : (treeOf [4, 5, 2, 1, 3]).toTree =
      (Ctx.top : Ctx Nat).plug (.node
        (.node (.node .nil 4 Color.Red 1 .nil) 3 Color.Black 2
          (.node .nil 5 Color.Red 3 .nil)) 1 Color.Black 4
        (.node .nil 2 Color.Black 5 .fict))) ▸
      treeOf_models [4, 5, 2, 1, 3]
  obtain ⟨⟨t', e1, _, _, _, k3⟩, ⟨u', e2, _, k1, _, _⟩⟩ :=
    erase_fixup_near_red_cases (treeOf [6, 2, 7, 1, 4, 3, 5]) (treeOf [4, 5, 2, 1, 3]) true true
      _ _ 0 _ _ _ _ _ _ _ _ _ _ _ _ _ _ _ _ _ _ _ _ _ _ h1 h2
  exact ⟨h1, h2, ⟨t', e1, k3 _ _ _ _ rfl rfl⟩, ⟨u', e2, k1 rfl⟩⟩

/-- C25: the list is a first-in first-out queue.  For a well formed list holding the
values x, xs (first to last), with a size that fits size_t after one more append:
front() returns x; pop_front() returns and leaves a well formed list holding xs, of
size() one less; append(y) returns and leaves a well formed list holding x, xs, y, of
size() one more.  So for every sequence L, appending its values to an empty list and
then running front() and pop_front() until size() is 0 reads exactly L, in order. -/
theorem list_is_fifo_queue (q : LinkedList α) (x : α) (xs : List α) (y : α)
    (hV : q.Valid (x :: xs)) (hb : xs.length + 2 < 2 ^ 64) :
    q.toList = x :: xs ∧ q.size = xs.length + 1 ∧
    q.front = Except.ok x ∧
    (∃ q1, q.pop_front = Except.ok q1 ∧ q1.Valid xs ∧ q1.toList = xs ∧
      q1.size = xs.length) ∧
    (∃ q2, q.append y = Except.ok q2 ∧ q2.Valid (x :: xs ++ [y]) ∧
      q2.toList = x :: xs ++ [y] ∧ q2.size = xs.length + 2) ∧
    (∀ (g : α) (L : List α), L.length < 2 ^ 64 →
      ((LinkedList.new g).appendAll L >>= LinkedList.drain (L.length + 1)) =
        Except.ok L) := by
  refine ⟨hV.toList_eq.1, by simpa using hV.toList_eq.2, front_valid hV, ?_, ?_, ?_⟩
  · obtain ⟨q1, e, h1⟩ := pop_front_valid hV (by omega)
    exact ⟨q1, e, h1, h1.toList_eq.1, h1.toList_eq.2⟩
  · obtain ⟨q2, e, h2⟩ := append_valid hV y (by simp; omega)
    exact ⟨q2, e, h2, h2.toList_eq.1, by simpa using h2.toList_eq.2⟩
  · intro g L hL
    obtain ⟨q', e, h'⟩ := appendAll_valid L (LinkedList.new g) [] (new_list_valid g)
      (by simpa using hL)
    rw [e, ok_bind]
    exact drain_valid L q' _ (by simpa using h') hL (by omega)

theorem list_is_fifo_queue_witness :
    (listOf [7, 8, 9]).Valid (7 :: [8, 9]) ∧
    (listOf [7, 8, 9]).toList = 7 :: [8, 9] ∧ (listOf [7, 8, 9]).size = [8, 9].length + 1 ∧
    (listOf [7, 8, 9]).front = Except.ok 7 ∧
    (∃ q1, (listOf [7, 8, 9]).pop_front = Except.ok q1 ∧ q1.Valid [8, 9] ∧
      q1.toList = [8, 9] ∧ q1.size = [8, 9].length) ∧
    (∃ q2, (listOf [7, 8, 9]).append 5 = Except.ok q2 ∧ q2.Valid (7 :: [8, 9] ++ [5]) ∧
      q2.toList = 7 :: [8, 9] ++ [5] ∧ q2.size = [8, 9].length + 2) ∧
    (∀ (g : Nat) (L : List Nat), L.length < 2 ^ 64 →
      ((LinkedList.new g).appendAll L >>= LinkedList.drain (L.length + 1)) =
        Except.ok L) :=
  ⟨listOf_valid [7, 8, 9] (by norm_num),
    list_is_fifo_queue (listOf [7, 8, 9]) 7 [8, 9] 5 (listOf_valid [7, 8, 9] (by norm_num))
      (by norm_num)⟩

/-- C26: on a list whose size() is 0, pop_front() and pop_back() each raise
NothingToErase, before any member or node is written (the call yields no new state).
On a list whose size() is not 0 neither of them raises NothingToErase; and on a well
formed list holding at least one value both return, pop_front() leaving the values
without the first and pop_back() leaving the values without the last. -/
theorem pop_empty_raises_nothing_to_erase (q0 q1 : LinkedList α) (x : α) (xs : List α)
    (h0 : q0.size = 0) (hV : q1.Valid (x :: xs)) (hb : xs.length < 2 ^ 64) :
    q0.pop_front = Except.error Fault.NothingToErase ∧
    q0.pop_back = Except.error Fault.NothingToErase ∧
    q1.size ≠ 0 ∧
    (∃ q2, q1.pop_front = Except.ok q2 ∧ q2.Valid xs) ∧
    (∃ q3, q1.pop_back = Except.ok q3 ∧ q3.Valid (x :: xs).dropLast) ∧
    (∀ q : LinkedList α, q.size ≠ 0 →
      q.pop_front ≠ Except.error Fault.NothingToErase ∧
      q.pop_back ≠ Except.error Fault.NothingToErase) := by
  refine ⟨(pop_empty_throws q0 h0).1, (pop_empty_throws q0 h0).2,
    by rw [hV.toList_eq.2]; simp, pop_front_valid hV (by omega), ?_,
    fun q hq => pop_nonempty_not_nothing q hq⟩
  have hne : x :: xs ≠ [] := by simp
  have hsplit := List.dropLast_append_getLast hne
  rw [← hsplit] at hV
  exact pop_back_valid hV (by simp; omega)

theorem pop_empty_raises_nothing_to_erase_witness :
    (LinkedList.new 0).size = 0 ∧ (listOf [7, 8, 9]).Valid (7 :: [8, 9]) ∧
    (LinkedList.new 0).pop_front = Except.error Fault.NothingToErase ∧
    (LinkedList.new 0).pop_back = Except.error Fault.NothingToErase ∧
    (listOf [7, 8, 9]).size ≠ 0 ∧
    (∃ q2, (listOf [7, 8, 9]).pop_front = Except.ok q2 ∧ q2.Valid [8, 9]) ∧
    (∃ q3, (listOf [7, 8, 9]).pop_back = Except.ok q3 ∧ q3.Valid (7 :: [8, 9]).dropLast) ∧
    (∀ q : LinkedList Nat, q.size ≠ 0 →
      q.pop_front ≠ Except.error Fault.NothingToErase ∧
      q.pop_back ≠ Except.error Fault.NothingToErase) :=
  ⟨rfl, listOf_valid [7, 8, 9] (by norm_num),
    pop_empty_raises_nothing_to_erase (LinkedList.new 0) (listOf [7, 8, 9]) 7 [8, 9] rfl
      (listOf_valid [7, 8, 9] (by norm_num)) (by norm_num)⟩

variable {α : Type}

/-- C31: erase(first, last) does not remove exactly the values of [first, last).  In the
tree built from [1,2,3], erase(begin(), end()) erases the node holding 1, steps to the
node holding 3 and then erases the node holding 2, which has one child: Erase moves the
value 3 into that node and frees the node the iterator stands at, so the next pass reads
a freed node.  In the tree built from [40,20,60,10], erase(first, last) with first at
10 and last at 40 removes 10 only, because operator++ steps from 10 to 40 past 20: the
tree keeps 20, 40, 60 and size() is 3. -/
theorem erase_range_not_the_segment :
    (treeOf [1, 2, 3]).items = [some (1, 1), some (2, 2), some (3, 3), none] ∧
    (treeOf [1, 2, 3]).begin = Except.ok 1 ∧
    (treeOf [1, 2, 3]).eraseRange 1 (treeOf [1, 2, 3]).end =
      Except.error Fault.invalidAccess ∧
    (treeOf [40, 20, 60, 10]).items =
      [some (4, 10), some (2, 20), some (1, 40), some (3, 60), none] ∧
    ((treeOf [40, 20, 60, 10]).eraseRange 4 1).toOption.map
      (fun t => (t.inorder, t.size)) = some ([20, 40, 60], 3) :=
  ⟨by decide, rfl, rfl, by decide, by decide⟩

/-- C32: after an erase the parent link of the end marker does not always designate the
node whose right child is the end marker.  After insert(7), insert(9), erase(9) the end
marker is the right child of the node at 1, holding 7, but its parent link holds 2, the
address of the freed node, and operator-- at end() reads that freed node.  After
insert(5), erase(5) the tree is empty, the root is the end marker, and the parent link
of the end marker is not absent: it holds 1, the address of the freed node. -/
theorem end_marker_parent_stale_after_erase :
    (runOps natSet (RBTree.new 0) [.insert 7, .insert 9, .erase 9]).toOption.map
      (fun t => (t.items, (t.mem 1).map RBNode.right == some (some t.fictional),
        (t.mem t.fictional).map RBNode.parent, (t.mem 2).isSome)) =
      some ([some (1, 7), none], true, some (some 2), false) ∧
    (runOps natSet (RBTree.new 0) [.insert 7, .insert 9, .erase 9] >>=
      fun t => decrement t t.end) = Except.error Fault.invalidAccess ∧
    (runOps natSet (RBTree.new 0) [.insert 5, .erase 5]).toOption.map
      (fun t => (t.items, t.root == t.fictional,
        (t.mem t.fictional).map RBNode.parent, (t.mem 1).isSome)) =
      some ([none], true, some (some 1), false) :=
  ⟨by decide, rfl, by decide⟩

/-- C33: erasing the last remaining element does not return the tree to the state of a
freshly constructed one.  For all values x and y, in the set and in the multiset,
insert(x), erase(key(x)), insert(y) on an empty tree has no defined result: Erase leaves
the parent link of the end marker at the freed node, and the second insert writes the
right link of that node.  On a freshly constructed tree insert(y) returns with y in the
root node, whose right child is the end marker. -/
theorem reinsert_after_emptying_faults (g x y : Nat) :
    runOps natSet (RBTree.new g) [.insert x, .erase x, .insert y] =
      Except.error Fault.invalidAccess ∧
    runOps natMulti (RBTree.new g) [.insert x, .erase x, .insert y] =
      Except.error Fault.invalidAccess ∧
    ∃ t, runOps natSet (RBTree.new g) [.insert y] = Except.ok t ∧ t.root = 1 ∧
      t.mem 1 = some ⟨none, none, some t.fictional, y, Color.Black⟩ := by
  refine ⟨reinsert_general natSet (fun k => by simp [natSet]) g x y,
    reinsert_general natMulti (fun k => by simp [natMulti]) g x y, ?_⟩
  obtain ⟨t, e, a1, a2, a3, a4, a5⟩ := insert_first_state natSet g y
  exact ⟨t, by simp [runOps, RBTree.apply, e, ok_bind, pure_ok], a2, by rw [a5, a1]⟩

/-- C34: in a tree that satisfies the invariants, Erase at any value-holding node n
returns after at most three Erase calls, the first one included, and at most as many
FixAfterErase calls as the longest path from the root down to an absent child holds
value-holding nodes (the height counted in edges, plus one), and so within every larger
bound.  The tree reached satisfies the invariants; its nodes are those of the old tree
in the same order with one node m removed, and m is freed; _size is decremented once
(modulo 2^64), which is one less when size() was between 1 and 2^64 - 1. -/
theorem erase_call_counts (P : Params K V) (t : RBTree V) (hI : t.Invariants P) (n : Nat)
    (hn : n ∈ t.toTree.nodes) (fix : Nat) (hfix : t.toTree.vheight ≤ fix) :
    ∃ t' A m B, EraseWithin fix t 3 n = Except.ok t' ∧ t'.Invariants P ∧
      t.toTree.nodes = A ++ m :: B ∧ t'.toTree.nodes = A ++ B ∧ t'.mem m = none ∧
      t'.size = (t.size + (2 ^ 64 - 1)) % 2 ^ 64 ∧
      (0 < t.size → t.size < 2 ^ 64 → t'.size + 1 = t.size) ∧ t'.brk = t.brk := by
  obtain ⟨t', A, m, B, h1, h2, h3, h4, h5, h6, h7⟩ :=
    EraseWithin_invariants P t hI n hn fix hfix
  refine ⟨t', A, m, B, h1, h2, h3, h4, h5, h6, ?_, h7⟩
  intro hp hlt
  rw [h6]
  omega

theorem erase_call_counts_witness :
    (treeOf [6, 2, 7, 1, 4, 3, 5]).Invariants natSet ∧
    2 ∈ (treeOf [6, 2, 7, 1, 4, 3, 5]).toTree.nodes ∧
    (treeOf [6, 2, 7, 1, 4, 3, 5]).toTree.vheight ≤ 4 ∧
    ∃ t' A m B, EraseWithin 4 (treeOf [6, 2, 7, 1, 4, 3, 5]) 3 2 = Except.ok t' ∧
      t'.Invariants natSet ∧
      (treeOf [6, 2, 7, 1, 4, 3, 5]).toTree.nodes = A ++ m :: B ∧
      t'.toTree.nodes = A ++ B ∧ t'.mem m = none ∧
      t'.size = ((treeOf [6, 2, 7, 1, 4, 3, 5]).size + (2 ^ 64 - 1)) % 2 ^ 64 ∧
      (0 < (treeOf [6, 2, 7, 1, 4, 3, 5]).size → (treeOf [6, 2, 7, 1, 4, 3, 5]).size < 2 ^ 64 →
        t'.size + 1 = (treeOf [6, 2, 7, 1, 4, 3, 5]).size) ∧
      t'.brk = (treeOf [6, 2, 7, 1, 4, 3, 5]).brk :=
  ⟨treeOf_invariants [6, 2, 7, 1, 4, 3, 5] (by decide) (by decide), by decide, by decide,
    erase_call_counts natSet (treeOf [6, 2, 7, 1, 4, 3, 5])
      (treeOf_invariants [6, 2, 7, 1, 4, 3, 5] (by decide) (by decide)) 2 (by decide) 4
      (by decide)⟩

/-- C35: on the empty tree, which holds n = 0 values, the bound 2*log2(n+1) is 0, but
Find inspects one node: its loop reads the value member of the end marker.  With no pass
of the loop allowed Find does not return, with one pass it returns the end marker. -/
theorem find_on_empty_tree_inspects_marker :
    insertAll natSet (RBTree.new 0) [] = Except.ok (RBTree.new 0) ∧
    (RBTree.new 0).inorder.length = 0 ∧
    (RBTree.new 0).toTree.vheight = 0 ∧
    2 * Nat.log 2 ((RBTree.new 0).inorder.length + 1) = 0 ∧
    FindWithin natSet (RBTree.new 0) 5 0 = Except.error Fault.fuel ∧
    FindWithin natSet (RBTree.new 0) 5 1 = Except.ok (RBTree.new 0).fictional ∧
    Find natSet (RBTree.new 0) 5 = Except.ok (RBTree.new 0).fictional :=
  ⟨rfl, by decide, by decide, by simp [show (RBTree.new 0).inorder = [] by decide], rfl, rfl,
    rfl⟩

/-- C35: for a comparator that is a strict weak ordering, every sequence of insert-by-copy
calls on the empty tree returns, and in the tree reached, holding n values, every path
from the root down to an absent child passes through at most 2*floor(log2(n+1))
value-holding nodes.  When n >= 1, Find inspects at most as many nodes as the longest
such path holds: with the passes of its loop limited to that number it returns what Find
returns.  When n = 0, Find inspects exactly one node, the end marker. -/
theorem insert_paths_logarithmic (P : Params K V) (sw : StrictWeakOrder P.comp) (g : V)
    (L : List V) :
    ∃ t, insertAll P (RBTree.new g) L = Except.ok t ∧
      t.toTree.vheight ≤ 2 * Nat.log 2 (t.inorder.length + 1) ∧
      (t.inorder ≠ [] → ∀ k, ∃ a, FindWithin P t k t.toTree.vheight = Except.ok a ∧
        Find P t k = Except.ok a) ∧
      (t.inorder = [] → ∀ k, FindWithin P t k 1 = Except.ok t.fictional ∧
        Find P t k = Except.ok t.fictional) :=
  insertAll_paths P (fun a b h => sw.asymm h) g L

theorem insert_paths_logarithmic_witness :
    StrictWeakOrder natSet.comp ∧
    ∃ t, insertAll natSet (RBTree.new 0) [5, 3, 8, 1, 4, 7, 9, 2, 6] = Except.ok t ∧
      t.toTree.vheight ≤ 2 * Nat.log 2 (t.inorder.length + 1) ∧
      (t.inorder ≠ [] → ∀ k, ∃ a, FindWithin natSet t k t.toTree.vheight = Except.ok a ∧
        Find natSet t k = Except.ok a) ∧
      (t.inorder = [] → ∀ k, FindWithin natSet t k 1 = Except.ok t.fictional ∧
        Find natSet t k = Except.ok t.fictional) :=
  ⟨natLess_swo, insert_paths_logarithmic natSet natLess_swo 0 [5, 3, 8, 1, 4, 7, 9, 2, 6]⟩

/-- C36: pop() never removes an element; it raises IteratorOutOfBounds on every array.
On an empty array the iterator end() - 1 cannot be formed; on any other array
erase(end() - 1, end(), 1) is entered with end.pos equal to _size and its first test
end.pos >= _size throws.  The array built from [1,2,3] holds 1, 2, 3 with size() 3, and
pop() raises. -/
theorem pop_always_raises (a : DynArray α) :
    a.pop = Except.error Fault.IteratorOutOfBounds ∧
    (DynArray.ofList [1, 2, 3]).toOption.map (fun b => (b.toList, b.size)) =
      some ([1, 2, 3], 3) ∧
    (DynArray.ofList [1, 2, 3] >>= fun b => b.pop) =
      Except.error Fault.IteratorOutOfBounds := by
  refine ⟨?_, by decide, rfl⟩
  unfold DynArray.pop DynArray.iterSub
  simp only
  split
  · simp [pure_ok, ok_bind, DynArray.erase]
  · rfl

/-- C37: size() <= capacity() does not survive every call.  The array built from the
empty initializer list, and the array of size 0, have _size = 0, cap = 0 and a null
buffer; so has a default-constructed array after shrink_to_fit().  The next append finds
_size == cap, allocates cap * 2 = 0 elements, which again yields a null pointer, and
constructs the new value through it. -/
theorem append_at_zero_capacity_faults :
    (DynArray.ofList ([] : List Nat)).toOption.map
      (fun a => (a.size, a.cap, a.arr.isNone)) = some (0, 0, true) ∧
    (DynArray.ofList ([] : List Nat) >>= fun a => a.append 4) =
      Except.error Fault.invalidAccess ∧
    (DynArray.ofSize 0 (0 : Nat)).toOption.map
      (fun a => (a.size, a.cap, a.arr.isNone)) = some (0, 0, true) ∧
    (DynArray.ofSize 0 (0 : Nat) >>= fun a => a.append 4) =
      Except.error Fault.invalidAccess ∧
    ((DynArray.new : DynArray Nat).shrink_to_fit).toOption.map
      (fun a => (a.size, a.cap, a.arr.isNone)) = some (0, 0, true) ∧
    ((DynArray.new : DynArray Nat).shrink_to_fit >>= fun a => a.append 4) =
      Except.error Fault.invalidAccess :=
  ⟨by decide, rfl, by decide, rfl, by decide, rfl⟩

end Rbtree
